import Mathlib

/-!
# Wisper LuauObfuscator: lexer, parser, compiler, serializer and generated VM

A shallow embedding of the C sources under `src/api/src/utils/LuauObfuscator`
together with the Lua text that `VmGenerator.c` emits, followed by theorems
about them.

Conventions of the embedding.

* A C string is a `String` whose characters stand for its bytes (sources are
  ASCII); `strBytes` gives the bytes.
* C `int` values are `Int` or `Nat` without wrap-around; the casts to
  `unsigned char` and the `& 0xFF` masks of the serializer are written `% 256`.
* `rand()` is an explicit stream `Nat → Nat`: its k-th call returns `rs k`.
* Lua numbers are modelled by integers with exact arithmetic. This agrees with
  the doubles of the host runtime as long as every literal and every
  intermediate result is an integer of magnitude below 2^53.
* Heap blocks are lists. Where a function writes into a block of fixed size
  without a bound check, the write past the end is recorded (`none`, or a
  flag) instead of being given a meaning.
-/

namespace Wisper

/-! ## Utils.c: random numbers and the custom base-85 encoder -/

/-- `RandomInt(min, max)` of Utils.c, `min + rand() % (max - min + 1)`, as a
function of the value `r` returned by `rand()`. -/
def RandomInt (min max r : Nat) : Nat :=
  min + r % (max - min + 1)

/-- The 85 glyphs of `alphabet` in `EncodeBase85Custom`, as character codes:
the string literal runs from `!` (33) to `u` (117). -/
def alphabet : List Nat :=
  [33, 34, 35, 36, 37, 38, 39, 40, 41, 42, 43, 44, 45, 46, 47,
   48, 49, 50, 51, 52, 53, 54, 55, 56, 57, 58, 59, 60, 61, 62, 63, 64,
   65, 66, 67, 68, 69, 70, 71, 72, 73, 74, 75, 76, 77, 78, 79, 80,
   81, 82, 83, 84, 85, 86, 87, 88, 89, 90, 91, 92, 93, 94, 95, 96,
   97, 98, 99, 100, 101, 102, 103, 104, 105, 106, 107, 108, 109, 110, 111, 112,
   113, 114, 115, 116, 117]

/-- The prefix marker `LPH+m0<X;z` written once at the start of the output. -/
def prefixMarker : List Nat := [76, 80, 72, 43, 109, 48, 60, 88, 59, 122]

/-- The marker `z!!` written before a group whose byte offset is a positive
multiple of 60. -/
def periodicMarker : List Nat := [122, 33, 33]

/-- The inner packing loops of `EncodeBase85Custom`: up to four bytes are
shifted into `value`, and a short final group is shifted up with zeros. -/
def packGroup (bytes : List Nat) : Nat :=
  (bytes.foldl (fun value b => value * 256 + b) 0) * 256 ^ (4 - bytes.length)

/-- The five glyphs of one group: `encoded[j] = alphabet[value % 85]` for
`j = 4 .. 0`, dividing `value` by 85 each time. -/
def encodeValue (value : Nat) : List Nat :=
  [alphabet.getD (value / 52200625 % 85) 0,
   alphabet.getD (value / 614125 % 85) 0,
   alphabet.getD (value / 7225 % 85) 0,
   alphabet.getD (value / 85 % 85) 0,
   alphabet.getD (value % 85) 0]

/-- What one iteration of the outer loop appends for the group starting at
offset `i`: the periodic marker when `i > 0 && i % 60 == 0`, then the glyphs. -/
def encodeGroup (i : Nat) (bytes : List Nat) : List Nat :=
  (if 0 < i ∧ i % 60 = 0 then periodicMarker else []) ++ encodeValue (packGroup bytes)

/-- The outer loop `for (i = 0; i < len; i += 4)` of `EncodeBase85Custom`,
started at offset `i` on the bytes that remain from there. -/
def encodeGroups (i : Nat) : List Nat → List Nat
  | [] => []
  | [a] => encodeGroup i [a]
  | [a, b] => encodeGroup i [a, b]
  | [a, b, c] => encodeGroup i [a, b, c]
  | a :: b :: c :: d :: rest => encodeGroup i [a, b, c, d] ++ encodeGroups (i + 4) rest

/-- The characters `EncodeBase85Custom` writes before the final NUL. -/
def encodeText (data : List Nat) : List Nat :=
  prefixMarker ++ encodeGroups 0 data

/-- `EncodeBase85Custom(data, len)`. The output block has
`outLen = ((len + 3) / 4) * 5 + 100` bytes and is written without a bound
check; the result is `none` when the text and its NUL do not fit. -/
def EncodeBase85Custom (data : List Nat) : Option (List Nat) :=
  let outLen := ((data.length + 3) / 4) * 5 + 100
  let output := encodeText data
  if output.length + 1 ≤ outLen then some output else none

/-! ## BytecodeBuilder.h / BytecodeBuilder.c -/

/-- The enum `OpCode` of BytecodeBuilder.h. -/
inductive OpCode where
  | OP_MOVE | OP_LOADK | OP_LOADBOOL | OP_LOADNIL | OP_GETUPVAL | OP_GETGLOBAL
  | OP_GETTABLE | OP_SETGLOBAL | OP_SETUPVAL | OP_SETTABLE | OP_NEWTABLE | OP_SELF
  | OP_ADD | OP_SUB | OP_MUL | OP_DIV | OP_MOD | OP_POW | OP_UNM | OP_NOT | OP_LEN
  | OP_CONCAT | OP_JMP | OP_EQ | OP_LT | OP_LE | OP_TEST | OP_TESTSET | OP_CALL
  | OP_TAILCALL | OP_RETURN | OP_FORLOOP | OP_FORPREP | OP_TFORLOOP | OP_SETLIST
  | OP_CLOSE | OP_CLOSURE | OP_VARARG
deriving DecidableEq, Repr

/-- The numeric value of an `OpCode` enumerator. -/
def OpCode.toNat : OpCode → Nat
  | OP_MOVE => 0 | OP_LOADK => 1 | OP_LOADBOOL => 2 | OP_LOADNIL => 3
  | OP_GETUPVAL => 4 | OP_GETGLOBAL => 5 | OP_GETTABLE => 6 | OP_SETGLOBAL => 7
  | OP_SETUPVAL => 8 | OP_SETTABLE => 9 | OP_NEWTABLE => 10 | OP_SELF => 11
  | OP_ADD => 12 | OP_SUB => 13 | OP_MUL => 14 | OP_DIV => 15 | OP_MOD => 16
  | OP_POW => 17 | OP_UNM => 18 | OP_NOT => 19 | OP_LEN => 20 | OP_CONCAT => 21
  | OP_JMP => 22 | OP_EQ => 23 | OP_LT => 24 | OP_LE => 25 | OP_TEST => 26
  | OP_TESTSET => 27 | OP_CALL => 28 | OP_TAILCALL => 29 | OP_RETURN => 30
  | OP_FORLOOP => 31 | OP_FORPREP => 32 | OP_TFORLOOP => 33 | OP_SETLIST => 34
  | OP_CLOSE => 35 | OP_CLOSURE => 36 | OP_VARARG => 37

/-- The struct `Instruction`. -/
structure Instruction where
  Op : OpCode
  A : Int
  B : Int
  C : Int
deriving DecidableEq, Repr

/-- The struct `BytecodeChunk`: `Count` and `ConstantCount` are the lengths of
the two lists. `CreateChunk` allocates room for 32 constant pointers and
`AddConstant` never grows it; `overrun` records a write past that block. -/
structure BytecodeChunk where
  Instructions : List Instruction
  Constants : List String
  overrun : Bool
deriving DecidableEq, Repr

/-- `CreateChunk()`. -/
def CreateChunk : BytecodeChunk :=
  { Instructions := [], Constants := [], overrun := false }

/-- `AddInstruction(chunk, op, a, b, c)`; the instruction array is grown by
`realloc` as needed. -/
def AddInstruction (chunk : BytecodeChunk) (op : OpCode) (a b c : Int) : BytecodeChunk :=
  { chunk with Instructions := chunk.Instructions ++ [{ Op := op, A := a, B := b, C := c }] }

/-- `AddConstant(chunk, str)`: stores at index `ConstantCount` of a block of
32 pointers. -/
def AddConstant (chunk : BytecodeChunk) (str : String) : BytecodeChunk :=
  { chunk with
    Constants := chunk.Constants ++ [str]
    overrun := chunk.overrun || decide (32 ≤ chunk.Constants.length) }

/-- The bytes of a C string. -/
def strBytes (s : String) : List Nat :=
  s.toList.map (fun c => c.toNat % 256)

/-! ## VmGenerator.c: build context and serializer -/

/-- The struct `BuildContext`. -/
structure BuildContext where
  buildId : Nat
  opcodeMap : List Nat
  xorKey : Nat
  encKey : Nat
  dispatcherVariant : Nat
  decoderVariant : Nat
  checksumSeed : Nat
deriving DecidableEq, Repr

/-- One exchange `temp = a[i]; a[i] = a[j]; a[j] = temp`. -/
def swapAt (a : List Nat) (i j : Nat) : List Nat :=
  let temp := a.getD i 0
  (a.set i (a.getD j 0)).set j temp

/-- The loop `for (i = 255; i > 0; i--)` of `CreateBuildContext`, entered with
loop variable `i`; `k` is the index of the next `rand()` call. -/
def fisherYates (rs : Nat → Nat) : Nat → Nat → List Nat → List Nat
  | 0, _, available => available
  | i + 1, k, available =>
      fisherYates rs i (k + 1) (swapAt available (i + 1) (RandomInt 0 (i + 1) (rs k)))

/-- `CreateBuildContext()`: six draws for the scalar fields, then the
Fisher-Yates shuffle of `available = 0 .. 255`, copied into `opcodeMap`. -/
def CreateBuildContext (rs : Nat → Nat) : BuildContext :=
  { buildId := RandomInt 10000 99999 (rs 0)
    xorKey := RandomInt 1 254 (rs 1)
    encKey := RandomInt 0x1000 0xFFFFFF (rs 2)
    dispatcherVariant := RandomInt 0 4 (rs 3)
    decoderVariant := RandomInt 0 4 (rs 4)
    checksumSeed := RandomInt 0x100 0xFFFF (rs 5)
    opcodeMap := fisherYates rs 255 6 (List.range 256) }

/-- The low byte of a C `int`, as `(unsigned char)x` or `x & 0xFF` give it. -/
def lowByte (x : Int) : Nat := (x % 256).toNat

/-- The second byte of a C `int`: `(x >> 8) & 0xFF`. -/
def highByte (x : Int) : Nat := ((x / 256) % 256).toNat

/-- The bytes written for one constant: `len & 0xFF`, `(len >> 8) & 0xFF`,
then the `len` bytes of the string. -/
def serializeConstant (s : String) : List Nat :=
  [s.length % 256, s.length / 256 % 256] ++ strBytes s

/-- The six bytes written for one instruction. -/
def serializeInstruction (opcodeMap : List Nat) (ins : Instruction) : List Nat :=
  [opcodeMap.getD ins.Op.toNat 0 % 256, lowByte ins.A,
   lowByte ins.B, highByte ins.B, lowByte ins.C, highByte ins.C]

/-- The loop over the constants, appending to the buffer written so far. -/
def writeConstants (buffer : List Nat) : List String → List Nat
  | [] => buffer
  | s :: rest => writeConstants (buffer ++ serializeConstant s) rest

/-- The loop over the instructions, appending to the buffer written so far. -/
def writeInstructions (opcodeMap : List Nat) (buffer : List Nat) : List Instruction → List Nat
  | [] => buffer
  | ins :: rest => writeInstructions opcodeMap (buffer ++ serializeInstruction opcodeMap ins) rest

/-- The byte buffer that `SerializeBytecodeWithMapping` fills before it calls
the encoder: version, constant count, constants, instructions. -/
def serializeBuffer (chunk : BytecodeChunk) (opcodeMap : List Nat) : List Nat :=
  writeInstructions opcodeMap
    (writeConstants [0x01, chunk.Constants.length % 256] chunk.Constants)
    chunk.Instructions

/-- `SerializeBytecodeWithMapping(chunk, ctx)`: the buffer, encoded. -/
def SerializeBytecodeWithMapping (chunk : BytecodeChunk) (ctx : BuildContext) : Option (List Nat) :=
  EncodeBase85Custom (serializeBuffer chunk ctx.opcodeMap)

/-! ## VmOpcodes.c: the opcode table -/

/-- `VM_OPCODE_COUNT`, the number of enumerators of `VmOpcode` before it. -/
def VM_OPCODE_COUNT : Nat := 71

/-- The struct `OpcodeMapping`. -/
structure OpcodeMapping where
  realOp : Nat
  shuffledOp : Nat
  fakeCount : Nat
  flags : Nat
deriving DecidableEq, Repr

/-- The struct `OpcodeTable`. -/
structure OpcodeTable where
  mappings : List OpcodeMapping
  shuffleKey : Nat
  xorKey : Nat
  buildId : Nat
deriving DecidableEq, Repr

/-- The initialising loop of `CreateOpcodeTable`, from index `i`; the draw for
entry `i` is call `3 + i` of `rand()`. -/
def initMappings (rs : Nat → Nat) : Nat → Nat → List OpcodeMapping
  | 0, _ => []
  | n + 1, i =>
      { realOp := i, shuffledOp := i, fakeCount := RandomInt 0 3 (rs (3 + i)), flags := 0 }
        :: initMappings rs n (i + 1)

/-- `CreateOpcodeTable()`. -/
def CreateOpcodeTable (rs : Nat → Nat) : OpcodeTable :=
  { shuffleKey := RandomInt 1 0xFFFFFF (rs 0)
    xorKey := RandomInt 1 255 (rs 1)
    buildId := RandomInt 10000 99999 (rs 2)
    mappings := initMappings rs VM_OPCODE_COUNT 0 }

/-- The rejection loop `do newOp = RandomInt(1, 250); while (used[newOp]);`
reading the finite supply `draws` of `rand()` values: the first unused value
and the draws left over, or `none` when the supply ends first (the C loop
would still be spinning). -/
def drawUnused (used : List Nat) : List Nat → Option (Nat × List Nat)
  | [] => none
  | r :: draws =>
      if RandomInt 1 250 r ∈ used then drawUnused used draws
      else some (RandomInt 1 250 r, draws)

/-- The loop `for (i = 0; i < VM_OPCODE_COUNT; i++)` of `ShuffleOpcodes` over
the mappings that remain; `used` lists the indices whose flag is set. -/
def shuffleMappings (xorKey : Nat) : List OpcodeMapping → List Nat → List Nat →
    Option (List OpcodeMapping)
  | [], _, _ => some []
  | m :: rest, used, draws =>
      match drawUnused used draws with
      | none => none
      | some (newOp, draws1) =>
          match shuffleMappings xorKey rest (newOp :: used) draws1 with
          | none => none
          | some out => some ({ m with shuffledOp := Nat.xor newOp xorKey } :: out)

/-- `ShuffleOpcodes(table)` on a finite supply of `rand()` values. -/
def ShuffleOpcodes (table : OpcodeTable) (draws : List Nat) : Option OpcodeTable :=
  match shuffleMappings table.xorKey table.mappings [] draws with
  | none => none
  | some ms => some { table with mappings := ms }

/-! ## The generated decoder `d85` (GenerateBase85Decoder)

The Lua text is modelled on the list of character codes of its argument; the
loop index `i` is represented by the suffix of `s` that starts at `i`, so
`string.sub(s, i, i + n - 1)` is `take n` and `i = i + n` is `drop n`. -/

/-- The four bytes `string.char(math.floor(v/16777216)%256, ...)` of the
variants that compute `v` with `(c - 33)` factors (cases 0, 2 and default). -/
def groupBytesArith (c1 c2 c3 c4 c5 : Nat) : List Nat :=
  let v : Int := ((c1 : Int) - 33) * 52200625 + ((c2 : Int) - 33) * 614125
    + ((c3 : Int) - 33) * 7225 + ((c4 : Int) - 33) * 85 + ((c5 : Int) - 33)
  [(v / 16777216 % 256).toNat, (v / 65536 % 256).toNat, (v / 256 % 256).toNat, (v % 256).toNat]

/-- The lookup table `T` of case 1: `T[i] = i - 33` for `i = 33 .. 117`. -/
def tableT (c : Nat) : Option Nat :=
  if 33 ≤ c ∧ c ≤ 117 then some (c - 33) else none

/-- The four bytes of case 1, `bit32.rshift(v, 24) % 256` and so on; an entry
missing from `T` makes the arithmetic fail. -/
def groupBytesTable (c1 c2 c3 c4 c5 : Nat) : Option (List Nat) :=
  match tableT c1, tableT c2, tableT c3, tableT c4, tableT c5 with
  | some t1, some t2, some t3, some t4, some t5 =>
      let v := t1 * 52200625 + t2 * 614125 + t3 * 7225 + t4 * 85 + t5
      let w := v % 4294967296
      some [w / 16777216 % 256, w / 65536 % 256, w / 256 % 256, v % 256]
  | _, _, _, _, _ => none

/-- The test that makes the decoder skip ten characters, per variant. -/
def skipsPrefix (variant : Nat) (l : List Nat) : Bool :=
  match variant with
  | 1 => decide (l.head? = some 76) && decide (l.take 10 = prefixMarker)
  | 0 => decide (l.take 10 = prefixMarker)
  | 2 => decide (l.take 10 = prefixMarker)
  | _ => decide (l.head? = some 76) && decide (l.take 10 = prefixMarker)

/-- The test that makes the decoder skip three characters, per variant. -/
def skipsPeriodic (variant : Nat) (l : List Nat) : Bool :=
  match variant with
  | 0 => decide (l.take 3 = periodicMarker)
  | 2 => decide (l.take 3 = periodicMarker)
  | _ => decide (l.head? = some 122) && decide ((l.drop 1).take 2 = [33, 33])

/-- The bytes appended for the five characters at the index, per variant. -/
def groupBytes (variant : Nat) (c1 c2 c3 c4 c5 : Nat) : Option (List Nat) :=
  match variant with
  | 1 => groupBytesTable c1 c2 c3 c4 c5
  | _ => some (groupBytesArith c1 c2 c3 c4 c5)

/-- The loop `while i <= #s do ... end` of `d85`, on the suffix `l` from `i`.
`variant` is `ctx->decoderVariant` (0, 1, 2; 3 and 4 take the default case).
`none` is a Lua error, or the end of the fuel. -/
def d85Loop (variant : Nat) : Nat → List Nat → Option (List Nat)
  | 0, _ => none
  | fuel + 1, l =>
      if l = [] then some []
      else if skipsPrefix variant l then d85Loop variant fuel (l.drop 10)
      else if skipsPeriodic variant l then d85Loop variant fuel (l.drop 3)
      else
        match l with
        | c1 :: c2 :: c3 :: c4 :: c5 :: _ =>
            match groupBytes variant c1 c2 c3 c4 c5, d85Loop variant fuel (l.drop 5) with
            | some g, some o => some (g ++ o)
            | _, _ => none
        | _ => d85Loop variant fuel (l.drop 5)

/-- The function `d85(s)`; every turn of its loop advances `i`, so `#s + 1`
turns are enough. -/
def d85 (variant : Nat) (s : List Nat) : Option (List Nat) :=
  d85Loop variant (s.length + 1) s

/-! ## The generated interpreter (GenerateObfuscatedScript, GenerateDispatcher,
GenerateOpcodeHandlers)

Values are nil, booleans, numbers (integers, see the conventions), strings,
and tables and functions known by their identity. The contents of the tables
the script creates are kept in the state. A function of the host runtime is
modelled by the results it gives for a list of arguments, without side
effects. A handler that is not modelled yields `none`, as does a Lua error. -/

/-- Lua values of the modelled fragment; a table or a function is known by its
identity. -/
inductive Value where
  | nil
  | bool (b : Bool)
  | num (n : Int)
  | str (s : String)
  | table (id : Nat)
  | func (id : Nat)
deriving DecidableEq, Repr

/-- Lua truthiness: everything except `nil` and `false`. -/
def Value.truthy : Value → Bool
  | .nil => false
  | .bool b => b
  | _ => true

/-- The value of a run of decimal digits, `none` if a character is not one. -/
def digitsValue : List Char → Nat → Option Nat
  | [], acc => some acc
  | c :: cs, acc =>
      if 48 ≤ c.toNat ∧ c.toNat ≤ 57 then digitsValue cs (acc * 10 + (c.toNat - 48)) else none

/-- The host function `tonumber` on the text of a constant, modelled on decimal
integers with an optional minus sign; other text counts as not a number,
also the hexadecimal, fractional and exponent forms and the surrounding
blanks that the host accepts. -/
def tonumber (s : String) : Option Int :=
  match s.toList with
  | [] => none
  | c :: cs =>
      if c = '-' then
        (if cs = [] then none else (digitsValue cs 0).map (fun n => -(n : Int)))
      else (digitsValue (c :: cs) 0).map (fun n => (n : Int))

/-- State of the generated script after `local D=d85(enc)`: the decoded bytes,
the cursor `pos`, the constant table `K` (index 0 first), the register table
`S`, the environment `G`. `iterLog` is a ghost field: the values the FORLOOP
handler has stored into the loop variable when branching back. `heap` gives
the contents of the tables made by `{}` (table, then key), `tables` is the
number of tables made so far, and `call` gives the results of calling a
function value on a list of arguments (`none` for an error); no function is
callable unless the state is given one. -/
structure VM where
  D : List Nat
  pos : Int
  K : List Value
  S : Int → Value
  G : Value → Value
  iterLog : List Value
  heap : Nat → Value → Value := fun _ _ => Value.nil
  tables : Nat := 0
  call : Nat → List Value → Option (List Value) := fun _ _ => none

/-- Lua `string.byte(D, pos)`: nothing outside the string, and a negative
index counts from the end. -/
def stringByte (D : List Nat) (pos : Int) : Option Nat :=
  if 1 ≤ pos then D.get? (pos - 1).toNat
  else if pos < 0 ∧ -pos ≤ (D.length : Int) then D.get? ((D.length : Int) + pos).toNat
  else none

/-- The value `rb()` returns when the cursor is at `pos`: `b or 0`. -/
def byteAt (D : List Nat) (pos : Int) : Nat :=
  (stringByte D pos).getD 0

/-- The loop `for i=1,cc do local s=rs(); ... end` that fills `K`: each turn
reads a two-byte length, takes that many bytes and converts with `tonumber`. -/
def loadConstants (D : List Nat) : Nat → Int → List Value → List Value × Int
  | 0, pos, K => (K, pos)
  | cc + 1, pos, K =>
      let n := byteAt D pos + byteAt D (pos + 1) * 256
      let s := String.mk (((D.drop (pos + 1).toNat).take n).map Char.ofNat)
      let v := match tonumber s with
        | some x => Value.num x
        | none => Value.str s
      loadConstants D cc (pos + 2 + n) (K ++ [v])

/-- The script from `local D=d85(enc);local pos=1;` up to the dispatch loop:
the version byte is read and dropped, `cc` is read, the constants are loaded,
`S` is empty and `G` is the environment of the caller. -/
def vmInit (D : List Nat) (G : Value → Value) : VM :=
  let cc := byteAt D 2
  let r := loadConstants D cc 3 []
  { D := D, pos := r.2, K := r.1, S := fun _ => Value.nil, G := G, iterLog := [] }

/-- A handler of the table `H`: the one written for a canonical opcode, or one
of the eight decoys `function() local _=n end`. -/
inductive Handler where
  | real (op : OpCode)
  | fake
deriving DecidableEq, Repr

/-- The canonical opcodes in the order in which `GenerateOpcodeHandlers`
writes `H[opcodeMap[k]]=...`, k = 0 .. 37. -/
def canonicalOps : List OpCode :=
  [.OP_MOVE, .OP_LOADK, .OP_LOADBOOL, .OP_LOADNIL, .OP_GETUPVAL, .OP_GETGLOBAL,
   .OP_GETTABLE, .OP_SETGLOBAL, .OP_SETUPVAL, .OP_SETTABLE, .OP_NEWTABLE, .OP_SELF,
   .OP_ADD, .OP_SUB, .OP_MUL, .OP_DIV, .OP_MOD, .OP_POW, .OP_UNM, .OP_NOT, .OP_LEN,
   .OP_CONCAT, .OP_JMP, .OP_EQ, .OP_LT, .OP_LE, .OP_TEST, .OP_TESTSET, .OP_CALL,
   .OP_TAILCALL, .OP_RETURN, .OP_FORLOOP, .OP_FORPREP, .OP_TFORLOOP, .OP_SETLIST,
   .OP_CLOSE, .OP_CLOSURE, .OP_VARARG]

/-- The assignments `H[key]=handler` in the order the generated text makes
them: the 38 canonical handlers, then the decoys keyed by
`opcodeMap[RandomInt(50, 200)]`, one per value of `fakeDraws`. -/
def handlerAssignments (opcodeMap : List Nat) (fakeDraws : List Nat) : List (Nat × Handler) :=
  canonicalOps.map (fun op => (opcodeMap.getD op.toNat 0, Handler.real op))
    ++ fakeDraws.map (fun r => (opcodeMap.getD (RandomInt 50 200 r) 0, Handler.fake))

/-- The table `H` after all assignments: a later assignment to a key replaces
an earlier one. -/
def lookupHandler (assignments : List (Nat × Handler)) (op : Nat) : Option Handler :=
  (assignments.reverse.find? (fun kv => kv.1 == op)).map (fun kv => kv.2)

/-- `K[B]`. -/
def constAt (K : List Value) (B : Int) : Value :=
  if 0 ≤ B then K.getD B.toNat Value.nil else Value.nil

/-- Assignment `S[A] = v`. -/
def setReg (S : Int → Value) (A : Int) (v : Value) : Int → Value :=
  fun i => if i = A then v else S i

/-- The arithmetic handlers on two values, within the integer model: `/` is
defined when the quotient is exact, `%` is Lua's floored remainder for a
nonzero divisor, `^` needs a natural exponent. Non-numbers are a Lua error. -/
def arith (op : OpCode) : Value → Value → Option Value
  | .num a, .num b =>
      match op with
      | .OP_ADD => some (.num (a + b))
      | .OP_SUB => some (.num (a - b))
      | .OP_MUL => some (.num (a * b))
      | .OP_DIV => if b ≠ 0 ∧ a % b = 0 then some (.num (a / b)) else none
      | .OP_MOD => if b ≠ 0 then some (.num (Int.fmod a b)) else none
      | .OP_POW => if 0 ≤ b then some (.num (a ^ b.toNat)) else none
      | _ => none
  | _, _ => none

/-- Lua `x < y` on numbers; other operands are outside the model. -/
def luaLt : Value → Value → Option Bool
  | .num a, .num b => some (decide (a < b))
  | _, _ => none

/-- Lua `x <= y` on numbers; other operands are outside the model. -/
def luaLe : Value → Value → Option Bool
  | .num a, .num b => some (decide (a ≤ b))
  | _, _ => none

/-- The loop `for i=1,B do t[off+i]=S[A+i] end` of the SETLIST handler on the
contents `t` of a table, for `B = n`. -/
def setListLoop (S : Int → Value) (A off : Int) : Nat → (Value → Value) → Value → Value
  | 0, t => t
  | n + 1, t => fun k =>
      if k = Value.num (off + ((n : Int) + 1)) then S (A + ((n : Int) + 1))
      else setListLoop S A off n t k

/-- The loop `for i=1,C do S[A+2+i]=r[i] end` of the TFORLOOP handler, where
`r` lists the values the iterator returned (`r[i]` is nil beyond them). -/
def tforStore (S : Int → Value) (A C : Int) (r : List Value) : Int → Value :=
  fun j => if A + 3 ≤ j ∧ j ≤ A + 2 + C then r.getD (j - A - 3).toNat Value.nil else S j

/-- The body of the handler written for canonical opcode `op`, run with the
decoded fields `A`, `B`, `C`; `vm.pos` already points behind the instruction. -/
def execHandler (op : OpCode) (A B C : Int) (vm : VM) : Option VM :=
  match op with
  | .OP_MOVE => some { vm with S := setReg vm.S A (vm.S B) }
  | .OP_LOADK => some { vm with S := setReg vm.S A (constAt vm.K B) }
  | .OP_LOADBOOL =>
      some { vm with
        S := setReg vm.S A (.bool (decide (B = 1)))
        pos := if C = 1 then vm.pos + 4 else vm.pos }
  | .OP_LOADNIL =>
      some { vm with S := fun i => if A ≤ i ∧ i ≤ A + B then Value.nil else vm.S i }
  | .OP_GETUPVAL => some { vm with S := setReg vm.S A Value.nil }
  | .OP_GETGLOBAL => some { vm with S := setReg vm.S A (vm.G (constAt vm.K B)) }
  | .OP_SETGLOBAL =>
      if constAt vm.K B = Value.nil then none
      else
        let key := constAt vm.K B
        let v := vm.S A
        some { vm with G := fun k => if k = key then v else vm.G k }
  | .OP_SETUPVAL => some vm
  | .OP_ADD | .OP_SUB | .OP_MUL | .OP_DIV | .OP_MOD | .OP_POW =>
      (arith op (vm.S B) (vm.S C)).map (fun v => { vm with S := setReg vm.S A v })
  | .OP_UNM =>
      match vm.S B with
      | .num n => some { vm with S := setReg vm.S A (.num (-n)) }
      | _ => none
  | .OP_NOT => some { vm with S := setReg vm.S A (.bool (!(vm.S B).truthy)) }
  | .OP_LEN =>
      match vm.S B with
      | .str s => some { vm with S := setReg vm.S A (.num s.length) }
      | _ => none
  | .OP_CONCAT =>
      match vm.S B, vm.S C with
      | .str s, .str t => some { vm with S := setReg vm.S A (.str (s ++ t)) }
      | _, _ => none
  | .OP_JMP => some { vm with pos := vm.pos + B * 6 }
  | .OP_EQ =>
      if decide (vm.S B = vm.S C) ≠ decide (A = 1) then some { vm with pos := vm.pos + 6 }
      else some vm
  | .OP_LT =>
      (luaLt (vm.S B) (vm.S C)).map (fun r =>
        if r ≠ decide (A = 1) then { vm with pos := vm.pos + 6 } else vm)
  | .OP_LE =>
      (luaLe (vm.S B) (vm.S C)).map (fun r =>
        if r ≠ decide (A = 1) then { vm with pos := vm.pos + 6 } else vm)
  | .OP_TEST =>
      if (!(vm.S A).truthy) ≠ decide (C = 1) then some { vm with pos := vm.pos + 6 }
      else some vm
  | .OP_TESTSET =>
      if (!(vm.S B).truthy) ≠ decide (C = 1) then some { vm with pos := vm.pos + 6 }
      else some { vm with S := setReg vm.S A (vm.S B) }
  | .OP_RETURN => some vm
  | .OP_FORLOOP =>
      match vm.S A, vm.S (A + 2), vm.S (A + 1) with
      | .num idx, .num step, limit =>
          let idx1 := idx + step
          let S1 := setReg vm.S A (.num idx1)
          match (if 0 < step then luaLe (.num idx1) limit else luaLe limit (.num idx1)) with
          | none => none
          | some true =>
              some { vm with
                S := setReg S1 (A + 3) (.num idx1)
                pos := vm.pos - B * 6
                iterLog := vm.iterLog ++ [.num idx1] }
          | some false => some { vm with S := S1 }
      | _, _, _ => none
  | .OP_FORPREP =>
      match vm.S A, vm.S (A + 2) with
      | .num idx, .num step =>
          some { vm with
            S := setReg (setReg vm.S A (.num (idx - step))) (A + 3) (.num (idx - step))
            pos := vm.pos + B * 6 }
      | _, _ => none
  | .OP_CLOSE => some vm
  | .OP_VARARG => some vm
  | .OP_NEWTABLE =>
      some { vm with
        S := setReg vm.S A (.table vm.tables)
        heap := fun id => if id = vm.tables then (fun _ => Value.nil) else vm.heap id
        tables := vm.tables + 1 }
  | .OP_SETLIST =>
      if B ≤ 0 then some vm
      else
        match vm.S A with
        | .table t =>
            let t1 := setListLoop vm.S A ((C - 1) * 50) B.toNat (vm.heap t)
            some { vm with heap := fun id => if id = t then t1 else vm.heap id }
        | _ => none
  | .OP_TFORLOOP =>
      match vm.S A with
      | .func f =>
          match vm.call f [vm.S (A + 1), vm.S (A + 2)] with
          | none => none
          | some r =>
              let S1 := tforStore vm.S A C r
              if r.headD Value.nil ≠ Value.nil then
                some { vm with S := setReg S1 (A + 2) (r.headD Value.nil) }
              else some { vm with S := S1, pos := vm.pos + 6 }
      | _ => none
  | .OP_GETTABLE | .OP_SETTABLE | .OP_SELF | .OP_CALL | .OP_TAILCALL | .OP_CLOSURE => none

/-- One turn of the dispatch loop: `op`, `A`, `B` (sign-adjusted) and `C` are
read with `rb()`, then `local h=H[op];if h then h() end`. -/
def vmStep (H : List (Nat × Handler)) (vm : VM) : Option VM :=
  let op := byteAt vm.D vm.pos
  let A := byteAt vm.D (vm.pos + 1)
  let b := byteAt vm.D (vm.pos + 2) + byteAt vm.D (vm.pos + 3) * 256
  let B : Int := if 32768 ≤ b then (b : Int) - 65536 else (b : Int)
  let C := byteAt vm.D (vm.pos + 4) + byteAt vm.D (vm.pos + 5) * 256
  let vm1 := { vm with pos := vm.pos + 6 }
  match lookupHandler H op with
  | some (Handler.real o) => execHandler o A B C vm1
  | some Handler.fake => some vm1
  | none => some vm1

/-- The dispatch loop `while pos<=#D do ... end`, for at most `n` turns (two
of the three dispatcher variants stop after a fixed number of turns). The
result is the state reached; `none` is a Lua error or a handler that is not
modelled. -/
def vmRun (H : List (Nat × Handler)) : Nat → VM → Option VM
  | 0, vm => some vm
  | n + 1, vm =>
      if vm.pos ≤ (vm.D.length : Int) then
        match vmStep H vm with
        | some vm1 => vmRun H n vm1
        | none => none
      else some vm

/-- `GenerateDispatcher`: the number of turns after which the loop written for
a dispatcher variant is left wherever the cursor stands, `none` for the
variant `while pos<=#D do` that has no such bound. Variant 1 is `for
_i=1,N do if pos>#D then break end ...` with `N = RandomInt(50000,100000)`,
variant 2 is `while pos<=#D do _c=_c+1;if _c>N then break end ...` with
`N = RandomInt(10000,50000)`; `r` is the random number drawn for `N`. The
run of such a loop is `vmRun H N`. -/
def dispatcherTurns (dispatcherVariant r : Nat) : Option Nat :=
  match dispatcherVariant % 3 with
  | 0 => none
  | 1 => some (RandomInt 50000 100000 r)
  | _ => some (RandomInt 10000 50000 r)

/-- The loop has ended: `pos <= #D` is false. -/
def VM.halted (vm : VM) : Bool :=
  decide ((vm.D.length : Int) < vm.pos)

/-! ## Lexer.h / Lexer.c -/

/-- The enum `TokenType`. -/
inductive TokenType where
  | TOK_NUMBER | TOK_STRING | TOK_NAME | TOK_TRUE | TOK_FALSE | TOK_NIL
  | TOK_AND | TOK_BREAK | TOK_DO | TOK_ELSE | TOK_ELSEIF | TOK_END | TOK_FOR
  | TOK_FUNCTION | TOK_IF | TOK_IN | TOK_LOCAL | TOK_NOT | TOK_OR | TOK_REPEAT
  | TOK_RETURN | TOK_THEN | TOK_UNTIL | TOK_WHILE
  | TOK_PLUS | TOK_MINUS | TOK_STAR | TOK_SLASH | TOK_PERCENT | TOK_CARET | TOK_HASH
  | TOK_EQ | TOK_NE | TOK_LE | TOK_GE | TOK_LT | TOK_GT | TOK_ASSIGN
  | TOK_LPAREN | TOK_RPAREN | TOK_LBRACE | TOK_RBRACE | TOK_LBRACKET | TOK_RBRACKET
  | TOK_SEMICOLON | TOK_COLON | TOK_COMMA | TOK_DOT | TOK_DOTDOT | TOK_DOTDOTDOT
  | TOK_EOF | TOK_ERROR
deriving DecidableEq, Repr

/-- The struct `Token`; a NULL `value` is the empty string. -/
structure Token where
  type : TokenType
  value : String
  line : Nat
  column : Nat
deriving DecidableEq, Repr

/-- The struct `Lexer`: `rest` holds the characters of `source` from `pos` on
(the source is NUL-terminated and contains no NUL). -/
structure Lexer where
  rest : List Char
  line : Nat
  column : Nat
deriving DecidableEq, Repr

/-- The NUL character that `peek` returns at the end of the source. -/
def chNUL : Char := Char.ofNat 0

/-- Line feed. -/
def chNL : Char := Char.ofNat 10

/-- The double quote. -/
def chDQuote : Char := Char.ofNat 34

/-- The single quote. -/
def chSQuote : Char := Char.ofNat 39

/-- The backslash. -/
def chBackslash : Char := Char.ofNat 92

/-- `CreateLexer(source)`. -/
def CreateLexer (source : String) : Lexer :=
  { rest := source.toList, line := 1, column := 1 }

/-- `peek(lexer)`. -/
def Lexer.peek (l : Lexer) : Char := l.rest.headD chNUL

/-- `peekNext(lexer)`. -/
def Lexer.peekNext (l : Lexer) : Char := (l.rest.drop 1).headD chNUL

/-- `advance(lexer)`; at the end of the source it steps over the NUL. -/
def Lexer.advance (l : Lexer) : Lexer :=
  match l.rest with
  | [] => { l with column := l.column + 1 }
  | c :: cs =>
      if c = chNL then { rest := cs, line := l.line + 1, column := 1 }
      else { rest := cs, line := l.line, column := l.column + 1 }

/-- C `isdigit` in the C locale. -/
def isdigit (c : Char) : Bool := decide (48 ≤ c.toNat ∧ c.toNat ≤ 57)

/-- C `isalpha` in the C locale. -/
def isalpha (c : Char) : Bool :=
  decide ((65 ≤ c.toNat ∧ c.toNat ≤ 90) ∨ (97 ≤ c.toNat ∧ c.toNat ≤ 122))

/-- C `isalnum` in the C locale. -/
def isalnum (c : Char) : Bool := isalpha c || isdigit c

/-- C `isxdigit`. -/
def isxdigit (c : Char) : Bool :=
  isdigit c || decide ((65 ≤ c.toNat ∧ c.toNat ≤ 70) ∨ (97 ≤ c.toNat ∧ c.toNat ≤ 102))

/-- The space characters `skipWhitespace` steps over. -/
def isSpaceChar (c : Char) : Bool :=
  decide (c.toNat = 32 ∨ c.toNat = 9 ∨ c.toNat = 13 ∨ c.toNat = 10 ∨ c.toNat = 12 ∨ c.toNat = 11)

/-- The loop `while (pred(peek(lexer))) advance(lexer);` for a predicate that
is false on NUL: the characters stepped over and the lexer after them. -/
def advanceWhile (pred : Char → Bool) : List Char → Nat → Nat → List Char × Lexer
  | [], line, column => ([], { rest := [], line := line, column := column })
  | c :: cs, line, column =>
      if pred c then
        let l1 := Lexer.advance { rest := c :: cs, line := line, column := column }
        let r := advanceWhile pred cs l1.line l1.column
        (c :: r.1, r.2)
      else ([], { rest := c :: cs, line := line, column := column })

/-- The loop of a long comment:
`while (!(peek == ']' && peekNext == ']') && peek != 0) advance`. -/
def skipLongComment : List Char → Nat → Nat → Lexer
  | [], line, column => { rest := [], line := line, column := column }
  | c :: cs, line, column =>
      if c = ']' ∧ cs.headD chNUL = ']' then { rest := c :: cs, line := line, column := column }
      else
        let l1 := Lexer.advance { rest := c :: cs, line := line, column := column }
        skipLongComment cs l1.line l1.column

/-- The loop `while (1)` of `skipWhitespace`; every turn that does not leave
the loop consumes a character, so `rest.length + 1` turns are enough. -/
def skipWhitespaceLoop : Nat → Lexer → Lexer
  | 0, l => l
  | fuel + 1, l =>
      if isSpaceChar l.peek then skipWhitespaceLoop fuel l.advance
      else if l.peek = '-' ∧ l.peekNext = '-' then
        let l2 := l.advance.advance
        if l2.peek = '[' ∧ l2.peekNext = '[' then
          let l4 := l2.advance.advance
          let l5 := skipLongComment l4.rest l4.line l4.column
          if l5.peek ≠ chNUL then skipWhitespaceLoop fuel l5.advance.advance
          else skipWhitespaceLoop fuel l5
        else
          skipWhitespaceLoop fuel
            (advanceWhile (fun c => decide (c ≠ chNL)) l2.rest l2.line l2.column).2
      else l

/-- `skipWhitespace(lexer)`. -/
def skipWhitespace (l : Lexer) : Lexer :=
  skipWhitespaceLoop (l.rest.length + 1) l

/-- `makeToken(lexer, type, value)`. -/
def makeToken (l : Lexer) (type : TokenType) (value : String) : Token :=
  { type := type, value := value, line := l.line, column := l.column }

/-- `errorToken(lexer, msg)`. -/
def errorToken (l : Lexer) (msg : String) : Token :=
  { type := TokenType.TOK_ERROR, value := msg, line := l.line, column := l.column }

/-- The loop of `readString`: a backslash makes it step over two characters.
Returns the characters passed and the lexer at the closing quote or the end. -/
def readStringLoop (quote : Char) : Nat → Lexer → List Char → List Char × Lexer
  | 0, l, acc => (acc, l)
  | fuel + 1, l, acc =>
      if l.peek ≠ quote ∧ l.peek ≠ chNUL then
        if l.peek = chBackslash then
          readStringLoop quote fuel l.advance.advance (acc ++ l.rest.take 2)
        else readStringLoop quote fuel l.advance (acc ++ l.rest.take 1)
      else (acc, l)

/-- `readString(lexer, quote)`. -/
def readString (l : Lexer) (quote : Char) : Token × Lexer :=
  let r := readStringLoop quote (l.rest.length + 1) l []
  if r.2.peek = chNUL then (errorToken r.2 "Unterminated string", r.2)
  else
    let l1 := r.2.advance
    (makeToken l1 TokenType.TOK_STRING (String.mk r.1), l1)

/-- The loop `while (peek(lexer) != 0)` of `readLongString`, which looks for
`]`, `eqCount` equal signs and `]`; `acc` holds the characters from `start`.
Returns the text before the closing bracket (`none` if the source ends first)
and the lexer where the loop stops. -/
def readLongStringLoop (eqCount : Nat) : Nat → Lexer → List Char → Option (List Char) × Lexer
  | 0, l, _ => (none, l)
  | fuel + 1, l, acc =>
      if l.peek = chNUL then (none, l)
      else if l.peek = ']' then
        let l1 := l.advance
        let eqs := advanceWhile (fun c => decide (c = '=')) (l1.rest.take eqCount) l1.line l1.column
        let eq := eqs.1.length
        let l2 : Lexer := { rest := l1.rest.drop eq, line := eqs.2.line, column := eqs.2.column }
        if eq = eqCount ∧ l2.peek = ']' then (some acc, l2.advance)
        else readLongStringLoop eqCount fuel l2 (acc ++ [']'] ++ eqs.1)
      else readLongStringLoop eqCount fuel l.advance (acc ++ l.rest.take 1)

/-- `readLongString(lexer)`, called after the first `[`. -/
def readLongString (l : Lexer) : Token × Lexer :=
  let eqs := advanceWhile (fun c => decide (c = '=')) l.rest l.line l.column
  let eqCount := eqs.1.length
  let l1 := eqs.2
  if l1.peek ≠ '[' then (errorToken l1 "Invalid long string", l1)
  else
    let l2 := l1.advance
    let l3 := if l2.peek = chNL then l2.advance else l2
    match readLongStringLoop eqCount (l3.rest.length + 1) l3 [] with
    | (some value, l4) => (makeToken l4 TokenType.TOK_STRING (String.mk value), l4)
    | (none, l4) => (errorToken l4 "Unterminated long string", l4)

/-- `readNumber(lexer)`, called after the first digit `c0` has been consumed. -/
def readNumber (c0 : Char) (l : Lexer) : Token × Lexer :=
  if c0 = '0' ∧ (l.peek = 'x' ∨ l.peek = 'X') then
    let l1 := l.advance
    let hex := advanceWhile isxdigit l1.rest l1.line l1.column
    (makeToken hex.2 TokenType.TOK_NUMBER (String.mk ([c0] ++ l.rest.take 1 ++ hex.1)), hex.2)
  else
    let ds := advanceWhile isdigit l.rest l.line l.column
    let l1 := ds.2
    let frac :=
      if l1.peek = '.' ∧ isdigit l1.peekNext then
        let l2 := l1.advance
        let fs := advanceWhile isdigit l2.rest l2.line l2.column
        (['.'] ++ fs.1, fs.2)
      else ([], l1)
    let l3 := frac.2
    let ex :=
      if l3.peek = 'e' ∨ l3.peek = 'E' then
        let l4 := l3.advance
        let sign := if l4.peek = '+' ∨ l4.peek = '-' then (l4.rest.take 1, l4.advance) else ([], l4)
        let es := advanceWhile isdigit sign.2.rest sign.2.line sign.2.column
        (l3.rest.take 1 ++ sign.1 ++ es.1, es.2)
      else ([], l3)
    (makeToken ex.2 TokenType.TOK_NUMBER (String.mk ([c0] ++ ds.1 ++ frac.1 ++ ex.1)), ex.2)

/-- The tables `keywords` and `keywordTypes`. -/
def keywordType (value : String) : TokenType :=
  if value = "and" then TokenType.TOK_AND
  else if value = "break" then TokenType.TOK_BREAK
  else if value = "do" then TokenType.TOK_DO
  else if value = "else" then TokenType.TOK_ELSE
  else if value = "elseif" then TokenType.TOK_ELSEIF
  else if value = "end" then TokenType.TOK_END
  else if value = "false" then TokenType.TOK_FALSE
  else if value = "for" then TokenType.TOK_FOR
  else if value = "function" then TokenType.TOK_FUNCTION
  else if value = "if" then TokenType.TOK_IF
  else if value = "in" then TokenType.TOK_IN
  else if value = "local" then TokenType.TOK_LOCAL
  else if value = "nil" then TokenType.TOK_NIL
  else if value = "not" then TokenType.TOK_NOT
  else if value = "or" then TokenType.TOK_OR
  else if value = "repeat" then TokenType.TOK_REPEAT
  else if value = "return" then TokenType.TOK_RETURN
  else if value = "then" then TokenType.TOK_THEN
  else if value = "true" then TokenType.TOK_TRUE
  else if value = "until" then TokenType.TOK_UNTIL
  else if value = "while" then TokenType.TOK_WHILE
  else TokenType.TOK_NAME

/-- `readName(lexer)`, called after the first character `c0`. -/
def readName (c0 : Char) (l : Lexer) : Token × Lexer :=
  let r := advanceWhile (fun c => isalnum c || decide (c = '_')) l.rest l.line l.column
  let value := String.mk (c0 :: r.1)
  (makeToken r.2 (keywordType value) value, r.2)

/-- `NextToken(lexer)`: the token and the lexer after it. -/
def NextToken (l0 : Lexer) : Token × Lexer :=
  let l := skipWhitespace l0
  match l.rest with
  | [] => (makeToken l TokenType.TOK_EOF "", l)
  | c :: _ =>
      let l1 := l.advance
      if isalpha c || decide (c = '_') then readName c l1
      else if isdigit c then readNumber c l1
      else if c = chDQuote ∨ c = chSQuote then readString l1 c
      else if c = '[' ∧ (l1.peek = '[' ∨ l1.peek = '=') then readLongString l1
      else if c = '+' then (makeToken l1 TokenType.TOK_PLUS "+", l1)
      else if c = '-' then (makeToken l1 TokenType.TOK_MINUS "-", l1)
      else if c = '*' then (makeToken l1 TokenType.TOK_STAR "*", l1)
      else if c = '/' then (makeToken l1 TokenType.TOK_SLASH "/", l1)
      else if c = '%' then (makeToken l1 TokenType.TOK_PERCENT "%", l1)
      else if c = '^' then (makeToken l1 TokenType.TOK_CARET "^", l1)
      else if c = '#' then (makeToken l1 TokenType.TOK_HASH "#", l1)
      else if c = '(' then (makeToken l1 TokenType.TOK_LPAREN "(", l1)
      else if c = ')' then (makeToken l1 TokenType.TOK_RPAREN ")", l1)
      else if c.toNat = 123 then (makeToken l1 TokenType.TOK_LBRACE "\x7b", l1)
      else if c.toNat = 125 then (makeToken l1 TokenType.TOK_RBRACE "\x7d", l1)
      else if c = '[' then (makeToken l1 TokenType.TOK_LBRACKET "[", l1)
      else if c = ']' then (makeToken l1 TokenType.TOK_RBRACKET "]", l1)
      else if c = ';' then (makeToken l1 TokenType.TOK_SEMICOLON ";", l1)
      else if c = ':' then (makeToken l1 TokenType.TOK_COLON ":", l1)
      else if c = ',' then (makeToken l1 TokenType.TOK_COMMA ",", l1)
      else if c = '.' then
        if l1.peek = '.' then
          let l2 := l1.advance
          if l2.peek = '.' then
            let l3 := l2.advance
            (makeToken l3 TokenType.TOK_DOTDOTDOT "...", l3)
          else (makeToken l2 TokenType.TOK_DOTDOT "..", l2)
        else (makeToken l1 TokenType.TOK_DOT ".", l1)
      else if c = '=' then
        if l1.peek = '=' then (makeToken l1.advance TokenType.TOK_EQ "==", l1.advance)
        else (makeToken l1 TokenType.TOK_ASSIGN "=", l1)
      else if c = '<' then
        if l1.peek = '=' then (makeToken l1.advance TokenType.TOK_LE "<=", l1.advance)
        else (makeToken l1 TokenType.TOK_LT "<", l1)
      else if c = '>' then
        if l1.peek = '=' then (makeToken l1.advance TokenType.TOK_GE ">=", l1.advance)
        else (makeToken l1 TokenType.TOK_GT ">", l1)
      else if c = '~' then
        if l1.peek = '=' then (makeToken l1.advance TokenType.TOK_NE "~=", l1.advance)
        else (errorToken l1 ("Unexpected character " ++ String.mk [chSQuote, '~', chSQuote]), l1)
      else (errorToken l1 "Unexpected character", l1)

/-- `PeekToken(lexer)`: the next token, the lexer being restored. -/
def PeekToken (l : Lexer) : Token :=
  (NextToken l).1

/-- `TokenTypeName(type)`. -/
def TokenTypeName (type : TokenType) : String :=
  match type with
  | .TOK_NUMBER => "number" | .TOK_STRING => "string" | .TOK_NAME => "name"
  | .TOK_TRUE => "true" | .TOK_FALSE => "false" | .TOK_NIL => "nil"
  | .TOK_AND => "and" | .TOK_OR => "or" | .TOK_NOT => "not" | .TOK_IF => "if"
  | .TOK_THEN => "then" | .TOK_ELSE => "else" | .TOK_ELSEIF => "elseif"
  | .TOK_END => "end" | .TOK_WHILE => "while" | .TOK_DO => "do" | .TOK_FOR => "for"
  | .TOK_IN => "in" | .TOK_REPEAT => "repeat" | .TOK_UNTIL => "until"
  | .TOK_FUNCTION => "function" | .TOK_LOCAL => "local" | .TOK_RETURN => "return"
  | .TOK_BREAK => "break" | .TOK_EOF => "EOF" | .TOK_ERROR => "error"
  | _ => "token"

/-! ## Parser.h / Parser.c

The `line` field of an AST node is not modelled: nothing reads it except to
copy it into another node. -/

/-- A C `double` held in a number node. Integers are exact; the value of a
literal with a fraction, an exponent or a hex prefix is kept as its text. -/
inductive LuaNumber where
  | int (v : Int)
  | real (text : String)
deriving DecidableEq, Repr

/-- The struct `ASTNode`, one constructor per `NodeType` and its union member.
A NULL child is `none`; a `NodeList` is a list. -/
inductive ASTNode where
  | NODE_CHUNK (statements : List ASTNode)
  | NODE_BLOCK (statements : List ASTNode)
  | NODE_LOCAL (names : List ASTNode) (values : List ASTNode)
  | NODE_ASSIGN (targets : List ASTNode) (values : List ASTNode)
  | NODE_IF (condition : ASTNode) (thenBlock : ASTNode) (elseifs : List ASTNode)
      (elseBlock : Option ASTNode)
  | NODE_WHILE (condition : ASTNode) (body : ASTNode)
  | NODE_FOR_NUM (var : String) (start : ASTNode) (limit : ASTNode) (step : ASTNode)
      (body : ASTNode)
  | NODE_FOR_IN (names : List ASTNode) (iterators : List ASTNode) (body : ASTNode)
  | NODE_FUNCTION (name : Option String) (params : List ASTNode) (isVararg : Bool)
      (body : ASTNode)
  | NODE_LOCAL_FUNCTION (name : Option String) (params : List ASTNode) (isVararg : Bool)
      (body : ASTNode)
  | NODE_RETURN (values : List ASTNode)
  | NODE_BREAK
  | NODE_CALL (func : ASTNode) (args : List ASTNode)
  | NODE_METHOD_CALL (object : ASTNode) (method : String) (args : List ASTNode)
  | NODE_INDEX (object : ASTNode) (key : ASTNode)
  | NODE_DOT_INDEX (object : ASTNode) (field : String)
  | NODE_BINOP (op : String) (left : ASTNode) (right : ASTNode)
  | NODE_UNOP (op : String) (operand : ASTNode)
  | NODE_NUMBER (number : LuaNumber)
  | NODE_STRING (string : String)
  | NODE_BOOL (boolean : Bool)
  | NODE_NIL
  | NODE_NAME (string : String)
  | NODE_TABLE (fields : List ASTNode)
  | NODE_TABLE_FIELD (key : Option ASTNode) (value : ASTNode)
  | NODE_VARARG
deriving Repr

/-- The struct `Parser`: `lexer` is the lexer it owns. -/
structure Parser where
  lexer : Lexer
  current : Token
  previous : Token
  hadError : Bool
  errorMsg : String
deriving DecidableEq, Repr

/-- What `snprintf(buf, 256, ...)` leaves in a 256-byte buffer. -/
def snprintf256 (s : String) : String :=
  String.mk (s.toList.take 255)

/-- `advance(parser)`. -/
def Parser.advance (p : Parser) : Parser :=
  let r := NextToken p.lexer
  if r.1.type = TokenType.TOK_ERROR then
    { lexer := r.2, previous := p.current, current := r.1, hadError := true,
      errorMsg := snprintf256 ("Line " ++ toString r.1.line ++ ": " ++ r.1.value) }
  else { p with lexer := r.2, previous := p.current, current := r.1 }

/-- `check(parser, type)`. -/
def Parser.check (p : Parser) (type : TokenType) : Bool :=
  decide (p.current.type = type)

/-- `match(parser, type)`: the result and the parser afterwards. -/
def Parser.matchTok (p : Parser) (type : TokenType) : Bool × Parser :=
  if p.check type then (true, p.advance) else (false, p)

/-- `expect(parser, type, msg)`. -/
def Parser.expect (p : Parser) (type : TokenType) (msg : String) : Parser :=
  let r := p.matchTok type
  if r.1 then r.2
  else
    { r.2 with
      hadError := true
      errorMsg := snprintf256 ("Line " ++ toString r.2.current.line ++ ": Expected " ++ msg
        ++ ", got " ++ TokenTypeName r.2.current.type) }

/-- `CreateParser(source)`; the two token fields are uninitialised before the
first `advance` and are taken to be an EOF token. -/
def CreateParser (source : String) : Parser :=
  let l := CreateLexer source
  let t : Token := { type := TokenType.TOK_EOF, value := "", line := 1, column := 1 }
  Parser.advance { lexer := l, current := t, previous := t, hadError := false, errorMsg := "" }

/-- The text of a run of decimal digits as a number. -/
def digitsNat : List Char → Nat → Nat
  | [], acc => acc
  | c :: cs, acc => digitsNat cs (acc * 10 + (c.toNat - 48))

/-- C `atof` on the text of a number token, within the integer model of the
conventions: a run of decimal digits is its value, kept exactly (C rounds to
a double from 2^53 on); any other number text (hexadecimal, with a fraction
or an exponent) is not converted but kept as text. -/
def atof (value : String) : LuaNumber :=
  if value.toList.all isdigit ∧ value.toList ≠ [] then LuaNumber.int (digitsNat value.toList 0)
  else LuaNumber.real value

/-- `parseNumber(parser)`. -/
def parseNumber (p : Parser) : ASTNode :=
  ASTNode.NODE_NUMBER (atof p.previous.value)

/-- `parseString(parser)`. -/
def parseString (p : Parser) : ASTNode :=
  ASTNode.NODE_STRING p.previous.value

/-- `parseName(parser)`. -/
def parseName (p : Parser) : ASTNode :=
  ASTNode.NODE_NAME p.previous.value

/-- `getBinopPrecedence(type)`. -/
def getBinopPrecedence (type : TokenType) : Nat :=
  match type with
  | .TOK_OR => 1
  | .TOK_AND => 2
  | .TOK_LT | .TOK_GT | .TOK_LE | .TOK_GE | .TOK_NE | .TOK_EQ => 3
  | .TOK_DOTDOT => 4
  | .TOK_PLUS | .TOK_MINUS => 5
  | .TOK_STAR | .TOK_SLASH | .TOK_PERCENT => 6
  | .TOK_CARET => 8
  | _ => 0

/-- The block-ending tokens tested together in several places. -/
def Parser.atBlockEnd (p : Parser) : Bool :=
  p.check .TOK_END || p.check .TOK_ELSE || p.check .TOK_ELSEIF || p.check .TOK_UNTIL

/-- The loop over `.name` parts of `parseFunctionStatement`. -/
def parseFunctionNameDots : Nat → Parser → String → Option (String × Parser)
  | 0, _, _ => none
  | fuel + 1, p, name =>
      let m := p.matchTok .TOK_DOT
      if m.1 then
        let p1 := m.2.expect .TOK_NAME "field name"
        parseFunctionNameDots fuel p1 (name ++ "." ++ p1.previous.value)
      else some (name, p)

/-- The parameter loop shared by `parseFunctionBody` and
`parseFunctionStatement`: the parameters and the vararg flag. -/
def parseParams : Nat → Parser → List ASTNode → Option (List ASTNode × Bool × Parser)
  | 0, _, _ => none
  | fuel + 1, p, params =>
      if !p.check .TOK_RPAREN && !p.check .TOK_EOF then
        let m := p.matchTok .TOK_DOTDOTDOT
        if m.1 then some (params, true, m.2)
        else
          let p1 := p.expect .TOK_NAME "parameter name"
          let params1 := params ++ [ASTNode.NODE_NAME p1.previous.value]
          let c := p1.matchTok .TOK_COMMA
          if c.1 then parseParams fuel c.2 params1 else some (params1, false, c.2)
      else some (params, false, p)

/-- The loop `while (match(parser, TOK_COMMA))` over further loop variables of
a generic `for`. -/
def parseForNames : Nat → Parser → List ASTNode → Option (List ASTNode × Parser)
  | 0, _, _ => none
  | fuel + 1, p, names =>
      let m := p.matchTok .TOK_COMMA
      if m.1 then
        let p1 := m.2.expect .TOK_NAME "variable name"
        parseForNames fuel p1 (names ++ [ASTNode.NODE_NAME p1.previous.value])
      else some (names, p)

/-- The `do ... while (match(parser, TOK_COMMA))` loop over the names of a
`local` statement. -/
def parseLocalNames : Nat → Parser → List ASTNode → Option (List ASTNode × Parser)
  | 0, _, _ => none
  | fuel + 1, p, names =>
      let p1 := p.expect .TOK_NAME "variable name"
      let names1 := names ++ [ASTNode.NODE_NAME p1.previous.value]
      let m := p1.matchTok .TOK_COMMA
      if m.1 then parseLocalNames fuel m.2 names1 else some (names1, m.2)

/-- The test `!match(COMMA) && !match(SEMICOLON)` that ends the field loop of
a table constructor: whether a separator was consumed, and the parser. -/
def Parser.matchFieldSep (p : Parser) : Bool × Parser :=
  let m := p.matchTok .TOK_COMMA
  if m.1 then m else m.2.matchTok .TOK_SEMICOLON

/-- The test `match(NOT) || match(MINUS) || match(HASH)` of `parseUnaryExpr`. -/
def Parser.matchUnaryOp (p : Parser) : Bool × Parser :=
  let m := p.matchTok .TOK_NOT
  if m.1 then m
  else
    let m1 := m.2.matchTok .TOK_MINUS
    if m1.1 then m1 else m1.2.matchTok .TOK_HASH

/-- The error branch at the end of `parsePrimaryExpr`. -/
def Parser.expectedExpression (p : Parser) : Parser :=
  { p with
    hadError := true
    errorMsg := snprintf256 ("Line " ++ toString p.current.line ++ ": Expected expression, got "
      ++ TokenTypeName p.current.type) }

/-! The recursive-descent functions. Each takes a fuel argument that bounds the
depth of calls and the number of loop turns; `none` means that the fuel ran
out, which is how a C call that never returns shows up. -/

mutual

/-- The loop `while (!check(RBRACE) && !check(EOF))` of `parseTableConstructor`. -/
def parseTableFields : Nat → Parser → List ASTNode → Nat → Option (List ASTNode × Parser)
  | 0, _, _, _ => none
  | fuel + 1, p, fields, arrayIndex =>
      if !p.check .TOK_RBRACE && !p.check .TOK_EOF then
        if p.check .TOK_LBRACKET then
          match parseExpression fuel p.advance with
          | none => none
          | some (key, p2) =>
              let p4 := (p2.expect .TOK_RBRACKET "]").expect .TOK_ASSIGN "="
              match parseExpression fuel p4 with
              | none => none
              | some (value, p5) =>
                  let fields1 := fields ++ [ASTNode.NODE_TABLE_FIELD (some key) value]
                  let sep := p5.matchFieldSep
                  if sep.1 then parseTableFields fuel sep.2 fields1 arrayIndex
                  else some (fields1, sep.2)
        else if p.check .TOK_NAME && decide ((PeekToken p.lexer).type = .TOK_ASSIGN) then
          let p1 := p.advance
          let key := ASTNode.NODE_STRING p1.previous.value
          let p2 := p1.expect .TOK_ASSIGN "="
          match parseExpression fuel p2 with
          | none => none
          | some (value, p3) =>
              let fields1 := fields ++ [ASTNode.NODE_TABLE_FIELD (some key) value]
              let sep := p3.matchFieldSep
              if sep.1 then parseTableFields fuel sep.2 fields1 arrayIndex
              else some (fields1, sep.2)
        else
          let key := ASTNode.NODE_NUMBER (LuaNumber.int arrayIndex)
          match parseExpression fuel p with
          | none => none
          | some (value, p1) =>
              let fields1 := fields ++ [ASTNode.NODE_TABLE_FIELD (some key) value]
              let sep := p1.matchFieldSep
              if sep.1 then parseTableFields fuel sep.2 fields1 (arrayIndex + 1)
              else some (fields1, sep.2)
      else some (fields, p)

/-- `parseTableConstructor(parser)`. -/
def parseTableConstructor : Nat → Parser → Option (ASTNode × Parser)
  | 0, _ => none
  | fuel + 1, p =>
      match parseTableFields fuel p [] 1 with
      | none => none
      | some (fields, p1) => some (ASTNode.NODE_TABLE fields, p1.expect .TOK_RBRACE "\x7d")

/-- `parseFunctionBody(parser)`. -/
def parseFunctionBody : Nat → Parser → Option (ASTNode × Parser)
  | 0, _ => none
  | fuel + 1, p =>
      match parseParams fuel (p.expect .TOK_LPAREN "(") [] with
      | none => none
      | some (params, isVararg, p2) =>
          match parseBlock fuel (p2.expect .TOK_RPAREN ")") with
          | none => none
          | some (body, p4) =>
              some (ASTNode.NODE_FUNCTION none params isVararg body, p4.expect .TOK_END "end")

/-- `parsePrimaryExpr(parser)`. -/
def parsePrimaryExpr : Nat → Parser → Option (ASTNode × Parser)
  | 0, _ => none
  | fuel + 1, p =>
      if p.check .TOK_EOF then some (ASTNode.NODE_NIL, p)
      else
        let m := p.matchTok .TOK_LPAREN
        if m.1 then
          match parseExpression fuel m.2 with
          | none => none
          | some (expr, p2) => some (expr, p2.expect .TOK_RPAREN ")")
        else
          let n := m.2.matchTok .TOK_NAME
          if n.1 then some (parseName n.2, n.2)
          else if n.2.atBlockEnd then some (ASTNode.NODE_NIL, n.2)
          else some (ASTNode.NODE_NIL, n.2.expectedExpression)

/-- The loop `while (!check(RPAREN) && !check(EOF))` of `parseArgs`. -/
def parseArgList : Nat → Parser → List ASTNode → Option (List ASTNode × Parser)
  | 0, _, _ => none
  | fuel + 1, p, args =>
      if !p.check .TOK_RPAREN && !p.check .TOK_EOF then
        match parseExpression fuel p with
        | none => none
        | some (e, p1) =>
            let m := p1.matchTok .TOK_COMMA
            if m.1 then parseArgList fuel m.2 (args ++ [e]) else some (args ++ [e], m.2)
      else some (args, p)

/-- `parseArgs(parser)`. -/
def parseArgs : Nat → Parser → Option (List ASTNode × Parser)
  | 0, _ => none
  | fuel + 1, p =>
      if p.check .TOK_STRING then
        let p1 := p.advance
        some ([parseString p1], p1)
      else if p.check .TOK_LBRACE then
        match parseTableConstructor fuel p.advance with
        | none => none
        | some (t, p2) => some ([t], p2)
      else
        match parseArgList fuel (p.expect .TOK_LPAREN "(") [] with
        | none => none
        | some (args, p2) => some (args, p2.expect .TOK_RPAREN ")")

/-- The loop `while (1)` of `parseSuffixedExpr`. -/
def parseSuffixes : Nat → Parser → ASTNode → Option (ASTNode × Parser)
  | 0, _, _ => none
  | fuel + 1, p, expr =>
      let d := p.matchTok .TOK_DOT
      if d.1 then
        let p1 := d.2.expect .TOK_NAME "field name"
        parseSuffixes fuel p1 (ASTNode.NODE_DOT_INDEX expr p1.previous.value)
      else
        let b := d.2.matchTok .TOK_LBRACKET
        if b.1 then
          match parseExpression fuel b.2 with
          | none => none
          | some (key, p2) =>
              parseSuffixes fuel (p2.expect .TOK_RBRACKET "]") (ASTNode.NODE_INDEX expr key)
        else
          let c := b.2.matchTok .TOK_COLON
          if c.1 then
            let p1 := c.2.expect .TOK_NAME "method name"
            let method := p1.previous.value
            match parseArgs fuel p1 with
            | none => none
            | some (args, p2) => parseSuffixes fuel p2 (ASTNode.NODE_METHOD_CALL expr method args)
          else if c.2.check .TOK_LPAREN || c.2.check .TOK_STRING || c.2.check .TOK_LBRACE then
            match parseArgs fuel c.2 with
            | none => none
            | some (args, p2) => parseSuffixes fuel p2 (ASTNode.NODE_CALL expr args)
          else some (expr, c.2)

/-- `parseSuffixedExpr(parser)`. -/
def parseSuffixedExpr : Nat → Parser → Option (ASTNode × Parser)
  | 0, _ => none
  | fuel + 1, p =>
      match parsePrimaryExpr fuel p with
      | none => none
      | some (expr, p1) => parseSuffixes fuel p1 expr

/-- `parseSimpleExpr(parser)`. -/
def parseSimpleExpr : Nat → Parser → Option (ASTNode × Parser)
  | 0, _ => none
  | fuel + 1, p =>
      if p.check .TOK_NUMBER then some (parseNumber p.advance, p.advance)
      else if p.check .TOK_STRING then some (parseString p.advance, p.advance)
      else if p.check .TOK_TRUE then some (ASTNode.NODE_BOOL true, p.advance)
      else if p.check .TOK_FALSE then some (ASTNode.NODE_BOOL false, p.advance)
      else if p.check .TOK_NIL then some (ASTNode.NODE_NIL, p.advance)
      else if p.check .TOK_DOTDOTDOT then some (ASTNode.NODE_VARARG, p.advance)
      else if p.check .TOK_LBRACE then parseTableConstructor fuel p.advance
      else if p.check .TOK_FUNCTION then parseFunctionBody fuel p.advance
      else parseSuffixedExpr fuel p

/-- `parseUnaryExpr(parser)`. -/
def parseUnaryExpr : Nat → Parser → Option (ASTNode × Parser)
  | 0, _ => none
  | fuel + 1, p =>
      let m := p.matchUnaryOp
      if m.1 then
        match parseUnaryExpr fuel m.2 with
        | none => none
        | some (operand, p1) => some (ASTNode.NODE_UNOP m.2.previous.value operand, p1)
      else parseSimpleExpr fuel m.2

/-- The loop `while (1)` of `parseBinopExpr`. -/
def parseBinopLoop : Nat → Parser → Nat → ASTNode → Option (ASTNode × Parser)
  | 0, _, _, _ => none
  | fuel + 1, p, minPrec, left =>
      let prec := getBinopPrecedence p.current.type
      if prec < minPrec then some (left, p)
      else
        let op := p.current
        let p1 := p.advance
        let nextPrec :=
          if op.type = .TOK_CARET ∨ op.type = .TOK_DOTDOT then prec else prec + 1
        match parseBinopExpr fuel p1 nextPrec with
        | none => none
        | some (right, p2) => parseBinopLoop fuel p2 minPrec (ASTNode.NODE_BINOP op.value left right)

/-- `parseBinopExpr(parser, minPrec)`. -/
def parseBinopExpr : Nat → Parser → Nat → Option (ASTNode × Parser)
  | 0, _, _ => none
  | fuel + 1, p, minPrec =>
      match parseUnaryExpr fuel p with
      | none => none
      | some (left, p1) => parseBinopLoop fuel p1 minPrec left

/-- `parseExpression(parser)`. -/
def parseExpression : Nat → Parser → Option (ASTNode × Parser)
  | 0, _ => none
  | fuel + 1, p => parseBinopExpr fuel p 1

/-- The `do ... while (match(parser, TOK_COMMA))` loops that collect a list of
expressions (values of `local`, of an assignment, of `return`; further
iterators of a generic `for`). -/
def parseExprList : Nat → Parser → List ASTNode → Option (List ASTNode × Parser)
  | 0, _, _ => none
  | fuel + 1, p, acc =>
      match parseExpression fuel p with
      | none => none
      | some (e, p1) =>
          let m := p1.matchTok .TOK_COMMA
          if m.1 then parseExprList fuel m.2 (acc ++ [e]) else some (acc ++ [e], m.2)

/-- The loop `while (match(parser, TOK_ELSEIF))` of `parseIfStatement`. -/
def parseElseifs : Nat → Parser → List ASTNode → Option (List ASTNode × Parser)
  | 0, _, _ => none
  | fuel + 1, p, acc =>
      let m := p.matchTok .TOK_ELSEIF
      if m.1 then
        match parseExpression fuel m.2 with
        | none => none
        | some (cond, p1) =>
            match parseBlock fuel (p1.expect .TOK_THEN "then") with
            | none => none
            | some (blk, p2) => parseElseifs fuel p2 (acc ++ [ASTNode.NODE_IF cond blk [] none])
      else some (acc, m.2)

/-- `parseIfStatement(parser)`. -/
def parseIfStatement : Nat → Parser → Option (ASTNode × Parser)
  | 0, _ => none
  | fuel + 1, p =>
      match parseExpression fuel p with
      | none => none
      | some (cond, p1) =>
          match parseBlock fuel (p1.expect .TOK_THEN "then") with
          | none => none
          | some (thenBlock, p2) =>
              match parseElseifs fuel p2 [] with
              | none => none
              | some (elseifs, p3) =>
                  let m := p3.matchTok .TOK_ELSE
                  if m.1 then
                    match parseBlock fuel m.2 with
                    | none => none
                    | some (elseBlock, p4) =>
                        some (ASTNode.NODE_IF cond thenBlock elseifs (some elseBlock),
                          p4.expect .TOK_END "end")
                  else some (ASTNode.NODE_IF cond thenBlock elseifs none, m.2.expect .TOK_END "end")

/-- `parseWhileStatement(parser)`. -/
def parseWhileStatement : Nat → Parser → Option (ASTNode × Parser)
  | 0, _ => none
  | fuel + 1, p =>
      match parseExpression fuel p with
      | none => none
      | some (cond, p1) =>
          match parseBlock fuel (p1.expect .TOK_DO "do") with
          | none => none
          | some (body, p2) => some (ASTNode.NODE_WHILE cond body, p2.expect .TOK_END "end")

/-- `parseForStatement(parser)`. -/
def parseForStatement : Nat → Parser → Option (ASTNode × Parser)
  | 0, _ => none
  | fuel + 1, p =>
      let p1 := p.expect .TOK_NAME "variable name"
      let firstName := p1.previous.value
      let m := p1.matchTok .TOK_ASSIGN
      if m.1 then
        match parseExpression fuel m.2 with
        | none => none
        | some (start, p2) =>
            match parseExpression fuel (p2.expect .TOK_COMMA ",") with
            | none => none
            | some (limit, p3) =>
                let c := p3.matchTok .TOK_COMMA
                let stepr :=
                  if c.1 then parseExpression fuel c.2
                  else some (ASTNode.NODE_NUMBER (LuaNumber.int 1), c.2)
                match stepr with
                | none => none
                | some (step, p4) =>
                    match parseBlock fuel (p4.expect .TOK_DO "do") with
                    | none => none
                    | some (body, p5) =>
                        some (ASTNode.NODE_FOR_NUM firstName start limit step body,
                          p5.expect .TOK_END "end")
      else
        match parseForNames fuel m.2 [ASTNode.NODE_NAME firstName] with
        | none => none
        | some (names, p2) =>
            match parseExprList fuel (p2.expect .TOK_IN "in") [] with
            | none => none
            | some (iterators, p3) =>
                match parseBlock fuel (p3.expect .TOK_DO "do") with
                | none => none
                | some (body, p4) =>
                    some (ASTNode.NODE_FOR_IN names iterators body, p4.expect .TOK_END "end")

/-- `parseRepeatStatement(parser)`: a while node whose condition is negated. -/
def parseRepeatStatement : Nat → Parser → Option (ASTNode × Parser)
  | 0, _ => none
  | fuel + 1, p =>
      match parseBlock fuel p with
      | none => none
      | some (body, p1) =>
          match parseExpression fuel (p1.expect .TOK_UNTIL "until") with
          | none => none
          | some (cond, p2) => some (ASTNode.NODE_WHILE (ASTNode.NODE_UNOP "not" cond) body, p2)

/-- `parseFunctionStatement(parser, isLocal)`. -/
def parseFunctionStatement : Nat → Parser → Bool → Option (ASTNode × Parser)
  | 0, _, _ => none
  | fuel + 1, p, isLocal =>
      let p1 := p.expect .TOK_NAME "function name"
      match parseFunctionNameDots fuel p1 p1.previous.value with
      | none => none
      | some (name1, p2) =>
          let m := p2.matchTok .TOK_COLON
          let named :=
            if m.1 then
              let p3 := m.2.expect .TOK_NAME "method name"
              (name1 ++ ":" ++ p3.previous.value, p3)
            else (name1, m.2)
          match parseParams fuel (named.2.expect .TOK_LPAREN "(") [] with
          | none => none
          | some (params, isVararg, p5) =>
              match parseBlock fuel (p5.expect .TOK_RPAREN ")") with
              | none => none
              | some (body, p6) =>
                  let p7 := p6.expect .TOK_END "end"
                  if isLocal then
                    some (ASTNode.NODE_LOCAL_FUNCTION (some named.1) params isVararg body, p7)
                  else some (ASTNode.NODE_FUNCTION (some named.1) params isVararg body, p7)

/-- `parseLocalStatement(parser)`. -/
def parseLocalStatement : Nat → Parser → Option (ASTNode × Parser)
  | 0, _ => none
  | fuel + 1, p =>
      let f := p.matchTok .TOK_FUNCTION
      if f.1 then parseFunctionStatement fuel f.2 true
      else
        match parseLocalNames fuel f.2 [] with
        | none => none
        | some (names, p1) =>
            let m := p1.matchTok .TOK_ASSIGN
            if m.1 then
              match parseExprList fuel m.2 [] with
              | none => none
              | some (values, p2) => some (ASTNode.NODE_LOCAL names values, p2)
            else some (ASTNode.NODE_LOCAL names [], m.2)

/-- `parseReturnStatement(parser)`. -/
def parseReturnStatement : Nat → Parser → Option (ASTNode × Parser)
  | 0, _ => none
  | fuel + 1, p =>
      if !p.atBlockEnd && !p.check .TOK_EOF then
        match parseExprList fuel p [] with
        | none => none
        | some (values, p1) => some (ASTNode.NODE_RETURN values, p1)
      else some (ASTNode.NODE_RETURN [], p)

/-- The loop `while (parser->previous.type == TOK_COMMA)` over further
assignment targets in `parseStatement`. -/
def parseTargets : Nat → Parser → List ASTNode → Option (List ASTNode × Parser)
  | 0, _, _ => none
  | fuel + 1, p, targets =>
      if p.previous.type = .TOK_COMMA then
        match parseSuffixedExpr fuel p with
        | none => none
        | some (t, p1) =>
            let m := p1.matchTok .TOK_COMMA
            if m.1 then parseTargets fuel m.2 (targets ++ [t]) else some (targets ++ [t], m.2)
      else some (targets, p)

/-- `parseStatement(parser)`; a NULL result is `none` inside the pair. -/
def parseStatement : Nat → Parser → Option (Option ASTNode × Parser)
  | 0, _ => none
  | fuel + 1, p =>
      if p.check .TOK_EOF then some (none, p)
      else if p.check .TOK_SEMICOLON then some (none, p.advance)
      else if p.check .TOK_IF then
        (parseIfStatement fuel p.advance).map (fun r => (some r.1, r.2))
      else if p.check .TOK_WHILE then
        (parseWhileStatement fuel p.advance).map (fun r => (some r.1, r.2))
      else if p.check .TOK_FOR then
        (parseForStatement fuel p.advance).map (fun r => (some r.1, r.2))
      else if p.check .TOK_REPEAT then
        (parseRepeatStatement fuel p.advance).map (fun r => (some r.1, r.2))
      else if p.check .TOK_FUNCTION then
        (parseFunctionStatement fuel p.advance false).map (fun r => (some r.1, r.2))
      else if p.check .TOK_LOCAL then
        (parseLocalStatement fuel p.advance).map (fun r => (some r.1, r.2))
      else if p.check .TOK_RETURN then
        (parseReturnStatement fuel p.advance).map (fun r => (some r.1, r.2))
      else if p.check .TOK_BREAK then some (some ASTNode.NODE_BREAK, p.advance)
      else if p.check .TOK_DO then
        match parseBlock fuel p.advance with
        | none => none
        | some (block, p1) => some (some block, p1.expect .TOK_END "end")
      else if p.check .TOK_EOF || p.atBlockEnd then some (none, p)
      else if !p.check .TOK_NAME && !p.check .TOK_LPAREN then some (none, p)
      else
        match parseSuffixedExpr fuel p with
        | none => none
        | some (expr, p1) =>
            let a := p1.matchTok .TOK_ASSIGN
            let ac := if a.1 then a else a.2.matchTok .TOK_COMMA
            if ac.1 then
              match parseTargets fuel ac.2 [expr] with
              | none => none
              | some (targets, p2) =>
                  let p3 := if p2.previous.type ≠ .TOK_ASSIGN then p2.expect .TOK_ASSIGN "=" else p2
                  match parseExprList fuel p3 [] with
                  | none => none
                  | some (values, p4) => some (some (ASTNode.NODE_ASSIGN targets values), p4)
            else some (some expr, ac.2)

/-- The loop of `parseBlock`. -/
def parseBlockLoop : Nat → Parser → List ASTNode → Option (List ASTNode × Parser)
  | 0, _, _ => none
  | fuel + 1, p, stmts =>
      if !p.atBlockEnd && !p.check .TOK_EOF then
        match parseStatement fuel p with
        | none => none
        | some (stmt, p1) =>
            let stmts1 := match stmt with
              | some s => stmts ++ [s]
              | none => stmts
            parseBlockLoop fuel (p1.matchTok .TOK_SEMICOLON).2 stmts1
      else some (stmts, p)

/-- `parseBlock(parser)`. -/
def parseBlock : Nat → Parser → Option (ASTNode × Parser)
  | 0, _ => none
  | fuel + 1, p =>
      match parseBlockLoop fuel p [] with
      | none => none
      | some (stmts, p1) => some (ASTNode.NODE_BLOCK stmts, p1)

end

/-- The loop `while (!check(parser, TOK_EOF) && !parser->hadError)` of `Parse`. -/
def parseChunkLoop : Nat → Parser → List ASTNode → Option (List ASTNode × Parser)
  | 0, _, _ => none
  | fuel + 1, p, stmts =>
      if !p.check .TOK_EOF && !p.hadError then
        match parseStatement fuel p with
        | none => none
        | some (some stmt, p1) =>
            parseChunkLoop fuel (p1.matchTok .TOK_SEMICOLON).2 (stmts ++ [stmt])
        | some (none, p1) =>
            let p2 :=
              if !p1.check .TOK_EOF then (if !p1.hadError then p1.advance else p1) else p1
            parseChunkLoop fuel (p2.matchTok .TOK_SEMICOLON).2 stmts
      else some (stmts, p)

/-- `Parse(parser)`: the chunk node and the parser afterwards (whose
`hadError` and `errorMsg` the caller reads); `none` if the fuel runs out. -/
def Parse (fuel : Nat) (p : Parser) : Option (ASTNode × Parser) :=
  match parseChunkLoop fuel p [] with
  | none => none
  | some (stmts, p1) => some (ASTNode.NODE_CHUNK stmts, p1)

/-! ## Compiler.h / Compiler.c -/

/-- `MAX_LOCALS`. -/
def MAX_LOCALS : Nat := 200

/-- The struct `Local`. -/
structure Local where
  name : String
  depth : Int
  slot : Int
deriving DecidableEq, Repr

/-- The struct `Compiler`: `locals` lists `locals[0 .. localCount-1]`. The
upvalue and break-jump fields are never used by the code and are left out. -/
structure Compiler where
  chunk : BytecodeChunk
  locals : List Local
  scopeDepth : Int
  stackTop : Int
  maxStack : Int
deriving DecidableEq, Repr

/-- The struct `CompilerState`, with the static counter `funcCounter` of
Compiler.c. `luaOverrun` records that a function text reached the 4096 bytes
of its buffer `luaCode`, after which the C code truncates or writes past it. -/
structure CompilerState where
  current : Compiler
  parser : Parser
  hadError : Bool
  errorMsg : String
  funcCounter : Nat
  luaOverrun : Bool
deriving DecidableEq, Repr

/-- The decimal digits of `n`, most significant first. -/
def natDigits : Nat → Nat → List Char
  | 0, _ => []
  | fuel + 1, n =>
      if n < 10 then [Char.ofNat (48 + n)]
      else natDigits fuel (n / 10) ++ [Char.ofNat (48 + n % 10)]

/-- The text `printf` gives for `%d` of a natural number. -/
def natText (n : Nat) : String :=
  String.mk (natDigits (n + 1) n)

/-- The text `snprintf(buf, 64, "%.17g", value)` gives, within the integer
model of the conventions: for an integer below 2^53 in magnitude its decimal
digits (from 2^53 on C prints the digits of the rounded double, the model
the exact digits). A number kept as text stays as it is, where C prints the
17 significant digits of its double. -/
def fmtG17 : LuaNumber → String
  | .int (Int.ofNat n) => natText n
  | .int (Int.negSucc n) => "-" ++ natText (n + 1)
  | .real text => text

/-- `emitInstruction(state, op, a, b, c)`; the index it returns is the length
of the instruction list before the call. -/
def emitInstruction (st : CompilerState) (op : OpCode) (a b c : Int) : CompilerState :=
  { st with current := { st.current with chunk := AddInstruction st.current.chunk op a b c } }

/-- `currentChunk(state)->Count`. -/
def CompilerState.count (st : CompilerState) : Int :=
  (st.current.chunk.Instructions.length : Int)

/-- The assignment `currentChunk(state)->Instructions[idx].B = b`. -/
def patchB (st : CompilerState) (idx : Int) (b : Int) : CompilerState :=
  { st with current := { st.current with chunk := { st.current.chunk with
      Instructions := st.current.chunk.Instructions.modify (fun ins => { ins with B := b })
        idx.toNat } } }

/-- `addConstant(state, value)`: the index of the first equal entry, else the
value is appended with `AddConstant`. -/
def addConstant (st : CompilerState) (value : String) : Nat × CompilerState :=
  if value ∈ st.current.chunk.Constants then
    (st.current.chunk.Constants.indexOf value, st)
  else
    (st.current.chunk.Constants.length,
      { st with current := { st.current with chunk := AddConstant st.current.chunk value } })

/-- `addNumberConstant(state, value)`. -/
def addNumberConstant (st : CompilerState) (value : LuaNumber) : Nat × CompilerState :=
  addConstant st (fmtG17 value)

/-- `initCompiler(state, compiler)`. -/
def initCompiler (st : CompilerState) : CompilerState :=
  { st with current :=
      { chunk := CreateChunk, locals := [], scopeDepth := 0, stackTop := 0, maxStack := 0 } }

/-- `resolveLocal(compiler, name)`: the slot of the last local of that name,
or -1. -/
def resolveLocal (compiler : Compiler) (name : String) : Int :=
  match compiler.locals.reverse.find? (fun l => l.name == name) with
  | some l => l.slot
  | none => -1

/-- `addLocal(state, name)` without its return value. -/
def addLocal (st : CompilerState) (name : String) : CompilerState :=
  if MAX_LOCALS ≤ st.current.locals.length then
    { st with hadError := true, errorMsg := "Too many local variables" }
  else
    let localCount : Int := (st.current.locals.length : Int) + 1
    let stackTop := if st.current.stackTop < localCount then localCount else st.current.stackTop
    let maxStack := if stackTop > st.current.maxStack then stackTop else st.current.maxStack
    { st with current := { st.current with
        locals := st.current.locals ++
          [{ name := name, depth := st.current.scopeDepth, slot := localCount - 1 }]
        stackTop := stackTop
        maxStack := maxStack } }

/-- The value `addLocal` returns when called in state `st`. -/
def addLocalSlot (st : CompilerState) : Int :=
  if MAX_LOCALS ≤ st.current.locals.length then -1 else (st.current.locals.length : Int)

/-- `beginScope(state)`. -/
def beginScope (st : CompilerState) : CompilerState :=
  { st with current := { st.current with scopeDepth := st.current.scopeDepth + 1 } }

/-- The loop of `endScope`: locals are removed from the end while their depth
exceeds `scopeDepth`. -/
def popLocals (scopeDepth : Int) (locals : List Local) : List Local :=
  (locals.reverse.dropWhile (fun l => decide (l.depth > scopeDepth))).reverse

/-- `endScope(state)`. -/
def endScope (st : CompilerState) : CompilerState :=
  { st with current := { st.current with
      scopeDepth := st.current.scopeDepth - 1
      locals := popLocals (st.current.scopeDepth - 1) st.current.locals } }

/-- `allocReg(state)` without its return value, which is the old `stackTop`. -/
def allocReg (st : CompilerState) : CompilerState :=
  let stackTop := st.current.stackTop + 1
  { st with current := { st.current with
      stackTop := stackTop
      maxStack := if stackTop > st.current.maxStack then stackTop else st.current.maxStack } }

/-- `freeReg(state)`. -/
def freeReg (st : CompilerState) : CompilerState :=
  { st with current := { st.current with stackTop := st.current.stackTop - 1 } }

/-- `compileNumber(state, node, reg)`. -/
def compileNumber (st : CompilerState) (number : LuaNumber) (reg : Int) : CompilerState :=
  let r := addNumberConstant st number
  emitInstruction r.2 .OP_LOADK reg r.1 0

/-- `compileString(state, node, reg)`. -/
def compileString (st : CompilerState) (string : String) (reg : Int) : CompilerState :=
  let r := addConstant st string
  emitInstruction r.2 .OP_LOADK reg r.1 0

/-- `compileBool(state, node, reg)`. -/
def compileBool (st : CompilerState) (boolean : Bool) (reg : Int) : CompilerState :=
  emitInstruction st .OP_LOADBOOL reg (if boolean then 1 else 0) 0

/-- `compileNil(state, node, reg)`. -/
def compileNil (st : CompilerState) (reg : Int) : CompilerState :=
  emitInstruction st .OP_LOADNIL reg 0 0

/-- `compileName(state, node, reg)`. -/
def compileName (st : CompilerState) (name : String) (reg : Int) : CompilerState :=
  let loc := resolveLocal st.current name
  if loc ≠ -1 then
    if loc ≠ reg then emitInstruction st .OP_MOVE reg loc 0 else st
  else
    let r := addConstant st name
    emitInstruction r.2 .OP_GETGLOBAL reg r.1 0

/-- The member `data.string` of a name or string node (the node kinds the
parser puts where the compiler reads it). -/
def ASTNode.dataString : ASTNode → String
  | .NODE_NAME s => s
  | .NODE_STRING s => s
  | _ => ""

/-- The opcode chosen by the `strcmp` chain of `compileBinop`. -/
def binopOpcode (op : String) : Option OpCode :=
  if op = "+" then some .OP_ADD
  else if op = "-" then some .OP_SUB
  else if op = "*" then some .OP_MUL
  else if op = "/" then some .OP_DIV
  else if op = "%" then some .OP_MOD
  else if op = "^" then some .OP_POW
  else if op = ".." then some .OP_CONCAT
  else if op = "==" then some .OP_EQ
  else if op = "~=" then some .OP_EQ
  else if op = "<" then some .OP_LT
  else if op = "<=" then some .OP_LE
  else if op = ">" then some .OP_LT
  else if op = ">=" then some .OP_LE
  else none

/-- The test of `compileIf` and `compileWhile` for a direct comparison. -/
def isComparisonOp (op : String) : Bool :=
  op = "<" || op = "<=" || op = ">" || op = ">=" || op = "==" || op = "~="

/-- The comparison instruction emitted inline by `compileIf` and
`compileWhile`: opcode, invert flag, and whether the operands are swapped. -/
def comparisonParts (op : String) : OpCode × Int × Bool :=
  if op = "<" then (.OP_LT, 0, false)
  else if op = "<=" then (.OP_LE, 0, false)
  else if op = ">" then (.OP_LT, 0, true)
  else if op = ">=" then (.OP_LE, 0, true)
  else if op = "==" then (.OP_EQ, 0, false)
  else (.OP_EQ, 1, false)

/-- The first loop of `compileTable`: the counts `arraySize` and `hashSize`. -/
def tableSizes : List ASTNode → Int × Int
  | [] => (0, 0)
  | field :: rest =>
      let r := tableSizes rest
      match field with
      | .NODE_TABLE_FIELD none _ => (r.1 + 1, r.2)
      | .NODE_TABLE_FIELD (some (.NODE_NUMBER _)) _ => (r.1 + 1, r.2)
      | .NODE_TABLE_FIELD (some _) _ => (r.1, r.2 + 1)
      | _ => (r.1 + 1, r.2)

/-- The numeric value of `node->type`, as printed by the `%d` of the
"Cannot compile expression type" message. -/
def ASTNode.typeNum : ASTNode → Nat
  | .NODE_CHUNK _ => 0 | .NODE_BLOCK _ => 1 | .NODE_LOCAL _ _ => 2 | .NODE_ASSIGN _ _ => 3
  | .NODE_IF _ _ _ _ => 4 | .NODE_WHILE _ _ => 5 | .NODE_FOR_NUM _ _ _ _ _ => 6
  | .NODE_FOR_IN _ _ _ => 7 | .NODE_FUNCTION _ _ _ _ => 9 | .NODE_LOCAL_FUNCTION _ _ _ _ => 10
  | .NODE_RETURN _ => 11 | .NODE_BREAK => 12 | .NODE_CALL _ _ => 13
  | .NODE_METHOD_CALL _ _ _ => 14 | .NODE_INDEX _ _ => 15 | .NODE_DOT_INDEX _ _ => 16
  | .NODE_BINOP _ _ _ => 17 | .NODE_UNOP _ _ => 18 | .NODE_NUMBER _ => 19 | .NODE_STRING _ => 20
  | .NODE_BOOL _ => 21 | .NODE_NIL => 22 | .NODE_NAME _ => 23 | .NODE_TABLE _ => 24
  | .NODE_TABLE_FIELD _ _ => 25 | .NODE_VARARG => 26

/-- The names of a parameter or variable list joined by commas, as the
`snprintf` loops of `astToLua` and `compileFunction` write them. -/
def joinNames : List ASTNode → String
  | [] => ""
  | [n] => n.dataString
  | n :: rest => n.dataString ++ "," ++ joinNames rest

/-- The guard `*pos >= bufSize - 100` at the head of `astToLua` and
`astExprToLua`, for the 4096-byte buffer `luaCode`. -/
def luaBufFull (buf : String) : Bool :=
  decide (4096 - 100 ≤ buf.length)

/-! `astExprToLua` and `astToLua` render a function body back to source text.
`buf` is the text written so far (`*pos` is its length). The bound of each
`snprintf` is not modelled; `luaOverrun` of the compiler state records when
the text reaches the size of the buffer. -/

mutual

/-- The loops over a `NodeList` that write its expressions separated by
commas. -/
def astExprListToLua : Nat → List ASTNode → Bool → String → Option String
  | 0, _, _, _ => none
  | _ + 1, [], _, buf => some buf
  | fuel + 1, e :: rest, first, buf =>
      match astExprToLua fuel e (if first then buf else buf ++ ",") with
      | none => none
      | some buf1 => astExprListToLua fuel rest false buf1

/-- The loop over the fields of a table constructor in `astExprToLua`. -/
def astFieldsToLua : Nat → List ASTNode → Bool → String → Option String
  | 0, _, _, _ => none
  | _ + 1, [], _, buf => some buf
  | fuel + 1, f :: rest, first, buf =>
      let buf0 := if first then buf else buf ++ ","
      match f with
      | .NODE_TABLE_FIELD (some key) value =>
          match astExprToLua fuel key (buf0 ++ "[") with
          | none => none
          | some buf1 =>
              match astExprToLua fuel value (buf1 ++ "]=") with
              | none => none
              | some buf2 => astFieldsToLua fuel rest false buf2
      | .NODE_TABLE_FIELD none value =>
          match astExprToLua fuel value buf0 with
          | none => none
          | some buf1 => astFieldsToLua fuel rest false buf1
      | other =>
          match astExprToLua fuel other buf0 with
          | none => none
          | some buf1 => astFieldsToLua fuel rest false buf1

/-- `astExprToLua(node, buf, bufSize, pos)`. -/
def astExprToLua : Nat → ASTNode → String → Option String
  | 0, _, _ => none
  | fuel + 1, node, buf =>
      if luaBufFull buf then some buf
      else
        match node with
        | .NODE_NUMBER number => some (buf ++ fmtG17 number)
        | .NODE_STRING string => some (buf ++ String.mk [chDQuote] ++ string ++ String.mk [chDQuote])
        | .NODE_NAME string => some (buf ++ string)
        | .NODE_BOOL boolean => some (buf ++ (if boolean then "true" else "false"))
        | .NODE_NIL => some (buf ++ "nil")
        | .NODE_BINOP op left right =>
            match astExprToLua fuel left (buf ++ "(") with
            | none => none
            | some buf1 =>
                match astExprToLua fuel right (buf1 ++ op) with
                | none => none
                | some buf2 => some (buf2 ++ ")")
        | .NODE_UNOP op operand =>
            match astExprToLua fuel operand (buf ++ "(" ++ op) with
            | none => none
            | some buf1 => some (buf1 ++ ")")
        | .NODE_CALL func args =>
            match astExprToLua fuel func buf with
            | none => none
            | some buf1 =>
                match astExprListToLua fuel args true (buf1 ++ "(") with
                | none => none
                | some buf2 => some (buf2 ++ ")")
        | .NODE_METHOD_CALL object method args =>
            match astExprToLua fuel object buf with
            | none => none
            | some buf1 =>
                match astExprListToLua fuel args true (buf1 ++ ":" ++ method ++ "(") with
                | none => none
                | some buf2 => some (buf2 ++ ")")
        | .NODE_DOT_INDEX object field =>
            match astExprToLua fuel object buf with
            | none => none
            | some buf1 => some (buf1 ++ "." ++ field)
        | .NODE_INDEX object key =>
            match astExprToLua fuel object buf with
            | none => none
            | some buf1 =>
                match astExprToLua fuel key (buf1 ++ "[") with
                | none => none
                | some buf2 => some (buf2 ++ "]")
        | .NODE_TABLE fields =>
            match astFieldsToLua fuel fields true (buf ++ "\x7b") with
            | none => none
            | some buf1 => some (buf1 ++ "\x7d")
        | .NODE_FUNCTION _ params _ body =>
            match astToLua fuel body (buf ++ "function(" ++ joinNames params ++ ")") with
            | none => none
            | some buf1 => some (buf1 ++ " end")
        | _ => some buf

/-- The loop over the statements of a block in `astToLua`. -/
def astStatementsToLua : Nat → List ASTNode → String → Option String
  | 0, _, _ => none
  | _ + 1, [], buf => some buf
  | fuel + 1, st :: rest, buf =>
      match astToLua fuel st buf with
      | none => none
      | some buf1 => astStatementsToLua fuel rest buf1

/-- `astToLua(node, buf, bufSize, pos)`. -/
def astToLua : Nat → ASTNode → String → Option String
  | 0, _, _ => none
  | fuel + 1, node, buf =>
      if luaBufFull buf then some buf
      else
        match node with
        | .NODE_BLOCK statements => astStatementsToLua fuel statements buf
        | .NODE_LOCAL names values =>
            match values with
            | [] => some (buf ++ "local " ++ joinNames names ++ " ")
            | _ =>
                match astExprListToLua fuel values true (buf ++ "local " ++ joinNames names ++ "=") with
                | none => none
                | some buf1 => some (buf1 ++ " ")
        | .NODE_ASSIGN targets values =>
            match astExprListToLua fuel targets true buf with
            | none => none
            | some buf1 =>
                match astExprListToLua fuel values true (buf1 ++ "=") with
                | none => none
                | some buf2 => some (buf2 ++ " ")
        | .NODE_IF condition thenBlock _ elseBlock =>
            match astExprToLua fuel condition (buf ++ "if ") with
            | none => none
            | some buf1 =>
                match astToLua fuel thenBlock (buf1 ++ " then ") with
                | none => none
                | some buf2 =>
                    match elseBlock with
                    | some eb =>
                        match astToLua fuel eb (buf2 ++ " else ") with
                        | none => none
                        | some buf3 => some (buf3 ++ " end ")
                    | none => some (buf2 ++ " end ")
        | .NODE_WHILE condition body =>
            match astExprToLua fuel condition (buf ++ "while ") with
            | none => none
            | some buf1 =>
                match astToLua fuel body (buf1 ++ " do ") with
                | none => none
                | some buf2 => some (buf2 ++ " end ")
        | .NODE_FOR_NUM var start limit step body =>
            match astExprToLua fuel start (buf ++ "for " ++ var ++ "=") with
            | none => none
            | some buf1 =>
                match astExprToLua fuel limit (buf1 ++ ",") with
                | none => none
                | some buf2 =>
                    match astExprToLua fuel step (buf2 ++ ",") with
                    | none => none
                    | some buf3 =>
                        match astToLua fuel body (buf3 ++ " do ") with
                        | none => none
                        | some buf4 => some (buf4 ++ " end ")
        | .NODE_FOR_IN names iterators body =>
            match astExprListToLua fuel iterators true (buf ++ "for " ++ joinNames names ++ " in ") with
            | none => none
            | some buf1 =>
                match astToLua fuel body (buf1 ++ " do ") with
                | none => none
                | some buf2 => some (buf2 ++ " end ")
        | .NODE_RETURN values =>
            match astExprListToLua fuel values true (buf ++ "return ") with
            | none => none
            | some buf1 => some (buf1 ++ " ")
        | .NODE_BREAK => some (buf ++ "break ")
        | .NODE_CALL func args =>
            match astExprToLua fuel (.NODE_CALL func args) buf with
            | none => none
            | some buf1 => some (buf1 ++ " ")
        | .NODE_METHOD_CALL object method args =>
            match astExprToLua fuel (.NODE_METHOD_CALL object method args) buf with
            | none => none
            | some buf1 => some (buf1 ++ " ")
        | .NODE_LOCAL_FUNCTION name params _ body =>
            let head := match name with
              | some n => "local function " ++ n ++ "("
              | none => "local function("
            match astToLua fuel body (buf ++ head ++ joinNames params ++ ")") with
            | none => none
            | some buf1 => some (buf1 ++ " end ")
        | .NODE_FUNCTION name params _ body =>
            let head := match name with
              | some n => "local function " ++ n ++ "("
              | none => "local function("
            match astToLua fuel body (buf ++ head ++ joinNames params ++ ")") with
            | none => none
            | some buf1 => some (buf1 ++ " end ")
        | _ => some buf

end

/-- The text built in `luaCode` by `compileFunction` and by the function case
of `compileExpressionToReg`. -/
def functionLuaCode (fuel : Nat) (funcCounter : Nat) (params : List ASTNode) (body : ASTNode) :
    Option String :=
  match astToLua fuel body ("__lua__--[[" ++ natText funcCounter ++ "]]function("
      ++ joinNames params ++ ")") with
  | none => none
  | some buf => some (buf ++ " end")

/-- The tail of the function cases: the text is interned and a CLOSURE
instruction is emitted into `reg`; the static counter has been incremented. -/
def emitClosure (st : CompilerState) (luaCode : String) (reg : Int) (paramCount : Nat) :
    CompilerState :=
  let st1 := { st with luaOverrun := st.luaOverrun || decide (4096 ≤ luaCode.length) }
  let r := addConstant st1 luaCode
  emitInstruction r.2 .OP_CLOSURE reg r.1 paramCount

/-- The loop `for (i = 0; i < count; i++) addLocal(state, names[i])`. -/
def addLocals (st : CompilerState) : List ASTNode → CompilerState
  | [] => st
  | n :: rest => addLocals (addLocal st n.dataString) rest

/-- The loop `for (i = 0; i < valueCount; i++) freeReg(state)`. -/
def freeRegs (st : CompilerState) : Nat → CompilerState
  | 0 => st
  | n + 1 => freeRegs (freeReg st) n

/-! The compile functions. As for the parser, the fuel argument bounds the
depth of calls and the number of loop turns, and `none` means it ran out. -/

mutual

/-- The loops that compile the expressions of a list into consecutive
registers starting at `reg` (arguments, return values, iterators). -/
def compileExprsInto : Nat → CompilerState → List ASTNode → Int → Option CompilerState
  | 0, _, _, _ => none
  | _ + 1, st, [], _ => some st
  | fuel + 1, st, e :: rest, reg =>
      match compileExpressionToReg fuel st e reg with
      | none => none
      | some st1 => compileExprsInto fuel st1 rest (reg + 1)

/-- `compileCall(state, node, reg)`. -/
def compileCall : Nat → CompilerState → ASTNode → List ASTNode → Int → Option CompilerState
  | 0, _, _, _, _ => none
  | fuel + 1, st, func, args, reg =>
      match compileExpressionToReg fuel st func reg with
      | none => none
      | some st1 =>
          match compileExprsInto fuel st1 args (reg + 1) with
          | none => none
          | some st2 => some (emitInstruction st2 .OP_CALL reg ((args.length : Int) + 1) 2)

/-- `compileMethodCall(state, node, reg)`. -/
def compileMethodCall : Nat → CompilerState → ASTNode → String → List ASTNode → Int →
    Option CompilerState
  | 0, _, _, _, _, _ => none
  | fuel + 1, st, object, method, args, reg =>
      match compileExpressionToReg fuel st object reg with
      | none => none
      | some st1 =>
          let r := addConstant st1 method
          let st2 := emitInstruction r.2 .OP_SELF reg reg ((r.1 ||| 0x100 : Nat) : Int)
          match compileExprsInto fuel st2 args (reg + 2) with
          | none => none
          | some st3 => some (emitInstruction st3 .OP_CALL reg ((args.length : Int) + 2) 2)

/-- `compileDotIndex(state, node, reg)`. -/
def compileDotIndex : Nat → CompilerState → ASTNode → String → Int → Option CompilerState
  | 0, _, _, _, _ => none
  | fuel + 1, st, object, field, reg =>
      match compileExpressionToReg fuel st object reg with
      | none => none
      | some st1 =>
          let r := addConstant st1 field
          some (emitInstruction r.2 .OP_GETTABLE reg reg ((r.1 ||| 0x100 : Nat) : Int))

/-- `compileIndex(state, node, reg)`. -/
def compileIndex : Nat → CompilerState → ASTNode → ASTNode → Int → Option CompilerState
  | 0, _, _, _, _ => none
  | fuel + 1, st, object, key, reg =>
      match compileExpressionToReg fuel st object reg with
      | none => none
      | some st1 =>
          let keyReg := st1.current.stackTop
          match compileExpressionToReg fuel (allocReg st1) key keyReg with
          | none => none
          | some st2 => some (freeReg (emitInstruction st2 .OP_GETTABLE reg reg keyReg))

/-- The second loop of `compileTable`, over the fields, with the running
`arrayIdx`. -/
def compileTableFields : Nat → CompilerState → List ASTNode → Int → Int → Option CompilerState
  | 0, _, _, _, _ => none
  | _ + 1, st, [], _, _ => some st
  | fuel + 1, st, field :: rest, reg, arrayIdx =>
      match field with
      | .NODE_TABLE_FIELD (some (.NODE_STRING keyStr)) value =>
          let valReg := st.current.stackTop
          let r := addConstant (allocReg st) keyStr
          match compileExpressionToReg fuel r.2 value valReg with
          | none => none
          | some st1 =>
              compileTableFields fuel
                (freeReg (emitInstruction st1 .OP_SETTABLE reg ((r.1 ||| 0x100 : Nat) : Int) valReg))
                rest reg arrayIdx
      | .NODE_TABLE_FIELD (some (.NODE_NAME keyStr)) value =>
          let valReg := st.current.stackTop
          let r := addConstant (allocReg st) keyStr
          match compileExpressionToReg fuel r.2 value valReg with
          | none => none
          | some st1 =>
              compileTableFields fuel
                (freeReg (emitInstruction st1 .OP_SETTABLE reg ((r.1 ||| 0x100 : Nat) : Int) valReg))
                rest reg arrayIdx
      | .NODE_TABLE_FIELD (some (.NODE_NUMBER _)) value =>
          let valReg := st.current.stackTop
          match compileExpressionToReg fuel (allocReg st) value valReg with
          | none => none
          | some st1 =>
              compileTableFields fuel (freeReg (emitInstruction st1 .OP_SETLIST reg 1 arrayIdx))
                rest reg (arrayIdx + 1)
      | .NODE_TABLE_FIELD none value =>
          let valReg := st.current.stackTop
          match compileExpressionToReg fuel (allocReg st) value valReg with
          | none => none
          | some st1 =>
              compileTableFields fuel (freeReg (emitInstruction st1 .OP_SETLIST reg 1 arrayIdx))
                rest reg (arrayIdx + 1)
      | .NODE_TABLE_FIELD (some key) value =>
          let keyReg := st.current.stackTop
          let valReg := st.current.stackTop + 1
          match compileExpressionToReg fuel (allocReg (allocReg st)) key keyReg with
          | none => none
          | some st1 =>
              match compileExpressionToReg fuel st1 value valReg with
              | none => none
              | some st2 =>
                  compileTableFields fuel
                    (freeReg (freeReg (emitInstruction st2 .OP_SETTABLE reg keyReg valReg)))
                    rest reg arrayIdx
      | other =>
          let valReg := st.current.stackTop
          match compileExpressionToReg fuel (allocReg st) other valReg with
          | none => none
          | some st1 =>
              compileTableFields fuel (freeReg (emitInstruction st1 .OP_SETLIST reg 1 arrayIdx))
                rest reg (arrayIdx + 1)

/-- `compileTable(state, node, reg)`. -/
def compileTable : Nat → CompilerState → List ASTNode → Int → Option CompilerState
  | 0, _, _, _ => none
  | fuel + 1, st, fields, reg =>
      let sizes := tableSizes fields
      compileTableFields fuel (emitInstruction st .OP_NEWTABLE reg sizes.1 sizes.2) fields reg 1

/-- `compileBinop(state, node, reg)`. -/
def compileBinop : Nat → CompilerState → String → ASTNode → ASTNode → Int → Option CompilerState
  | 0, _, _, _, _, _ => none
  | fuel + 1, st, op, left, right, reg =>
      if op = "and" ∨ op = "or" then
        match compileExpressionToReg fuel st left reg with
        | none => none
        | some st1 =>
            let st2 := emitInstruction st1 .OP_TEST reg 0 (if op = "or" then 1 else 0)
            let jmpIdx := st2.count
            let st3 := emitInstruction st2 .OP_JMP 0 0 0
            match compileExpressionToReg fuel st3 right reg with
            | none => none
            | some st4 => some (patchB st4 jmpIdx (st4.count - jmpIdx - 1))
      else
        let leftReg := st.current.stackTop
        let rightReg := st.current.stackTop + 1
        match compileExpressionToReg fuel (allocReg (allocReg st)) left leftReg with
        | none => none
        | some st1 =>
            match compileExpressionToReg fuel st1 right rightReg with
            | none => none
            | some st2 =>
                match binopOpcode op with
                | none =>
                    some (freeReg { st2 with
                      hadError := true
                      errorMsg := snprintf256 ("Unknown operator: " ++ op) })
                | some opcode =>
                    if opcode = .OP_EQ ∨ opcode = .OP_LT ∨ opcode = .OP_LE then
                      let invert : Int := if op = "~=" then 1 else 0
                      let swapped := op = ">" ∨ op = ">="
                      let st3 :=
                        if swapped then emitInstruction st2 opcode invert rightReg leftReg
                        else emitInstruction st2 opcode invert leftReg rightReg
                      let st4 := emitInstruction st3 .OP_JMP 0 1 0
                      let st5 := emitInstruction st4 .OP_LOADBOOL reg 0 1
                      let st6 := emitInstruction st5 .OP_LOADBOOL reg 1 0
                      some (freeReg (freeReg st6))
                    else some (freeReg (freeReg (emitInstruction st2 opcode reg leftReg rightReg)))

/-- `compileUnop(state, node, reg)`. -/
def compileUnop : Nat → CompilerState → String → ASTNode → Int → Option CompilerState
  | 0, _, _, _, _ => none
  | fuel + 1, st, op, operand, reg =>
      match compileExpressionToReg fuel st operand reg with
      | none => none
      | some st1 =>
          if op = "-" then some (emitInstruction st1 .OP_UNM reg reg 0)
          else if op = "not" then some (emitInstruction st1 .OP_NOT reg reg 0)
          else if op = "#" then some (emitInstruction st1 .OP_LEN reg reg 0)
          else some st1

/-- `compileExpressionToReg(state, node, reg)`. -/
def compileExpressionToReg : Nat → CompilerState → ASTNode → Int → Option CompilerState
  | 0, _, _, _ => none
  | fuel + 1, st, node, reg =>
      match node with
      | .NODE_NUMBER number => some (compileNumber st number reg)
      | .NODE_STRING string => some (compileString st string reg)
      | .NODE_BOOL boolean => some (compileBool st boolean reg)
      | .NODE_NIL => some (compileNil st reg)
      | .NODE_NAME string => some (compileName st string reg)
      | .NODE_CALL func args => compileCall fuel st func args reg
      | .NODE_METHOD_CALL object method args => compileMethodCall fuel st object method args reg
      | .NODE_DOT_INDEX object field => compileDotIndex fuel st object field reg
      | .NODE_INDEX object key => compileIndex fuel st object key reg
      | .NODE_TABLE fields => compileTable fuel st fields reg
      | .NODE_BINOP op left right => compileBinop fuel st op left right reg
      | .NODE_UNOP op operand => compileUnop fuel st op operand reg
      | .NODE_FUNCTION _ params _ body =>
          match functionLuaCode fuel st.funcCounter params body with
          | none => none
          | some luaCode =>
              some (emitClosure { st with funcCounter := st.funcCounter + 1 } luaCode reg
                params.length)
      | other =>
          some { st with
            hadError := true
            errorMsg := snprintf256 ("Cannot compile expression type " ++ natText other.typeNum) }

/-- The second loop of `compileLocal`: value `i` goes into slot
`firstSlot + i`, and a name without a value gets LOADNIL. -/
def compileLocalValues : Nat → CompilerState → Nat → List ASTNode → Int → Option CompilerState
  | 0, _, _, _, _ => none
  | _ + 1, st, 0, _, _ => some st
  | fuel + 1, st, count + 1, values, slot =>
      match values with
      | v :: rest =>
          match compileExpressionToReg fuel st v slot with
          | none => none
          | some st1 => compileLocalValues fuel st1 count rest (slot + 1)
      | [] => compileLocalValues fuel (emitInstruction st .OP_LOADNIL slot 0 0) count [] (slot + 1)

/-- `compileLocal(state, node)`. -/
def compileLocal : Nat → CompilerState → List ASTNode → List ASTNode → Option CompilerState
  | 0, _, _, _ => none
  | fuel + 1, st, names, values =>
      let firstSlot : Int := (st.current.locals.length : Int)
      compileLocalValues fuel (addLocals st names) names.length values firstSlot

/-- The first loop of `compileAssign`: each value into a fresh register. -/
def compileAssignValues : Nat → CompilerState → List ASTNode → Option CompilerState
  | 0, _, _ => none
  | _ + 1, st, [] => some st
  | fuel + 1, st, v :: rest =>
      let reg := st.current.stackTop
      match compileExpressionToReg fuel (allocReg st) v reg with
      | none => none
      | some st1 => compileAssignValues fuel st1 rest

/-- The second loop of `compileAssign`, over the targets; `i` is the index of
the target and `valueReg` is `baseReg + i` or -1. -/
def compileAssignTargets : Nat → CompilerState → List ASTNode → Nat → Nat → Int →
    Option CompilerState
  | 0, _, _, _, _, _ => none
  | _ + 1, st, [], _, _, _ => some st
  | fuel + 1, st, target :: rest, i, valueCount, baseReg =>
      let valueReg : Int := if i < valueCount then baseReg + i else -1
      match target with
      | .NODE_NAME name =>
          let loc := resolveLocal st.current name
          if loc ≠ -1 then
            if valueReg ≥ 0 then
              compileAssignTargets fuel (emitInstruction st .OP_MOVE loc valueReg 0) rest (i + 1)
                valueCount baseReg
            else
              compileAssignTargets fuel (emitInstruction st .OP_LOADNIL loc 0 0) rest (i + 1)
                valueCount baseReg
          else
            let r := addConstant st name
            if valueReg ≥ 0 then
              compileAssignTargets fuel (emitInstruction r.2 .OP_SETGLOBAL valueReg r.1 0) rest
                (i + 1) valueCount baseReg
            else
              let nilReg := r.2.current.stackTop
              let st1 := emitInstruction (allocReg r.2) .OP_LOADNIL nilReg 0 0
              compileAssignTargets fuel (freeReg (emitInstruction st1 .OP_SETGLOBAL nilReg r.1 0))
                rest (i + 1) valueCount baseReg
      | .NODE_DOT_INDEX object field =>
          let objReg := st.current.stackTop
          match compileExpressionToReg fuel (allocReg st) object objReg with
          | none => none
          | some st1 =>
              let r := addConstant st1 field
              compileAssignTargets fuel
                (freeReg (emitInstruction r.2 .OP_SETTABLE objReg ((r.1 ||| 0x100 : Nat) : Int)
                  (if valueReg ≥ 0 then valueReg else objReg)))
                rest (i + 1) valueCount baseReg
      | .NODE_INDEX object key =>
          let objReg := st.current.stackTop
          let keyReg := st.current.stackTop + 1
          match compileExpressionToReg fuel (allocReg (allocReg st)) object objReg with
          | none => none
          | some st1 =>
              match compileExpressionToReg fuel st1 key keyReg with
              | none => none
              | some st2 =>
                  compileAssignTargets fuel
                    (freeReg (freeReg (emitInstruction st2 .OP_SETTABLE objReg keyReg
                      (if valueReg ≥ 0 then valueReg else objReg))))
                    rest (i + 1) valueCount baseReg
      | _ => compileAssignTargets fuel st rest (i + 1) valueCount baseReg

/-- `compileAssign(state, node)`. -/
def compileAssign : Nat → CompilerState → List ASTNode → List ASTNode → Option CompilerState
  | 0, _, _, _ => none
  | fuel + 1, st, targets, values =>
      let baseReg := st.current.stackTop
      match compileAssignValues fuel st values with
      | none => none
      | some st1 =>
          match compileAssignTargets fuel st1 targets 0 values.length baseReg with
          | none => none
          | some st2 => some (freeRegs st2 values.length)

/-- The condition part shared by `compileIf` and `compileWhile`: a direct
comparison is emitted inline, anything else is computed and tested. The
result is the state after the JMP has been emitted; the index of that JMP is
the instruction count just before. `freeBeforeTest` is the order of `freeReg`
and the TEST in the fallback, which differs between the two callers. -/
def compileCondition : Nat → CompilerState → ASTNode → Bool → Option CompilerState
  | 0, _, _, _ => none
  | fuel + 1, st, cond, freeBeforeTest =>
      match cond with
      | .NODE_BINOP op left right =>
          if isComparisonOp op then
            let leftReg := st.current.stackTop
            let rightReg := st.current.stackTop + 1
            match compileExpressionToReg fuel (allocReg (allocReg st)) left leftReg with
            | none => none
            | some st1 =>
                match compileExpressionToReg fuel st1 right rightReg with
                | none => none
                | some st2 =>
                    let parts := comparisonParts op
                    let st3 :=
                      if parts.2.2 then emitInstruction st2 parts.1 parts.2.1 rightReg leftReg
                      else emitInstruction st2 parts.1 parts.2.1 leftReg rightReg
                    some (emitInstruction (freeReg (freeReg st3)) .OP_JMP 0 0 0)
          else
            let condReg := st.current.stackTop
            match compileExpressionToReg fuel (allocReg st) cond condReg with
            | none => none
            | some st1 =>
                if freeBeforeTest then
                  some (emitInstruction (emitInstruction (freeReg st1) .OP_TEST condReg 0 0)
                    .OP_JMP 0 0 0)
                else
                  some (emitInstruction (freeReg (emitInstruction st1 .OP_TEST condReg 0 0))
                    .OP_JMP 0 0 0)
      | _ =>
          let condReg := st.current.stackTop
          match compileExpressionToReg fuel (allocReg st) cond condReg with
          | none => none
          | some st1 =>
              if freeBeforeTest then
                some (emitInstruction (emitInstruction (freeReg st1) .OP_TEST condReg 0 0)
                  .OP_JMP 0 0 0)
              else
                some (emitInstruction (freeReg (emitInstruction st1 .OP_TEST condReg 0 0))
                  .OP_JMP 0 0 0)

/-- The loop over `elseifs` in `compileIf`; `elseJump` is the index of the
pending jump to the end, or -1. Returns the state and the new `elseJump`. -/
def compileElseifs : Nat → CompilerState → List ASTNode → Int → Option (CompilerState × Int)
  | 0, _, _, _ => none
  | _ + 1, st, [], elseJump => some (st, elseJump)
  | fuel + 1, st, elseif :: rest, elseJump =>
      match elseif with
      | .NODE_IF condition thenBlock _ _ =>
          let condReg2 := st.current.stackTop
          match compileExpressionToReg fuel (allocReg st) condition condReg2 with
          | none => none
          | some st1 =>
              let st2 := emitInstruction (freeReg st1) .OP_TEST condReg2 0 0
              let elseifJump := st2.count
              let st3 := emitInstruction st2 .OP_JMP 0 0 0
              match compileNode fuel (beginScope st3) thenBlock with
              | none => none
              | some st4 =>
                  let st5 := endScope st4
                  let nextJump := st5.count
                  let st6 := emitInstruction st5 .OP_JMP 0 0 0
                  let st7 := patchB st6 elseifJump (st6.count - elseifJump - 1)
                  let st8 := if elseJump ≥ 0 then patchB st7 elseJump (st7.count - elseJump - 1)
                    else st7
                  compileElseifs fuel st8 rest nextJump
      | _ => compileElseifs fuel st rest elseJump

/-- `compileIf(state, node)`. -/
def compileIf : Nat → CompilerState → ASTNode → ASTNode → List ASTNode → Option ASTNode →
    Option CompilerState
  | 0, _, _, _, _, _ => none
  | fuel + 1, st, cond, thenBlock, elseifs, elseBlock =>
      match compileCondition fuel st cond true with
      | none => none
      | some st1 =>
          let thenJump := st1.count - 1
          match compileNode fuel (beginScope st1) thenBlock with
          | none => none
          | some st2 =>
              let st3 := endScope st2
              let hasElse := elseBlock.isSome || decide (elseifs.length > 0)
              let elseJump0 : Int := if hasElse then st3.count else -1
              let st4 := if hasElse then emitInstruction st3 .OP_JMP 0 0 0 else st3
              let st5 := patchB st4 thenJump (st4.count - thenJump - 1)
              match compileElseifs fuel st5 elseifs elseJump0 with
              | none => none
              | some (st6, elseJump) =>
                  let st8r :=
                    match elseBlock with
                    | some eb =>
                        match compileNode fuel (beginScope st6) eb with
                        | none => none
                        | some st7 => some (endScope st7)
                    | none => some st6
                  match st8r with
                  | none => none
                  | some st8 =>
                      if elseJump ≥ 0 then some (patchB st8 elseJump (st8.count - elseJump - 1))
                      else some st8

/-- `compileWhile(state, node)`. -/
def compileWhile : Nat → CompilerState → ASTNode → ASTNode → Option CompilerState
  | 0, _, _, _ => none
  | fuel + 1, st, cond, body =>
      let loopStart := st.count
      match compileCondition fuel st cond false with
      | none => none
      | some st1 =>
          let exitJump := st1.count - 1
          match compileNode fuel (beginScope st1) body with
          | none => none
          | some st2 =>
              let st3 := endScope st2
              let loopJump := st3.count
              let st4 := emitInstruction st3 .OP_JMP 0 0 0
              let st5 := patchB st4 loopJump (loopStart - loopJump - 1)
              some (patchB st5 exitJump (st5.count - exitJump - 1))

/-- `compileForNum(state, node)`. -/
def compileForNum : Nat → CompilerState → String → ASTNode → ASTNode → ASTNode → ASTNode →
    Option CompilerState
  | 0, _, _, _, _, _, _ => none
  | fuel + 1, st, var, start, limit, step, body =>
      let st0 := beginScope st
      let base : Int := (st0.current.locals.length : Int)
      let st1 := addLocal (addLocal (addLocal (addLocal st0 "(for index)") "(for limit)")
        "(for step)") var
      match compileExpressionToReg fuel st1 start base with
      | none => none
      | some st2 =>
          match compileExpressionToReg fuel st2 limit (base + 1) with
          | none => none
          | some st3 =>
              match compileExpressionToReg fuel st3 step (base + 2) with
              | none => none
              | some st4 =>
                  let prepIdx := st4.count
                  let st5 := emitInstruction st4 .OP_FORPREP base 0 0
                  let loopStart := st5.count
                  match compileNode fuel st5 body with
                  | none => none
                  | some st6 =>
                      let loopIdx := st6.count
                      let st7 := emitInstruction st6 .OP_FORLOOP base 0 0
                      let st8 := patchB st7 prepIdx (loopIdx - prepIdx - 1)
                      let st9 := patchB st8 loopIdx (loopIdx - loopStart + 1)
                      some (endScope st9)

/-- `compileForIn(state, node)`. -/
def compileForIn : Nat → CompilerState → List ASTNode → List ASTNode → ASTNode →
    Option CompilerState
  | 0, _, _, _, _ => none
  | fuel + 1, st, names, iterators, body =>
      let st0 := beginScope st
      let base : Int := (st0.current.locals.length : Int)
      let st1 := addLocals (addLocal (addLocal (addLocal st0 "(for generator)") "(for state)")
        "(for control)") names
      match compileExprsInto fuel st1 (iterators.take 3) base with
      | none => none
      | some st2 =>
          let loopStart := st2.count
          let st3 := emitInstruction st2 .OP_TFORLOOP base 0 (names.length : Int)
          let exitJump := st3.count
          let st4 := emitInstruction st3 .OP_JMP 0 0 0
          match compileNode fuel st4 body with
          | none => none
          | some st5 =>
              let backJump := st5.count
              let st6 := emitInstruction st5 .OP_JMP 0 0 0
              let st7 := patchB st6 backJump (loopStart - backJump - 1)
              let st8 := patchB st7 exitJump (st7.count - exitJump - 1)
              some (endScope st8)

/-- `compileReturn(state, node)`. -/
def compileReturn : Nat → CompilerState → List ASTNode → Option CompilerState
  | 0, _, _ => none
  | fuel + 1, st, values =>
      let base := st.current.stackTop
      match compileExprsInto fuel st values base with
      | none => none
      | some st1 => some (emitInstruction st1 .OP_RETURN base ((values.length : Int) + 1) 0)

/-- `compileFunction(state, node)`; `isLocal` tells a `NODE_LOCAL_FUNCTION`. -/
def compileFunction : Nat → CompilerState → Bool → Option String → List ASTNode → ASTNode →
    Option CompilerState
  | 0, _, _, _, _, _ => none
  | fuel + 1, st, isLocal, funcName, params, body =>
      let funcSlot : Int :=
        match isLocal, funcName with
        | true, some _ => addLocalSlot st
        | _, _ => -1
      let st1 :=
        match isLocal, funcName with
        | true, some n => addLocal st n
        | _, _ => st
      match functionLuaCode fuel st1.funcCounter params body with
      | none => none
      | some luaCode =>
          let st2 := { st1 with funcCounter := st1.funcCounter + 1 }
          if funcSlot ≥ 0 then some (emitClosure st2 luaCode funcSlot params.length)
          else some st2

/-- `compileStatement(state, node)`. -/
def compileStatement : Nat → CompilerState → ASTNode → Option CompilerState
  | 0, _, _ => none
  | fuel + 1, st, node =>
      match node with
      | .NODE_LOCAL names values => compileLocal fuel st names values
      | .NODE_ASSIGN targets values => compileAssign fuel st targets values
      | .NODE_IF cond thenBlock elseifs elseBlock => compileIf fuel st cond thenBlock elseifs elseBlock
      | .NODE_WHILE cond body => compileWhile fuel st cond body
      | .NODE_FOR_NUM var start limit step body => compileForNum fuel st var start limit step body
      | .NODE_FOR_IN names iterators body => compileForIn fuel st names iterators body
      | .NODE_RETURN values => compileReturn fuel st values
      | .NODE_BREAK => some (emitInstruction st .OP_JMP 0 0 0)
      | .NODE_FUNCTION name params _ body => compileFunction fuel st false name params body
      | .NODE_LOCAL_FUNCTION name params _ body => compileFunction fuel st true name params body
      | .NODE_CALL func args =>
          let reg := st.current.stackTop
          match compileExpressionToReg fuel (allocReg st) (.NODE_CALL func args) reg with
          | none => none
          | some st1 => some (freeReg st1)
      | .NODE_METHOD_CALL object method args =>
          let reg := st.current.stackTop
          match compileExpressionToReg fuel (allocReg st) (.NODE_METHOD_CALL object method args) reg with
          | none => none
          | some st1 => some (freeReg st1)
      | _ => some st

/-- The loop of `compileNode` over the statements of a chunk or block. -/
def compileStatements : Nat → CompilerState → List ASTNode → Option CompilerState
  | 0, _, _ => none
  | _ + 1, st, [] => some st
  | fuel + 1, st, s :: rest =>
      match compileStatement fuel st s with
      | none => none
      | some st1 => compileStatements fuel st1 rest

/-- `compileNode(state, node)` for a non-NULL node. -/
def compileNode : Nat → CompilerState → ASTNode → Option CompilerState
  | 0, _, _ => none
  | fuel + 1, st, node =>
      if st.hadError then some st
      else
        match node with
        | .NODE_CHUNK statements => compileStatements fuel st statements
        | .NODE_BLOCK statements => compileStatements fuel st statements
        | other => compileStatement fuel st other

end

/-- `CreateCompilerState(source)`; `current` is NULL until `initCompiler` and
is shown as an empty compiler. `funcCounter` starts at 0, its value before
the first compilation of the process. -/
def CreateCompilerState (source : String) : CompilerState :=
  { current := { chunk := CreateChunk, locals := [], scopeDepth := 0, stackTop := 0, maxStack := 0 }
    parser := CreateParser source
    hadError := false
    errorMsg := ""
    funcCounter := 0
    luaOverrun := false }

/-- The part of `Compile` that follows a parse without error: `initCompiler`,
`compileNode`, the final `RETURN 0 1 0`, and the test of `hadError`. -/
def compileParsed (fuel : Nat) (st : CompilerState) (ast : ASTNode) :
    Option (Option BytecodeChunk × CompilerState) :=
  match compileNode fuel (initCompiler st) ast with
  | none => none
  | some st1 =>
      let st2 := emitInstruction st1 .OP_RETURN 0 1 0
      if st2.hadError then some (none, st2) else some (some st2.current.chunk, st2)

/-- `Compile(state)`: the chunk returned (`none` for NULL) and the state
afterwards. The outer `none` means that the fuel ran out. -/
def Compile (fuel : Nat) (st : CompilerState) : Option (Option BytecodeChunk × CompilerState) :=
  match Parse fuel st.parser with
  | none => none
  | some (ast, parser1) =>
      if parser1.hadError then
        some (none, { st with parser := parser1, hadError := true, errorMsg := parser1.errorMsg })
      else compileParsed fuel { st with parser := parser1 } ast

/-- The chunk `Compile` returns for a source text, when it returns one. -/
def compileSource (fuel : Nat) (source : String) : Option BytecodeChunk :=
  match Compile fuel (CreateCompilerState source) with
  | some (some chunk, _) => some chunk
  | _ => none


/-! ## GenerateObfuscatedScript: the function side table -/

/-- The test `strlen(c) > 7 && strncmp(c, "__lua__", 7) == 0` on a constant. -/
def hasLuaMarker (c : String) : Bool :=
  decide (c.length > 7) && (c.take 7 == "__lua__")

/-- The loop of `GenerateObfuscatedScript` over the constants, started with
the function texts `funcCodes` found so far: a constant that passes the test
is appended to `funcCodes` without its first 7 characters and is replaced by
the decimal text of its index there. The result is the final `funcCodes` and
the constants as they are serialized. -/
def extractFunctions : List String → List String → List String × List String
  | [], funcCodes => (funcCodes, [])
  | c :: rest, funcCodes =>
      if hasLuaMarker c then
        let r := extractFunctions rest (funcCodes ++ [c.drop 7])
        (r.1, natText funcCodes.length :: r.2)
      else
        let r := extractFunctions rest funcCodes
        (r.1, c :: r.2)

/-- The chunk that `GenerateObfuscatedScript` hands to
`SerializeBytecodeWithMapping`: the constants are the replaced ones. -/
def scriptChunk (chunk : BytecodeChunk) : BytecodeChunk :=
  { chunk with Constants := (extractFunctions chunk.Constants []).2 }

/-- The text `local _F=...;` written into the generated script: the function
texts are put into a table constructor as they are, separated by commas. -/
def functionTable (funcCodes : List String) : String :=
  if funcCodes.length > 0 then "local _F=\x7b" ++ String.intercalate "," funcCodes ++ "\x7d;"
  else "local _F=\x7b\x7d;"
/-! ## Definitions used in the statements of the theorems -/

/-- A chunk with the constant `print` and the instruction `GETGLOBAL 0 0 0`. -/
def chunkPrint : BytecodeChunk :=
  { Instructions := [{ Op := .OP_GETGLOBAL, A := 0, B := 0, C := 0 }]
    Constants := ["print"]
    overrun := false }

/-- A chunk value with 256 (empty) constants and no instruction. -/
def chunk256 : BytecodeChunk :=
  { Instructions := []
    Constants := List.replicate 256 ""
    overrun := true }

/-- A chunk whose only constant has 65536 bytes, as a string literal of that
length in the source gives. -/
def chunkLong : BytecodeChunk :=
  { Instructions := []
    Constants := [String.mk (List.replicate 65536 'a')]
    overrun := false }

/-- A byte list followed by the zero bytes that fill its last group of four:
what encoding a short final group and decoding it again yields. -/
def padTo4 (data : List Nat) : List Nat :=
  data ++ List.replicate ((4 - data.length % 4) % 4) 0

/-- Every local was declared at a depth that is still open: its depth does not
exceed the current scope depth. This holds in every state the compiler
reaches, and it is what lets `endScope` remove exactly the locals of the
scope it closes. -/
def LocalsOK (st : CompilerState) : Prop :=
  ∀ l ∈ st.current.locals, l.depth ≤ st.current.scopeDepth

/-- The properties of a function compiler carried through the compile
functions: the locals are well scoped and the constant pool has no
duplicates. -/
def CompOK (c : Compiler) : Prop :=
  (∀ l ∈ c.locals, l.depth ≤ c.scopeDepth) ∧ c.chunk.Constants.Nodup

/-- The state properties carried through the compile functions. -/
def PoolOK (st : CompilerState) : Prop :=
  CompOK st.current

/-- What the compilation of an expression leaves unchanged: the scope depth
and the list of locals. -/
def SameScope (st st1 : CompilerState) : Prop :=
  st1.current.scopeDepth = st.current.scopeDepth ∧ st1.current.locals = st.current.locals

/-- What the compilation of a statement does to the scope: the depth is
unchanged and the locals are those before, followed by locals declared at the
current depth. -/
def ExtendsScope (st st1 : CompilerState) : Prop :=
  st1.current.scopeDepth = st.current.scopeDepth
    ∧ ∃ extra : List Local, st1.current.locals = st.current.locals ++ extra
        ∧ ∀ l ∈ extra, l.depth = st.current.scopeDepth

/-- The property proved of a step that compiles expressions: from a good state
it returns, if it returns, a good state with the same scope. -/
def ExprOK (st : CompilerState) (r : Option CompilerState) : Prop :=
  PoolOK st → ∀ st1, r = some st1 → PoolOK st1 ∧ SameScope st st1

/-- The property proved of a step that compiles statements: from a good state
it returns, if it returns, a good state whose scope extends the one before. -/
def StmtOK (st : CompilerState) (r : Option CompilerState) : Prop :=
  PoolOK st → ∀ st1, r = some st1 → PoolOK st1 ∧ ExtendsScope st st1

/-- The properties of all the compile functions at one amount of fuel. -/
structure AllGood (fuel : Nat) : Prop where
  exprsInto : ∀ st es reg, ExprOK st (compileExprsInto fuel st es reg)
  call : ∀ st func args reg, ExprOK st (compileCall fuel st func args reg)
  methodCall : ∀ st object method args reg,
    ExprOK st (compileMethodCall fuel st object method args reg)
  dotIndex : ∀ st object field reg, ExprOK st (compileDotIndex fuel st object field reg)
  index : ∀ st object key reg, ExprOK st (compileIndex fuel st object key reg)
  tableFields : ∀ st fields reg arrayIdx,
    ExprOK st (compileTableFields fuel st fields reg arrayIdx)
  table : ∀ st fields reg, ExprOK st (compileTable fuel st fields reg)
  binop : ∀ st op left right reg, ExprOK st (compileBinop fuel st op left right reg)
  unop : ∀ st op operand reg, ExprOK st (compileUnop fuel st op operand reg)
  expr : ∀ st node reg, ExprOK st (compileExpressionToReg fuel st node reg)
  localValues : ∀ st count values slot,
    ExprOK st (compileLocalValues fuel st count values slot)
  localStmt : ∀ st names values, StmtOK st (compileLocal fuel st names values)
  assignValues : ∀ st values, ExprOK st (compileAssignValues fuel st values)
  assignTargets : ∀ st targets i valueCount baseReg,
    ExprOK st (compileAssignTargets fuel st targets i valueCount baseReg)
  assign : ∀ st targets values, ExprOK st (compileAssign fuel st targets values)
  condition : ∀ st cond freeBeforeTest, ExprOK st (compileCondition fuel st cond freeBeforeTest)
  elseifs : ∀ st elseifs elseJump,
    ExprOK st ((compileElseifs fuel st elseifs elseJump).map Prod.fst)
  ifStmt : ∀ st cond thenBlock elseifs elseBlock,
    ExprOK st (compileIf fuel st cond thenBlock elseifs elseBlock)
  whileStmt : ∀ st cond body, ExprOK st (compileWhile fuel st cond body)
  forNum : ∀ st var start limit step body,
    ExprOK st (compileForNum fuel st var start limit step body)
  forIn : ∀ st names iterators body, ExprOK st (compileForIn fuel st names iterators body)
  returnStmt : ∀ st values, ExprOK st (compileReturn fuel st values)
  function : ∀ st isLocal funcName params body,
    StmtOK st (compileFunction fuel st isLocal funcName params body)
  statement : ∀ st node, StmtOK st (compileStatement fuel st node)
  statements : ∀ st nodes, StmtOK st (compileStatements fuel st nodes)
  node : ∀ st node, StmtOK st (compileNode fuel st node)

/-- The syntax tree of `if a then if b then if c then local y = 1 end end end`:
a local declared inside three nested if-blocks. -/
def nestedIf3 : ASTNode :=
  .NODE_IF (.NODE_NAME "a")
    (.NODE_BLOCK [.NODE_IF (.NODE_NAME "b")
      (.NODE_BLOCK [.NODE_IF (.NODE_NAME "c")
        (.NODE_BLOCK [.NODE_LOCAL [.NODE_NAME "y"] [.NODE_NUMBER (.int 1)]]) [] none]) [] none])
    [] none

/-- The compiler state at the start of a compilation, after `initCompiler`. -/
def startState : CompilerState :=
  initCompiler (CreateCompilerState "")

/-- The cursor value at which the first instruction starts in the serialized
buffer of a chunk with constants `cs`: after the version byte, the count byte
and the constants (the cursor counts from 1). -/
def codeBase (cs : List String) : Int :=
  3 + ((cs.flatMap serializeConstant).length : Int)

/-- The value the loader of the generated script stores for a constant text:
`tonumber(s) or s`. -/
def constValue (s : String) : Value :=
  match tonumber s with
  | some x => Value.num x
  | none => Value.str s

/-- The text the loader rebuilds from the bytes written for a constant. -/
def loadedText (s : String) : String :=
  String.mk ((strBytes s).map Char.ofNat)

/-- The state of the generated script running the chunk `chunk` under the
opcode map `opcodeMap`, with the cursor at instruction `i` (counted from 0):
the decoded bytes are those of the serialized chunk and the constant table
holds the loaded constants. -/
structure VMAt (chunk : BytecodeChunk) (opcodeMap : List Nat) (i : Nat) (vm : VM) : Prop where
  hD : vm.D = serializeBuffer chunk opcodeMap
  hpos : vm.pos = codeBase chunk.Constants + 6 * (i : Int)
  hK : vm.K = chunk.Constants.map (fun s => constValue (loadedText s))

/-- The operand ranges within which the six bytes written for an instruction
give back its fields when the dispatch loop reads them: `A` is one byte, `B` a
signed and `C` an unsigned 16-bit value. -/
def Instruction.fits (ins : Instruction) : Prop :=
  (0 ≤ ins.A ∧ ins.A < 256) ∧ (-32768 ≤ ins.B ∧ ins.B < 32768) ∧ (0 ≤ ins.C ∧ ins.C < 65536)

/-- The table `H` holds for every canonical opcode the handler written for
it, under the byte the opcode map gives it. -/
def HandlersOK (opcodeMap : List Nat) (H : List (Nat × Handler)) : Prop :=
  ∀ op : OpCode, lookupHandler H (opcodeMap.getD op.toNat 0 % 256) = some (Handler.real op)

/-- From `vm` the dispatch loop reaches `vm1` after some number of turns: any
run of the loop from `vm` with at least that many turns goes through `vm1`. -/
def Reaches (H : List (Nat × Handler)) (vm vm1 : VM) : Prop :=
  ∃ k, ∀ n, vmRun H (k + n) vm = vmRun H n vm1

/-- The state of the generated script running the chunk `chunk` under the
opcode map `opcodeMap` on the bytes that `d85` returns for the encoded chunk,
which are the serialized bytes followed by the zero bytes that fill the last
group of four, with the cursor at instruction `i` (counted from 0) and the
constants loaded. -/
structure DecodedAt (chunk : BytecodeChunk) (opcodeMap : List Nat) (i : Nat) (vm : VM) :
    Prop where
  hD : vm.D = padTo4 (serializeBuffer chunk opcodeMap)
  hpos : vm.pos = codeBase chunk.Constants + 6 * (i : Int)
  hK : vm.K = chunk.Constants.map (fun s => constValue (loadedText s))

/-- The dispatch loop started in `vm` is in `vm1` after exactly `k` turns:
a run of `k` turns ends in `vm1`, and a run of `k + n` turns continues from
`vm1` for `n` turns. -/
def Turns (H : List (Nat × Handler)) (k : Nat) (vm vm1 : VM) : Prop :=
  ∀ n, vmRun H (k + n) vm = vmRun H n vm1

/-- The binary operators of arithmetic expressions. -/
inductive ArithOp where
  | add | sub | mul | div | mod | pow
deriving DecidableEq, Repr

/-- The operator as the lexer reads it and the parser stores it in the node. -/
def ArithOp.text : ArithOp → String
  | .add => "+" | .sub => "-" | .mul => "*" | .div => "/" | .mod => "%" | .pow => "^"

/-- The opcode of the operator. -/
def ArithOp.opcode : ArithOp → OpCode
  | .add => .OP_ADD | .sub => .OP_SUB | .mul => .OP_MUL
  | .div => .OP_DIV | .mod => .OP_MOD | .pow => .OP_POW

/-- The value of an operator on two integers where Lua's result is again an
integer: a division must be exact, a modulus needs a nonzero divisor (the
result has the sign of the divisor), a power a natural exponent. -/
def ArithOp.apply : ArithOp → Int → Int → Option Int
  | .add, a, b => some (a + b)
  | .sub, a, b => some (a - b)
  | .mul, a, b => some (a * b)
  | .div, a, b => if b ≠ 0 ∧ a % b = 0 then some (a / b) else none
  | .mod, a, b => if b ≠ 0 then some (Int.fmod a b) else none
  | .pow, a, b => if 0 ≤ b then some (a ^ b.toNat) else none

/-- Arithmetic expressions: integer literals, unary minus and the binary
operators. Parentheses are the shape of the tree. -/
inductive ArithExpr where
  | lit (n : Nat)
  | neg (e : ArithExpr)
  | bin (op : ArithOp) (l r : ArithExpr)
deriving DecidableEq, Repr

/-- The syntax tree the parser builds for an arithmetic expression. -/
def ArithExpr.toAST : ArithExpr → ASTNode
  | .lit n => .NODE_NUMBER (.int (n : Int))
  | .neg e => .NODE_UNOP "-" e.toAST
  | .bin op l r => .NODE_BINOP op.text l.toAST r.toAST

/-- The value of an arithmetic expression, when every literal and every
intermediate result is an integer below 2^53 in magnitude, the range in which
Lua's numbers are exact. -/
def ArithExpr.value : ArithExpr → Option Int
  | .lit n => if n < 2 ^ 53 then some (n : Int) else none
  | .neg e =>
      match e.value with
      | some a => some (-a)
      | none => none
  | .bin op l r =>
      match l.value, r.value with
      | some a, some b =>
          match op.apply a b with
          | some v => if -(2 ^ 53) < v ∧ v < 2 ^ 53 then some v else none
          | none => none
      | _, _ => none

/-- The number of registers above the stack top that the code of an
expression uses for its operands: two for each level of binary operators. -/
def ArithExpr.regs : ArithExpr → Nat
  | .lit _ => 0
  | .neg e => e.regs
  | .bin _ l r => 2 + max l.regs r.regs

/-- The literals of an expression, from left to right. -/
def ArithExpr.literals : ArithExpr → List Nat
  | .lit n => [n]
  | .neg e => e.literals
  | .bin _ l r => l.literals ++ r.literals

/-- The number of instructions the compiler emits for an arithmetic
expression: one LOADK per literal, one instruction per operator. -/
def ArithExpr.size : ArithExpr → Nat
  | .lit _ => 1
  | .neg e => e.size + 1
  | .bin _ l r => l.size + r.size + 1

/-- An amount of fuel that suffices to compile the expression. -/
def ArithExpr.fuel : ArithExpr → Nat
  | .lit _ => 1
  | .neg e => e.fuel + 2
  | .bin _ l r => max l.fuel r.fuel + 2

/-- What `compileExpressionToReg` computes on an arithmetic expression,
written as a recursion on the expression. -/
def cArith (st : CompilerState) : ArithExpr → Int → CompilerState
  | .lit n, reg => compileNumber st (.int (n : Int)) reg
  | .neg e, reg => emitInstruction (cArith st e reg) .OP_UNM reg reg 0
  | .bin op l r, reg =>
      let s1 := cArith (allocReg (allocReg st)) l st.current.stackTop
      let s2 := cArith s1 r (st.current.stackTop + 1)
      freeReg (freeReg (emitInstruction s2 op.opcode reg st.current.stackTop
        (st.current.stackTop + 1)))

/-- The expression of an integer constant as the parser builds it: a
literal, under a unary minus when the constant is negative. -/
def intLit (z : Int) : ArithExpr :=
  if 0 ≤ z then .lit z.toNat else .neg (.lit (-z).toNat)

/-- The syntax tree of the program `for i = start, limit, step do end`. -/
def forProgram (start limit step : ArithExpr) : ASTNode :=
  .NODE_CHUNK [.NODE_FOR_NUM "i" start.toAST limit.toAST step.toAST (.NODE_BLOCK [])]

/-- The number of times the body of a numeric `for` with a positive step is
entered: max(0, floor((limit - start) / step) + 1). -/
def forCount (start limit step : Int) : Nat :=
  (max 0 (Int.fdiv (limit - start) step + 1)).toNat

/-- The compiler state in which the three expressions of a numeric `for` at
the top of a program are compiled: the scope is open and the four loop locals
are declared. -/
def forLocals (st : CompilerState) : CompilerState :=
  addLocal (addLocal (addLocal (addLocal (beginScope (initCompiler st)) "(for index)")
    "(for limit)") "(for step)") "i"

/-- The compiler state after the three expressions of the loop. -/
def forExprs (st : CompilerState) (start limit step : ArithExpr) : CompilerState :=
  cArith (cArith (cArith (forLocals st) start 0) limit 1) step 2

/-- The chunk compiled for `for i = start, limit, step do end`. -/
def forChunk (st : CompilerState) (start limit step : ArithExpr) : BytecodeChunk :=
  { Instructions := (forExprs st start limit step).current.chunk.Instructions
      ++ [⟨.OP_FORPREP, 0, 0, 0⟩, ⟨.OP_FORLOOP, 0, 1, 0⟩, ⟨.OP_RETURN, 0, 1, 0⟩]
    Constants := (forExprs st start limit step).current.chunk.Constants
    overrun := (forExprs st start limit step).current.chunk.overrun }

/-- The syntax tree of the comparison `l > r` of two arithmetic expressions. -/
def gtAST (l r : ArithExpr) : ASTNode :=
  .NODE_BINOP ">" l.toAST r.toAST

/-- What `compileExpressionToReg` computes on `l > r`: the operands, then LT
with the operands exchanged, JMP and the two LOADBOOL. -/
def cGt (st : CompilerState) (l r : ArithExpr) (reg : Int) : CompilerState :=
  let s1 := cArith (allocReg (allocReg st)) l st.current.stackTop
  let s2 := cArith s1 r (st.current.stackTop + 1)
  freeReg (freeReg (emitInstruction (emitInstruction (emitInstruction (emitInstruction s2
    .OP_LT 0 (st.current.stackTop + 1) st.current.stackTop) .OP_JMP 0 1 0)
    .OP_LOADBOOL reg 0 1) .OP_LOADBOOL reg 1 0))

/-- The text of a long comment of level `n`: `--[`, `n` equal signs, `[`,
the body, `]`, `n` equal signs, `]`. -/
def longComment (n : Nat) (body : List Char) : List Char :=
  ['-', '-', '['] ++ List.replicate n '=' ++ ['['] ++ body ++ [']'] ++ List.replicate n '='
    ++ [']']


/-- `advance` applied n times. -/
def Parser.advanceN : Nat → Parser → Parser
  | 0, p => p
  | n + 1, p => Parser.advanceN n p.advance

/-- The tokens `toks` are what the parser reads next: the first is its current
token and every `advance` brings the following one. -/
def Feeds : Parser → List Token → Prop
  | _, [] => True
  | p, t :: ts => p.current = t ∧ Feeds p.advance ts

/-- An operand of the flat expressions considered: a name or a number. -/
def Token.isOperand (t : Token) : Prop :=
  t.type = .TOK_NAME ∨ t.type = .TOK_NUMBER

/-- The node that `parseSimpleExpr` builds for an operand token. -/
def operandNode (t : Token) : ASTNode :=
  if t.type = .TOK_NUMBER then ASTNode.NODE_NUMBER (atof t.value) else ASTNode.NODE_NAME t.value

/-- The token types with which `parseSuffixedExpr` continues an expression. -/
def startsSuffix (t : TokenType) : Prop :=
  t = .TOK_DOT ∨ t = .TOK_LBRACKET ∨ t = .TOK_COLON ∨ t = .TOK_LPAREN ∨ t = .TOK_STRING
    ∨ t = .TOK_LBRACE

/-- A token that ends a flat expression: it is no binary operator and does not
continue the operand before it. -/
def Token.isStop (t : Token) : Prop :=
  getBinopPrecedence t.type = 0 ∧ ¬ startsSuffix t.type

/-- The levels that group right to left: concatenation and power. -/
def rightAssoc (t : TokenType) : Prop :=
  t = .TOK_DOTDOT ∨ t = .TOK_CARET

/-- A tree of binary operators over operands; an operand is the tree that
`parseUnaryExpr` returned for it. -/
inductive OpTree where
  | leaf (e : ASTNode)
  | node (op : Token) (l r : OpTree)

/-- The syntax tree of an operator tree. -/
def OpTree.toAST : OpTree → ASTNode
  | .leaf e => e
  | .node op l r => ASTNode.NODE_BINOP op.value l.toAST r.toAST

/-- The operands and operator tokens of an operator tree from left to
right. -/
def OpTree.items : OpTree → List (ASTNode ⊕ Token)
  | .leaf e => [Sum.inl e]
  | .node op l r => l.items ++ Sum.inr op :: r.items

/-- The root of the tree, if an operator, has level at least q. -/
def OpTree.rootAtLeast (q : Nat) : OpTree → Prop
  | .leaf _ => True
  | .node o _ _ => q ≤ getBinopPrecedence o.type

/-- A left operand of `op` may be the tree: its root binds tighter than `op`,
or has the level of `op` and that level groups left to right. -/
def OpTree.bindsLeft (op : Token) : OpTree → Prop
  | .leaf _ => True
  | .node o _ _ =>
      getBinopPrecedence op.type < getBinopPrecedence o.type
        ∨ (getBinopPrecedence o.type = getBinopPrecedence op.type ∧ ¬ rightAssoc op.type)

/-- A right operand of `op` may be the tree: its root binds tighter than `op`,
or has the level of `op` and that level groups right to left. -/
def OpTree.bindsRight (op : Token) : OpTree → Prop
  | .leaf _ => True
  | .node o _ _ =>
      getBinopPrecedence op.type < getBinopPrecedence o.type
        ∨ (getBinopPrecedence o.type = getBinopPrecedence op.type ∧ rightAssoc op.type)

/-- The tree is grouped as the precedence table dictates, at every node. -/
def OpTree.Grouped : OpTree → Prop
  | .leaf _ => True
  | .node op l r => l.Grouped ∧ r.Grouped ∧ l.bindsLeft op ∧ r.bindsRight op

/-- The items of a first operand followed by (operator, operand) pairs. -/
def flatItems : List (Token × ASTNode) → List (ASTNode ⊕ Token)
  | [] => []
  | x :: xs => Sum.inr x.1 :: Sum.inl x.2 :: flatItems xs

/-- Every pair begins with a binary operator. -/
def OpsOK (pairs : List (Token × ASTNode)) : Prop :=
  ∀ x ∈ pairs, 1 ≤ getBinopPrecedence x.1.type

/-- The first token of the pairs, or `stop` when there is none. -/
def headTok (pairs : List (Token × ASTNode)) (stop : Token) : Token :=
  match pairs with
  | [] => stop
  | x :: _ => x.1

/-- The level `parseBinopExpr` passes on for the right operand of `op`. -/
def nextPrecOf (op : Token) : Nat :=
  if op.type = .TOK_CARET ∨ op.type = .TOK_DOTDOT then getBinopPrecedence op.type
  else getBinopPrecedence op.type + 1

/-- The operator at the root of the tree, if any, ended its right operand
before the token `next`. -/
def OpTree.stopsBefore (next : Token) : OpTree → Prop
  | .leaf _ => True
  | .node o _ _ => getBinopPrecedence next.type < nextPrecOf o

/-- From the state `p` the operand parser `parseUnaryExpr` returns the tree
`e` and the state `p1`, for every amount of fuel from `F` on. -/
def ReadsOperand (F : Nat) (p : Parser) (e : ASTNode) (p1 : Parser) : Prop :=
  ∀ fuel, F ≤ fuel → parseUnaryExpr fuel p = some (e, p1)

/-- From the state `p` the parser reads the pairs: the current token is the
operator of the first pair, after it the operand parser returns the operand
of the pair, and so on, until the state `pEnd`, whose current token is
`stop`. -/
def ReadsPairs (F : Nat) (stop : Token) : Parser → List (Token × ASTNode) → Parser → Prop
  | p, [], pEnd => pEnd = p ∧ p.current = stop
  | p, x :: rest, pEnd =>
      p.current = x.1 ∧ ∃ p1, ReadsOperand F p.advance x.2 p1 ∧ ReadsPairs F stop p1 rest pEnd

/-- The token type of an arithmetic operator. -/
def ArithOp.tokType : ArithOp → TokenType
  | .add => .TOK_PLUS | .sub => .TOK_MINUS | .mul => .TOK_STAR
  | .div => .TOK_SLASH | .mod => .TOK_PERCENT | .pow => .TOK_CARET

/-- The precedence levels of the arithmetic operators in Lua: `+ -` below
`* / %` below `^`. -/
def ArithOp.level : ArithOp → Nat
  | .add => 1 | .sub => 1 | .mul => 2 | .div => 2 | .mod => 2 | .pow => 3

/-- The texts of arithmetic expressions, read from left to right: a literal,
a text between parentheses, or a text, a binary operator and a text. A
constructor `bin` records where the text is split at an operator that stands
outside parentheses. -/
inductive ArithText where
  | lit (n : Nat)
  | paren (t : ArithText)
  | bin (op : ArithOp) (l r : ArithText)
deriving DecidableEq, Repr

/-- The expression that a split text denotes: parentheses are dropped. -/
def ArithText.expr : ArithText → ArithExpr
  | .lit n => .lit n
  | .paren t => t.expr
  | .bin op l r => .bin op l.expr r.expr

/-- Lua lets the text stand as the left operand of `op` as it is split: it
is a literal or in parentheses, or its operator binds tighter than `op`, or
as tight while `op` groups left to right (every operator but `^`). -/
def ArithText.bindsLeft (op : ArithOp) : ArithText → Prop
  | .bin o _ _ => op.level < o.level ∨ (o.level = op.level ∧ op ≠ .pow)
  | _ => True

/-- Lua lets the text stand as the right operand of `op` as it is split: it
is a literal or in parentheses, or its operator binds tighter than `op`, or
as tight while `op` groups right to left (`^`). -/
def ArithText.bindsRight (op : ArithOp) : ArithText → Prop
  | .bin o _ _ => op.level < o.level ∨ (o.level = op.level ∧ op = .pow)
  | _ => True

/-- The text is split as Lua's precedence and associativity dictate, at
every operator, inside parentheses too: no operand of an operator is itself
split at an operator that binds less tightly, and an operand split at an
operator of the same level is the left operand where the level groups left
to right and the right operand where it groups right to left (`^`). The
expression of this split is what the text means in Lua. -/
def ArithText.Grouped : ArithText → Prop
  | .lit _ => True
  | .paren t => t.Grouped
  | .bin op l r => l.Grouped ∧ r.Grouped ∧ l.bindsLeft op ∧ r.bindsRight op

/-- The parser state after the tokens of the text have been read: one
`advance` per token. -/
def ArithText.endOf : ArithText → Parser → Parser
  | .lit _, p => p.advance
  | .paren t, p => (t.endOf p.advance).advance
  | .bin _ l r, p => r.endOf (l.endOf p).advance

/-- The tokens the parser reads from the state `p` on are those of the text:
a number token whose text `atof` turns into the literal, `(` and `)` around
a text in parentheses, the operator token between the two sides. -/
def ArithText.SpelledAt : ArithText → Parser → Prop
  | .lit n, p => p.current.type = .TOK_NUMBER ∧ atof p.current.value = LuaNumber.int (n : Int)
  | .paren t, p =>
      p.current.type = .TOK_LPAREN ∧ t.SpelledAt p.advance
        ∧ (t.endOf p.advance).current.type = .TOK_RPAREN
  | .bin op l r, p =>
      l.SpelledAt p ∧ (l.endOf p).current.type = op.tokType
        ∧ (l.endOf p).current.value = op.text ∧ r.SpelledAt (l.endOf p).advance

/-- The number of operators of the text that stand outside parentheses. -/
def ArithText.ops : ArithText → Nat
  | .bin _ l r => l.ops + r.ops + 1
  | _ => 0

/-- An amount of fuel that suffices for `parseUnaryExpr` on each operand of
the text that stands outside parentheses. -/
def ArithText.opFuel : ArithText → Nat
  | .lit _ => 4
  | .paren t => t.opFuel + 2 * t.ops + 3 + 4
  | .bin _ l r => max l.opFuel r.opFuel

/-- An amount of fuel that suffices for `parseExpression` on the text. -/
def ArithText.fuel (t : ArithText) : Nat :=
  t.opFuel + 2 * t.ops + 3

/-- The first operand of the text that stands outside parentheses, as a
syntax tree. -/
def ArithText.first : ArithText → ASTNode
  | .lit n => .NODE_NUMBER (.int (n : Int))
  | .paren t => t.expr.toAST
  | .bin _ l _ => l.first

/-- The operators of the text that stand outside parentheses, as the tokens
the parser reads from `p` on, each with the operand that follows it. -/
def ArithText.pairs : ArithText → Parser → List (Token × ASTNode)
  | .bin _ l r, p => l.pairs p ++ ((l.endOf p).current, r.first) :: r.pairs (l.endOf p).advance
  | _, _ => []

/-- The split of the text as a tree over its operands outside parentheses,
with the operator tokens the parser reads from `p` on. -/
def ArithText.opTree : ArithText → Parser → OpTree
  | .lit n, _ => .leaf (.NODE_NUMBER (.int (n : Int)))
  | .paren t, _ => .leaf t.expr.toAST
  | .bin _ l r, p => .node (l.endOf p).current (l.opTree p) (r.opTree (l.endOf p).advance)

/-- The token types on which `parseStatement` returns NULL without reading
anything and without an error: neither the end of input, a semicolon, a
keyword that begins a statement, a name nor an opening parenthesis. -/
def cannotBeginStatement (t : TokenType) : Prop :=
  t ≠ .TOK_EOF ∧ t ≠ .TOK_SEMICOLON ∧ t ≠ .TOK_IF ∧ t ≠ .TOK_WHILE ∧ t ≠ .TOK_FOR
    ∧ t ≠ .TOK_REPEAT ∧ t ≠ .TOK_FUNCTION ∧ t ≠ .TOK_LOCAL ∧ t ≠ .TOK_RETURN ∧ t ≠ .TOK_BREAK
    ∧ t ≠ .TOK_DO ∧ t ≠ .TOK_NAME ∧ t ≠ .TOK_LPAREN

instance cannotBeginStatement.decidable (t : TokenType) : Decidable (cannotBeginStatement t) := by
  unfold cannotBeginStatement
  infer_instance

/-- The property proved of every compile function about the error flag: an
error recorded before the call is still recorded after it. -/
def KeepsError (st : CompilerState) (r : Option CompilerState) : Prop :=
  ∀ st1, r = some st1 → st.hadError = true → st1.hadError = true

/-- The error-flag property of all the compile functions at one amount of
fuel. -/
structure AllKeep (fuel : Nat) : Prop where
  exprsInto : ∀ st es reg, KeepsError st (compileExprsInto fuel st es reg)
  call : ∀ st func args reg, KeepsError st (compileCall fuel st func args reg)
  methodCall : ∀ st object method args reg,
    KeepsError st (compileMethodCall fuel st object method args reg)
  dotIndex : ∀ st object field reg, KeepsError st (compileDotIndex fuel st object field reg)
  index : ∀ st object key reg, KeepsError st (compileIndex fuel st object key reg)
  tableFields : ∀ st fields reg arrayIdx,
    KeepsError st (compileTableFields fuel st fields reg arrayIdx)
  table : ∀ st fields reg, KeepsError st (compileTable fuel st fields reg)
  binop : ∀ st op left right reg, KeepsError st (compileBinop fuel st op left right reg)
  unop : ∀ st op operand reg, KeepsError st (compileUnop fuel st op operand reg)
  expr : ∀ st node reg, KeepsError st (compileExpressionToReg fuel st node reg)
  localValues : ∀ st count values slot,
    KeepsError st (compileLocalValues fuel st count values slot)
  localStmt : ∀ st names values, KeepsError st (compileLocal fuel st names values)
  assignValues : ∀ st values, KeepsError st (compileAssignValues fuel st values)
  assignTargets : ∀ st targets i valueCount baseReg,
    KeepsError st (compileAssignTargets fuel st targets i valueCount baseReg)
  assign : ∀ st targets values, KeepsError st (compileAssign fuel st targets values)
  condition : ∀ st cond freeBeforeTest, KeepsError st (compileCondition fuel st cond freeBeforeTest)
  elseifs : ∀ st elseifs elseJump,
    KeepsError st ((compileElseifs fuel st elseifs elseJump).map Prod.fst)
  ifStmt : ∀ st cond thenBlock elseifs elseBlock,
    KeepsError st (compileIf fuel st cond thenBlock elseifs elseBlock)
  whileStmt : ∀ st cond body, KeepsError st (compileWhile fuel st cond body)
  forNum : ∀ st var start limit step body,
    KeepsError st (compileForNum fuel st var start limit step body)
  forIn : ∀ st names iterators body, KeepsError st (compileForIn fuel st names iterators body)
  returnStmt : ∀ st values, KeepsError st (compileReturn fuel st values)
  function : ∀ st isLocal funcName params body,
    KeepsError st (compileFunction fuel st isLocal funcName params body)
  statement : ∀ st node, KeepsError st (compileStatement fuel st node)
  statements : ∀ st nodes, KeepsError st (compileStatements fuel st nodes)
  node : ∀ st node, KeepsError st (compileNode fuel st node)

/-- The call returns: its fuel was enough. -/
def Returns {α : Type} (r : Option α) : Prop :=
  ∃ x, r = some x

/-- The functions that render a function body return when the fuel exceeds
ten times the size of the tree. -/
structure AllLua (fuel : Nat) : Prop where
  exprList : ∀ (es : List ASTNode) first buf, 10 * sizeOf es + 1 ≤ fuel →
    Returns (astExprListToLua fuel es first buf)
  fields : ∀ (fs : List ASTNode) first buf, 10 * sizeOf fs + 1 ≤ fuel →
    Returns (astFieldsToLua fuel fs first buf)
  expr : ∀ (node : ASTNode) buf, 10 * sizeOf node + 1 ≤ fuel →
    Returns (astExprToLua fuel node buf)
  statements : ∀ (sts : List ASTNode) buf, 10 * sizeOf sts + 2 ≤ fuel →
    Returns (astStatementsToLua fuel sts buf)
  stmt : ∀ (node : ASTNode) buf, 10 * sizeOf node + 2 ≤ fuel →
    Returns (astToLua fuel node buf)

/-- The compile functions return when the fuel exceeds ten times the size of
the trees they are given (plus the number of names, for the values of a
`local`). -/
structure AllReturn (fuel : Nat) : Prop where
  exprsInto : ∀ st (es : List ASTNode) reg, 10 * sizeOf es + 3 ≤ fuel →
    Returns (compileExprsInto fuel st es reg)
  call : ∀ st (func : ASTNode) (args : List ASTNode) reg,
    10 * (sizeOf func + sizeOf args) + 4 ≤ fuel → Returns (compileCall fuel st func args reg)
  methodCall : ∀ st (object : ASTNode) method (args : List ASTNode) reg,
    10 * (sizeOf object + sizeOf args) + 4 ≤ fuel →
    Returns (compileMethodCall fuel st object method args reg)
  dotIndex : ∀ st (object : ASTNode) field reg, 10 * sizeOf object + 4 ≤ fuel →
    Returns (compileDotIndex fuel st object field reg)
  index : ∀ st (object key : ASTNode) reg, 10 * (sizeOf object + sizeOf key) + 4 ≤ fuel →
    Returns (compileIndex fuel st object key reg)
  tableFields : ∀ st (fields : List ASTNode) reg arrayIdx, 10 * sizeOf fields + 3 ≤ fuel →
    Returns (compileTableFields fuel st fields reg arrayIdx)
  table : ∀ st (fields : List ASTNode) reg, 10 * sizeOf fields + 4 ≤ fuel →
    Returns (compileTable fuel st fields reg)
  binop : ∀ st op (left right : ASTNode) reg, 10 * (sizeOf left + sizeOf right) + 4 ≤ fuel →
    Returns (compileBinop fuel st op left right reg)
  unop : ∀ st op (operand : ASTNode) reg, 10 * sizeOf operand + 4 ≤ fuel →
    Returns (compileUnop fuel st op operand reg)
  expr : ∀ st (node : ASTNode) reg, 10 * sizeOf node + 3 ≤ fuel →
    Returns (compileExpressionToReg fuel st node reg)
  localValues : ∀ st count (values : List ASTNode) slot, 10 * sizeOf values + count + 3 ≤ fuel →
    Returns (compileLocalValues fuel st count values slot)
  localStmt : ∀ st (names values : List ASTNode),
    10 * (sizeOf names + sizeOf values) + 4 ≤ fuel → Returns (compileLocal fuel st names values)
  assignValues : ∀ st (values : List ASTNode), 10 * sizeOf values + 3 ≤ fuel →
    Returns (compileAssignValues fuel st values)
  assignTargets : ∀ st (targets : List ASTNode) i valueCount baseReg,
    10 * sizeOf targets + 3 ≤ fuel →
    Returns (compileAssignTargets fuel st targets i valueCount baseReg)
  assign : ∀ st (targets values : List ASTNode),
    10 * (sizeOf targets + sizeOf values) + 4 ≤ fuel →
    Returns (compileAssign fuel st targets values)
  condition : ∀ st (cond : ASTNode) freeBeforeTest, 10 * sizeOf cond + 4 ≤ fuel →
    Returns (compileCondition fuel st cond freeBeforeTest)
  elseifs : ∀ st (elseifs : List ASTNode) elseJump, 10 * sizeOf elseifs + 3 ≤ fuel →
    Returns (compileElseifs fuel st elseifs elseJump)
  ifStmt : ∀ st (cond thenBlock : ASTNode) (elseifs : List ASTNode)
    (elseBlock : Option ASTNode),
    10 * (sizeOf cond + sizeOf thenBlock + sizeOf elseifs + sizeOf elseBlock) + 6 ≤ fuel →
    Returns (compileIf fuel st cond thenBlock elseifs elseBlock)
  whileStmt : ∀ st (cond body : ASTNode), 10 * (sizeOf cond + sizeOf body) + 6 ≤ fuel →
    Returns (compileWhile fuel st cond body)
  forNum : ∀ st var (start limit step body : ASTNode),
    10 * (sizeOf start + sizeOf limit + sizeOf step + sizeOf body) + 6 ≤ fuel →
    Returns (compileForNum fuel st var start limit step body)
  forIn : ∀ st (names iterators : List ASTNode) (body : ASTNode),
    10 * (sizeOf iterators + sizeOf body) + 6 ≤ fuel →
    Returns (compileForIn fuel st names iterators body)
  returnStmt : ∀ st (values : List ASTNode), 10 * sizeOf values + 4 ≤ fuel →
    Returns (compileReturn fuel st values)
  function : ∀ st isLocal funcName (params : List ASTNode) (body : ASTNode),
    10 * sizeOf body + 3 ≤ fuel →
    Returns (compileFunction fuel st isLocal funcName params body)
  statement : ∀ st (node : ASTNode), 10 * sizeOf node + 4 ≤ fuel →
    Returns (compileStatement fuel st node)
  statements : ∀ st (nodes : List ASTNode), 10 * sizeOf nodes + 4 ≤ fuel →
    Returns (compileStatements fuel st nodes)
  node : ∀ st (node : ASTNode), 10 * sizeOf node + 5 ≤ fuel →
    Returns (compileNode fuel st node)

/-- The instructions present before a compile step are, unchanged, the first
instructions afterwards. -/
def Grows (st st1 : CompilerState) : Prop :=
  st.current.chunk.Instructions <+: st1.current.chunk.Instructions

/-- The first `k` instructions present before a compile step are, unchanged,
the first instructions afterwards. -/
def GrowsFrom (k : Nat) (st st1 : CompilerState) : Prop :=
  st.current.chunk.Instructions.take k <+: st1.current.chunk.Instructions

/-- The property proved of a compile function about the instruction list:
when it returns, the list has only grown at its end. -/
def GrowsTo (st : CompilerState) (r : Option CompilerState) : Prop :=
  ∀ st1, r = some st1 → Grows st st1

/-- The property of `compileCondition`: the list grows at its end, and the
last instruction emitted is the jump `JMP 0 0 0` that the caller patches. -/
def ConditionGrows (st : CompilerState) (r : Option CompilerState) : Prop :=
  ∀ st1, r = some st1 → ∃ mid : CompilerState, Grows st mid
    ∧ st1.current.chunk.Instructions
        = mid.current.chunk.Instructions ++ [⟨OpCode.OP_JMP, 0, 0, 0⟩]

/-- The property of the elseif loop of `compileIf`, which patches the pending
jump `elseJump` it is given: the instruction count does not decrease, the
jump index returned is the one given or that of a new instruction, and the
instructions below the pending jump are kept. -/
def ElseifsGrow (st : CompilerState) (elseJump : Int) (r : Option (CompilerState × Int)) :
    Prop :=
  ∀ st1 j, r = some (st1, j) →
    st.count ≤ st1.count ∧ (j = elseJump ∨ st.count ≤ j)
      ∧ ∀ k : Nat, (elseJump < 0 ∨ (k : Int) ≤ elseJump) → GrowsFrom k st st1

/-- The growth property of all the compile functions at one amount of fuel. -/
structure AllGrow (fuel : Nat) : Prop where
  exprsInto : ∀ st es reg, GrowsTo st (compileExprsInto fuel st es reg)
  call : ∀ st func args reg, GrowsTo st (compileCall fuel st func args reg)
  methodCall : ∀ st object method args reg,
    GrowsTo st (compileMethodCall fuel st object method args reg)
  dotIndex : ∀ st object field reg, GrowsTo st (compileDotIndex fuel st object field reg)
  index : ∀ st object key reg, GrowsTo st (compileIndex fuel st object key reg)
  tableFields : ∀ st fields reg arrayIdx,
    GrowsTo st (compileTableFields fuel st fields reg arrayIdx)
  table : ∀ st fields reg, GrowsTo st (compileTable fuel st fields reg)
  binop : ∀ st op left right reg, GrowsTo st (compileBinop fuel st op left right reg)
  unop : ∀ st op operand reg, GrowsTo st (compileUnop fuel st op operand reg)
  expr : ∀ st node reg, GrowsTo st (compileExpressionToReg fuel st node reg)
  localValues : ∀ st count values slot,
    GrowsTo st (compileLocalValues fuel st count values slot)
  localStmt : ∀ st names values, GrowsTo st (compileLocal fuel st names values)
  assignValues : ∀ st values, GrowsTo st (compileAssignValues fuel st values)
  assignTargets : ∀ st targets i valueCount baseReg,
    GrowsTo st (compileAssignTargets fuel st targets i valueCount baseReg)
  assign : ∀ st targets values, GrowsTo st (compileAssign fuel st targets values)
  condition : ∀ st cond freeBeforeTest,
    ConditionGrows st (compileCondition fuel st cond freeBeforeTest)
  elseifs : ∀ st elseifs elseJump,
    ElseifsGrow st elseJump (compileElseifs fuel st elseifs elseJump)
  ifStmt : ∀ st cond thenBlock elseifs elseBlock,
    GrowsTo st (compileIf fuel st cond thenBlock elseifs elseBlock)
  whileStmt : ∀ st cond body, GrowsTo st (compileWhile fuel st cond body)
  forNum : ∀ st var start limit step body,
    GrowsTo st (compileForNum fuel st var start limit step body)
  forIn : ∀ st names iterators body, GrowsTo st (compileForIn fuel st names iterators body)
  returnStmt : ∀ st values, GrowsTo st (compileReturn fuel st values)
  function : ∀ st isLocal funcName params body,
    GrowsTo st (compileFunction fuel st isLocal funcName params body)
  statement : ∀ st node, GrowsTo st (compileStatement fuel st node)
  statements : ∀ st nodes, GrowsTo st (compileStatements fuel st nodes)
  node : ∀ st node, GrowsTo st (compileNode fuel st node)

/-- An environment in which the global `f` is the function value 0 and every
other global is nil. -/
def envF : Value → Value :=
  fun k => if k = Value.str "f" then Value.func 0 else Value.nil

/-- An iterator over the single element 7: called with the control value nil
it returns 7, and called with any other control value it returns nothing. -/
def iterOnce : Nat → List Value → Option (List Value) :=
  fun _ args => if args.getD 1 Value.nil = Value.nil then some [Value.num 7] else some []

/-- An iterator over no element: it returns nothing, whatever it is given. -/
def iterNone : Nat → List Value → Option (List Value) :=
  fun _ _ => some []

/-- The fields of a table constructor of number literals as the parser builds
them: a positional field gets the running array index as its key. -/
def literalFields : List Nat → Nat → List ASTNode
  | [], _ => []
  | n :: rest, k =>
      .NODE_TABLE_FIELD (some (.NODE_NUMBER (.int (k : Int)))) (.NODE_NUMBER (.int (n : Int)))
        :: literalFields rest (k + 1)

/-- What the field loop of `compileTable` computes on positional fields of
number literals, written as a recursion on the list. -/
def cLiteralFields (st : CompilerState) : List Nat → Int → Int → CompilerState
  | [], _, _ => st
  | n :: rest, reg, k =>
      cLiteralFields
        (freeReg (emitInstruction (compileNumber (allocReg st) (.int (n : Int))
          st.current.stackTop) .OP_SETLIST reg 1 k))
        rest reg (k + 1)

/-- The contents of a table after the values of a list have been stored, the
i-th of them (from 0) under the key (k + i - 1) * 50 + 1. -/
def storedAt (h : Value → Value) : List Nat → Int → Value → Value
  | [], _ => h
  | n :: rest, k =>
      storedAt (fun key => if key = Value.num ((k - 1) * 50 + 1) then Value.num (n : Int)
        else h key) rest (k + 1)

/-- The table contents after the assignment `t[key] = v` on table `t`. -/
def heapStore (heap : Nat → Value → Value) (t : Nat) (key v : Value) : Nat → Value → Value :=
  fun id k => if id = t ∧ k = key then v else heap id k

/-- The start state with one register in use: the stack top is 1. -/
def startStateOneReg : CompilerState :=
  { startState with current := { startState.current with stackTop := 1 } }
/-! ## Serializer layout -/

theorem writeConstants_eq (buffer : List Nat) (cs : List String) :
    writeConstants buffer cs = buffer ++ cs.flatMap serializeConstant := by
  induction cs generalizing buffer with
  | nil => simp [writeConstants]
  | cons s rest ih => simp [writeConstants, ih, List.append_assoc]

theorem writeInstructions_eq (opcodeMap : List Nat) (buffer : List Nat) (is : List Instruction) :
    writeInstructions opcodeMap buffer is
      = buffer ++ is.flatMap (serializeInstruction opcodeMap) := by
  induction is generalizing buffer with
  | nil => simp [writeInstructions]
  | cons s rest ih => simp [writeInstructions, ih, List.append_assoc]

theorem serializeBuffer_eq (chunk : BytecodeChunk) (opcodeMap : List Nat) :
    serializeBuffer chunk opcodeMap
      = [1, chunk.Constants.length % 256] ++ chunk.Constants.flatMap serializeConstant
        ++ chunk.Instructions.flatMap (serializeInstruction opcodeMap) := by
  simp [serializeBuffer, writeConstants_eq, writeInstructions_eq]

theorem length_flatMap_serializeConstant (cs : List String) :
    (cs.flatMap serializeConstant).length = (cs.map (fun s => 2 + s.length)).sum := by
  induction cs with
  | nil => simp
  | cons s rest ih =>
      rw [List.flatMap_cons, List.length_append, ih, List.map_cons, List.sum_cons]
      simp [serializeConstant, strBytes]
      omega

theorem length_flatMap_serializeInstruction (opcodeMap : List Nat) (is : List Instruction) :
    (is.flatMap (serializeInstruction opcodeMap)).length = 6 * is.length := by
  induction is with
  | nil => simp
  | cons s rest ih =>
      rw [List.flatMap_cons, List.length_append, ih, List.length_cons]
      simp [serializeInstruction]
      omega

theorem serializeBuffer_length (chunk : BytecodeChunk) (opcodeMap : List Nat) :
    (serializeBuffer chunk opcodeMap).length
      = 2 + (chunk.Constants.map (fun s => 2 + s.length)).sum + 6 * chunk.Instructions.length := by
  rw [serializeBuffer_eq, List.length_append, List.length_append,
    length_flatMap_serializeConstant, length_flatMap_serializeInstruction]
  rfl

theorem serializeBuffer_getD_one (chunk : BytecodeChunk) (opcodeMap : List Nat) :
    (serializeBuffer chunk opcodeMap).getD 1 0 = chunk.Constants.length % 256 := by
  rw [serializeBuffer_eq]
  simp

/-- C10 (as amended): for every chunk and opcode map the buffer that
`SerializeBytecodeWithMapping` fills is the byte 0x01, the constant count
modulo 256, then per constant its length modulo 256, its length div 256
modulo 256 and its bytes, then per instruction the six bytes
`opcodeMap[Op] mod 256`, `A mod 256`, and the low and second bytes of `B` and
of `C`; the buffer has `2 + sum (2 + length) + 6 * count` bytes; the count
byte is the number of constants when that is below 256, and the two length
bytes of a constant give its length when that is below 65536. -/
theorem serializeBuffer_layout (chunk : BytecodeChunk) (opcodeMap : List Nat) :
    serializeBuffer chunk opcodeMap
        = [1, chunk.Constants.length % 256]
          ++ chunk.Constants.flatMap (fun s =>
              [s.length % 256, s.length / 256 % 256] ++ s.toList.map (fun c => c.toNat % 256))
          ++ chunk.Instructions.flatMap (fun ins =>
              [opcodeMap.getD ins.Op.toNat 0 % 256, (ins.A % 256).toNat,
               (ins.B % 256).toNat, (ins.B / 256 % 256).toNat,
               (ins.C % 256).toNat, (ins.C / 256 % 256).toNat])
      ∧ (serializeBuffer chunk opcodeMap).length
          = 2 + (chunk.Constants.map (fun s => 2 + s.length)).sum + 6 * chunk.Instructions.length
      ∧ (chunk.Constants.length < 256 →
          (serializeBuffer chunk opcodeMap).getD 1 0 = chunk.Constants.length)
      ∧ (∀ s ∈ chunk.Constants, s.length < 65536 →
          s.length % 256 + 256 * (s.length / 256 % 256) = s.length) := by
  refine ⟨?_, serializeBuffer_length chunk opcodeMap, ?_, ?_⟩
  · rw [serializeBuffer_eq]
    rfl
  · intro h
    rw [serializeBuffer_getD_one, Nat.mod_eq_of_lt h]
  · intro s _ h
    omega

/-- C10, witness: the chunk with the constant `print` and the instruction
`GETGLOBAL 0 0 0` under the identity map. -/
theorem serializeBuffer_layout_witness :
    (chunkPrint.Constants.length < 256 →
      (serializeBuffer chunkPrint (List.range 256)).getD 1 0 = chunkPrint.Constants.length)
    ∧ serializeBuffer chunkPrint (List.range 256)
        = [1, 1, 5, 0, 112, 114, 105, 110, 116, 5, 0, 0, 0, 0, 0] :=
  ⟨(serializeBuffer_layout chunkPrint (List.range 256)).2.2.1, by decide⟩

theorem length_mk_replicate (n : Nat) (c : Char) :
    (String.mk (List.replicate n c)).length = n := by
  generalize h : List.replicate n c = l
  have hl : l.length = n := by rw [← h, List.length_replicate]
  rw [← hl]
  rfl

theorem serializeBuffer_single_length_bytes (s : String) (opcodeMap : List Nat) :
    (serializeBuffer { Instructions := [], Constants := [s], overrun := false } opcodeMap).getD 2 0
        = s.length % 256
    ∧ (serializeBuffer { Instructions := [], Constants := [s], overrun := false } opcodeMap).getD 3 0
        = s.length / 256 % 256 := by
  rw [serializeBuffer_eq]
  simp only [List.flatMap_cons, List.flatMap_nil, serializeConstant,
    List.cons_append, List.nil_append, List.append_nil, List.getD_cons_succ,
    List.getD_cons_zero, and_self]

theorem chunk256_count_byte :
    (serializeBuffer chunk256 []).getD 1 0 ≠ chunk256.Constants.length := by
  rw [serializeBuffer_getD_one]
  simp only [chunk256, List.length_replicate]
  decide

theorem chunkLong_eq :
    chunkLong =
      { Instructions := []
        Constants := [String.mk (List.replicate 65536 'a')]
        overrun := false } := rfl

theorem chunkLong_length_bytes :
    (serializeBuffer chunkLong []).getD 2 0 + 256 * (serializeBuffer chunkLong []).getD 3 0
      ≠ (String.mk (List.replicate 65536 'a')).length := by
  have h := serializeBuffer_single_length_bytes (String.mk (List.replicate 65536 'a')) []
  rw [length_mk_replicate] at h
  rw [length_mk_replicate, chunkLong_eq, h.1, h.2]
  decide

/-- C10, counterexample: with 256 constants the count byte is 0, not the
number of constants written; and for one constant of 65536 bytes the two
length bytes are 0 and 0, which is not its length. -/
theorem serializeBuffer_count_wraps :
    (serializeBuffer chunk256 []).getD 1 0 ≠ chunk256.Constants.length
    ∧ (serializeBuffer chunkLong []).getD 2 0 + 256 * (serializeBuffer chunkLong []).getD 3 0
        ≠ (String.mk (List.replicate 65536 'a')).length :=
  ⟨chunk256_count_byte, chunkLong_length_bytes⟩
/-! ## Opcode maps -/

theorem swapAt_perm (a : List Nat) (i j : Nat) (hi : i < a.length) (hj : j < a.length) :
    (swapAt a i j).Perm a := by
  unfold swapAt
  rw [List.getD_eq_getElem _ _ hi, List.getD_eq_getElem _ _ hj]
  rw [List.perm_iff_count]
  intro b
  have hj' : j < (a.set i a[j]).length := by simpa using hj
  rw [List.count_set _ _ _ _ hj', List.count_set _ _ _ _ hi]
  have e1 : (a.set i a[j])[j] = a[j] := by
    by_cases hij : i = j
    · subst hij
      simp
    · rw [List.getElem_set_ne hij]
  rw [e1]
  have hci : (if (a[i] == b) = true then 1 else 0) ≤ List.count b a := by
    split
    · rename_i h
      have : a[i] = b := by simpa using h
      have hm : b ∈ a := this ▸ List.getElem_mem hi
      exact List.count_pos_iff.mpr hm
    · omega
  omega

theorem swapAt_length (a : List Nat) (i j : Nat) : (swapAt a i j).length = a.length := by
  simp [swapAt]

theorem fisherYates_perm (rs : Nat → Nat) (i k : Nat) (available : List Nat)
    (h : i < available.length) : (fisherYates rs i k available).Perm available := by
  induction i generalizing k available with
  | zero => simp [fisherYates]
  | succ n ih =>
      unfold fisherYates
      have hj : RandomInt 0 (n + 1) (rs k) < available.length := by
        unfold RandomInt
        have := Nat.mod_lt (rs k) (show 0 < n + 1 - 0 + 1 by omega)
        omega
      have hp := swapAt_perm available (n + 1) (RandomInt 0 (n + 1) (rs k)) h hj
      have hl := swapAt_length available (n + 1) (RandomInt 0 (n + 1) (rs k))
      exact (ih (k + 1) _ (by omega)).trans hp

theorem opcodeMap_perm (rs : Nat → Nat) :
    (CreateBuildContext rs).opcodeMap.Perm (List.range 256) := by
  have h := fisherYates_perm rs 255 6 (List.range 256) (by rw [List.length_range]; omega)
  unfold CreateBuildContext
  dsimp only
  exact h

theorem OpCode.toNat_lt (op : OpCode) : op.toNat < 38 := by
  cases op <;> (simp only [OpCode.toNat]; omega)

theorem canonicalOps_getD_toNat (op : OpCode) :
    canonicalOps.getD op.toNat OpCode.OP_MOVE = op := by
  cases op <;> rfl

theorem OpCode.toNat_injective (a b : OpCode) (h : a.toNat = b.toNat) : a = b := by
  rw [← canonicalOps_getD_toNat a, ← canonicalOps_getD_toNat b, h]

/-- Entries at different indices of a permutation of `0 .. 255` differ. -/
theorem perm_range_getD_inj (m : List Nat) (hm : m.Perm (List.range 256)) (i j : Nat)
    (hi : i < 256) (hj : j < 256) (h : m.getD i 0 = m.getD j 0) : i = j := by
  have hlen : m.length = 256 := by simpa using hm.length_eq
  have hnd : m.Nodup := hm.nodup_iff.mpr (List.nodup_range 256)
  rw [List.getD_eq_getElem m 0 (show i < m.length by omega),
    List.getD_eq_getElem m 0 (show j < m.length by omega)] at h
  exact (List.Nodup.getElem_inj_iff hnd).mp h

theorem perm_range_getD_lt (m : List Nat) (hm : m.Perm (List.range 256)) (i : Nat)
    (hi : i < 256) : m.getD i 0 < 256 := by
  have hlen : m.length = 256 := by simpa using hm.length_eq
  rw [List.getD_eq_getElem _ _ (by omega)]
  have : m[i] ∈ List.range 256 := hm.subset (List.getElem_mem _)
  simpa using this

theorem drawUnused_not_mem (used draws : List Nat) (n : Nat) (rest : List Nat)
    (h : drawUnused used draws = some (n, rest)) : n ∉ used ∧ 1 ≤ n ∧ n ≤ 250 := by
  induction draws with
  | nil => simp [drawUnused] at h
  | cons r ds ih =>
      unfold drawUnused at h
      split at h
      · exact ih h
      · rename_i hnot
        simp only [Option.some.injEq, Prod.mk.injEq] at h
        obtain ⟨h1, _⟩ := h
        subst h1
        refine ⟨hnot, ?_, ?_⟩
        · unfold RandomInt; omega
        · unfold RandomInt
          have := Nat.mod_lt r (show 0 < 250 - 1 + 1 by omega)
          omega

/-- What `shuffleMappings` returns: the entries keep their other fields, and
the stored values are the draws XOR the key, the draws being pairwise
distinct and not marked as used before. -/
theorem shuffleMappings_spec (xorKey : Nat) (ms : List OpcodeMapping) (used draws : List Nat)
    (out : List OpcodeMapping) (h : shuffleMappings xorKey ms used draws = some out) :
    ∃ newOps : List Nat, out.map (fun m => m.shuffledOp) = newOps.map (fun n => Nat.xor n xorKey)
      ∧ newOps.Nodup ∧ (∀ n ∈ newOps, n ∉ used ∧ 1 ≤ n ∧ n ≤ 250)
      ∧ out.map (fun m => m.realOp) = ms.map (fun m => m.realOp) := by
  induction ms generalizing used draws out with
  | nil =>
      simp only [shuffleMappings, Option.some.injEq] at h
      subst h
      exact ⟨[], by simp⟩
  | cons m rest ih =>
      unfold shuffleMappings at h
      split at h
      · simp at h
      · rename_i newOp draws1 hd
        split at h
        · simp at h
        · rename_i out1 hrec
          simp only [Option.some.injEq] at h
          subst h
          obtain ⟨newOps, h1, h2, h3, h4⟩ := ih _ _ _ hrec
          have hdu := drawUnused_not_mem _ _ _ _ hd
          refine ⟨newOp :: newOps, ?_, ?_, ?_, ?_⟩
          · simp [h1]
          · refine List.nodup_cons.mpr ⟨?_, h2⟩
            intro hmem
            exact (h3 newOp hmem).1 (List.mem_cons_self _ _)
          · intro n hn
            rcases List.mem_cons.mp hn with rfl | hn
            · exact hdu
            · refine ⟨?_, (h3 n hn).2⟩
              intro hu
              exact (h3 n hn).1 (List.mem_cons_of_mem _ hu)
          · simp [h4]

theorem xor_key_injective (key : Nat) : Function.Injective (fun n => Nat.xor n key) := by
  intro a b h
  have h' : a ^^^ key = b ^^^ key := h
  exact Nat.xor_left_injective h'

theorem ShuffleOpcodes_nodup (table : OpcodeTable) (draws : List Nat) (table1 : OpcodeTable)
    (h : ShuffleOpcodes table draws = some table1) :
    (table1.mappings.map (fun m => m.shuffledOp)).Nodup
      ∧ table1.mappings.map (fun m => m.realOp) = table.mappings.map (fun m => m.realOp) := by
  unfold ShuffleOpcodes at h
  split at h
  · simp at h
  · rename_i ms hms
    simp only [Option.some.injEq] at h
    subst h
    obtain ⟨newOps, h1, h2, _, h4⟩ := shuffleMappings_spec _ _ _ _ _ hms
    refine ⟨?_, h4⟩
    show (ms.map (fun m => m.shuffledOp)).Nodup
    rw [h1]
    exact h2.map (xor_key_injective _)
theorem shuffleMappings_isSome (xorKey : Nat) (ms : List OpcodeMapping) (used draws : List Nat)
    (hnd : (draws.map (RandomInt 1 250)).Nodup)
    (hused : ∀ r ∈ draws, RandomInt 1 250 r ∉ used)
    (hlen : ms.length ≤ draws.length) :
    (shuffleMappings xorKey ms used draws).isSome = true := by
  induction ms generalizing used draws with
  | nil => simp [shuffleMappings]
  | cons m rest ih =>
      cases draws with
      | nil => simp at hlen
      | cons r ds =>
          have h1 : drawUnused used (r :: ds) = some (RandomInt 1 250 r, ds) := by
            unfold drawUnused
            rw [if_neg (hused r (List.mem_cons_self _ _))]
          rw [List.map_cons, List.nodup_cons] at hnd
          have h2 := ih (RandomInt 1 250 r :: used) ds hnd.2
            (by
              intro r1 hr1 hmem
              rcases List.mem_cons.mp hmem with h | h
              · exact hnd.1 (h ▸ List.mem_map_of_mem _ hr1)
              · exact hused r1 (List.mem_cons_of_mem _ hr1) h)
            (by simpa using hlen)
          unfold shuffleMappings
          rw [h1]
          dsimp only
          cases hrec : shuffleMappings xorKey rest (RandomInt 1 250 r :: used) ds with
          | none => rw [hrec] at h2; simp at h2
          | some out => simp

/-- C6: for every sequence of random numbers the opcode map built by
`CreateBuildContext` is a permutation of 0..255, so two different canonical
opcodes receive different byte values; and whenever `ShuffleOpcodes` returns,
the shuffled values of its table are pairwise distinct (the entries keep
their `realOp`). It returns as soon as the supply of random numbers holds as
many draws as there are entries, falling on pairwise different values. -/
theorem opcode_mapping_bijective (rs : Nat → Nat) :
    (CreateBuildContext rs).opcodeMap.Perm (List.range 256)
    ∧ (∀ a b : OpCode, a ≠ b →
        (CreateBuildContext rs).opcodeMap.getD a.toNat 0
          ≠ (CreateBuildContext rs).opcodeMap.getD b.toNat 0)
    ∧ (∀ (table : OpcodeTable) (draws : List Nat) (table1 : OpcodeTable),
        ShuffleOpcodes table draws = some table1 →
          (table1.mappings.map (fun m => m.shuffledOp)).Nodup
          ∧ table1.mappings.map (fun m => m.realOp) = table.mappings.map (fun m => m.realOp))
    ∧ (∀ (table : OpcodeTable) (draws : List Nat),
        (draws.map (RandomInt 1 250)).Nodup → table.mappings.length ≤ draws.length →
          (ShuffleOpcodes table draws).isSome = true) := by
  refine ⟨opcodeMap_perm rs, ?_, ?_, ?_⟩
  · intro a b hab h
    have := perm_range_getD_inj _ (opcodeMap_perm rs) a.toNat b.toNat
      (by have := a.toNat_lt; omega) (by have := b.toNat_lt; omega) h
    exact hab (OpCode.toNat_injective a b this)
  · intro table draws table1 h
    exact ShuffleOpcodes_nodup table draws table1 h
  · intro table draws hnd hlen
    have h := shuffleMappings_isSome table.xorKey table.mappings [] draws hnd (by simp) hlen
    unfold ShuffleOpcodes
    cases hrec : shuffleMappings table.xorKey table.mappings [] draws with
    | none => rw [hrec] at h; simp at h
    | some ms => simp

/-- C6, witness: MOVE and LOADK under the stream `rs k = k`, and the table of
`CreateOpcodeTable` shuffled with the draws 0 .. 70. -/
theorem opcode_mapping_bijective_witness :
    (OpCode.OP_MOVE ≠ OpCode.OP_LOADK
      ∧ (CreateBuildContext (fun k => k)).opcodeMap.getD OpCode.OP_MOVE.toNat 0
          ≠ (CreateBuildContext (fun k => k)).opcodeMap.getD OpCode.OP_LOADK.toNat 0)
    ∧ ((List.map (RandomInt 1 250) (List.range 71)).Nodup
      ∧ (CreateOpcodeTable (fun k => k)).mappings.length ≤ (List.range 71).length
      ∧ (ShuffleOpcodes (CreateOpcodeTable (fun k => k)) (List.range 71)).isSome = true) :=
  ⟨⟨by decide, (opcode_mapping_bijective (fun k => k)).2.1 _ _ (by decide)⟩,
   ⟨by decide, by decide,
    (opcode_mapping_bijective (fun k => k)).2.2.2 (CreateOpcodeTable (fun k => k)) (List.range 71)
      (by decide) (by decide)⟩⟩

set_option maxRecDepth 100000 in
/-- C7, counterexample: under the stream that makes every exchange of the
Fisher-Yates loop trivial the map is the identity and `OP_MOVE` receives the
byte 0, outside 1..250. -/
theorem opcodeMap_move_gets_zero :
    ¬ (1 ≤ (CreateBuildContext (fun k => 261 - k)).opcodeMap.getD OpCode.OP_MOVE.toNat 0
        ∧ (CreateBuildContext (fun k => 261 - k)).opcodeMap.getD OpCode.OP_MOVE.toNat 0 ≤ 250) := by
  decide

/-- C7 (as amended): every entry that `CreateBuildContext` stores for a
canonical opcode is a byte value 0..255, and every byte value 0..255 occurs
in the map, so no value is excluded. -/
theorem opcodeMap_full_byte_range (rs : Nat → Nat) :
    (∀ op : OpCode, (CreateBuildContext rs).opcodeMap.getD op.toNat 0 < 256)
    ∧ (∀ v : Nat, v < 256 → ∃ k : Nat, k < 256 ∧ (CreateBuildContext rs).opcodeMap.getD k 0 = v) := by
  have hp := opcodeMap_perm rs
  have hlen : (CreateBuildContext rs).opcodeMap.length = 256 := by simpa using hp.length_eq
  constructor
  · intro op
    exact perm_range_getD_lt _ hp op.toNat (by have := op.toNat_lt; omega)
  · intro v hv
    have hm : v ∈ (CreateBuildContext rs).opcodeMap := hp.symm.subset (by simpa using hv)
    obtain ⟨k, hk, hkv⟩ := List.getElem_of_mem hm
    exact ⟨k, by omega, by rw [List.getD_eq_getElem _ _ hk, hkv]⟩

/-- C7, witness: the byte value 0 under the stream `rs k = k`. -/
theorem opcodeMap_full_byte_range_witness :
    0 < 256 ∧ ∃ k : Nat, k < 256 ∧ (CreateBuildContext (fun k => k)).opcodeMap.getD k 0 = 0 :=
  ⟨by decide, (opcodeMap_full_byte_range (fun k => k)).2 0 (by decide)⟩
/-! ## Base-85 round trip -/

theorem alphabet_getD : ∀ k : Nat, k < 85 → alphabet.getD k 0 = 33 + k := by
  decide

theorem encodeValue_eq (v : Nat) :
    encodeValue v = [33 + v / 52200625 % 85, 33 + v / 614125 % 85, 33 + v / 7225 % 85,
      33 + v / 85 % 85, 33 + v % 85] := by
  unfold encodeValue
  rw [alphabet_getD _ (Nat.mod_lt _ (by decide)), alphabet_getD _ (Nat.mod_lt _ (by decide)),
    alphabet_getD _ (Nat.mod_lt _ (by decide)), alphabet_getD _ (Nat.mod_lt _ (by decide)),
    alphabet_getD _ (Nat.mod_lt _ (by decide))]

theorem skipsPrefix_eq (variant : Nat) (l : List Nat) :
    skipsPrefix variant l = decide (l.take 10 = prefixMarker) := by
  have key : l.take 10 = prefixMarker → l.head? = some 76 := by
    intro h
    cases l with
    | nil => simp [prefixMarker] at h
    | cons a t =>
        simp only [prefixMarker, List.take_succ_cons, List.cons.injEq] at h
        simp [h.1]
  unfold skipsPrefix
  split <;> first
    | rfl
    | (by_cases h : l.take 10 = prefixMarker
       · simp [h, key h]
       · simp [h])

theorem skipsPeriodic_eq (variant : Nat) (l : List Nat) :
    skipsPeriodic variant l = decide (l.take 3 = periodicMarker) := by
  have key : (l.head? = some 122 ∧ (l.drop 1).take 2 = [33, 33]) ↔ l.take 3 = periodicMarker := by
    cases l with
    | nil => simp [periodicMarker]
    | cons a t =>
        simp only [periodicMarker, List.take_succ_cons, List.cons.injEq, List.head?_cons,
          Option.some.injEq, List.drop_succ_cons, List.drop_zero]
  unfold skipsPeriodic
  split <;> first
    | rfl
    | (by_cases h : l.take 3 = periodicMarker
       · have := key.mpr h
         simp only [h, this.1, decide_True, Bool.true_and, decide_eq_true_eq]
         exact this.2
       · have hk : ¬ (l.head? = some 122 ∧ (l.drop 1).take 2 = [33, 33]) := fun hh => h (key.mp hh)
         simp only [h, decide_False]
         by_cases h1 : l.head? = some 122
         · have h2 : ¬ (l.drop 1).take 2 = [33, 33] := fun hh => hk ⟨h1, hh⟩
           simp only [h1, decide_True, Bool.true_and, decide_eq_false_iff_not]
           exact h2
         · simp [h1])

theorem groupBytes_encodeValue (variant : Nat) (v : Nat) (hv : v < 4294967296) :
    groupBytes variant (33 + v / 52200625 % 85) (33 + v / 614125 % 85) (33 + v / 7225 % 85)
        (33 + v / 85 % 85) (33 + v % 85)
      = some [v / 16777216 % 256, v / 65536 % 256, v / 256 % 256, v % 256] := by
  have hsum : (v / 52200625 % 85) * 52200625 + (v / 614125 % 85) * 614125
      + (v / 7225 % 85) * 7225 + (v / 85 % 85) * 85 + v % 85 = v := by omega
  unfold groupBytes
  split
  · unfold groupBytesTable tableT
    have e : ∀ d : Nat, d < 85 → (33 ≤ 33 + d ∧ 33 + d ≤ 117) := by intro d hd; omega
    simp only [e _ (Nat.mod_lt _ (show 0 < 85 by decide)), and_self, if_true,
      Nat.add_sub_cancel_left, hsum, Nat.mod_eq_of_lt hv]
  · unfold groupBytesArith
    simp only [Option.some.injEq, List.cons.injEq, and_true]
    refine ⟨?_, ?_, ?_, ?_⟩ <;> omega
theorem d85Loop_marker (variant fuel : Nat) (l : List Nat) :
    d85Loop variant (fuel + 1) (periodicMarker ++ l) = d85Loop variant fuel l := by
  conv_lhs => unfold d85Loop
  rw [skipsPrefix_eq, skipsPeriodic_eq]
  simp [periodicMarker, prefixMarker]

theorem d85Loop_group (variant fuel : Nat) (v : Nat) (rest : List Nat) (hv : v < 4294967296)
    (hrest : rest.take 5 ≠ [48, 60, 88, 59, 122]) :
    d85Loop variant (fuel + 1) (encodeValue v ++ rest)
      = (d85Loop variant fuel rest).map
          (fun o => [v / 16777216 % 256, v / 65536 % 256, v / 256 % 256, v % 256] ++ o) := by
  conv_lhs => unfold d85Loop
  rw [skipsPrefix_eq, skipsPeriodic_eq, encodeValue_eq]
  have h1 : ¬ (([33 + v / 52200625 % 85, 33 + v / 614125 % 85, 33 + v / 7225 % 85,
      33 + v / 85 % 85, 33 + v % 85] ++ rest).take 10 = prefixMarker) := by
    intro h
    simp only [prefixMarker, List.cons_append, List.nil_append, List.take_succ_cons,
      List.cons.injEq] at h
    exact hrest h.2.2.2.2.2
  have h2 : ¬ (([33 + v / 52200625 % 85, 33 + v / 614125 % 85, 33 + v / 7225 % 85,
      33 + v / 85 % 85, 33 + v % 85] ++ rest).take 3 = periodicMarker) := by
    intro h
    simp only [periodicMarker, List.cons_append, List.nil_append, List.take_succ_cons,
      List.cons.injEq] at h
    omega
  simp only [h1, h2, decide_False, Bool.false_eq_true, if_false]
  simp only [List.cons_append, List.nil_append, List.drop_succ_cons, List.drop_zero,
    groupBytes_encodeValue variant v hv]
  cases d85Loop variant fuel rest <;> simp

theorem encodeGroup_take5 (i : Nat) (bytes rest : List Nat) :
    (encodeGroup i bytes ++ rest).take 5 ≠ [48, 60, 88, 59, 122] := by
  unfold encodeGroup
  rw [encodeValue_eq]
  split
  · simp [periodicMarker]
  · simp only [List.nil_append, List.cons_append, List.take_succ_cons, List.take_zero, ne_eq,
      List.cons.injEq, not_and]
    intro _ _ _ _ h
    omega

theorem encodeGroups_take5 (i : Nat) (data : List Nat) :
    (encodeGroups i data).take 5 ≠ [48, 60, 88, 59, 122] := by
  match data with
  | [] => simp [encodeGroups]
  | [a] => simpa [encodeGroups] using encodeGroup_take5 i [a] []
  | [a, b] => simpa [encodeGroups] using encodeGroup_take5 i [a, b] []
  | [a, b, c] => simpa [encodeGroups] using encodeGroup_take5 i [a, b, c] []
  | a :: b :: c :: d :: rest =>
      simpa [encodeGroups] using encodeGroup_take5 i [a, b, c, d] (encodeGroups (i + 4) rest)

theorem d85Loop_encodeGroup (variant fuel i : Nat) (bytes rest : List Nat)
    (hv : packGroup bytes < 4294967296) (hrest : rest.take 5 ≠ [48, 60, 88, 59, 122]) :
    d85Loop variant (fuel + 2) (encodeGroup i bytes ++ rest)
      = (d85Loop variant (if 0 < i ∧ i % 60 = 0 then fuel else fuel + 1) rest).map
          (fun o => [packGroup bytes / 16777216 % 256, packGroup bytes / 65536 % 256,
            packGroup bytes / 256 % 256, packGroup bytes % 256] ++ o) := by
  unfold encodeGroup
  split
  · rw [List.append_assoc, d85Loop_marker, d85Loop_group _ _ _ _ hv hrest]
  · rw [List.nil_append, d85Loop_group _ _ _ _ hv hrest]

theorem encodeGroup_length (i : Nat) (bytes : List Nat) :
    (encodeGroup i bytes).length = (if 0 < i ∧ i % 60 = 0 then 3 else 0) + 5 := by
  unfold encodeGroup encodeValue
  split <;> simp [periodicMarker]

theorem packGroup_one (a : Nat) : packGroup [a] = a * 16777216 := by
  simp [packGroup]

theorem packGroup_two (a b : Nat) : packGroup [a, b] = (a * 256 + b) * 65536 := by
  simp [packGroup]

theorem packGroup_three (a b c : Nat) : packGroup [a, b, c] = ((a * 256 + b) * 256 + c) * 256 := by
  simp [packGroup]

theorem packGroup_four (a b c d : Nat) :
    packGroup [a, b, c, d] = ((a * 256 + b) * 256 + c) * 256 + d := by
  simp [packGroup]

theorem padTo4_cons4 (a b c d : Nat) (rest : List Nat) :
    padTo4 (a :: b :: c :: d :: rest) = a :: b :: c :: d :: padTo4 rest := by
  unfold padTo4
  have : (a :: b :: c :: d :: rest).length % 4 = rest.length % 4 := by
    simp only [List.length_cons]
    omega
  rw [this]
  rfl

/-- Decoding the glyphs of one last group, short or full, gives its bytes
padded to four. -/
theorem d85Loop_last_group (variant fuel i : Nat) (bytes : List Nat)
    (hv : packGroup bytes < 4294967296) (hf : (encodeGroup i bytes).length < fuel) :
    d85Loop variant fuel (encodeGroup i bytes)
      = some [packGroup bytes / 16777216 % 256, packGroup bytes / 65536 % 256,
            packGroup bytes / 256 % 256, packGroup bytes % 256] := by
  rw [encodeGroup_length] at hf
  obtain ⟨f, rfl⟩ : ∃ f, fuel = f + 2 := ⟨fuel - 2, by omega⟩
  have h := d85Loop_encodeGroup variant f i bytes [] hv (by simp)
  rw [List.append_nil] at h
  rw [h]
  have hnil : ∀ n, d85Loop variant (n + 1) [] = some [] := by intro n; simp [d85Loop]
  have hfuel : d85Loop variant (if 0 < i ∧ i % 60 = 0 then f else f + 1) [] = some [] := by
    split
    · rename_i hm
      rw [if_pos hm] at hf
      obtain ⟨g, rfl⟩ : ∃ g, f = g + 1 := ⟨f - 1, by omega⟩
      exact hnil g
    · exact hnil f
  rw [hfuel]
  simp

theorem d85Loop_encodeGroups (variant : Nat) (data : List Nat) (i fuel : Nat)
    (hb : ∀ b ∈ data, b < 256) (hf : (encodeGroups i data).length < fuel) :
    d85Loop variant fuel (encodeGroups i data) = some (padTo4 data) := by
  induction i, data using encodeGroups.induct generalizing fuel with
  | case1 i =>
      cases fuel with
      | zero => simp at hf
      | succ n => simp [encodeGroups, d85Loop, padTo4]
  | case2 i a =>
      have ha : a < 256 := hb a (by simp)
      rw [encodeGroups] at hf ⊢
      rw [d85Loop_last_group variant fuel i [a] (by rw [packGroup_one]; omega) hf, packGroup_one]
      simp only [padTo4, List.length_cons, List.length_nil, Option.some.injEq]
      have e1 : a * 16777216 / 16777216 % 256 = a := by omega
      have e2 : a * 16777216 / 65536 % 256 = 0 := by omega
      have e3 : a * 16777216 / 256 % 256 = 0 := by omega
      have e4 : a * 16777216 % 256 = 0 := by omega
      rw [e1, e2, e3, e4]
      rfl
  | case3 i a b =>
      have ha : a < 256 := hb a (by simp)
      have hb1 : b < 256 := hb b (by simp)
      rw [encodeGroups] at hf ⊢
      rw [d85Loop_last_group variant fuel i [a, b] (by rw [packGroup_two]; omega) hf,
        packGroup_two]
      simp only [padTo4, List.length_cons, List.length_nil, Option.some.injEq]
      have e1 : (a * 256 + b) * 65536 / 16777216 % 256 = a := by omega
      have e2 : (a * 256 + b) * 65536 / 65536 % 256 = b := by omega
      have e3 : (a * 256 + b) * 65536 / 256 % 256 = 0 := by omega
      have e4 : (a * 256 + b) * 65536 % 256 = 0 := by omega
      rw [e1, e2, e3, e4]
      rfl
  | case4 i a b c =>
      have ha : a < 256 := hb a (by simp)
      have hb1 : b < 256 := hb b (by simp)
      have hc : c < 256 := hb c (by simp)
      rw [encodeGroups] at hf ⊢
      rw [d85Loop_last_group variant fuel i [a, b, c] (by rw [packGroup_three]; omega) hf,
        packGroup_three]
      simp only [padTo4, List.length_cons, List.length_nil, Option.some.injEq]
      have e1 : ((a * 256 + b) * 256 + c) * 256 / 16777216 % 256 = a := by omega
      have e2 : ((a * 256 + b) * 256 + c) * 256 / 65536 % 256 = b := by omega
      have e3 : ((a * 256 + b) * 256 + c) * 256 / 256 % 256 = c := by omega
      have e4 : ((a * 256 + b) * 256 + c) * 256 % 256 = 0 := by omega
      rw [e1, e2, e3, e4]
      rfl
  | case5 i a b c d rest ih =>
      have ha : a < 256 := hb a (by simp)
      have hb1 : b < 256 := hb b (by simp)
      have hc : c < 256 := hb c (by simp)
      have hd : d < 256 := hb d (by simp)
      have hrest : ∀ x ∈ rest, x < 256 := fun x hx => hb x (by simp [hx])
      rw [encodeGroups] at hf ⊢
      rw [List.length_append, encodeGroup_length] at hf
      obtain ⟨f, rfl⟩ : ∃ f, fuel = f + 2 := ⟨fuel - 2, by omega⟩
      rw [d85Loop_encodeGroup variant f i [a, b, c, d] _ (by rw [packGroup_four]; omega)
        (encodeGroups_take5 _ _)]
      have hrec : d85Loop variant (if 0 < i ∧ i % 60 = 0 then f else f + 1)
          (encodeGroups (i + 4) rest) = some (padTo4 rest) := by
        apply ih _ hrest
        split
        · rename_i hm
          rw [if_pos hm] at hf
          omega
        · rename_i hm
          rw [if_neg hm] at hf
          omega
      rw [hrec, packGroup_four, padTo4_cons4]
      simp only [Option.map_some', List.cons_append, List.nil_append, Option.some.injEq,
        List.cons.injEq, and_true]
      refine ⟨?_, ?_, ?_, ?_⟩ <;> omega
theorem d85Loop_prefixMarker (variant fuel : Nat) (l : List Nat) :
    d85Loop variant (fuel + 1) (prefixMarker ++ l) = d85Loop variant fuel l := by
  conv_lhs => unfold d85Loop
  rw [skipsPrefix_eq]
  simp [prefixMarker]

theorem d85_encodeText (variant : Nat) (data : List Nat) (hb : ∀ b ∈ data, b < 256) :
    d85 variant (encodeText data) = some (padTo4 data) := by
  unfold d85 encodeText
  rw [d85Loop_prefixMarker]
  apply d85Loop_encodeGroups variant data 0 _ hb
  simp only [prefixMarker, List.length_append, List.length_cons, List.length_nil]
  omega

theorem encodeGroups_length (i : Nat) (data : List Nat) (hi : i % 4 = 0) :
    (encodeGroups i data).length + 3 * ((i + 59) / 60 - 1)
      = 5 * ((data.length + 3) / 4) + 3 * ((i + data.length + 59) / 60 - 1) := by
  induction i, data using encodeGroups.induct with
  | case1 i => simp [encodeGroups]
  | case2 i a =>
      rw [encodeGroups, encodeGroup_length]
      simp only [List.length_cons, List.length_nil]
      split <;> omega
  | case3 i a b =>
      rw [encodeGroups, encodeGroup_length]
      simp only [List.length_cons, List.length_nil]
      split <;> omega
  | case4 i a b c =>
      rw [encodeGroups, encodeGroup_length]
      simp only [List.length_cons, List.length_nil]
      split <;> omega
  | case5 i a b c d rest ih =>
      have ih1 := ih (by omega)
      rw [encodeGroups, List.length_append, encodeGroup_length]
      simp only [List.length_cons]
      split <;> omega

theorem EncodeBase85Custom_fits (data : List Nat) :
    EncodeBase85Custom data = (if data.length ≤ 1800 then some (encodeText data) else none) := by
  unfold EncodeBase85Custom
  have h := encodeGroups_length 0 data (by decide)
  have hl : (encodeText data).length = 10 + (encodeGroups 0 data).length := by
    simp only [encodeText, prefixMarker, List.length_append, List.length_cons, List.length_nil]
  simp only [hl]
  by_cases hd : data.length ≤ 1800
  · rw [if_pos hd, if_pos (by omega)]
  · rw [if_neg hd, if_neg (by omega)]

theorem serializeConstant_lt (s : String) : ∀ b ∈ serializeConstant s, b < 256 := by
  intro b hb
  simp only [serializeConstant, strBytes, List.cons_append, List.nil_append, List.mem_cons,
    List.mem_map] at hb
  rcases hb with rfl | rfl | ⟨c, _, rfl⟩ <;> omega

theorem serializeInstruction_lt (opcodeMap : List Nat) (ins : Instruction) :
    ∀ b ∈ serializeInstruction opcodeMap ins, b < 256 := by
  intro b hb
  simp only [serializeInstruction, lowByte, highByte, List.mem_cons, List.mem_singleton,
    List.not_mem_nil, or_false] at hb
  rcases hb with rfl | rfl | rfl | rfl | rfl | rfl <;> omega

theorem serializeBuffer_lt (chunk : BytecodeChunk) (opcodeMap : List Nat) :
    ∀ b ∈ serializeBuffer chunk opcodeMap, b < 256 := by
  intro b hb
  rw [serializeBuffer_eq] at hb
  simp only [List.mem_append, List.mem_cons, List.mem_singleton, List.not_mem_nil, or_false,
    List.mem_flatMap] at hb
  rcases hb with ((rfl | rfl) | ⟨s, _, hs⟩) | ⟨ins, _, hi⟩
  · omega
  · omega
  · exact serializeConstant_lt s b hs
  · exact serializeInstruction_lt opcodeMap ins b hi

theorem padTo4_of_mod (data : List Nat) (h : data.length % 4 = 0) : padTo4 data = data := by
  simp [padTo4, h]

/-- C1 (as amended): for every chunk, build context and decoder variant, when
`SerializeBytecodeWithMapping` returns a text, which it does exactly when the
serialized buffer has at most 1800 bytes (beyond that the encoder writes past
its output block), `d85` applied to that text returns the serialized bytes
followed by the zero bytes that fill the last group of four; it returns
exactly the serialized bytes when their number is a multiple of 4. Constants
are part of the bytes that are encoded, so what they contain plays no role. -/
theorem d85_serialize_roundtrip (chunk : BytecodeChunk) (ctx : BuildContext) (variant : Nat) :
    (∀ text : List Nat, SerializeBytecodeWithMapping chunk ctx = some text →
        d85 variant text = some (padTo4 (serializeBuffer chunk ctx.opcodeMap)))
    ∧ ((SerializeBytecodeWithMapping chunk ctx).isSome = true
        ↔ (serializeBuffer chunk ctx.opcodeMap).length ≤ 1800)
    ∧ ((serializeBuffer chunk ctx.opcodeMap).length % 4 = 0 →
        padTo4 (serializeBuffer chunk ctx.opcodeMap) = serializeBuffer chunk ctx.opcodeMap) := by
  refine ⟨?_, ?_, padTo4_of_mod _⟩
  · intro text h
    unfold SerializeBytecodeWithMapping at h
    rw [EncodeBase85Custom_fits] at h
    split at h
    · simp only [Option.some.injEq] at h
      rw [← h]
      exact d85_encodeText variant _ (serializeBuffer_lt chunk ctx.opcodeMap)
    · simp at h
  · unfold SerializeBytecodeWithMapping
    rw [EncodeBase85Custom_fits]
    split <;> simp [*]

/-- C1, witness: the chunk with the constant `print` and one instruction,
whose buffer has 15 bytes, decoded with variant 0. -/
theorem d85_serialize_roundtrip_witness :
    SerializeBytecodeWithMapping chunkPrint (CreateBuildContext (fun k => k))
        = some (encodeText (serializeBuffer chunkPrint (CreateBuildContext (fun k => k)).opcodeMap))
    ∧ d85 0 (encodeText (serializeBuffer chunkPrint (CreateBuildContext (fun k => k)).opcodeMap))
        = some (padTo4 (serializeBuffer chunkPrint (CreateBuildContext (fun k => k)).opcodeMap)) :=
  have h : SerializeBytecodeWithMapping chunkPrint (CreateBuildContext (fun k => k))
        = some (encodeText (serializeBuffer chunkPrint (CreateBuildContext (fun k => k)).opcodeMap)) := by
    unfold SerializeBytecodeWithMapping
    rw [EncodeBase85Custom_fits, if_pos]
    rw [serializeBuffer_length]
    decide
  ⟨h, (d85_serialize_roundtrip chunkPrint (CreateBuildContext (fun k => k)) 0).1 _ h⟩

/-- C1, counterexample: the chunk without constants and instructions
serializes to the two bytes 1, 0; its encoding decodes to the four bytes
1, 0, 0, 0, two more than were serialized. -/
theorem d85_empty_chunk_padded :
    serializeBuffer CreateChunk (List.range 256) = [1, 0]
    ∧ (EncodeBase85Custom (serializeBuffer CreateChunk (List.range 256))).bind (d85 0)
        = some [1, 0, 0, 0]
    ∧ (EncodeBase85Custom (serializeBuffer CreateChunk (List.range 256))).bind (d85 0)
        ≠ some (serializeBuffer CreateChunk (List.range 256)) := by
  decide
/-! ## The scenario `local x = 1 + 2; print(x)` -/

/-- C8, counterexample: the chunk compiled for `local x = 1 + 2; print(x)`
has three constants, not at most two. -/
theorem compile_local_sum_three_constants :
    (compileSource 100 "local x = 1 + 2; print(x)").map (fun chunk => chunk.Constants.length)
        = some 3
    ∧ ¬ ((compileSource 100 "local x = 1 + 2; print(x)").map
          (fun chunk => decide (chunk.Constants.length ≤ 2)) = some true) := by
  decide

/-- C8 (as amended): compiling `local x = 1 + 2; print(x)` succeeds, without
error, and yields a chunk with exactly the three constants `1`, `2` and
`print` (the two literals are not folded) and the seven instructions
LOADK 1 0, LOADK 2 1, ADD 0 1 2, GETGLOBAL 1 2, MOVE 2 0, CALL 1 2 2,
RETURN 0 1 0, which is at least three. -/
theorem compile_local_sum_print :
    (Compile 100 (CreateCompilerState "local x = 1 + 2; print(x)")).map
        (fun r => (r.1, r.2.hadError, r.2.parser.hadError))
      = some (some
          { Instructions :=
              [{ Op := .OP_LOADK, A := 1, B := 0, C := 0 },
               { Op := .OP_LOADK, A := 2, B := 1, C := 0 },
               { Op := .OP_ADD, A := 0, B := 1, C := 2 },
               { Op := .OP_GETGLOBAL, A := 1, B := 2, C := 0 },
               { Op := .OP_MOVE, A := 2, B := 0, C := 0 },
               { Op := .OP_CALL, A := 1, B := 2, C := 2 },
               { Op := .OP_RETURN, A := 0, B := 1, C := 0 }]
            Constants := ["1", "2", "print"]
            overrun := false }, false, false) := by
  decide
/-! ## Scope and constant pool through the compiler -/

theorem PoolOK_iff (st : CompilerState) : PoolOK st ↔ CompOK st.current := Iff.rfl

theorem PoolOK_LocalsOK (st : CompilerState) (h : PoolOK st) : LocalsOK st := h.1

@[simp] theorem emitInstruction_constants (st : CompilerState) (op : OpCode) (a b c : Int) :
    (emitInstruction st op a b c).current.chunk.Constants = st.current.chunk.Constants := rfl

@[simp] theorem emitInstruction_locals (st : CompilerState) (op : OpCode) (a b c : Int) :
    (emitInstruction st op a b c).current.locals = st.current.locals := rfl

@[simp] theorem emitInstruction_scopeDepth (st : CompilerState) (op : OpCode) (a b c : Int) :
    (emitInstruction st op a b c).current.scopeDepth = st.current.scopeDepth := rfl

@[simp] theorem patchB_constants (st : CompilerState) (i b : Int) :
    (patchB st i b).current.chunk.Constants = st.current.chunk.Constants := rfl

@[simp] theorem patchB_locals (st : CompilerState) (i b : Int) :
    (patchB st i b).current.locals = st.current.locals := rfl

@[simp] theorem patchB_scopeDepth (st : CompilerState) (i b : Int) :
    (patchB st i b).current.scopeDepth = st.current.scopeDepth := rfl

@[simp] theorem allocReg_constants (st : CompilerState) :
    (allocReg st).current.chunk.Constants = st.current.chunk.Constants := rfl

@[simp] theorem allocReg_locals (st : CompilerState) :
    (allocReg st).current.locals = st.current.locals := rfl

@[simp] theorem allocReg_scopeDepth (st : CompilerState) :
    (allocReg st).current.scopeDepth = st.current.scopeDepth := rfl

@[simp] theorem freeReg_constants (st : CompilerState) :
    (freeReg st).current.chunk.Constants = st.current.chunk.Constants := rfl

@[simp] theorem freeReg_locals (st : CompilerState) :
    (freeReg st).current.locals = st.current.locals := rfl

@[simp] theorem freeReg_scopeDepth (st : CompilerState) :
    (freeReg st).current.scopeDepth = st.current.scopeDepth := rfl

@[simp] theorem addConstant_locals (st : CompilerState) (v : String) :
    (addConstant st v).2.current.locals = st.current.locals := by
  unfold addConstant; split <;> rfl

@[simp] theorem addConstant_scopeDepth (st : CompilerState) (v : String) :
    (addConstant st v).2.current.scopeDepth = st.current.scopeDepth := by
  unfold addConstant; split <;> rfl

theorem addConstant_nodup (st : CompilerState) (v : String)
    (h : st.current.chunk.Constants.Nodup) :
    (addConstant st v).2.current.chunk.Constants.Nodup := by
  unfold addConstant
  split
  · exact h
  · rename_i hv
    show (st.current.chunk.Constants ++ [v]).Nodup
    rw [List.nodup_append]
    refine ⟨h, List.nodup_singleton v, ?_⟩
    intro a ha hb
    rw [List.mem_singleton] at hb
    exact hv (hb ▸ ha)

@[simp] theorem CompOK_emitInstruction (st : CompilerState) (op : OpCode) (a b c : Int) :
    CompOK (emitInstruction st op a b c).current ↔ CompOK st.current := Iff.rfl

@[simp] theorem CompOK_patchB (st : CompilerState) (i b : Int) :
    CompOK (patchB st i b).current ↔ CompOK st.current := Iff.rfl

@[simp] theorem CompOK_allocReg (st : CompilerState) :
    CompOK (allocReg st).current ↔ CompOK st.current := Iff.rfl

@[simp] theorem CompOK_freeReg (st : CompilerState) :
    CompOK (freeReg st).current ↔ CompOK st.current := Iff.rfl

theorem CompOK_addConstant (st : CompilerState) (v : String) (h : CompOK st.current) :
    CompOK (addConstant st v).2.current = True := by
  refine eq_true ⟨?_, addConstant_nodup st v h.2⟩
  intro l hl
  rw [addConstant_locals] at hl
  rw [addConstant_scopeDepth]
  exact h.1 l hl

@[simp] theorem freeRegs_locals (st : CompilerState) (n : Nat) :
    (freeRegs st n).current.locals = st.current.locals := by
  induction n generalizing st with
  | zero => rfl
  | succ n ih => rw [freeRegs, ih]; rfl

@[simp] theorem freeRegs_scopeDepth (st : CompilerState) (n : Nat) :
    (freeRegs st n).current.scopeDepth = st.current.scopeDepth := by
  induction n generalizing st with
  | zero => rfl
  | succ n ih => rw [freeRegs, ih]; rfl

@[simp] theorem freeRegs_constants (st : CompilerState) (n : Nat) :
    (freeRegs st n).current.chunk.Constants = st.current.chunk.Constants := by
  induction n generalizing st with
  | zero => rfl
  | succ n ih => rw [freeRegs, ih]; rfl

@[simp] theorem CompOK_freeRegs (st : CompilerState) (n : Nat) :
    CompOK (freeRegs st n).current ↔ CompOK st.current := by
  unfold CompOK
  rw [freeRegs_locals, freeRegs_scopeDepth, freeRegs_constants]

theorem compileCall_step (fuel : Nat) (ih : AllGood fuel) (st : CompilerState) (func : ASTNode)
    (args : List ASTNode) (reg : Int) : ExprOK st (compileCall (fuel + 1) st func args reg) := by
  intro h st9 hr
  unfold compileCall at hr
  split at hr
  · cases hr
  · rename_i sa ha
    have ea := fun p => ih.expr _ _ _ p _ ha
    split at hr
    · cases hr
    · rename_i sb hb
      have eb := fun p => ih.exprsInto _ _ _ p _ hb
      cases hr
      simp_all [SameScope, PoolOK_iff]

theorem compileMethodCall_step (fuel : Nat) (ih : AllGood fuel) (st : CompilerState)
    (object : ASTNode) (method : String) (args : List ASTNode) (reg : Int) :
    ExprOK st (compileMethodCall (fuel + 1) st object method args reg) := by
  intro h st9 hr
  unfold compileMethodCall at hr
  split at hr
  · cases hr
  · rename_i sa ha
    have ea := fun p => ih.expr _ _ _ p _ ha
    dsimp only at hr
    split at hr
    · cases hr
    · rename_i sb hb
      have eb := fun p => ih.exprsInto _ _ _ p _ hb
      cases hr
      simp_all [SameScope, PoolOK_iff, CompOK_addConstant]

theorem compileExprsInto_step (fuel : Nat) (ih : AllGood fuel) (st : CompilerState)
    (es : List ASTNode) (reg : Int) : ExprOK st (compileExprsInto (fuel + 1) st es reg) := by
  intro h st9 hr
  cases es with
  | nil =>
      unfold compileExprsInto at hr
      cases hr
      exact ⟨h, rfl, rfl⟩
  | cons e rest =>
      unfold compileExprsInto at hr
      split at hr
      · cases hr
      · rename_i sa ha
        have ea := fun p => ih.expr _ _ _ p _ ha
        have eb := fun p => ih.exprsInto _ _ _ p _ hr
        simp_all [SameScope, PoolOK_iff]

theorem compileDotIndex_step (fuel : Nat) (ih : AllGood fuel) (st : CompilerState)
    (object : ASTNode) (field : String) (reg : Int) :
    ExprOK st (compileDotIndex (fuel + 1) st object field reg) := by
  intro h st9 hr
  unfold compileDotIndex at hr
  split at hr
  · cases hr
  · rename_i sa ha
    have ea := fun p => ih.expr _ _ _ p _ ha
    dsimp only at hr
    cases hr
    simp_all [SameScope, PoolOK_iff, CompOK_addConstant]

theorem compileIndex_step (fuel : Nat) (ih : AllGood fuel) (st : CompilerState)
    (object key : ASTNode) (reg : Int) :
    ExprOK st (compileIndex (fuel + 1) st object key reg) := by
  intro h st9 hr
  unfold compileIndex at hr
  split at hr
  · cases hr
  · rename_i sa ha
    have ea := fun p => ih.expr _ _ _ p _ ha
    dsimp only at hr
    split at hr
    · cases hr
    · rename_i sb hb
      have eb := fun p => ih.expr _ _ _ p _ hb
      cases hr
      simp_all [SameScope, PoolOK_iff]

theorem compileTableFields_step (fuel : Nat) (ih : AllGood fuel) (st : CompilerState)
    (fields : List ASTNode) (reg arrayIdx : Int) :
    ExprOK st (compileTableFields (fuel + 1) st fields reg arrayIdx) := by
  intro h st9 hr
  cases fields with
  | nil =>
      unfold compileTableFields at hr
      cases hr
      exact ⟨h, rfl, rfl⟩
  | cons field rest =>
      unfold compileTableFields at hr
      split at hr
      all_goals dsimp only at hr
      all_goals
        split at hr
        · cases hr
        · rename_i sa ha
          have ea := fun p => ih.expr _ _ _ p _ ha
          first
            | (have eb := fun p => ih.tableFields _ _ _ _ p _ hr
               simp_all [SameScope, PoolOK_iff, CompOK_addConstant])
            | (split at hr
               · cases hr
               · rename_i sb hb
                 have eb := fun p => ih.expr _ _ _ p _ hb
                 have ec := fun p => ih.tableFields _ _ _ _ p _ hr
                 simp_all [SameScope, PoolOK_iff, CompOK_addConstant])

theorem compileTable_step (fuel : Nat) (ih : AllGood fuel) (st : CompilerState)
    (fields : List ASTNode) (reg : Int) :
    ExprOK st (compileTable (fuel + 1) st fields reg) := by
  intro h st9 hr
  unfold compileTable at hr
  dsimp only at hr
  have ea := fun p => ih.tableFields _ _ _ _ p _ hr
  simp_all [SameScope, PoolOK_iff]

theorem compileBinop_step (fuel : Nat) (ih : AllGood fuel) (st : CompilerState)
    (op : String) (left right : ASTNode) (reg : Int) :
    ExprOK st (compileBinop (fuel + 1) st op left right reg) := by
  intro h st9 hr
  unfold compileBinop at hr
  split at hr
  · split at hr
    · cases hr
    · rename_i sa ha
      have ea := fun p => ih.expr _ _ _ p _ ha
      dsimp only at hr
      split at hr
      · cases hr
      · rename_i sb hb
        have eb := fun p => ih.expr _ _ _ p _ hb
        cases hr
        simp_all [SameScope, PoolOK_iff]
  · dsimp only at hr
    split at hr
    · cases hr
    · rename_i sa ha
      have ea := fun p => ih.expr _ _ _ p _ ha
      split at hr
      · cases hr
      · rename_i sb hb
        have eb := fun p => ih.expr _ _ _ p _ hb
        split at hr
        · cases hr
          simp_all [SameScope, PoolOK_iff]
        · split at hr
          · cases hr
            split <;> simp_all [SameScope, PoolOK_iff]
          · cases hr
            simp_all [SameScope, PoolOK_iff]

theorem compileUnop_step (fuel : Nat) (ih : AllGood fuel) (st : CompilerState)
    (op : String) (operand : ASTNode) (reg : Int) :
    ExprOK st (compileUnop (fuel + 1) st op operand reg) := by
  intro h st9 hr
  unfold compileUnop at hr
  split at hr
  · cases hr
  · rename_i sa ha
    have ea := fun p => ih.expr _ _ _ p _ ha
    split_ifs at hr <;> cases hr <;> simp_all [SameScope, PoolOK_iff]

theorem compileName_good (st : CompilerState) (name : String) (reg : Int)
    (h : CompOK st.current) :
    CompOK (compileName st name reg).current ∧ SameScope st (compileName st name reg) := by
  unfold compileName
  dsimp only
  split_ifs <;> simp_all [SameScope, CompOK_addConstant]

theorem emitClosure_good (st : CompilerState) (luaCode : String) (reg : Int) (n : Nat)
    (h : CompOK st.current) :
    CompOK (emitClosure st luaCode reg n).current
      ∧ SameScope st (emitClosure st luaCode reg n) := by
  unfold emitClosure
  dsimp only
  have h1 : CompOK ({ st with luaOverrun := st.luaOverrun || decide (4096 ≤ luaCode.length) } :
      CompilerState).current := h
  simp_all [SameScope, CompOK_addConstant]

theorem compileExpressionToReg_step (fuel : Nat) (ih : AllGood fuel) (st : CompilerState)
    (node : ASTNode) (reg : Int) :
    ExprOK st (compileExpressionToReg (fuel + 1) st node reg) := by
  intro h st9 hr
  unfold compileExpressionToReg at hr
  split at hr
  · cases hr
    simp_all [SameScope, PoolOK_iff, CompOK_addConstant, compileNumber, addNumberConstant]
  · cases hr
    simp_all [SameScope, PoolOK_iff, CompOK_addConstant, compileString]
  · cases hr
    simp_all [SameScope, PoolOK_iff, compileBool]
  · cases hr
    simp_all [SameScope, PoolOK_iff, compileNil]
  · cases hr
    exact compileName_good _ _ _ h
  · exact ih.call _ _ _ _ h _ hr
  · exact ih.methodCall _ _ _ _ _ h _ hr
  · exact ih.dotIndex _ _ _ _ h _ hr
  · exact ih.index _ _ _ _ h _ hr
  · exact ih.table _ _ _ h _ hr
  · exact ih.binop _ _ _ _ _ h _ hr
  · exact ih.unop _ _ _ _ h _ hr
  · split at hr
    · cases hr
    · cases hr
      exact emitClosure_good { st with funcCounter := st.funcCounter + 1 } _ _ _ h
  · cases hr
    exact ⟨h, rfl, rfl⟩

/-! ### Scopes -/

theorem dropWhile_append_all {α : Type} (p : α → Bool) (a b : List α)
    (ha : ∀ x ∈ a, p x = true) : (a ++ b).dropWhile p = b.dropWhile p := by
  induction a with
  | nil => rfl
  | cons x a ih =>
      rw [List.cons_append, List.dropWhile_cons, if_pos (ha x (List.mem_cons_self x a))]
      exact ih (fun y hy => ha y (List.mem_cons_of_mem x hy))

theorem dropWhile_none {α : Type} (p : α → Bool) (b : List α)
    (hb : ∀ x ∈ b, p x = false) : b.dropWhile p = b := by
  cases b with
  | nil => rfl
  | cons x b =>
      rw [List.dropWhile_cons, if_neg]
      rw [hb x (List.mem_cons_self x b)]
      exact Bool.false_ne_true

theorem popLocals_append (d : Int) (l extra : List Local)
    (hl : ∀ x ∈ l, x.depth ≤ d) (he : ∀ x ∈ extra, d < x.depth) :
    popLocals d (l ++ extra) = l := by
  unfold popLocals
  rw [List.reverse_append, dropWhile_append_all, dropWhile_none, List.reverse_reverse]
  · intro x hx
    rw [List.mem_reverse] at hx
    have := hl x hx
    simp only [gt_iff_lt, decide_eq_false_iff_not, not_lt]
    exact this
  · intro x hx
    rw [List.mem_reverse] at hx
    have := he x hx
    simp only [gt_iff_lt, decide_eq_true_eq]
    exact this

theorem CompOK_beginScope (st : CompilerState) (h : CompOK st.current) :
    CompOK (beginScope st).current := by
  refine ⟨?_, h.2⟩
  intro l hl
  have := h.1 l hl
  show l.depth ≤ st.current.scopeDepth + 1
  omega

theorem SameScope.sameRefl (st : CompilerState) : SameScope st st := ⟨rfl, rfl⟩

theorem SameScope.sameTrans {a b c : CompilerState} (h1 : SameScope a b) (h2 : SameScope b c) :
    SameScope a c := ⟨h2.1.trans h1.1, h2.2.trans h1.2⟩

theorem ExtendsScope.extRefl (st : CompilerState) : ExtendsScope st st :=
  ⟨rfl, [], (List.append_nil _).symm, fun _ hl => absurd hl (List.not_mem_nil _)⟩

theorem ExtendsScope.extTrans {a b c : CompilerState} (h1 : ExtendsScope a b)
    (h2 : ExtendsScope b c) : ExtendsScope a c := by
  obtain ⟨d1, e1, l1, m1⟩ := h1
  obtain ⟨d2, e2, l2, m2⟩ := h2
  refine ⟨d2.trans d1, e1 ++ e2, ?_, ?_⟩
  · rw [l2, l1, List.append_assoc]
  · intro l hl
    rw [List.mem_append] at hl
    rcases hl with hl | hl
    · exact m1 l hl
    · rw [m2 l hl, d1]

theorem SameScope.toExtends {a b : CompilerState} (h : SameScope a b) : ExtendsScope a b :=
  ⟨h.1, [], by rw [h.2, List.append_nil], fun _ hl => absurd hl (List.not_mem_nil _)⟩

@[simp] theorem addLocal_constants (st : CompilerState) (n : String) :
    (addLocal st n).current.chunk.Constants = st.current.chunk.Constants := by
  unfold addLocal; split <;> rfl

@[simp] theorem addLocal_scopeDepth (st : CompilerState) (n : String) :
    (addLocal st n).current.scopeDepth = st.current.scopeDepth := by
  unfold addLocal; split <;> rfl

theorem addLocal_extends (st : CompilerState) (n : String) : ExtendsScope st (addLocal st n) := by
  unfold addLocal
  split
  · exact ExtendsScope.extRefl st
  · refine ⟨rfl, [⟨n, st.current.scopeDepth, (st.current.locals.length : Int) + 1 - 1⟩], rfl, ?_⟩
    intro l hl
    rw [List.mem_singleton] at hl
    rw [hl]

theorem CompOK_of_extends (st st1 : CompilerState) (h : CompOK st.current)
    (e : ExtendsScope st st1)
    (hc : st1.current.chunk.Constants = st.current.chunk.Constants) :
    CompOK st1.current := by
  obtain ⟨d, extra, l, m⟩ := e
  refine ⟨?_, hc ▸ h.2⟩
  intro x hx
  rw [l, List.mem_append] at hx
  rw [d]
  rcases hx with hx | hx
  · exact h.1 x hx
  · exact le_of_eq (m x hx)

theorem CompOK_addLocal (st : CompilerState) (n : String) (h : CompOK st.current) :
    CompOK (addLocal st n).current :=
  CompOK_of_extends st _ h (addLocal_extends st n) (addLocal_constants st n)

@[simp] theorem addLocals_constants (st : CompilerState) (ns : List ASTNode) :
    (addLocals st ns).current.chunk.Constants = st.current.chunk.Constants := by
  induction ns generalizing st with
  | nil => rfl
  | cons n rest ih => rw [addLocals, ih, addLocal_constants]

theorem addLocals_extends (st : CompilerState) (ns : List ASTNode) :
    ExtendsScope st (addLocals st ns) := by
  induction ns generalizing st with
  | nil => exact ExtendsScope.extRefl st
  | cons n rest ih =>
      rw [addLocals]
      exact (addLocal_extends st _).extTrans (ih _)

theorem CompOK_addLocals (st : CompilerState) (ns : List ASTNode) (h : CompOK st.current) :
    CompOK (addLocals st ns).current :=
  CompOK_of_extends st _ h (addLocals_extends st ns) (addLocals_constants st ns)

/-- Closing a scope: whatever was compiled between `beginScope` and
`endScope` extended the locals only with locals of the inner depth, and
`endScope` removes exactly those. -/
theorem scoped_end (sb st2 : CompilerState) (hb : CompOK sb.current)
    (r : PoolOK st2 ∧ ExtendsScope (beginScope sb) st2) :
    CompOK (endScope st2).current
      ∧ (endScope st2).current.scopeDepth = sb.current.scopeDepth
      ∧ (endScope st2).current.locals = sb.current.locals := by
  obtain ⟨p2, d, extra, l, m⟩ := r
  have hd : st2.current.scopeDepth - 1 = sb.current.scopeDepth := by
    rw [d]; show sb.current.scopeDepth + 1 - 1 = _; omega
  have hl : (endScope st2).current.locals = sb.current.locals := by
    show popLocals (st2.current.scopeDepth - 1) st2.current.locals = _
    rw [hd, l]
    apply popLocals_append _ _ _ hb.1
    intro x hx
    rw [m x hx]
    show sb.current.scopeDepth < sb.current.scopeDepth + 1
    omega
  refine ⟨⟨?_, p2.2⟩, hd, hl⟩
  intro x hx
  rw [hl] at hx
  show x.depth ≤ st2.current.scopeDepth - 1
  rw [hd]
  exact hb.1 x hx

theorem ExtendsScope.same_left {a b c : CompilerState} (h1 : SameScope a b)
    (h2 : ExtendsScope b c) : ExtendsScope a c := h1.toExtends.extTrans h2

theorem ExtendsScope.same_right {a b c : CompilerState} (h1 : ExtendsScope a b)
    (h2 : SameScope b c) : ExtendsScope a c := h1.extTrans h2.toExtends

theorem compileLocalValues_step (fuel : Nat) (ih : AllGood fuel) (st : CompilerState)
    (count : Nat) (values : List ASTNode) (slot : Int) :
    ExprOK st (compileLocalValues (fuel + 1) st count values slot) := by
  intro h st9 hr
  cases count with
  | zero =>
      unfold compileLocalValues at hr
      cases hr
      exact ⟨h, rfl, rfl⟩
  | succ count =>
      unfold compileLocalValues at hr
      split at hr
      · split at hr
        · cases hr
        · rename_i sa ha
          have ea := fun p => ih.expr _ _ _ p _ ha
          have eb := fun p => ih.localValues _ _ _ _ p _ hr
          simp_all [SameScope, PoolOK_iff]
      · have eb := fun p => ih.localValues _ _ _ _ p _ hr
        simp_all [SameScope, PoolOK_iff]

theorem compileLocal_step (fuel : Nat) (ih : AllGood fuel) (st : CompilerState)
    (names values : List ASTNode) :
    StmtOK st (compileLocal (fuel + 1) st names values) := by
  intro h st9 hr
  unfold compileLocal at hr
  dsimp only at hr
  obtain ⟨p, s⟩ := ih.localValues _ _ _ _ (CompOK_addLocals st names h) _ hr
  exact ⟨p, (addLocals_extends st names).same_right s⟩

theorem compileAssignValues_step (fuel : Nat) (ih : AllGood fuel) (st : CompilerState)
    (values : List ASTNode) :
    ExprOK st (compileAssignValues (fuel + 1) st values) := by
  intro h st9 hr
  cases values with
  | nil =>
      unfold compileAssignValues at hr
      cases hr
      exact ⟨h, rfl, rfl⟩
  | cons v rest =>
      unfold compileAssignValues at hr
      dsimp only at hr
      split at hr
      · cases hr
      · rename_i sa ha
        have ea := fun p => ih.expr _ _ _ p _ ha
        have eb := fun p => ih.assignValues _ _ p _ hr
        simp_all [SameScope, PoolOK_iff]

theorem compileAssignTargets_step (fuel : Nat) (ih : AllGood fuel) (st : CompilerState)
    (targets : List ASTNode) (i valueCount : Nat) (baseReg : Int) :
    ExprOK st (compileAssignTargets (fuel + 1) st targets i valueCount baseReg) := by
  intro h st9 hr
  cases targets with
  | nil =>
      unfold compileAssignTargets at hr
      cases hr
      exact ⟨h, rfl, rfl⟩
  | cons target rest =>
      unfold compileAssignTargets at hr
      dsimp only at hr
      split at hr
      · split_ifs at hr
        all_goals
          have eb := fun p => ih.assignTargets _ _ _ _ _ p _ hr
          simp_all [SameScope, PoolOK_iff, CompOK_addConstant]
      · split at hr
        · cases hr
        · rename_i sa ha
          have ea := fun p => ih.expr _ _ _ p _ ha
          have eb := fun p => ih.assignTargets _ _ _ _ _ p _ hr
          simp_all [SameScope, PoolOK_iff, CompOK_addConstant]
      · split at hr
        · cases hr
        · rename_i sa ha
          have ea := fun p => ih.expr _ _ _ p _ ha
          split at hr
          · cases hr
          · rename_i sb hb
            have eb := fun p => ih.expr _ _ _ p _ hb
            have ec := fun p => ih.assignTargets _ _ _ _ _ p _ hr
            simp_all [SameScope, PoolOK_iff]
      · exact ih.assignTargets _ _ _ _ _ h _ hr

theorem compileAssign_step (fuel : Nat) (ih : AllGood fuel) (st : CompilerState)
    (targets values : List ASTNode) :
    ExprOK st (compileAssign (fuel + 1) st targets values) := by
  intro h st9 hr
  unfold compileAssign at hr
  dsimp only at hr
  split at hr
  · cases hr
  · rename_i sa ha
    have ea := fun p => ih.assignValues _ _ p _ ha
    split at hr
    · cases hr
    · rename_i sb hb
      have eb := fun p => ih.assignTargets _ _ _ _ _ p _ hb
      cases hr
      simp_all [SameScope, PoolOK_iff]

theorem compileCondition_step (fuel : Nat) (ih : AllGood fuel) (st : CompilerState)
    (cond : ASTNode) (freeBeforeTest : Bool) :
    ExprOK st (compileCondition (fuel + 1) st cond freeBeforeTest) := by
  intro h st9 hr
  unfold compileCondition at hr
  simp only [] at hr
  split at hr
  · split at hr
    · split at hr
      · cases hr
      · rename_i sa ha
        have ea := fun p => ih.expr _ _ _ p _ ha
        split at hr
        · cases hr
        · rename_i sb hb
          have eb := fun p => ih.expr _ _ _ p _ hb
          cases hr
          split <;> simp_all [SameScope, PoolOK_iff]
    · split at hr
      · cases hr
      · rename_i sa ha
        have ea := fun p => ih.expr _ _ _ p _ ha
        split at hr <;> cases hr <;> simp_all [SameScope, PoolOK_iff]
  · split at hr
    · cases hr
    · rename_i sa ha
      have ea := fun p => ih.expr _ _ _ p _ ha
      split at hr <;> cases hr <;> simp_all [SameScope, PoolOK_iff]

theorem compileElseifs_step (fuel : Nat) (ih : AllGood fuel) (st : CompilerState)
    (elseifs : List ASTNode) (elseJump : Int) :
    ExprOK st ((compileElseifs (fuel + 1) st elseifs elseJump).map Prod.fst) := by
  intro h st9 hr
  cases elseifs with
  | nil =>
      unfold compileElseifs at hr
      cases hr
      exact ⟨h, rfl, rfl⟩
  | cons e rest =>
      unfold compileElseifs at hr
      simp only [] at hr
      split at hr
      · split at hr
        · cases hr
        · rename_i sa ha
          have ea := fun p => ih.expr _ _ _ p _ ha
          split at hr
          · cases hr
          · rename_i sb hb
            have eb := fun p => scoped_end _ _ p (ih.node _ _ (CompOK_beginScope _ p) _ hb)
            have ec := fun p => ih.elseifs _ _ _ p _ hr
            split at ec <;> simp_all [SameScope, PoolOK_iff]
      · exact ih.elseifs _ _ _ h _ hr

theorem compileIf_step (fuel : Nat) (ih : AllGood fuel) (st : CompilerState)
    (cond thenBlock : ASTNode) (elseifs : List ASTNode) (elseBlock : Option ASTNode) :
    ExprOK st (compileIf (fuel + 1) st cond thenBlock elseifs elseBlock) := by
  intro h st9 hr
  unfold compileIf at hr
  split at hr
  · cases hr
  · rename_i sa ha
    have ea := fun p => ih.condition _ _ _ p _ ha
    dsimp only at hr
    split at hr
    · cases hr
    · rename_i sb hb
      have eb := fun p => scoped_end _ _ p (ih.node _ _ (CompOK_beginScope _ p) _ hb)
      split at hr
      · cases hr
      · rename_i sc jc hc
        have hc1 := congrArg (Option.map Prod.fst) hc
        have ec := fun p => ih.elseifs _ _ _ p sc hc1
        split at hr
        · cases hr
        · rename_i sd hd
          have ed : CompOK sc.current → CompOK sd.current
              ∧ sd.current.scopeDepth = sc.current.scopeDepth
              ∧ sd.current.locals = sc.current.locals := by
            intro p
            split at hd
            · split at hd
              · cases hd
              · rename_i se he
                cases hd
                exact scoped_end _ _ p (ih.node _ _ (CompOK_beginScope _ p) _ he)
            · cases hd
              exact ⟨p, rfl, rfl⟩
          split at hr <;> cases hr <;> split at ec <;> simp_all [SameScope, PoolOK_iff]

theorem compileWhile_step (fuel : Nat) (ih : AllGood fuel) (st : CompilerState)
    (cond body : ASTNode) :
    ExprOK st (compileWhile (fuel + 1) st cond body) := by
  intro h st9 hr
  unfold compileWhile at hr
  dsimp only at hr
  split at hr
  · cases hr
  · rename_i sa ha
    have ea := fun p => ih.condition _ _ _ p _ ha
    split at hr
    · cases hr
    · rename_i sb hb
      have eb := fun p => scoped_end _ _ p (ih.node _ _ (CompOK_beginScope _ p) _ hb)
      cases hr
      simp_all [SameScope, PoolOK_iff]

theorem compileReturn_step (fuel : Nat) (ih : AllGood fuel) (st : CompilerState)
    (values : List ASTNode) :
    ExprOK st (compileReturn (fuel + 1) st values) := by
  intro h st9 hr
  unfold compileReturn at hr
  dsimp only at hr
  split at hr
  · cases hr
  · rename_i sa ha
    have ea := fun p => ih.exprsInto _ _ _ p _ ha
    cases hr
    simp_all [SameScope, PoolOK_iff]

/-- Closing a scope in which locals were declared before the body: the form
used by the two `for` statements. -/
theorem scoped_end_locals (st s1 s2 s3 : CompilerState) (h : CompOK st.current)
    (e1 : ExtendsScope (beginScope st) s1)
    (e2 : SameScope s1 s2)
    (r : PoolOK s3 ∧ ExtendsScope s2 s3) :
    CompOK (endScope s3).current ∧ SameScope st (endScope s3) := by
  have := scoped_end st s3 h ⟨r.1, (e1.same_right e2).extTrans r.2⟩
  exact ⟨this.1, this.2.1, this.2.2⟩

theorem endScope_patchB (st : CompilerState) (i b : Int) :
    (endScope (patchB st i b)).current.locals = (endScope st).current.locals
      ∧ (endScope (patchB st i b)).current.scopeDepth = (endScope st).current.scopeDepth
      ∧ (endScope (patchB st i b)).current.chunk.Constants
          = (endScope st).current.chunk.Constants := ⟨rfl, rfl, rfl⟩

theorem endScope_congr (s t : CompilerState)
    (hl : t.current.locals = s.current.locals)
    (hd : t.current.scopeDepth = s.current.scopeDepth)
    (hc : t.current.chunk.Constants = s.current.chunk.Constants) (st : CompilerState)
    (h : CompOK (endScope s).current ∧ SameScope st (endScope s)) :
    CompOK (endScope t).current ∧ SameScope st (endScope t) := by
  have e1 : (endScope t).current.locals = (endScope s).current.locals := by
    show popLocals (t.current.scopeDepth - 1) t.current.locals = popLocals _ _
    rw [hl, hd]
  have e2 : (endScope t).current.scopeDepth = (endScope s).current.scopeDepth := by
    show t.current.scopeDepth - 1 = s.current.scopeDepth - 1
    rw [hd]
  have e3 : (endScope t).current.chunk.Constants = (endScope s).current.chunk.Constants := hc
  unfold CompOK SameScope at *
  rw [e1, e2, e3]
  exact h

theorem compileForNum_step (fuel : Nat) (ih : AllGood fuel) (st : CompilerState)
    (var : String) (start limit step body : ASTNode) :
    ExprOK st (compileForNum (fuel + 1) st var start limit step body) := by
  intro h st9 hr
  unfold compileForNum at hr
  dsimp only at hr
  have e0 : ExtendsScope (beginScope st) (addLocal (addLocal (addLocal (addLocal (beginScope st)
      "(for index)") "(for limit)") "(for step)") var) :=
    (((addLocal_extends _ _).extTrans (addLocal_extends _ _)).extTrans (addLocal_extends _ _)).extTrans
      (addLocal_extends _ _)
  have p0 : CompOK (addLocal (addLocal (addLocal (addLocal (beginScope st)
      "(for index)") "(for limit)") "(for step)") var).current :=
    CompOK_addLocal _ _ (CompOK_addLocal _ _ (CompOK_addLocal _ _ (CompOK_addLocal _ _
      (CompOK_beginScope _ h))))
  split at hr
  · cases hr
  · rename_i sa ha
    obtain ⟨pa, qa⟩ := ih.expr _ _ _ p0 _ ha
    split at hr
    · cases hr
    · rename_i sb hb
      obtain ⟨pb, qb⟩ := ih.expr _ _ _ pa _ hb
      split at hr
      · cases hr
      · rename_i sc hc
        obtain ⟨pc, qc⟩ := ih.expr _ _ _ pb _ hc
        split at hr
        · cases hr
        · rename_i sd hd
          have rd := ih.node (emitInstruction sc .OP_FORPREP _ 0 0) _ pc _ hd
          cases hr
          have key := scoped_end_locals st _ sc sd h e0 ((qa.sameTrans qb).sameTrans qc) rd
          exact endScope_congr sd _ rfl rfl rfl st key

theorem compileForIn_step (fuel : Nat) (ih : AllGood fuel) (st : CompilerState)
    (names iterators : List ASTNode) (body : ASTNode) :
    ExprOK st (compileForIn (fuel + 1) st names iterators body) := by
  intro h st9 hr
  unfold compileForIn at hr
  dsimp only at hr
  have e0 : ExtendsScope (beginScope st) (addLocals (addLocal (addLocal (addLocal (beginScope st)
      "(for generator)") "(for state)") "(for control)") names) :=
    (((addLocal_extends _ _).extTrans (addLocal_extends _ _)).extTrans (addLocal_extends _ _)).extTrans
      (addLocals_extends _ _)
  have p0 : CompOK (addLocals (addLocal (addLocal (addLocal (beginScope st)
      "(for generator)") "(for state)") "(for control)") names).current :=
    CompOK_addLocals _ _ (CompOK_addLocal _ _ (CompOK_addLocal _ _ (CompOK_addLocal _ _
      (CompOK_beginScope _ h))))
  split at hr
  · cases hr
  · rename_i sa ha
    obtain ⟨pa, qa⟩ := ih.exprsInto _ _ _ p0 _ ha
    split at hr
    · cases hr
    · rename_i sd hd
      have rd := ih.node (emitInstruction (emitInstruction sa .OP_TFORLOOP _ 0 _) .OP_JMP 0 0 0)
        _ pa _ hd
      cases hr
      have key := scoped_end_locals st _ sa sd h e0 qa rd
      exact endScope_congr sd _ rfl rfl rfl st key

theorem closure_tail (fuel : Nat) (st s1 st9 : CompilerState) (params : List ASTNode)
    (body : ASTNode) (slot : Int) (p1 : CompOK s1.current) (e1 : ExtendsScope st s1)
    (hk : (match functionLuaCode fuel s1.funcCounter params body with
        | none => none
        | some luaCode =>
            if slot ≥ 0 then
              some (emitClosure { s1 with funcCounter := s1.funcCounter + 1 } luaCode slot
                params.length)
            else some { s1 with funcCounter := s1.funcCounter + 1 }) = some st9) :
    PoolOK st9 ∧ ExtendsScope st st9 := by
  split at hk
  · cases hk
  · rename_i code hcode
    split at hk
    · cases hk
      have := emitClosure_good { s1 with funcCounter := s1.funcCounter + 1 } code slot
        params.length p1
      exact ⟨this.1, e1.same_right this.2⟩
    · cases hk
      exact ⟨p1, e1⟩

theorem compileFunction_step (fuel : Nat) (st : CompilerState)
    (isLocal : Bool) (funcName : Option String) (params : List ASTNode) (body : ASTNode) :
    StmtOK st (compileFunction (fuel + 1) st isLocal funcName params body) := by
  intro h st9 hr
  unfold compileFunction at hr
  cases isLocal <;> cases funcName
  · exact closure_tail fuel st st st9 params body _ h (ExtendsScope.extRefl st) hr
  · exact closure_tail fuel st st st9 params body _ h (ExtendsScope.extRefl st) hr
  · exact closure_tail fuel st st st9 params body _ h (ExtendsScope.extRefl st) hr
  · exact closure_tail fuel st _ st9 params body _ (CompOK_addLocal _ _ h)
      (addLocal_extends _ _) hr

theorem compileStatement_step (fuel : Nat) (ih : AllGood fuel) (st : CompilerState)
    (node : ASTNode) :
    StmtOK st (compileStatement (fuel + 1) st node) := by
  intro h st9 hr
  have lift : ∀ s : CompilerState, PoolOK s ∧ SameScope st s → PoolOK s ∧ ExtendsScope st s :=
    fun s r => ⟨r.1, r.2.toExtends⟩
  unfold compileStatement at hr
  simp only [] at hr
  split at hr
  · exact ih.localStmt _ _ _ h _ hr
  · exact lift _ (ih.assign _ _ _ h _ hr)
  · exact lift _ (ih.ifStmt _ _ _ _ _ h _ hr)
  · exact lift _ (ih.whileStmt _ _ _ h _ hr)
  · exact lift _ (ih.forNum _ _ _ _ _ _ h _ hr)
  · exact lift _ (ih.forIn _ _ _ _ h _ hr)
  · exact lift _ (ih.returnStmt _ _ h _ hr)
  · cases hr
    exact ⟨h, ExtendsScope.extRefl _⟩
  · exact ih.function _ _ _ _ _ h _ hr
  · exact ih.function _ _ _ _ _ h _ hr
  · split at hr
    · cases hr
    · rename_i sa ha
      have ea := ih.expr _ _ _ (show PoolOK (allocReg st) from h) _ ha
      cases hr
      exact lift _ ea
  · split at hr
    · cases hr
    · rename_i sa ha
      have ea := ih.expr _ _ _ (show PoolOK (allocReg st) from h) _ ha
      cases hr
      exact lift _ ea
  · cases hr
    exact ⟨h, ExtendsScope.extRefl _⟩

theorem compileStatements_step (fuel : Nat) (ih : AllGood fuel) (st : CompilerState)
    (nodes : List ASTNode) :
    StmtOK st (compileStatements (fuel + 1) st nodes) := by
  intro h st9 hr
  cases nodes with
  | nil =>
      unfold compileStatements at hr
      cases hr
      exact ⟨h, ExtendsScope.extRefl _⟩
  | cons s rest =>
      unfold compileStatements at hr
      split at hr
      · cases hr
      · rename_i sa ha
        obtain ⟨pa, qa⟩ := ih.statement _ _ h _ ha
        obtain ⟨pb, qb⟩ := ih.statements _ _ pa _ hr
        exact ⟨pb, qa.extTrans qb⟩

theorem compileNode_step (fuel : Nat) (ih : AllGood fuel) (st : CompilerState)
    (node : ASTNode) :
    StmtOK st (compileNode (fuel + 1) st node) := by
  intro h st9 hr
  unfold compileNode at hr
  split at hr
  · cases hr
    exact ⟨h, ExtendsScope.extRefl _⟩
  · split at hr
    · exact ih.statements _ _ h _ hr
    · exact ih.statements _ _ h _ hr
    · exact ih.statement _ _ h _ hr

/-- Every compile function, at every amount of fuel, keeps the constant pool
free of duplicates and the locals well scoped; the expression functions and
the block statements leave the locals as they were. -/
theorem allGood (fuel : Nat) : AllGood fuel := by
  induction fuel with
  | zero =>
      constructor <;> intros <;> intro _ _ hr <;> cases hr
  | succ fuel ih =>
      exact {
        exprsInto := compileExprsInto_step fuel ih
        call := compileCall_step fuel ih
        methodCall := compileMethodCall_step fuel ih
        dotIndex := compileDotIndex_step fuel ih
        index := compileIndex_step fuel ih
        tableFields := compileTableFields_step fuel ih
        table := compileTable_step fuel ih
        binop := compileBinop_step fuel ih
        unop := compileUnop_step fuel ih
        expr := compileExpressionToReg_step fuel ih
        localValues := compileLocalValues_step fuel ih
        localStmt := compileLocal_step fuel ih
        assignValues := compileAssignValues_step fuel ih
        assignTargets := compileAssignTargets_step fuel ih
        assign := compileAssign_step fuel ih
        condition := compileCondition_step fuel ih
        elseifs := compileElseifs_step fuel ih
        ifStmt := compileIf_step fuel ih
        whileStmt := compileWhile_step fuel ih
        forNum := compileForNum_step fuel ih
        forIn := compileForIn_step fuel ih
        returnStmt := compileReturn_step fuel ih
        function := compileFunction_step fuel
        statement := compileStatement_step fuel ih
        statements := compileStatements_step fuel ih
        node := compileNode_step fuel ih }

/-! ## Constant pool without duplicates -/

theorem PoolOK_initCompiler (st : CompilerState) : PoolOK (initCompiler st) :=
  ⟨fun _ hl => absurd hl (List.not_mem_nil _), List.nodup_nil⟩

theorem compileParsed_nodup (fuel : Nat) (st : CompilerState) (ast : ASTNode)
    (r : Option BytecodeChunk) (st1 : CompilerState)
    (h : compileParsed fuel st ast = some (r, st1)) :
    st1.current.chunk.Constants.Nodup ∧ ∀ chunk, r = some chunk → chunk.Constants.Nodup := by
  unfold compileParsed at h
  split at h
  · cases h
  · rename_i sa ha
    have p := ((allGood fuel).node _ _ (PoolOK_initCompiler st) _ ha).1.2
    dsimp only at h
    split at h
    · cases h
      exact ⟨p, fun _ hc => by cases hc⟩
    · cases h
      refine ⟨p, fun c hc => ?_⟩
      cases hc
      exact p

/-- C4: the constant pool of whatever `Compile` returns for a source text has
no two equal strings, in the chunk it returns and in the compiler state it
leaves; `addConstant` on a string that is already in the pool leaves the state
as it is and returns an index at which that string stands, and otherwise
appends it at the end; and the source `print("x", "x", "x")` compiles to a
chunk whose pool is `print`, `x`, with one entry for `x`. -/
theorem compile_constants_nodup :
    (∀ (fuel : Nat) (source : String) (r : Option BytecodeChunk) (st1 : CompilerState),
      Compile fuel (CreateCompilerState source) = some (r, st1) →
        st1.current.chunk.Constants.Nodup ∧ ∀ chunk, r = some chunk → chunk.Constants.Nodup)
    ∧ (∀ (st : CompilerState) (v : String), v ∈ st.current.chunk.Constants →
        (addConstant st v).2 = st
          ∧ st.current.chunk.Constants[(addConstant st v).1]? = some v)
    ∧ (∀ (st : CompilerState) (v : String), v ∉ st.current.chunk.Constants →
        (addConstant st v).2.current.chunk.Constants = st.current.chunk.Constants ++ [v]
          ∧ (addConstant st v).1 = st.current.chunk.Constants.length)
    ∧ (compileSource 100 "print(\"x\", \"x\", \"x\")").map (fun c => c.Constants)
        = some ["print", "x"]
    ∧ (compileSource 100 "print(\"x\", \"x\", \"x\")").map (fun c => c.Constants.count "x")
        = some 1 := by
  refine ⟨?_, ?_, ?_, by decide, by decide⟩
  · intro fuel source r st1 h
    unfold Compile at h
    split at h
    · cases h
    · rename_i ast parser1 hp
      split at h
      · cases h
        exact ⟨List.nodup_nil, fun _ hc => by cases hc⟩
      · exact compileParsed_nodup fuel _ ast r st1 h
  · intro st v hv
    unfold addConstant
    rw [if_pos hv]
    refine ⟨rfl, ?_⟩
    show st.current.chunk.Constants[List.indexOf v st.current.chunk.Constants]? = some v
    rw [List.getElem?_eq_getElem (List.indexOf_lt_length.mpr hv)]
    exact congrArg some (List.indexOf_get (List.indexOf_lt_length.mpr hv))
  · intro st v hv
    unfold addConstant
    rw [if_neg hv]
    exact ⟨rfl, rfl⟩

/-- The source with three uses of the literal "x" does compile, so the
hypothesis of the general statement is met, and its pool has no duplicate. -/
theorem compile_constants_nodup_witness :
    ∃ r st1, Compile 100 (CreateCompilerState "print(\"x\", \"x\", \"x\")") = some (r, st1)
      ∧ (st1.current.chunk.Constants.Nodup
          ∧ ∀ chunk, r = some chunk → chunk.Constants.Nodup) :=
  have hs : (Compile 100 (CreateCompilerState "print(\"x\", \"x\", \"x\")")).isSome = true := by
    decide
  ⟨_, _, (Option.some_get hs).symm,
    compile_constants_nodup.1 100 "print(\"x\", \"x\", \"x\")" _ _ (Option.some_get hs).symm⟩

/-! ## Locals of an if-block -/

theorem resolveLocal_congr (c1 c2 : Compiler) (name : String) (h : c1.locals = c2.locals) :
    resolveLocal c1 name = resolveLocal c2 name := by
  unfold resolveLocal
  rw [h]

/-- C5: compiling an `if` statement, whatever it contains and however deeply
its blocks are nested, leaves the list of locals as it was before the
statement. So a name that did not resolve before the statement (it is not
declared outside) does not resolve after it, also when it was declared `local`
inside: `resolveLocal` returns -1 and `compileName` emits GETGLOBAL on the
index `addConstant` gives for the name. The state before is any state with
well scoped locals and a duplicate-free pool, as every state the compiler
reaches is. -/
theorem if_block_local_unresolvable (fuel : Nat) (st st1 : CompilerState)
    (cond thenBlock : ASTNode) (elseifs : List ASTNode) (elseBlock : Option ASTNode)
    (name : String) (reg : Int)
    (hok : PoolOK st) (hname : resolveLocal st.current name = -1)
    (h : compileStatement fuel st (.NODE_IF cond thenBlock elseifs elseBlock) = some st1) :
    st1.current.locals = st.current.locals
      ∧ resolveLocal st1.current name = -1
      ∧ compileName st1 name reg
          = emitInstruction (addConstant st1 name).2 .OP_GETGLOBAL reg (addConstant st1 name).1 0 := by
  have hl : st1.current.locals = st.current.locals := by
    cases fuel with
    | zero => cases h
    | succ fuel =>
        unfold compileStatement at h
        exact ((allGood fuel).ifStmt _ _ _ _ _ hok _ h).2.2
  have hr : resolveLocal st1.current name = -1 := by
    rw [resolveLocal_congr _ _ name hl]; exact hname
  refine ⟨hl, hr, ?_⟩
  unfold compileName
  dsimp only
  rw [hr]
  rfl

/-- The statement applied to the if statement of depth 3 compiled from the
start state: it does compile, and `y` is a global afterwards. -/
theorem if_block_local_unresolvable_witness :
    ∃ st1, compileStatement 50 startState nestedIf3 = some st1
      ∧ PoolOK startState
      ∧ resolveLocal startState.current "y" = -1
      ∧ (st1.current.locals = startState.current.locals
        ∧ resolveLocal st1.current "y" = -1
        ∧ compileName st1 "y" 2
            = emitInstruction (addConstant st1 "y").2 .OP_GETGLOBAL 2 (addConstant st1 "y").1 0)
      ∧ (compileSource 100 "if a then local y = 1 end print(y)").map
          (fun c => (c.Instructions[5]?, c.Constants[3]?))
          = some (some ⟨.OP_GETGLOBAL, 2, 3, 0⟩, some "y")
      ∧ (compileSource 100 "if a then if b then local y = 1 end end print(y)").map
          (fun c => (c.Instructions[8]?, c.Constants[4]?))
          = some (some ⟨.OP_GETGLOBAL, 2, 4, 0⟩, some "y")
      ∧ (compileSource 100 "if a then if b then if c then local y = 1 end end end print(y)").map
          (fun c => (c.Instructions[11]?, c.Constants[5]?))
          = some (some ⟨.OP_GETGLOBAL, 2, 5, 0⟩, some "y")
      ∧ (compileSource 100 "local y = 1 print(y)").map (fun c => c.Instructions[2]?)
          = some (some ⟨.OP_MOVE, 2, 0, 0⟩) := by
  have hs : (compileStatement 50 startState nestedIf3).isSome = true := by decide
  have hn : resolveLocal startState.current "y" = -1 := by decide
  refine ⟨(compileStatement 50 startState nestedIf3).get hs, (Option.some_get hs).symm,
    PoolOK_initCompiler _, hn,
    if_block_local_unresolvable 50 startState _ (.NODE_NAME "a") _ [] none "y" 2
      (PoolOK_initCompiler _) hn (Option.some_get hs).symm, ?_, ?_, ?_, ?_⟩
  · decide!
  · decide!
  · decide!
  · decide!
/-! ## The dispatch loop on a serialized chunk -/

theorem getElem?_flatMap_six {α : Type} (f : α → List Nat) (hf : ∀ x, (f x).length = 6)
    (pre : List Nat) (l : List α) (i k : Nat) (x : α) (hx : l[i]? = some x) (hk : k < 6) :
    (pre ++ l.flatMap f)[pre.length + 6 * i + k]? = (f x)[k]? := by
  induction l generalizing pre i with
  | nil => simp at hx
  | cons y rest ih =>
      cases i with
      | zero =>
          simp only [List.getElem?_cons_zero, Option.some.injEq] at hx
          subst hx
          rw [List.flatMap_cons, ← List.append_assoc]
          rw [List.getElem?_append_left (by rw [List.length_append, hf]; omega)]
          rw [List.getElem?_append_right (by omega)]
          congr 1
          omega
      | succ i =>
          simp only [List.getElem?_cons_succ] at hx
          rw [List.flatMap_cons, ← List.append_assoc]
          have := ih (pre ++ f y) i hx
          rw [List.length_append, hf] at this
          rw [← this]
          congr 1
          omega

theorem serializeInstruction_length (m : List Nat) (ins : Instruction) :
    (serializeInstruction m ins).length = 6 := rfl

theorem codeBase_eq (chunk : BytecodeChunk) :
    codeBase chunk.Constants
      = (([1, chunk.Constants.length % 256] ++ chunk.Constants.flatMap serializeConstant).length
          : Int) + 1 := by
  unfold codeBase
  rw [List.length_append]
  simp only [List.length_cons, List.length_nil]
  push_cast
  omega

theorem byteAt_instruction (chunk : BytecodeChunk) (m : List Nat) (i k : Nat)
    (ins : Instruction) (hi : chunk.Instructions[i]? = some ins) (hk : k < 6) :
    byteAt (serializeBuffer chunk m) (codeBase chunk.Constants + 6 * (i : Int) + (k : Int))
      = (serializeInstruction m ins).getD k 0 := by
  unfold byteAt stringByte
  rw [if_pos (by unfold codeBase; omega)]
  rw [List.get?_eq_getElem?, serializeBuffer_eq, codeBase_eq]
  have e : ((([1, chunk.Constants.length % 256]
        ++ chunk.Constants.flatMap serializeConstant).length : Int) + 1 + 6 * (i : Int)
          + (k : Int) - 1).toNat
      = ([1, chunk.Constants.length % 256]
        ++ chunk.Constants.flatMap serializeConstant).length + 6 * i + k := by
    omega
  rw [e, getElem?_flatMap_six _ (serializeInstruction_length m) _ _ i k ins hi hk]
  rw [List.getD_eq_getElem?_getD]

theorem lowByte_of_fits (x : Int) (h : 0 ≤ x ∧ x < 256) : ((lowByte x : Nat) : Int) = x := by
  unfold lowByte
  omega

theorem decode_B (x : Int) (h : -32768 ≤ x ∧ x < 32768) :
    (if 32768 ≤ lowByte x + highByte x * 256
      then ((lowByte x + highByte x * 256 : Nat) : Int) - 65536
      else ((lowByte x + highByte x * 256 : Nat) : Int)) = x := by
  unfold lowByte highByte
  split <;> omega

theorem decode_C (x : Int) (h : 0 ≤ x ∧ x < 65536) :
    ((lowByte x + highByte x * 256 : Nat) : Int) = x := by
  unfold lowByte highByte
  omega

/-- One turn of the dispatch loop with the cursor at instruction `i` runs
the handler of that instruction's opcode on its fields. -/
theorem vmStep_at (chunk : BytecodeChunk) (m : List Nat) (H : List (Nat × Handler))
    (hH : HandlersOK m H) (i : Nat) (vm : VM) (hvm : VMAt chunk m i vm)
    (ins : Instruction) (hi : chunk.Instructions[i]? = some ins) (hf : ins.fits) :
    vmStep H vm = execHandler ins.Op ins.A ins.B ins.C { vm with pos := vm.pos + 6 } := by
  obtain ⟨hD, hpos, hK⟩ := hvm
  have b0 := byteAt_instruction chunk m i 0 ins hi (by omega)
  have b1 := byteAt_instruction chunk m i 1 ins hi (by omega)
  have b2 := byteAt_instruction chunk m i 2 ins hi (by omega)
  have b3 := byteAt_instruction chunk m i 3 ins hi (by omega)
  have b4 := byteAt_instruction chunk m i 4 ins hi (by omega)
  have b5 := byteAt_instruction chunk m i 5 ins hi (by omega)
  simp only [Nat.cast_zero, add_zero, Nat.cast_one, Nat.cast_ofNat] at b0 b1 b2 b3 b4 b5
  unfold vmStep
  simp only [hD, hpos, b0, b1, b2, b3, b4, b5]
  simp only [serializeInstruction, List.getD_cons_zero, List.getD_cons_succ]
  rw [hH ins.Op, decode_B _ hf.2.1, decode_C _ hf.2.2, lowByte_of_fits _ hf.1]

/-! ### The handler table -/

theorem find?_unique {α : Type} (p : α → Bool) (l : List α) (x : α) (hx : x ∈ l)
    (hp : p x = true) (hu : ∀ y ∈ l, p y = true → y = x) : l.find? p = some x := by
  induction l with
  | nil => simp at hx
  | cons y rest ih =>
      rw [List.find?_cons]
      by_cases hy : p y = true
      · rw [hy]
        exact congrArg some (hu y (List.mem_cons_self y rest) hy)
      · simp only [Bool.not_eq_true] at hy
        rw [hy]
        rcases List.mem_cons.mp hx with h | h
        · rw [h, hy] at hp
          cases hp
        · exact ih h (fun z hz => hu z (List.mem_cons_of_mem y hz))

theorem mem_canonicalOps (op : OpCode) : op ∈ canonicalOps := by
  cases op <;> decide

theorem RandomInt_50_200 (r : Nat) : 50 ≤ RandomInt 50 200 r ∧ RandomInt 50 200 r ≤ 200 := by
  unfold RandomInt
  omega

/-- With an opcode map that is a permutation of `0 .. 255`, as
`CreateBuildContext` builds it, the table `H` holds each canonical handler
under its byte: the decoys are keyed by entries 50 .. 200 of the map, which
differ from the entries 0 .. 37 of the canonical opcodes. -/
theorem handlerAssignments_ok (m : List Nat) (hm : m.Perm (List.range 256))
    (fakeDraws : List Nat) : HandlersOK m (handlerAssignments m fakeDraws) := by
  intro op
  have hlt := perm_range_getD_lt m hm op.toNat (by have := OpCode.toNat_lt op; omega)
  rw [Nat.mod_eq_of_lt hlt]
  unfold lookupHandler handlerAssignments
  rw [List.reverse_append, List.find?_append]
  have hfake : (List.map (fun r => (m.getD (RandomInt 50 200 r) 0, Handler.fake))
      fakeDraws).reverse.find? (fun kv => kv.1 == m.getD op.toNat 0) = none := by
    rw [List.find?_eq_none]
    intro x hx
    rw [List.mem_reverse, List.mem_map] at hx
    obtain ⟨r, _, rfl⟩ := hx
    simp only [beq_iff_eq]
    intro h
    have := perm_range_getD_inj m hm _ _ (by have := RandomInt_50_200 r; omega)
      (by have := OpCode.toNat_lt op; omega) h
    have h1 := RandomInt_50_200 r
    have h2 := OpCode.toNat_lt op
    omega
  rw [hfake, Option.none_or]
  rw [find?_unique _ _ (m.getD op.toNat 0, Handler.real op)]
  · rfl
  · rw [List.mem_reverse, List.mem_map]
    exact ⟨op, mem_canonicalOps op, rfl⟩
  · simp
  · intro y hy hp
    rw [List.mem_reverse, List.mem_map] at hy
    obtain ⟨o, _, rfl⟩ := hy
    simp only [beq_iff_eq] at hp
    have := perm_range_getD_inj m hm _ _ (by have := OpCode.toNat_lt o; omega)
      (by have := OpCode.toNat_lt op; omega) hp
    rw [OpCode.toNat_injective o op this]

/-! ### The loader -/

theorem byteAt_append_index (pre rest : List Nat) (x : Nat) :
    byteAt (pre ++ x :: rest) ((pre.length : Int) + 1) = x := by
  unfold byteAt stringByte
  rw [if_pos (by omega), List.get?_eq_getElem?]
  have : ((pre.length : Int) + 1 - 1).toNat = pre.length := by omega
  rw [this, List.getElem?_append_right (le_refl _)]
  simp

theorem strBytes_length (s : String) : (strBytes s).length = s.length := by
  unfold strBytes
  rw [List.length_map]
  rfl

theorem loadConstants_serialized (cs : List String) (pre post : List Nat) (K : List Value)
    (hlen : ∀ c ∈ cs, c.length < 65536) :
    loadConstants (pre ++ cs.flatMap serializeConstant ++ post) cs.length
        ((pre.length : Int) + 1) K
      = (K ++ cs.map (fun s => constValue (loadedText s)),
          (pre.length : Int) + 1 + ((cs.flatMap serializeConstant).length : Int)) := by
  induction cs generalizing pre K with
  | nil => simp [loadConstants]
  | cons c rest ih =>
      have hc : c.length < 65536 := hlen c (List.mem_cons_self c rest)
      rw [List.length_cons, loadConstants]
      have e0 : byteAt (pre ++ (c :: rest).flatMap serializeConstant ++ post)
          ((pre.length : Int) + 1) = c.length % 256 := by
        rw [List.flatMap_cons, serializeConstant, List.append_assoc, List.append_assoc,
          List.cons_append, List.cons_append]
        exact byteAt_append_index pre _ _
      have e1 : byteAt (pre ++ (c :: rest).flatMap serializeConstant ++ post)
          ((pre.length : Int) + 1 + 1) = c.length / 256 % 256 := by
        rw [List.flatMap_cons, serializeConstant, List.append_assoc, List.append_assoc,
          List.cons_append, List.cons_append]
        have := byteAt_append_index (pre ++ [c.length % 256])
          ([] ++ strBytes c ++ (rest.flatMap serializeConstant ++ post)) (c.length / 256 % 256)
        rw [List.length_append, List.length_singleton] at this
        push_cast at this
        simp only [List.append_assoc, List.cons_append, List.nil_append] at this
        exact this
      have en : c.length % 256 + c.length / 256 % 256 * 256 = c.length := by omega
      have ed : ((pre ++ (c :: rest).flatMap serializeConstant ++ post).drop
          ((pre.length : Int) + 1 + 1).toNat).take c.length = strBytes c := by
        have : ((pre.length : Int) + 1 + 1).toNat = (pre ++ [c.length % 256,
            c.length / 256 % 256]).length := by
          rw [List.length_append]
          simp only [List.length_cons, List.length_nil]
          omega
        rw [this, List.flatMap_cons, serializeConstant]
        have e2 : pre ++ ([c.length % 256, c.length / 256 % 256] ++ strBytes c
              ++ rest.flatMap serializeConstant) ++ post
            = (pre ++ [c.length % 256, c.length / 256 % 256])
              ++ (strBytes c ++ (rest.flatMap serializeConstant ++ post)) := by
          simp only [List.append_assoc]
        rw [e2, List.drop_left, ← strBytes_length c, List.take_left]
      simp only [e0, e1, en, ed]
      have e3 : pre ++ (c :: rest).flatMap serializeConstant ++ post
          = (pre ++ serializeConstant c) ++ rest.flatMap serializeConstant ++ post := by
        rw [List.flatMap_cons]
        simp only [List.append_assoc]
      have e4 : (pre.length : Int) + 1 + 2 + (c.length : Int)
          = ((pre ++ serializeConstant c).length : Int) + 1 := by
        rw [List.length_append, serializeConstant, List.length_append, strBytes_length]
        simp only [List.length_cons, List.length_nil]
        push_cast
        omega
      rw [e3, e4, ih (pre ++ serializeConstant c) _ (fun x hx => hlen x (List.mem_cons_of_mem c hx))]
      congr 1
      · simp [constValue, loadedText]
      · rw [List.flatMap_cons, List.length_append, List.length_append]
        push_cast
        omega

/-- The generated script, started on the serialized bytes of a chunk with
fewer than 256 constants, each shorter than 65536 bytes, has loaded the
constants and stands at the first instruction. -/
theorem vmInit_at (chunk : BytecodeChunk) (m : List Nat) (G : Value → Value)
    (hcount : chunk.Constants.length < 256)
    (hlen : ∀ c ∈ chunk.Constants, c.length < 65536) :
    VMAt chunk m 0 (vmInit (serializeBuffer chunk m) G)
      ∧ (vmInit (serializeBuffer chunk m) G).S = (fun _ => Value.nil)
      ∧ (vmInit (serializeBuffer chunk m) G).G = G
      ∧ (vmInit (serializeBuffer chunk m) G).iterLog = [] := by
  have hcc : byteAt (serializeBuffer chunk m) 2 = chunk.Constants.length := by
    rw [serializeBuffer_eq]
    have := byteAt_append_index [1] (chunk.Constants.flatMap serializeConstant
      ++ chunk.Instructions.flatMap (serializeInstruction m)) (chunk.Constants.length % 256)
    rw [Nat.mod_eq_of_lt hcount] at this ⊢
    simpa using this
  have hl := loadConstants_serialized chunk.Constants [1, chunk.Constants.length % 256]
    (chunk.Instructions.flatMap (serializeInstruction m)) [] hlen
  rw [← serializeBuffer_eq] at hl
  simp only [List.length_cons, List.length_nil, List.nil_append] at hl
  norm_num at hl
  refine ⟨⟨rfl, ?_, ?_⟩, rfl, rfl, rfl⟩
  · show (loadConstants (serializeBuffer chunk m) (byteAt (serializeBuffer chunk m) 2) 3 []).2 = _
    rw [hcc, hl]
    unfold codeBase
    simp
  · show (loadConstants (serializeBuffer chunk m) (byteAt (serializeBuffer chunk m) 2) 3 []).1 = _
    rw [hcc, hl]

/-! ### Runs of the loop -/

theorem Reaches.here (H : List (Nat × Handler)) (vm : VM) : Reaches H vm vm :=
  ⟨0, fun n => by rw [Nat.zero_add]⟩

theorem Reaches.andThen {H : List (Nat × Handler)} {a b c : VM} (h1 : Reaches H a b)
    (h2 : Reaches H b c) : Reaches H a c := by
  obtain ⟨k1, e1⟩ := h1
  obtain ⟨k2, e2⟩ := h2
  refine ⟨k1 + k2, fun n => ?_⟩
  rw [Nat.add_assoc, e1, e2]

theorem VMAt_pos_le (chunk : BytecodeChunk) (m : List Nat) (i : Nat) (vm : VM)
    (hvm : VMAt chunk m i vm) (hi : i < chunk.Instructions.length) :
    vm.pos ≤ (vm.D.length : Int) := by
  rw [hvm.hD, hvm.hpos, serializeBuffer_length, ← length_flatMap_serializeConstant]
  unfold codeBase
  push_cast
  omega

theorem VMAt_halted (chunk : BytecodeChunk) (m : List Nat) (vm : VM)
    (hvm : VMAt chunk m chunk.Instructions.length vm) : vm.halted = true := by
  unfold VM.halted
  rw [hvm.hD, hvm.hpos, serializeBuffer_length, ← length_flatMap_serializeConstant]
  unfold codeBase
  simp only [decide_eq_true_eq]
  push_cast
  omega

theorem vmRun_halted (H : List (Nat × Handler)) (vm : VM) (h : vm.halted = true) (n : Nat) :
    vmRun H n vm = some vm := by
  cases n with
  | zero => rfl
  | succ n =>
      unfold VM.halted at h
      simp only [decide_eq_true_eq] at h
      rw [vmRun, if_neg (by omega)]

/-- A run that reaches a halted state ends in it, whatever the number of
turns allowed beyond those needed. -/
theorem Reaches.toRun {H : List (Nat × Handler)} {vm vm1 : VM} (h : Reaches H vm vm1)
    (hh : vm1.halted = true) : ∃ k, ∀ n, k ≤ n → vmRun H n vm = some vm1 := by
  obtain ⟨k, e⟩ := h
  refine ⟨k, fun n hn => ?_⟩
  obtain ⟨d, rfl⟩ := Nat.exists_eq_add_of_le hn
  rw [e, vmRun_halted H vm1 hh]

/-- One turn at instruction `i`: when the handler returns `vm1`, the loop
reaches it. -/
theorem Reaches.oneStep (chunk : BytecodeChunk) (m : List Nat) (H : List (Nat × Handler))
    (hH : HandlersOK m H) (i : Nat) (vm vm1 : VM) (hvm : VMAt chunk m i vm)
    (ins : Instruction) (hi : chunk.Instructions[i]? = some ins) (hf : ins.fits)
    (he : execHandler ins.Op ins.A ins.B ins.C { vm with pos := vm.pos + 6 } = some vm1) :
    Reaches H vm vm1 := by
  refine ⟨1, fun n => ?_⟩
  have hlt : i < chunk.Instructions.length := by
    rw [List.getElem?_eq_some_iff] at hi
    exact hi.1
  rw [Nat.add_comm, vmRun, if_pos (VMAt_pos_le chunk m i vm hvm hlt),
    vmStep_at chunk m H hH i vm hvm ins hi hf, he]
/-! ## Arithmetic expressions: from the compiler to the dispatch loop -/

/-! ### Decimal texts -/

theorem digit_toNat (d : Nat) (h : d < 10) : (Char.ofNat (48 + d)).toNat = 48 + d := by
  interval_cases d <;> rfl

theorem digitsValue_append (l : List Char) (c : Char) (acc : Nat) :
    digitsValue (l ++ [c]) acc
      = (digitsValue l acc).bind (fun a =>
          if 48 ≤ c.toNat ∧ c.toNat ≤ 57 then some (a * 10 + (c.toNat - 48)) else none) := by
  induction l generalizing acc with
  | nil => simp [digitsValue]
  | cons x rest ih =>
      simp only [List.cons_append, digitsValue]
      split
      · exact ih _
      · rfl

theorem digitsValue_natDigits (fuel n : Nat) (h : n < fuel) :
    digitsValue (natDigits fuel n) 0 = some n := by
  induction fuel generalizing n with
  | zero => omega
  | succ f ih =>
      rw [natDigits]
      split
      · rename_i h10
        simp only [digitsValue, digit_toNat n h10]
        rw [if_pos (by omega)]
        congr 1
        omega
      · rw [digitsValue_append, ih (n / 10) (by omega), Option.some_bind,
          digit_toNat _ (Nat.mod_lt n (by omega)), if_pos (by omega)]
        congr 1
        omega

theorem natDigits_digits (fuel n : Nat) :
    ∀ c ∈ natDigits fuel n, 48 ≤ c.toNat ∧ c.toNat ≤ 57 := by
  induction fuel generalizing n with
  | zero => intro c hc; simp [natDigits] at hc
  | succ f ih =>
      intro c hc
      rw [natDigits] at hc
      split at hc
      · rename_i h10
        rw [List.mem_singleton] at hc
        rw [hc, digit_toNat n h10]
        omega
      · rw [List.mem_append, List.mem_singleton] at hc
        rcases hc with hc | hc
        · exact ih _ c hc
        · rw [hc, digit_toNat _ (Nat.mod_lt n (by omega))]
          have := Nat.mod_lt n (show 0 < 10 by omega)
          omega

theorem natDigits_ne_nil (fuel n : Nat) : natDigits (fuel + 1) n ≠ [] := by
  rw [natDigits]
  split
  · simp
  · simp

theorem tonumber_natText (n : Nat) : tonumber (natText n) = some (n : Int) := by
  unfold tonumber natText
  have hd := natDigits_digits (n + 1) n
  have hv := digitsValue_natDigits (n + 1) n (by omega)
  have hne := natDigits_ne_nil n n
  generalize natDigits (n + 1) n = l at hd hv hne
  cases l with
  | nil => exact absurd rfl hne
  | cons c cs =>
      show (if c = '-' then _ else _) = _
      have hc := hd c (List.mem_cons_self c cs)
      rw [if_neg]
      · rw [hv]
        rfl
      · intro h
        rw [h] at hc
        have : ('-' : Char).toNat = 45 := rfl
        omega

theorem char_ofNat_mod (c : Char) (h : c.toNat < 256) : Char.ofNat (c.toNat % 256) = c := by
  rw [Nat.mod_eq_of_lt h]
  exact Char.ofNat_toNat c

theorem loadedText_of_bytes (s : String) (h : ∀ c ∈ s.toList, c.toNat < 256) :
    loadedText s = s := by
  unfold loadedText strBytes
  rw [List.map_map]
  have : s.toList.map (Char.ofNat ∘ fun c => c.toNat % 256) = s.toList := by
    conv_rhs => rw [← List.map_id s.toList]
    apply List.map_congr_left
    intro c hc
    exact char_ofNat_mod c (h c hc)
  rw [this]
  rfl

theorem constValue_natText (n : Nat) : constValue (loadedText (natText n)) = Value.num n := by
  rw [loadedText_of_bytes]
  · unfold constValue
    rw [tonumber_natText]
  · intro c hc
    have := natDigits_digits (n + 1) n c hc
    omega

/-! ### The compiler on arithmetic expressions -/

theorem binopOpcode_text (op : ArithOp) : binopOpcode op.text = some op.opcode := by
  cases op <;> decide

theorem ArithOp.text_not_logical (op : ArithOp) : ¬ (op.text = "and" ∨ op.text = "or") := by
  cases op <;> decide

theorem ArithOp.opcode_not_comparison (op : ArithOp) :
    ¬ (op.opcode = .OP_EQ ∨ op.opcode = .OP_LT ∨ op.opcode = .OP_LE) := by
  cases op <;> decide

/-- With enough fuel `compileExpressionToReg` returns on an arithmetic
expression, and what it returns is `cArith`. -/
theorem compile_arith (e : ArithExpr) (st : CompilerState) (reg : Int) (fuel : Nat)
    (h : e.fuel ≤ fuel) :
    compileExpressionToReg fuel st e.toAST reg = some (cArith st e reg) := by
  induction e generalizing st reg fuel with
  | lit n =>
      obtain ⟨f, rfl⟩ : ∃ f, fuel = f + 1 := ⟨fuel - 1, by unfold ArithExpr.fuel at h; omega⟩
      rfl
  | neg e ih =>
      obtain ⟨f, rfl⟩ : ∃ f, fuel = f + 2 := ⟨fuel - 2, by unfold ArithExpr.fuel at h; omega⟩
      have hf : e.fuel ≤ f := by unfold ArithExpr.fuel at h; omega
      show compileUnop (f + 1) st "-" e.toAST reg = _
      unfold compileUnop
      rw [ih st reg f hf]
      rfl
  | bin op l r ihl ihr =>
      obtain ⟨f, rfl⟩ : ∃ f, fuel = f + 2 := ⟨fuel - 2, by unfold ArithExpr.fuel at h; omega⟩
      have hl : l.fuel ≤ f := by unfold ArithExpr.fuel at h; omega
      have hr : r.fuel ≤ f := by unfold ArithExpr.fuel at h; omega
      show compileBinop (f + 1) st op.text l.toAST r.toAST reg = _
      unfold compileBinop
      rw [if_neg (ArithOp.text_not_logical op)]
      simp only [ihl _ _ f hl, ihr _ _ f hr, binopOpcode_text]
      rw [if_neg (ArithOp.opcode_not_comparison op)]
      rfl

@[simp] theorem emitInstruction_stackTop (st : CompilerState) (op : OpCode) (a b c : Int) :
    (emitInstruction st op a b c).current.stackTop = st.current.stackTop := rfl

@[simp] theorem addConstant_stackTop (st : CompilerState) (v : String) :
    (addConstant st v).2.current.stackTop = st.current.stackTop := by
  unfold addConstant; split <;> rfl

theorem cArith_stackTop (e : ArithExpr) (st : CompilerState) (reg : Int) :
    (cArith st e reg).current.stackTop = st.current.stackTop := by
  induction e generalizing st reg with
  | lit n => simp [cArith, compileNumber, addNumberConstant]
  | neg e ih => simp [cArith, ih]
  | bin op l r ihl ihr =>
      show (cArith (cArith (allocReg (allocReg st)) l _) r _).current.stackTop - 1 - 1 = _
      rw [ihr, ihl]
      show st.current.stackTop + 1 + 1 - 1 - 1 = _
      omega

@[simp] theorem emitInstruction_instructions (st : CompilerState) (op : OpCode) (a b c : Int) :
    (emitInstruction st op a b c).current.chunk.Instructions
      = st.current.chunk.Instructions ++ [⟨op, a, b, c⟩] := rfl

@[simp] theorem addConstant_instructions (st : CompilerState) (v : String) :
    (addConstant st v).2.current.chunk.Instructions = st.current.chunk.Instructions := by
  unfold addConstant; split <;> rfl

@[simp] theorem allocReg_instructions (st : CompilerState) :
    (allocReg st).current.chunk.Instructions = st.current.chunk.Instructions := rfl

@[simp] theorem freeReg_instructions (st : CompilerState) :
    (freeReg st).current.chunk.Instructions = st.current.chunk.Instructions := rfl

theorem addConstant_constants_pre (st : CompilerState) (v : String) :
    st.current.chunk.Constants <+: (addConstant st v).2.current.chunk.Constants := by
  unfold addConstant
  split
  · exact List.prefix_refl _
  · exact List.prefix_append _ _

theorem addConstant_getElem (st : CompilerState) (v : String) :
    (addConstant st v).2.current.chunk.Constants[(addConstant st v).1]? = some v := by
  unfold addConstant
  split
  · rename_i hv
    show st.current.chunk.Constants[List.indexOf v st.current.chunk.Constants]? = some v
    rw [List.getElem?_eq_getElem (List.indexOf_lt_length.mpr hv)]
    exact congrArg some (List.indexOf_get (List.indexOf_lt_length.mpr hv))
  · show (st.current.chunk.Constants ++ [v])[st.current.chunk.Constants.length]? = some v
    simp

theorem cArith_instructions_pre (e : ArithExpr) (st : CompilerState) (reg : Int) :
    st.current.chunk.Instructions <+: (cArith st e reg).current.chunk.Instructions := by
  induction e generalizing st reg with
  | lit n =>
      simp only [cArith, compileNumber, addNumberConstant, emitInstruction_instructions,
        addConstant_instructions]
      exact List.prefix_append _ _
  | neg e ih =>
      simp only [cArith, emitInstruction_instructions]
      exact (ih st reg).trans (List.prefix_append _ _)
  | bin op l r ihl ihr =>
      simp only [cArith, freeReg_instructions, emitInstruction_instructions]
      refine List.IsPrefix.trans ?_ (List.prefix_append _ _)
      exact ((ihl (allocReg (allocReg st)) _).trans (ihr _ _))

theorem cArith_constants_pre (e : ArithExpr) (st : CompilerState) (reg : Int) :
    st.current.chunk.Constants <+: (cArith st e reg).current.chunk.Constants := by
  induction e generalizing st reg with
  | lit n =>
      simp only [cArith, compileNumber, addNumberConstant, emitInstruction_constants]
      exact addConstant_constants_pre _ _
  | neg e ih =>
      simp only [cArith, emitInstruction_constants]
      exact ih st reg
  | bin op l r ihl ihr =>
      simp only [cArith, freeReg_constants, emitInstruction_constants]
      exact ((ihl (allocReg (allocReg st)) _).trans (ihr _ _))

theorem prefix_getElem? {α : Type} {l1 l2 : List α} (h : l1 <+: l2) (i : Nat) (x : α)
    (hx : l1[i]? = some x) : l2[i]? = some x := by
  obtain ⟨t, rfl⟩ := h
  rw [List.getElem?_append_left]
  · exact hx
  · rw [List.getElem?_eq_some_iff] at hx
    exact hx.1

/-! ### Running the code of an arithmetic expression -/

/-- A turn whose handler only writes registers moves the cursor to the next
instruction and leaves the rest of the state. -/
theorem step_registers (chunk : BytecodeChunk) (m : List Nat) (H : List (Nat × Handler))
    (hH : HandlersOK m H) (i : Nat) (vm : VM) (hvm : VMAt chunk m i vm)
    (ins : Instruction) (hi : chunk.Instructions[i]? = some ins) (hf : ins.fits)
    (S1 : Int → Value)
    (he : execHandler ins.Op ins.A ins.B ins.C { vm with pos := vm.pos + 6 }
      = some { vm with pos := vm.pos + 6, S := S1 }) :
    ∃ vm1, Reaches H vm vm1 ∧ VMAt chunk m (i + 1) vm1 ∧ vm1.S = S1 ∧ vm1.G = vm.G
      ∧ vm1.iterLog = vm.iterLog := by
  refine ⟨{ vm with pos := vm.pos + 6, S := S1 },
    Reaches.oneStep chunk m H hH i vm _ hvm ins hi hf he, ⟨hvm.hD, ?_, hvm.hK⟩, rfl, rfl, rfl⟩
  show vm.pos + 6 = _
  rw [hvm.hpos]
  push_cast
  omega

theorem fits_mk (op : OpCode) (A B C : Int) (hA : 0 ≤ A ∧ A < 256)
    (hB : -32768 ≤ B ∧ B < 32768) (hC : 0 ≤ C ∧ C < 65536) :
    (Instruction.mk op A B C).fits := ⟨hA, hB, hC⟩

theorem getElem?_of_prefix_snoc {α : Type} (l : List α) (x : α) (l2 : List α)
    (h : l ++ [x] <+: l2) : l2[l.length]? = some x := by
  apply prefix_getElem? h
  simp

theorem constAt_loaded (chunk : BytecodeChunk) (m : List Nat) (i : Nat) (vm : VM)
    (hvm : VMAt chunk m i vm) (idx : Nat) (s : String)
    (hs : chunk.Constants[idx]? = some s) :
    constAt vm.K (idx : Int) = constValue (loadedText s) := by
  unfold constAt
  rw [if_pos (by omega), hvm.hK, Int.toNat_ofNat, List.getD_eq_getElem?_getD,
    List.getElem?_map, hs]
  rfl

theorem arith_apply (op : ArithOp) (a b v : Int) (h : op.apply a b = some v) :
    arith op.opcode (.num a) (.num b) = some (.num v) := by
  cases op <;> simp only [ArithOp.apply, ArithOp.opcode, arith] at h ⊢
  · rw [Option.some.injEq] at h; rw [h]
  · rw [Option.some.injEq] at h; rw [h]
  · rw [Option.some.injEq] at h; rw [h]
  · split at h
    · rename_i hc
      rw [if_pos hc]
      rw [Option.some.injEq] at h; rw [h]
    · cases h
  · split at h
    · rename_i hc
      rw [if_pos hc]
      rw [Option.some.injEq] at h; rw [h]
    · cases h
  · split at h
    · rename_i hc
      rw [if_pos hc]
      rw [Option.some.injEq] at h; rw [h]
    · cases h

theorem execHandler_arith (op : ArithOp) (A B C : Int) (vm : VM) :
    execHandler op.opcode A B C vm
      = (arith op.opcode (vm.S B) (vm.S C)).map (fun v => { vm with S := setReg vm.S A v }) := by
  cases op <;> rfl

/-- The code compiled for an arithmetic expression, run by the dispatch loop
from its first instruction, arrives behind its last instruction with the value
of the expression in the destination register; it has written no register
below the stack top other than the destination. -/
theorem cArith_run (chunk : BytecodeChunk) (m : List Nat) (H : List (Nat × Handler))
    (hH : HandlersOK m H) (hcount : chunk.Constants.length < 256) (e : ArithExpr) :
    ∀ (st : CompilerState) (reg : Int) (v : Int) (vm : VM),
      e.value = some v → 0 ≤ reg → reg < 256 → 0 ≤ st.current.stackTop →
      st.current.stackTop + (e.regs : Int) ≤ 256 →
      (cArith st e reg).current.chunk.Instructions <+: chunk.Instructions →
      (cArith st e reg).current.chunk.Constants <+: chunk.Constants →
      VMAt chunk m st.current.chunk.Instructions.length vm →
      ∃ vm1, Reaches H vm vm1
        ∧ VMAt chunk m (cArith st e reg).current.chunk.Instructions.length vm1
        ∧ vm1.S reg = .num v
        ∧ (∀ j, j ≠ reg → (j < st.current.stackTop ∨ st.current.stackTop + (e.regs : Int) ≤ j) →
            vm1.S j = vm.S j)
        ∧ vm1.G = vm.G ∧ vm1.iterLog = vm.iterLog := by
  induction e with
  | lit n =>
      intro st reg v vm hv h0 h1 hT hR hI hC hvm
      simp only [ArithExpr.value] at hv
      split at hv
      · cases hv
        have hcI : (cArith st (.lit n) reg).current.chunk.Instructions
            = st.current.chunk.Instructions
              ++ [⟨.OP_LOADK, reg, ((addConstant st (natText n)).1 : Int), 0⟩] := by
          simp only [cArith, compileNumber, addNumberConstant, emitInstruction_instructions,
            addConstant_instructions]
          rfl
        have hcC : (cArith st (.lit n) reg).current.chunk.Constants
            = (addConstant st (natText n)).2.current.chunk.Constants := rfl
        rw [hcI] at hI
        rw [hcC] at hC
        have hi := getElem?_of_prefix_snoc _ _ _ hI
        have hk := prefix_getElem? hC _ _ (addConstant_getElem st (natText n))
        have hidx : (addConstant st (natText n)).1 < chunk.Constants.length := by
          rw [List.getElem?_eq_some_iff] at hk
          exact hk.1
        obtain ⟨vm1, r1, a1, s1, g1, l1⟩ := step_registers chunk m H hH _ vm hvm _ hi
          (fits_mk _ _ _ _ ⟨h0, h1⟩ ⟨by omega, by omega⟩ ⟨by omega, by omega⟩)
          (setReg vm.S reg (constAt vm.K ((addConstant st (natText n)).1 : Int))) rfl
        refine ⟨vm1, r1, ?_, ?_, ?_, g1, l1⟩
        · rw [hcI, List.length_append]
          exact a1
        · rw [s1, constAt_loaded chunk m _ vm hvm _ _ hk, constValue_natText]
          simp [setReg]
        · intro j hj _
          rw [s1]
          simp [setReg, hj]
      · cases hv
  | neg e ih =>
      intro st reg v vm hv h0 h1 hT hR hI hC hvm
      simp only [ArithExpr.value] at hv
      split at hv
      · rename_i a ha
        cases hv
        have hcI : (cArith st (.neg e) reg).current.chunk.Instructions
            = (cArith st e reg).current.chunk.Instructions ++ [⟨.OP_UNM, reg, reg, 0⟩] := rfl
        have hcC : (cArith st (.neg e) reg).current.chunk.Constants
            = (cArith st e reg).current.chunk.Constants := rfl
        rw [hcI] at hI
        rw [hcC] at hC
        obtain ⟨vm1, r1, a1, s1, u1, g1, l1⟩ := ih st reg a vm ha h0 h1 hT hR
          ((List.prefix_append _ _).trans hI) hC hvm
        have hi := getElem?_of_prefix_snoc _ _ _ hI
        obtain ⟨vm2, r2, a2, s2, g2, l2⟩ := step_registers chunk m H hH _ vm1 a1 _ hi
          (fits_mk _ _ _ _ ⟨h0, h1⟩ ⟨by omega, by omega⟩ ⟨by omega, by omega⟩)
          (setReg vm1.S reg (.num (-a))) (by
            show (match vm1.S reg with
              | .num n => some { vm1 with pos := vm1.pos + 6, S := setReg vm1.S reg (.num (-n)) }
              | _ => none) = _
            rw [s1])
        refine ⟨vm2, r1.andThen r2, ?_, ?_, ?_, g2.trans g1, l2.trans l1⟩
        · rw [hcI, List.length_append]
          exact a2
        · rw [s2]
          simp [setReg]
        · intro j hj hr
          rw [s2]
          simp only [setReg, if_neg hj]
          exact u1 j hj hr
      · cases hv
  | bin op l r ihl ihr =>
      intro st reg v vm hv h0 h1 hT hR hI hC hvm
      simp only [ArithExpr.value] at hv
      split at hv
      · rename_i a b ha hb
        split at hv
        · rename_i w hw
          split at hv
          · cases hv
            simp only [ArithExpr.regs] at hR
            push_cast at hR
            have hcI : (cArith st (.bin op l r) reg).current.chunk.Instructions
                = (cArith (cArith (allocReg (allocReg st)) l st.current.stackTop) r
                    (st.current.stackTop + 1)).current.chunk.Instructions
                  ++ [⟨op.opcode, reg, st.current.stackTop, st.current.stackTop + 1⟩] := rfl
            have hcC : (cArith st (.bin op l r) reg).current.chunk.Constants
                = (cArith (cArith (allocReg (allocReg st)) l st.current.stackTop) r
                    (st.current.stackTop + 1)).current.chunk.Constants := rfl
            rw [hcI] at hI
            rw [hcC] at hC
            have hT2 : (allocReg (allocReg st)).current.stackTop = st.current.stackTop + 1 + 1 :=
              rfl
            have hml : (l.regs : Int) ≤ max (l.regs : Int) (r.regs : Int) := le_max_left _ _
            have hmr : (r.regs : Int) ≤ max (l.regs : Int) (r.regs : Int) := le_max_right _ _
            obtain ⟨vm1, r1, a1, s1, u1, g1, l1⟩ := ihl (allocReg (allocReg st))
              st.current.stackTop a vm ha hT (by omega) (by rw [hT2]; omega)
              (by rw [hT2]; omega)
              (((cArith_instructions_pre r _ _).trans (List.prefix_append _ _)).trans hI)
              ((cArith_constants_pre r _ _).trans hC) hvm
            have hT3 : (cArith (allocReg (allocReg st)) l st.current.stackTop).current.stackTop
                = st.current.stackTop + 1 + 1 := by rw [cArith_stackTop, hT2]
            obtain ⟨vm2, r2, a2, s2, u2, g2, l2⟩ := ihr
              (cArith (allocReg (allocReg st)) l st.current.stackTop)
              (st.current.stackTop + 1) b vm1 hb (by omega) (by omega) (by rw [hT3]; omega)
              (by rw [hT3]; omega)
              ((List.prefix_append _ _).trans hI) hC a1
            have hi := getElem?_of_prefix_snoc _ _ _ hI
            have hl2 : vm2.S st.current.stackTop = .num a := by
              rw [u2 _ (by omega) (Or.inl (by rw [hT3]; omega)), s1]
            obtain ⟨vm3, r3, a3, s3, g3, l3⟩ := step_registers chunk m H hH _ vm2 a2 _ hi
              (fits_mk _ _ _ _ ⟨h0, h1⟩ ⟨by omega, by omega⟩ ⟨by omega, by omega⟩)
              (setReg vm2.S reg (.num v)) (by
                show execHandler op.opcode reg st.current.stackTop (st.current.stackTop + 1) _ = _
                rw [execHandler_arith]
                show (arith op.opcode (vm2.S st.current.stackTop)
                  (vm2.S (st.current.stackTop + 1))).map _ = _
                rw [hl2, s2, arith_apply op a b v hw]
                rfl)
            refine ⟨vm3, (r1.andThen r2).andThen r3, ?_, ?_, ?_, (g3.trans g2).trans g1,
              (l3.trans l2).trans l1⟩
            · rw [hcI, List.length_append]
              exact a3
            · rw [s3]
              simp [setReg]
            · intro j hj hr
              rw [s3]
              simp only [setReg, if_neg hj]
              simp only [ArithExpr.regs] at hr
              push_cast at hr
              have hj2 : vm2.S j = vm1.S j := by
                by_cases hj1 : j = st.current.stackTop + 1
                · exfalso
                  rcases hr with hr | hr <;> omega
                · apply u2 j hj1
                  rw [hT3]
                  rcases hr with hr | hr
                  · left; omega
                  · right; omega
              have hj3 : vm1.S j = vm.S j := by
                by_cases hj1 : j = st.current.stackTop
                · exfalso
                  rcases hr with hr | hr <;> omega
                · apply u1 j hj1
                  rw [hT2]
                  rcases hr with hr | hr
                  · left; omega
                  · right; omega
              rw [hj2, hj3]
          · cases hv
        · cases hv
      · cases hv

/-! ### The constant pool of an arithmetic expression -/

theorem cArith_hadError (e : ArithExpr) (st : CompilerState) (reg : Int) :
    (cArith st e reg).hadError = st.hadError := by
  induction e generalizing st reg with
  | lit n =>
      show (addConstant st _).2.hadError = _
      unfold addConstant; split <;> rfl
  | neg e ih => exact ih st reg
  | bin op l r ihl ihr =>
      show (cArith (cArith (allocReg (allocReg st)) l _) r _).hadError = _
      rw [ihr, ihl]
      rfl

theorem addConstant_mem (st : CompilerState) (v s : String)
    (h : s ∈ (addConstant st v).2.current.chunk.Constants) :
    s ∈ st.current.chunk.Constants ∨ s = v := by
  unfold addConstant at h
  split at h
  · exact Or.inl h
  · have h1 : s ∈ st.current.chunk.Constants ++ [v] := h
    rw [List.mem_append, List.mem_singleton] at h1
    exact h1

theorem cArith_constants_mem (e : ArithExpr) (st : CompilerState) (reg : Int) (s : String)
    (h : s ∈ (cArith st e reg).current.chunk.Constants) :
    s ∈ st.current.chunk.Constants ∨ ∃ n ∈ e.literals, s = natText n := by
  induction e generalizing st reg with
  | lit n =>
      rcases addConstant_mem st (natText n) s h with h1 | h1
      · exact Or.inl h1
      · exact Or.inr ⟨n, List.mem_singleton.mpr rfl, h1⟩
  | neg e ih => exact ih st reg h
  | bin op l r ihl ihr =>
      have h1 : s ∈ (cArith (cArith (allocReg (allocReg st)) l st.current.stackTop) r
          (st.current.stackTop + 1)).current.chunk.Constants := h
      rcases ihr _ _ h1 with h2 | ⟨n, hn, hs⟩
      · rcases ihl _ _ h2 with h3 | ⟨n, hn, hs⟩
        · exact Or.inl h3
        · exact Or.inr ⟨n, List.mem_append_left _ hn, hs⟩
      · exact Or.inr ⟨n, List.mem_append_right _ hn, hs⟩

theorem cArith_constants_nodup (e : ArithExpr) (st : CompilerState) (reg : Int)
    (h : st.current.chunk.Constants.Nodup) :
    (cArith st e reg).current.chunk.Constants.Nodup := by
  induction e generalizing st reg with
  | lit n => exact addConstant_nodup st _ h
  | neg e ih => exact ih st reg h
  | bin op l r ihl ihr => exact ihr _ _ (ihl _ _ h)

theorem addConstant_overrun (st : CompilerState) (v : String)
    (hlen : (addConstant st v).2.current.chunk.Constants.length ≤ 32)
    (h : st.current.chunk.overrun = false) :
    (addConstant st v).2.current.chunk.overrun = false := by
  unfold addConstant at hlen ⊢
  split
  · exact h
  · rename_i hv
    rw [if_neg hv] at hlen
    have h1 : (st.current.chunk.Constants ++ [v]).length ≤ 32 := hlen
    rw [List.length_append, List.length_singleton] at h1
    show (st.current.chunk.overrun || decide (32 ≤ st.current.chunk.Constants.length)) = false
    rw [h]
    simp only [Bool.false_or, decide_eq_false_iff_not, not_le]
    omega

theorem cArith_overrun (e : ArithExpr) (st : CompilerState) (reg : Int)
    (hlen : (cArith st e reg).current.chunk.Constants.length ≤ 32)
    (h : st.current.chunk.overrun = false) :
    (cArith st e reg).current.chunk.overrun = false := by
  induction e generalizing st reg with
  | lit n => exact addConstant_overrun st _ hlen h
  | neg e ih => exact ih st reg hlen h
  | bin op l r ihl ihr =>
      have h1 : (cArith (cArith (allocReg (allocReg st)) l st.current.stackTop) r
          (st.current.stackTop + 1)).current.chunk.Constants.length ≤ 32 := hlen
      have h2 := (cArith_constants_pre r (cArith (allocReg (allocReg st)) l
        st.current.stackTop) (st.current.stackTop + 1)).length_le
      exact ihr _ _ h1 (ihl _ _ (by omega) h)

theorem value_literals_lt (e : ArithExpr) (v : Int) (h : e.value = some v) :
    ∀ n ∈ e.literals, n < 2 ^ 53 := by
  induction e generalizing v with
  | lit n =>
      intro k hk
      rw [ArithExpr.literals, List.mem_singleton] at hk
      simp only [ArithExpr.value] at h
      split at h
      · rw [hk]; assumption
      · cases h
  | neg e ih =>
      simp only [ArithExpr.value] at h
      split at h
      · rename_i a ha
        exact ih a ha
      · cases h
  | bin op l r ihl ihr =>
      simp only [ArithExpr.value] at h
      split at h
      · rename_i a b ha hb
        intro k hk
        rw [ArithExpr.literals, List.mem_append] at hk
        rcases hk with hk | hk
        · exact ihl a ha k hk
        · exact ihr b hb k hk
      · cases h

theorem natDigits_length (fuel n k : Nat) (h : n < 10 ^ (k + 1)) :
    (natDigits fuel n).length ≤ k + 1 := by
  induction fuel generalizing n k with
  | zero => simp [natDigits]
  | succ f ih =>
      rw [natDigits]
      split
      · simp
      · rename_i h10
        cases k with
        | zero => omega
        | succ k =>
            rw [List.length_append, List.length_singleton]
            have : n / 10 < 10 ^ (k + 1) := by
              rw [Nat.div_lt_iff_lt_mul (by omega)]
              rw [pow_succ] at h
              exact h
            have := ih (n / 10) k this
            omega

theorem natText_length (n : Nat) (h : n < 2 ^ 53) : (natText n).length ≤ 16 := by
  unfold natText
  show (natDigits (n + 1) n).length ≤ 16
  apply natDigits_length (n + 1) n 15
  omega

theorem pool_length_le (pool : List String) (lits : List Nat) (hnd : pool.Nodup)
    (hmem : ∀ s ∈ pool, ∃ n ∈ lits, s = natText n) : pool.length ≤ lits.dedup.length := by
  rw [← List.toFinset_card_of_nodup hnd, ← List.card_toFinset]
  have : pool.toFinset ⊆ lits.toFinset.image natText := by
    intro s hs
    rw [List.mem_toFinset] at hs
    obtain ⟨n, hn, rfl⟩ := hmem s hs
    exact Finset.mem_image_of_mem _ (List.mem_toFinset.mpr hn)
  exact (Finset.card_le_card this).trans Finset.card_image_le
/-! ## The dispatch loop on the decoded data

The generated script runs on `D = d85(enc)`, the serialized bytes followed by
the zero bytes of the last group. The lemmas of this section count the turns
of the loop. -/

theorem byteAt_padTo4 (X : List Nat) (p : Int) (hp : 0 ≤ p) :
    byteAt (padTo4 X) p = byteAt X p := by
  unfold byteAt stringByte padTo4
  by_cases h1 : 1 ≤ p
  · rw [if_pos h1, if_pos h1, List.get?_eq_getElem?, List.get?_eq_getElem?]
    by_cases hlt : (p - 1).toNat < X.length
    · rw [List.getElem?_append_left hlt]
    · have hr : X[(p - 1).toNat]? = none := List.getElem?_eq_none (by omega)
      rw [List.getElem?_append_right (by omega), hr, List.getElem?_replicate]
      split <;> rfl
  · have h0 : p = 0 := by omega
    subst h0
    simp

theorem length_padTo4_ge (X : List Nat) : X.length ≤ (padTo4 X).length := by
  unfold padTo4
  rw [List.length_append]
  omega

theorem length_padTo4_lt (X : List Nat) : (padTo4 X).length < X.length + 4 := by
  unfold padTo4
  rw [List.length_append, List.length_replicate]
  omega

theorem turns_zero (H : List (Nat × Handler)) (vm : VM) : Turns H 0 vm vm :=
  fun n => by rw [Nat.zero_add]

theorem turns_append {H : List (Nat × Handler)} {a b c : VM} {k1 k2 : Nat}
    (h1 : Turns H k1 a b) (h2 : Turns H k2 b c) : Turns H (k1 + k2) a c := by
  intro n
  rw [Nat.add_assoc, h1, h2]

theorem turns_run {H : List (Nat × Handler)} {a b : VM} {k : Nat} (h : Turns H k a b) :
    vmRun H k a = some b := by
  have := h 0
  rw [Nat.add_zero] at this
  rw [this]
  rfl

theorem decoded_pos_le (chunk : BytecodeChunk) (m : List Nat) (i : Nat) (vm : VM)
    (hvm : DecodedAt chunk m i vm) (hi : i < chunk.Instructions.length) :
    vm.pos ≤ (vm.D.length : Int) := by
  have h1 := length_padTo4_ge (serializeBuffer chunk m)
  rw [hvm.hD, hvm.hpos]
  rw [serializeBuffer_length, ← length_flatMap_serializeConstant] at h1
  unfold codeBase
  omega

/-- One turn of the dispatch loop on the decoded data with the cursor at
instruction `i` runs the handler of that instruction's opcode on its
fields. -/
theorem vmStep_decoded (chunk : BytecodeChunk) (m : List Nat) (H : List (Nat × Handler))
    (hH : HandlersOK m H) (i : Nat) (vm : VM) (hvm : DecodedAt chunk m i vm)
    (ins : Instruction) (hi : chunk.Instructions[i]? = some ins) (hf : ins.fits) :
    vmStep H vm = execHandler ins.Op ins.A ins.B ins.C { vm with pos := vm.pos + 6 } := by
  obtain ⟨hD, hpos, hK⟩ := hvm
  have hb : 0 ≤ codeBase chunk.Constants := by unfold codeBase; omega
  have b0 := byteAt_instruction chunk m i 0 ins hi (by omega)
  have b1 := byteAt_instruction chunk m i 1 ins hi (by omega)
  have b2 := byteAt_instruction chunk m i 2 ins hi (by omega)
  have b3 := byteAt_instruction chunk m i 3 ins hi (by omega)
  have b4 := byteAt_instruction chunk m i 4 ins hi (by omega)
  have b5 := byteAt_instruction chunk m i 5 ins hi (by omega)
  simp only [Nat.cast_zero, add_zero, Nat.cast_one, Nat.cast_ofNat] at b0 b1 b2 b3 b4 b5
  unfold vmStep
  simp only [hD, hpos]
  rw [byteAt_padTo4 _ _ (by omega), byteAt_padTo4 _ _ (by omega), byteAt_padTo4 _ _ (by omega),
    byteAt_padTo4 _ _ (by omega), byteAt_padTo4 _ _ (by omega), byteAt_padTo4 _ _ (by omega)]
  simp only [b0, b1, b2, b3, b4, b5]
  simp only [serializeInstruction, List.getD_cons_zero, List.getD_cons_succ]
  rw [hH ins.Op, decode_B _ hf.2.1, decode_C _ hf.2.2, lowByte_of_fits _ hf.1]

/-- One turn at instruction `i` of the decoded data: when the handler returns
`vm1`, the loop is in `vm1` after that turn. -/
theorem turns_one (chunk : BytecodeChunk) (m : List Nat) (H : List (Nat × Handler))
    (hH : HandlersOK m H) (i : Nat) (vm vm1 : VM) (hvm : DecodedAt chunk m i vm)
    (ins : Instruction) (hi : chunk.Instructions[i]? = some ins) (hf : ins.fits)
    (he : execHandler ins.Op ins.A ins.B ins.C { vm with pos := vm.pos + 6 } = some vm1) :
    Turns H 1 vm vm1 := by
  intro n
  have hlt : i < chunk.Instructions.length := by
    rw [List.getElem?_eq_some_iff] at hi
    exact hi.1
  rw [Nat.add_comm, vmRun, if_pos (decoded_pos_le chunk m i vm hvm hlt),
    vmStep_decoded chunk m H hH i vm hvm ins hi hf, he]

/-- A turn on the decoded data whose handler only writes registers moves the
cursor to the next instruction and leaves the rest of the state. -/
theorem turn_registers (chunk : BytecodeChunk) (m : List Nat) (H : List (Nat × Handler))
    (hH : HandlersOK m H) (i : Nat) (vm : VM) (hvm : DecodedAt chunk m i vm)
    (ins : Instruction) (hi : chunk.Instructions[i]? = some ins) (hf : ins.fits)
    (S1 : Int → Value)
    (he : execHandler ins.Op ins.A ins.B ins.C { vm with pos := vm.pos + 6 }
      = some { vm with pos := vm.pos + 6, S := S1 }) :
    ∃ vm1, Turns H 1 vm vm1 ∧ DecodedAt chunk m (i + 1) vm1 ∧ vm1.S = S1 ∧ vm1.G = vm.G
      ∧ vm1.iterLog = vm.iterLog := by
  refine ⟨{ vm with pos := vm.pos + 6, S := S1 },
    turns_one chunk m H hH i vm _ hvm ins hi hf he, ⟨hvm.hD, ?_, hvm.hK⟩, rfl, rfl, rfl⟩
  show vm.pos + 6 = _
  rw [hvm.hpos]
  push_cast
  omega

theorem constAt_decoded (chunk : BytecodeChunk) (m : List Nat) (i : Nat) (vm : VM)
    (hvm : DecodedAt chunk m i vm) (idx : Nat) (s : String)
    (hs : chunk.Constants[idx]? = some s) :
    constAt vm.K (idx : Int) = constValue (loadedText s) := by
  unfold constAt
  rw [if_pos (by omega), hvm.hK, Int.toNat_ofNat, List.getD_eq_getElem?_getD,
    List.getElem?_map, hs]
  rfl

/-- The generated script, started on the decoded data of a chunk with fewer
than 256 constants, each shorter than 65536 bytes, has loaded the constants
and stands at the first instruction. -/
theorem vmInit_decoded (chunk : BytecodeChunk) (m : List Nat) (G : Value → Value)
    (hcount : chunk.Constants.length < 256)
    (hlen : ∀ c ∈ chunk.Constants, c.length < 65536) :
    DecodedAt chunk m 0 (vmInit (padTo4 (serializeBuffer chunk m)) G)
      ∧ (vmInit (padTo4 (serializeBuffer chunk m)) G).S = (fun _ => Value.nil)
      ∧ (vmInit (padTo4 (serializeBuffer chunk m)) G).G = G
      ∧ (vmInit (padTo4 (serializeBuffer chunk m)) G).iterLog = [] := by
  have hcc : byteAt (padTo4 (serializeBuffer chunk m)) 2 = chunk.Constants.length := by
    rw [byteAt_padTo4 _ _ (by omega), serializeBuffer_eq]
    have := byteAt_append_index [1] (chunk.Constants.flatMap serializeConstant
      ++ chunk.Instructions.flatMap (serializeInstruction m)) (chunk.Constants.length % 256)
    rw [Nat.mod_eq_of_lt hcount] at this ⊢
    simpa using this
  have hl := loadConstants_serialized chunk.Constants [1, chunk.Constants.length % 256]
    (chunk.Instructions.flatMap (serializeInstruction m)
      ++ List.replicate ((4 - (serializeBuffer chunk m).length % 4) % 4) 0) [] hlen
  have hp : padTo4 (serializeBuffer chunk m)
      = [1, chunk.Constants.length % 256] ++ chunk.Constants.flatMap serializeConstant
        ++ (chunk.Instructions.flatMap (serializeInstruction m)
          ++ List.replicate ((4 - (serializeBuffer chunk m).length % 4) % 4) 0) := by
    unfold padTo4
    rw [← List.append_assoc, ← serializeBuffer_eq]
  rw [← hp] at hl
  simp only [List.length_cons, List.length_nil, List.nil_append] at hl
  norm_num at hl
  refine ⟨⟨rfl, ?_, ?_⟩, rfl, rfl, rfl⟩
  · show (loadConstants (padTo4 (serializeBuffer chunk m))
      (byteAt (padTo4 (serializeBuffer chunk m)) 2) 3 []).2 = _
    rw [hcc, hl]
    unfold codeBase
    simp
  · show (loadConstants (padTo4 (serializeBuffer chunk m))
      (byteAt (padTo4 (serializeBuffer chunk m)) 2) 3 []).1 = _
    rw [hcc, hl]

/-! ### Running the code of an arithmetic expression on the decoded data -/

theorem cArith_length (e : ArithExpr) (st : CompilerState) (reg : Int) :
    (cArith st e reg).current.chunk.Instructions.length
      = st.current.chunk.Instructions.length + e.size := by
  induction e generalizing st reg with
  | lit n =>
      simp only [cArith, compileNumber, addNumberConstant, emitInstruction_instructions,
        addConstant_instructions, List.length_append]
      rfl
  | neg e ih =>
      show ((cArith st e reg).current.chunk.Instructions ++ [_]).length = _
      rw [List.length_append, ih]
      rfl
  | bin op l r ihl ihr =>
      show ((cArith (cArith (allocReg (allocReg st)) l st.current.stackTop) r
        (st.current.stackTop + 1)).current.chunk.Instructions ++ [_]).length = _
      rw [List.length_append, ihr, ihl]
      show st.current.chunk.Instructions.length + l.size + r.size + 1 = _
      simp only [ArithExpr.size]
      omega

/-- The code compiled for an arithmetic expression, run by the dispatch loop
on the decoded data from its first instruction, is behind its last
instruction after as many turns as it has instructions, with the value of the
expression in the destination register; it has written no register below the
stack top other than the destination. -/
theorem cArith_turns (chunk : BytecodeChunk) (m : List Nat) (H : List (Nat × Handler))
    (hH : HandlersOK m H) (hcount : chunk.Constants.length < 256) (e : ArithExpr) :
    ∀ (st : CompilerState) (reg : Int) (v : Int) (vm : VM),
      e.value = some v → 0 ≤ reg → reg < 256 → 0 ≤ st.current.stackTop →
      st.current.stackTop + (e.regs : Int) ≤ 256 →
      (cArith st e reg).current.chunk.Instructions <+: chunk.Instructions →
      (cArith st e reg).current.chunk.Constants <+: chunk.Constants →
      DecodedAt chunk m st.current.chunk.Instructions.length vm →
      ∃ vm1, Turns H e.size vm vm1
        ∧ DecodedAt chunk m (cArith st e reg).current.chunk.Instructions.length vm1
        ∧ vm1.S reg = .num v
        ∧ (∀ j, j ≠ reg → (j < st.current.stackTop ∨ st.current.stackTop + (e.regs : Int) ≤ j) →
            vm1.S j = vm.S j)
        ∧ vm1.G = vm.G ∧ vm1.iterLog = vm.iterLog := by
  induction e with
  | lit n =>
      intro st reg v vm hv h0 h1 hT hR hI hC hvm
      simp only [ArithExpr.value] at hv
      split at hv
      · cases hv
        have hcI : (cArith st (.lit n) reg).current.chunk.Instructions
            = st.current.chunk.Instructions
              ++ [⟨.OP_LOADK, reg, ((addConstant st (natText n)).1 : Int), 0⟩] := by
          simp only [cArith, compileNumber, addNumberConstant, emitInstruction_instructions,
            addConstant_instructions]
          rfl
        have hcC : (cArith st (.lit n) reg).current.chunk.Constants
            = (addConstant st (natText n)).2.current.chunk.Constants := rfl
        rw [hcI] at hI
        rw [hcC] at hC
        have hi := getElem?_of_prefix_snoc _ _ _ hI
        have hk := prefix_getElem? hC _ _ (addConstant_getElem st (natText n))
        have hidx : (addConstant st (natText n)).1 < chunk.Constants.length := by
          rw [List.getElem?_eq_some_iff] at hk
          exact hk.1
        obtain ⟨vm1, r1, a1, s1, g1, l1⟩ := turn_registers chunk m H hH _ vm hvm _ hi
          (fits_mk _ _ _ _ ⟨h0, h1⟩ ⟨by omega, by omega⟩ ⟨by omega, by omega⟩)
          (setReg vm.S reg (constAt vm.K ((addConstant st (natText n)).1 : Int))) rfl
        refine ⟨vm1, r1, ?_, ?_, ?_, g1, l1⟩
        · rw [hcI, List.length_append]
          exact a1
        · rw [s1, constAt_decoded chunk m _ vm hvm _ _ hk, constValue_natText]
          simp [setReg]
        · intro j hj _
          rw [s1]
          simp [setReg, hj]
      · cases hv
  | neg e ih =>
      intro st reg v vm hv h0 h1 hT hR hI hC hvm
      simp only [ArithExpr.value] at hv
      split at hv
      · rename_i a ha
        cases hv
        have hcI : (cArith st (.neg e) reg).current.chunk.Instructions
            = (cArith st e reg).current.chunk.Instructions ++ [⟨.OP_UNM, reg, reg, 0⟩] := rfl
        have hcC : (cArith st (.neg e) reg).current.chunk.Constants
            = (cArith st e reg).current.chunk.Constants := rfl
        rw [hcI] at hI
        rw [hcC] at hC
        obtain ⟨vm1, r1, a1, s1, u1, g1, l1⟩ := ih st reg a vm ha h0 h1 hT hR
          ((List.prefix_append _ _).trans hI) hC hvm
        have hi := getElem?_of_prefix_snoc _ _ _ hI
        obtain ⟨vm2, r2, a2, s2, g2, l2⟩ := turn_registers chunk m H hH _ vm1 a1 _ hi
          (fits_mk _ _ _ _ ⟨h0, h1⟩ ⟨by omega, by omega⟩ ⟨by omega, by omega⟩)
          (setReg vm1.S reg (.num (-a))) (by
            show (match vm1.S reg with
              | .num n => some { vm1 with pos := vm1.pos + 6, S := setReg vm1.S reg (.num (-n)) }
              | _ => none) = _
            rw [s1])
        refine ⟨vm2, turns_append r1 r2, ?_, ?_, ?_, g2.trans g1, l2.trans l1⟩
        · rw [hcI, List.length_append]
          exact a2
        · rw [s2]
          simp [setReg]
        · intro j hj hr
          rw [s2]
          simp only [setReg, if_neg hj]
          exact u1 j hj hr
      · cases hv
  | bin op l r ihl ihr =>
      intro st reg v vm hv h0 h1 hT hR hI hC hvm
      simp only [ArithExpr.value] at hv
      split at hv
      · rename_i a b ha hb
        split at hv
        · rename_i w hw
          split at hv
          · cases hv
            simp only [ArithExpr.regs] at hR
            push_cast at hR
            have hcI : (cArith st (.bin op l r) reg).current.chunk.Instructions
                = (cArith (cArith (allocReg (allocReg st)) l st.current.stackTop) r
                    (st.current.stackTop + 1)).current.chunk.Instructions
                  ++ [⟨op.opcode, reg, st.current.stackTop, st.current.stackTop + 1⟩] := rfl
            have hcC : (cArith st (.bin op l r) reg).current.chunk.Constants
                = (cArith (cArith (allocReg (allocReg st)) l st.current.stackTop) r
                    (st.current.stackTop + 1)).current.chunk.Constants := rfl
            rw [hcI] at hI
            rw [hcC] at hC
            have hT2 : (allocReg (allocReg st)).current.stackTop = st.current.stackTop + 1 + 1 :=
              rfl
            have hml : (l.regs : Int) ≤ max (l.regs : Int) (r.regs : Int) := le_max_left _ _
            have hmr : (r.regs : Int) ≤ max (l.regs : Int) (r.regs : Int) := le_max_right _ _
            obtain ⟨vm1, r1, a1, s1, u1, g1, l1⟩ := ihl (allocReg (allocReg st))
              st.current.stackTop a vm ha hT (by omega) (by rw [hT2]; omega)
              (by rw [hT2]; omega)
              (((cArith_instructions_pre r _ _).trans (List.prefix_append _ _)).trans hI)
              ((cArith_constants_pre r _ _).trans hC) hvm
            have hT3 : (cArith (allocReg (allocReg st)) l st.current.stackTop).current.stackTop
                = st.current.stackTop + 1 + 1 := by rw [cArith_stackTop, hT2]
            obtain ⟨vm2, r2, a2, s2, u2, g2, l2⟩ := ihr
              (cArith (allocReg (allocReg st)) l st.current.stackTop)
              (st.current.stackTop + 1) b vm1 hb (by omega) (by omega) (by rw [hT3]; omega)
              (by rw [hT3]; omega)
              ((List.prefix_append _ _).trans hI) hC a1
            have hi := getElem?_of_prefix_snoc _ _ _ hI
            have hl2 : vm2.S st.current.stackTop = .num a := by
              rw [u2 _ (by omega) (Or.inl (by rw [hT3]; omega)), s1]
            obtain ⟨vm3, r3, a3, s3, g3, l3⟩ := turn_registers chunk m H hH _ vm2 a2 _ hi
              (fits_mk _ _ _ _ ⟨h0, h1⟩ ⟨by omega, by omega⟩ ⟨by omega, by omega⟩)
              (setReg vm2.S reg (.num v)) (by
                show execHandler op.opcode reg st.current.stackTop (st.current.stackTop + 1) _ = _
                rw [execHandler_arith]
                show (arith op.opcode (vm2.S st.current.stackTop)
                  (vm2.S (st.current.stackTop + 1))).map _ = _
                rw [hl2, s2, arith_apply op a b v hw]
                rfl)
            refine ⟨vm3, turns_append (turns_append r1 r2) r3, ?_, ?_, ?_, (g3.trans g2).trans g1,
              (l3.trans l2).trans l1⟩
            · rw [hcI, List.length_append]
              exact a3
            · rw [s3]
              simp [setReg]
            · intro j hj hr
              rw [s3]
              simp only [setReg, if_neg hj]
              simp only [ArithExpr.regs] at hr
              push_cast at hr
              have hj2 : vm2.S j = vm1.S j := by
                by_cases hj1 : j = st.current.stackTop + 1
                · exfalso
                  rcases hr with hr | hr <;> omega
                · apply u2 j hj1
                  rw [hT3]
                  rcases hr with hr | hr
                  · left; omega
                  · right; omega
              have hj3 : vm1.S j = vm.S j := by
                by_cases hj1 : j = st.current.stackTop
                · exfalso
                  rcases hr with hr | hr <;> omega
                · apply u1 j hj1
                  rw [hT2]
                  rcases hr with hr | hr
                  · left; omega
                  · right; omega
              rw [hj2, hj3]
          · cases hv
        · cases hv
      · cases hv

/-! ## C9: the numeric for loop -/

theorem modify_append_at {α : Type} (f : α → α) (l : List α) (x : α) (r : List α) :
    (l ++ x :: r).modify f l.length = l ++ f x :: r := by
  induction l with
  | nil => rfl
  | cons y l ih =>
      rw [List.cons_append, List.length_cons, List.modify_succ_cons, ih]
      rfl

theorem forLocals_eq (st : CompilerState) :
    forLocals st = { st with current :=
      { chunk := CreateChunk
        locals := [⟨"(for index)", 1, 0⟩, ⟨"(for limit)", 1, 1⟩, ⟨"(for step)", 1, 2⟩,
          ⟨"i", 1, 3⟩]
        scopeDepth := 1
        stackTop := 4
        maxStack := 4 } } := rfl

theorem forExprs_hadError (st : CompilerState) (es el ep : ArithExpr) :
    (forExprs st es el ep).hadError = st.hadError := by
  unfold forExprs
  rw [cArith_hadError, cArith_hadError, cArith_hadError, forLocals_eq]

theorem compileForNum_arith (st : CompilerState) (hst : st.hadError = false)
    (es el ep : ArithExpr) (g : Nat) (h1 : es.fuel ≤ g + 2) (h2 : el.fuel ≤ g + 2)
    (h3 : ep.fuel ≤ g + 2) :
    compileForNum (g + 2 + 1) (initCompiler st) "i" es.toAST el.toAST ep.toAST (.NODE_BLOCK [])
      = some (endScope (patchB (patchB (emitInstruction (emitInstruction
          (forExprs st es el ep) .OP_FORPREP 0 0 0) .OP_FORLOOP 0 0 0)
          (forExprs st es el ep).count
          ((emitInstruction (forExprs st es el ep) .OP_FORPREP 0 0 0).count
            - (forExprs st es el ep).count - 1))
          (emitInstruction (forExprs st es el ep) .OP_FORPREP 0 0 0).count
          ((emitInstruction (forExprs st es el ep) .OP_FORPREP 0 0 0).count
            - (emitInstruction (forExprs st es el ep) .OP_FORPREP 0 0 0).count + 1))) := by
  unfold compileForNum
  simp only []
  have hb : (((beginScope (initCompiler st)).current.locals.length : Nat) : Int) = 0 := rfl
  rw [hb]
  have hl : addLocal (addLocal (addLocal (addLocal (beginScope (initCompiler st)) "(for index)")
      "(for limit)") "(for step)") "i" = forLocals st := rfl
  rw [hl, compile_arith es _ _ _ h1]
  simp only []
  rw [compile_arith el _ _ _ h2]
  simp only []
  rw [compile_arith ep _ _ _ h3]
  simp only []
  have hn : compileNode (g + 2) (emitInstruction (cArith (cArith (cArith (forLocals st) es 0) el
      (0 + 1)) ep (0 + 2)) .OP_FORPREP 0 0 0) (.NODE_BLOCK [])
      = some (emitInstruction (cArith (cArith (cArith (forLocals st) es 0) el (0 + 1)) ep (0 + 2))
        .OP_FORPREP 0 0 0) := by
    have he : (emitInstruction (cArith (cArith (cArith (forLocals st) es 0) el
        (0 + 1)) ep (0 + 2)) .OP_FORPREP 0 0 0).hadError = false := by
      show (cArith (cArith (cArith (forLocals st) es 0) el (0 + 1)) ep (0 + 2)).hadError = false
      rw [cArith_hadError, cArith_hadError, cArith_hadError, forLocals_eq]
      exact hst
    show compileNode (g + 1 + 1) _ _ = _
    unfold compileNode
    rw [he]
    rfl
  rw [hn]
  rfl

theorem forChunk_patched (s : CompilerState) :
    (emitInstruction (endScope (patchB (patchB (emitInstruction (emitInstruction
          s .OP_FORPREP 0 0 0) .OP_FORLOOP 0 0 0)
          s.count ((emitInstruction s .OP_FORPREP 0 0 0).count - s.count - 1))
          (emitInstruction s .OP_FORPREP 0 0 0).count
          ((emitInstruction s .OP_FORPREP 0 0 0).count
            - (emitInstruction s .OP_FORPREP 0 0 0).count + 1))) .OP_RETURN 0 1 0).current.chunk
      = { Instructions := s.current.chunk.Instructions
            ++ [⟨.OP_FORPREP, 0, 0, 0⟩, ⟨.OP_FORLOOP, 0, 1, 0⟩, ⟨.OP_RETURN, 0, 1, 0⟩]
          Constants := s.current.chunk.Constants
          overrun := s.current.chunk.overrun } := by
  have hc : (emitInstruction s .OP_FORPREP 0 0 0).count = s.count + 1 := by
    unfold CompilerState.count
    rw [emitInstruction_instructions, List.length_append, List.length_singleton]
    push_cast
    rfl
  rw [hc]
  have e1 : s.count + 1 - s.count - 1 = 0 := by omega
  have e2 : s.count + 1 - (s.count + 1) + 1 = 1 := by omega
  rw [e1, e2]
  have n1 : s.count.toNat = s.current.chunk.Instructions.length := by
    unfold CompilerState.count
    exact Int.toNat_ofNat _
  have n2 : (s.count + 1).toNat = (s.current.chunk.Instructions
      ++ [(⟨.OP_FORPREP, 0, 0, 0⟩ : Instruction)]).length := by
    unfold CompilerState.count
    rw [List.length_append, List.length_singleton]
    omega
  show BytecodeChunk.mk
      (List.modify (fun ins => { ins with B := 1 }) (s.count + 1).toNat
        (List.modify (fun ins => { ins with B := 0 }) s.count.toNat
          ((s.current.chunk.Instructions ++ [⟨.OP_FORPREP, 0, 0, 0⟩])
            ++ [⟨.OP_FORLOOP, 0, 0, 0⟩])) ++ [⟨.OP_RETURN, 0, 1, 0⟩])
      s.current.chunk.Constants s.current.chunk.overrun = _
  rw [n1, List.append_assoc, List.singleton_append, modify_append_at, n2]
  have e3 : s.current.chunk.Instructions
        ++ [(⟨.OP_FORPREP, 0, 0, 0⟩ : Instruction), ⟨.OP_FORLOOP, 0, 0, 0⟩]
      = (s.current.chunk.Instructions ++ [⟨.OP_FORPREP, 0, 0, 0⟩])
        ++ ⟨.OP_FORLOOP, 0, 0, 0⟩ :: [] := by
    simp
  have e4 : s.current.chunk.Instructions
        ++ (fun ins : Instruction => { ins with B := 0 }) ⟨.OP_FORPREP, 0, 0, 0⟩
          :: [(⟨.OP_FORLOOP, 0, 0, 0⟩ : Instruction)]
      = (s.current.chunk.Instructions ++ [⟨.OP_FORPREP, 0, 0, 0⟩])
        ++ ⟨.OP_FORLOOP, 0, 0, 0⟩ :: [] := by
    simp
  rw [e4, modify_append_at]
  simp

theorem compile_for (st : CompilerState) (hst : st.hadError = false) (es el ep : ArithExpr)
    (fuel : Nat) (hf : max (max es.fuel el.fuel) (max ep.fuel 2) + 4 ≤ fuel) :
    ∃ st1, compileParsed fuel st (forProgram es el ep) = some (some (forChunk st es el ep), st1)
      := by
  obtain ⟨g, rfl⟩ : ∃ g, fuel = g + 2 + 1 + 1 + 1 + 1 := ⟨fuel - 6, by omega⟩
  have h1 : es.fuel ≤ g + 2 := by omega
  have h2 : el.fuel ≤ g + 2 := by omega
  have h3 : ep.fuel ≤ g + 2 := by omega
  have hi : (initCompiler st).hadError = false := hst
  unfold compileParsed forProgram
  unfold compileNode
  rw [hi]
  simp only [Bool.false_eq_true, if_false]
  unfold compileStatements
  unfold compileStatement
  simp only []
  rw [compileForNum_arith st hst es el ep g h1 h2 h3]
  simp only []
  unfold compileStatements
  simp only []
  rw [if_neg (by
    show ¬ (forExprs st es el ep).hadError = true
    rw [forExprs_hadError, hst]
    simp)]
  rw [forChunk_patched]
  exact ⟨_, rfl⟩

/-! ### The loop under the FORPREP and FORLOOP handlers -/

theorem execHandler_forloop_back (vm : VM) (x b c : Int) (h0 : vm.S 0 = .num x)
    (h1 : vm.S 1 = .num b) (h2 : vm.S 2 = .num c) (hc : 0 < c) (hle : x + c ≤ b) :
    execHandler .OP_FORLOOP 0 1 0 { vm with pos := vm.pos + 6 }
      = some { vm with
          S := setReg (setReg vm.S 0 (.num (x + c))) 3 (.num (x + c))
          iterLog := vm.iterLog ++ [.num (x + c)] } := by
  unfold execHandler
  simp only [zero_add, h0, h1, h2, luaLe, if_pos hc, decide_eq_true hle]
  norm_num

theorem execHandler_forloop_exit (vm : VM) (x b c : Int) (h0 : vm.S 0 = .num x)
    (h1 : vm.S 1 = .num b) (h2 : vm.S 2 = .num c) (hc : 0 < c) (hgt : b < x + c) :
    execHandler .OP_FORLOOP 0 1 0 { vm with pos := vm.pos + 6 }
      = some { vm with pos := vm.pos + 6, S := setReg vm.S 0 (.num (x + c)) } := by
  unfold execHandler
  have : decide (x + c ≤ b) = false := decide_eq_false (by omega)
  simp only [zero_add, h0, h1, h2, luaLe, if_pos hc, this]

theorem execHandler_forprep (vm : VM) (a c : Int) (h0 : vm.S 0 = .num a)
    (h2 : vm.S 2 = .num c) :
    execHandler .OP_FORPREP 0 0 0 { vm with pos := vm.pos + 6 }
      = some { vm with
          pos := vm.pos + 6
          S := setReg (setReg vm.S 0 (.num (a - c))) 3 (.num (a - c)) } := by
  unfold execHandler
  simp only [zero_add, h0, h2]
  norm_num

/-- The FORLOOP instruction at index `q`, with `B` = 1 (empty body), run on
the decoded data: as long as the next value of the index is within the limit,
each turn logs one entry and the cursor stays on the instruction. -/
theorem forloop_back_turns (chunk : BytecodeChunk) (m : List Nat) (H : List (Nat × Handler))
    (hH : HandlersOK m H) (q : Nat)
    (hq : chunk.Instructions[q]? = some ⟨.OP_FORLOOP, 0, 1, 0⟩) (b c : Int) (hc : 0 < c)
    (j : Nat) :
    ∀ (x : Int) (vm : VM), DecodedAt chunk m q vm → vm.S 0 = .num x → vm.S 1 = .num b →
      vm.S 2 = .num c → (∀ i : Nat, i < j → x + ((i : Int) + 1) * c ≤ b) →
      ∃ vm1, Turns H j vm vm1 ∧ DecodedAt chunk m q vm1
        ∧ vm1.S 0 = .num (x + (j : Int) * c) ∧ vm1.S 1 = .num b ∧ vm1.S 2 = .num c
        ∧ vm1.iterLog = vm.iterLog
            ++ (List.range j).map (fun i : Nat => Value.num (x + ((i : Int) + 1) * c))
        ∧ vm1.G = vm.G := by
  induction j with
  | zero =>
      intro x vm hvm h0 h1 h2 _
      exact ⟨vm, turns_zero H vm, hvm, by simpa using h0, h1, h2, by simp, rfl⟩
  | succ j ih =>
      intro x vm hvm h0 h1 h2 hle
      have hle1 : x + c ≤ b := by simpa using hle 0 (by omega)
      have he := execHandler_forloop_back vm x b c h0 h1 h2 hc hle1
      have r1 := turns_one chunk m H hH q vm _ hvm _ hq
        (fits_mk _ _ _ _ (by omega) (by omega) (by omega)) he
      have hvm2 : DecodedAt chunk m q { vm with
          S := setReg (setReg vm.S 0 (.num (x + c))) 3 (.num (x + c))
          iterLog := vm.iterLog ++ [.num (x + c)] } := ⟨hvm.hD, hvm.hpos, hvm.hK⟩
      obtain ⟨vm2, r2, a2, s0, s1, s2, l2, g2⟩ := ih (x + c) _ hvm2
        (by simp [setReg]) (by simp [setReg, h1]) (by simp [setReg, h2])
        (by
          intro i hi
          have := hle (i + 1) (by omega)
          push_cast at this
          linarith)
      refine ⟨vm2, ?_, a2, ?_, s1, s2, ?_, g2⟩
      · rw [Nat.add_comm]
        exact turns_append r1 r2
      · rw [s0]
        push_cast
        congr 1
        ring
      · have e : (List.range (j + 1)).map (fun i : Nat => Value.num (x + ((i : Int) + 1) * c))
            = Value.num (x + c)
              :: (List.range j).map (fun i : Nat => Value.num (x + c + ((i : Int) + 1) * c)) := by
          rw [List.range_succ_eq_map, List.map_cons, List.map_map]
          congr 1
          · simp
          · apply List.map_congr_left
            intro i _
            simp only [Function.comp_apply]
            congr 1
            push_cast
            ring
        rw [l2, e]
        show (vm.iterLog ++ [Value.num (x + c)]) ++ _ = _
        rw [List.append_assoc]
        rfl

/-- The turn of the FORLOOP instruction that ends the loop: the next value of
the index is beyond the limit, the cursor moves on and nothing is logged. -/
theorem forloop_exit_turn (chunk : BytecodeChunk) (m : List Nat) (H : List (Nat × Handler))
    (hH : HandlersOK m H) (q : Nat)
    (hq : chunk.Instructions[q]? = some ⟨.OP_FORLOOP, 0, 1, 0⟩) (x b c : Int) (hc : 0 < c)
    (vm : VM) (hvm : DecodedAt chunk m q vm) (h0 : vm.S 0 = .num x) (h1 : vm.S 1 = .num b)
    (h2 : vm.S 2 = .num c) (hgt : b < x + c) :
    ∃ vm1, Turns H 1 vm vm1 ∧ DecodedAt chunk m (q + 1) vm1
      ∧ vm1.S 0 = .num (x + c) ∧ vm1.S 1 = .num b ∧ vm1.S 2 = .num c
      ∧ vm1.iterLog = vm.iterLog ∧ vm1.G = vm.G := by
  have he := execHandler_forloop_exit vm x b c h0 h1 h2 hc hgt
  refine ⟨_, turns_one chunk m H hH q vm _ hvm _ hq
    (fits_mk _ _ _ _ (by omega) (by omega) (by omega)) he, ⟨hvm.hD, ?_, hvm.hK⟩, ?_, ?_, ?_,
    rfl, rfl⟩
  · show vm.pos + 6 = _
    rw [hvm.hpos]
    push_cast
    omega
  · simp [setReg]
  · simp [setReg, h1]
  · simp [setReg, h2]

theorem forCount_spec (a b c : Int) (hc : 0 < c) :
    (∀ i : Nat, i < forCount a b c → a + (i : Int) * c ≤ b)
      ∧ b < a + (forCount a b c : Int) * c := by
  unfold forCount
  rw [Int.fdiv_eq_ediv _ (le_of_lt hc)]
  have h1 : (b - a) / c * c ≤ b - a := Int.ediv_mul_le _ (ne_of_gt hc)
  have h2 : b - a < ((b - a) / c + 1) * c := Int.lt_ediv_add_one_mul_self _ hc
  generalize (b - a) / c = q at h1 h2
  by_cases hq : q + 1 ≤ 0
  · rw [max_eq_left hq]
    refine ⟨fun i hi => by simp at hi, ?_⟩
    have : (q + 1) * c ≤ 0 := mul_nonpos_of_nonpos_of_nonneg hq (le_of_lt hc)
    simp only [Int.toNat_zero, Nat.cast_zero, zero_mul, add_zero]
    omega
  · rw [max_eq_right (by omega)]
    have hn : (((q + 1).toNat : Nat) : Int) = q + 1 := Int.toNat_of_nonneg (by omega)
    refine ⟨fun i hi => ?_, ?_⟩
    · have hi1 : (i : Int) ≤ q := by
        have : (i : Int) < ((q + 1).toNat : Int) := by exact_mod_cast hi
        omega
      have : (i : Int) * c ≤ q * c := mul_le_mul_of_nonneg_right hi1 (le_of_lt hc)
      omega
    · rw [hn]
      omega

theorem forExprs_instructions_pre (st : CompilerState) (es el ep : ArithExpr) :
    (cArith (forLocals st) es 0).current.chunk.Instructions
        <+: (forChunk st es el ep).Instructions
      ∧ (cArith (cArith (forLocals st) es 0) el 1).current.chunk.Instructions
        <+: (forChunk st es el ep).Instructions
      ∧ (forExprs st es el ep).current.chunk.Instructions
        <+: (forChunk st es el ep).Instructions := by
  have h3 : (forExprs st es el ep).current.chunk.Instructions
      <+: (forChunk st es el ep).Instructions := List.prefix_append _ _
  have h2 := (cArith_instructions_pre ep (cArith (cArith (forLocals st) es 0) el 1) 2).trans h3
  have h1 := (cArith_instructions_pre el (cArith (forLocals st) es 0) 1).trans h2
  exact ⟨h1, h2, h3⟩

theorem forExprs_constants_pre (st : CompilerState) (es el ep : ArithExpr) :
    (cArith (forLocals st) es 0).current.chunk.Constants
        <+: (forChunk st es el ep).Constants
      ∧ (cArith (cArith (forLocals st) es 0) el 1).current.chunk.Constants
        <+: (forChunk st es el ep).Constants
      ∧ (forExprs st es el ep).current.chunk.Constants
        <+: (forChunk st es el ep).Constants := by
  have h3 : (forExprs st es el ep).current.chunk.Constants
      <+: (forChunk st es el ep).Constants := List.prefix_refl _
  have h2 := (cArith_constants_pre ep (cArith (cArith (forLocals st) es 0) el 1) 2).trans h3
  have h1 := (cArith_constants_pre el (cArith (forLocals st) es 0) 1).trans h2
  exact ⟨h1, h2, h3⟩

theorem forExprs_constants_mem (st : CompilerState) (es el ep : ArithExpr) (s : String)
    (h : s ∈ (forExprs st es el ep).current.chunk.Constants) :
    ∃ n ∈ es.literals ++ el.literals ++ ep.literals, s = natText n := by
  rcases cArith_constants_mem ep _ 2 s h with h | ⟨n, hn, hs⟩
  · rcases cArith_constants_mem el _ 1 s h with h | ⟨n, hn, hs⟩
    · rcases cArith_constants_mem es _ 0 s h with h | ⟨n, hn, hs⟩
      · rw [forLocals_eq] at h
        exact absurd h (List.not_mem_nil s)
      · exact ⟨n, List.mem_append_left _ (List.mem_append_left _ hn), hs⟩
    · exact ⟨n, List.mem_append_left _ (List.mem_append_right _ hn), hs⟩
  · exact ⟨n, List.mem_append_right _ hn, hs⟩

/-! ### After the loop: the RETURN and the zero padding -/

theorem byteAt_beyond (X : List Nat) (p : Int) (h : (X.length : Int) < p) : byteAt X p = 0 := by
  unfold byteAt stringByte
  rw [if_pos (by omega), List.get?_eq_getElem?, List.getElem?_eq_none (by omega)]
  rfl

/-- A handler run with all three fields 0 does not move the cursor back,
leaves the decoded data, and only the FORLOOP handler can add to the log of
loop entries. -/
theorem execHandler_zero (op : OpCode) (vm vm1 : VM) (h : execHandler op 0 0 0 vm = some vm1) :
    vm.pos ≤ vm1.pos ∧ vm1.D = vm.D ∧ (op ≠ .OP_FORLOOP → vm1.iterLog = vm.iterLog) := by
  cases op
  all_goals unfold execHandler at h
  all_goals simp only [Option.map_eq_some'] at h
  all_goals
    first
      | (cases h; done)
      | (cases h; exact ⟨by simp, rfl, fun _ => rfl⟩)
      | (obtain ⟨v, -, rfl⟩ := h; exact ⟨by simp, rfl, fun _ => rfl⟩)
      | (obtain ⟨v, -, rfl⟩ := h; split <;> exact ⟨by simp, rfl, fun _ => rfl⟩)
      | (split at h <;> first
          | (cases h; done)
          | (cases h; exact ⟨by simp, rfl, fun _ => rfl⟩)
          | (split at h <;> first
              | (cases h; done)
              | (cases h; exact ⟨by simp, rfl, fun _ => rfl⟩)
              | (cases h; exact ⟨by simp, rfl, fun hne => absurd rfl hne⟩)
              | (split at h <;> first
                  | (cases h; done)
                  | (cases h; exact ⟨by simp, rfl, fun _ => rfl⟩))))

/-- The FORLOOP handler run with all three fields 0 on registers whose index
is already beyond the limit logs nothing. -/
theorem execHandler_forloop_past (vm vm1 : VM) (y b c : Int) (h0 : vm.S 0 = .num y)
    (h1 : vm.S 1 = .num b) (h2 : vm.S 2 = .num c) (hc : 0 < c) (hgt : b < y)
    (h : execHandler .OP_FORLOOP 0 0 0 vm = some vm1) : vm1.iterLog = vm.iterLog := by
  unfold execHandler at h
  have : decide (y + c ≤ b) = false := decide_eq_false (by omega)
  simp only [zero_add, h0, h1, h2, luaLe, if_pos hc, this, Option.some.injEq] at h
  rw [← h]

theorem byteAt_pad_beyond (X : List Nat) (p : Int) (h : (X.length : Int) < p) :
    byteAt (padTo4 X) p = 0 := by
  rw [byteAt_padTo4 X p (by omega), byteAt_beyond X p h]

/-- After the loop: from the final RETURN on, whatever the dispatch loop
still runs (the RETURN, then one turn on the zero padding when there is
padding), the log of loop entries stays as it is. -/
theorem tail_keeps_log (chunk : BytecodeChunk) (m : List Nat) (H : List (Nat × Handler))
    (hH : HandlersOK m H) (q : Nat) (hq : chunk.Instructions[q]? = some ⟨.OP_RETURN, 0, 1, 0⟩)
    (hlast : q + 1 = chunk.Instructions.length) (y b c : Int) (hc : 0 < c) (hgt : b < y)
    (vm : VM) (hvm : DecodedAt chunk m q vm) (h0 : vm.S 0 = .num y) (h1 : vm.S 1 = .num b)
    (h2 : vm.S 2 = .num c) :
    ∀ n vmN, vmRun H n vm = some vmN → vmN.iterLog = vm.iterLog := by
  intro n vmN h
  cases n with
  | zero =>
      simp only [vmRun, Option.some.injEq] at h
      rw [← h]
  | succ n =>
      have r1 := turns_one chunk m H hH q vm { vm with pos := vm.pos + 6 } hvm _ hq
        (fits_mk _ _ _ _ (by omega) (by omega) (by omega)) rfl
      rw [Nat.add_comm, r1 n] at h
      cases n with
      | zero =>
          simp only [vmRun, Option.some.injEq] at h
          rw [← h]
      | succ n =>
          have hlen : ((serializeBuffer chunk m).length : Int) + 1 = vm.pos + 6 := by
            rw [hvm.hpos, serializeBuffer_length, ← length_flatMap_serializeConstant, ← hlast]
            unfold codeBase
            push_cast
            omega
          have hpad := length_padTo4_lt (serializeBuffer chunk m)
          have b0 := byteAt_pad_beyond (serializeBuffer chunk m) (vm.pos + 6) (by omega)
          have b1 := byteAt_pad_beyond (serializeBuffer chunk m) (vm.pos + 6 + 1) (by omega)
          have b2 := byteAt_pad_beyond (serializeBuffer chunk m) (vm.pos + 6 + 2) (by omega)
          have b3 := byteAt_pad_beyond (serializeBuffer chunk m) (vm.pos + 6 + 3) (by omega)
          have b4 := byteAt_pad_beyond (serializeBuffer chunk m) (vm.pos + 6 + 4) (by omega)
          have b5 := byteAt_pad_beyond (serializeBuffer chunk m) (vm.pos + 6 + 5) (by omega)
          rw [vmRun] at h
          split at h
          · unfold vmStep at h
            simp only [hvm.hD, b0, b1, b2, b3, b4, b5] at h
            norm_num at h
            have hhalt : ∀ v : VM, v.D = padTo4 (serializeBuffer chunk m) →
                vm.pos + 6 + 6 ≤ v.pos → v.halted = true := by
              intro v hD hp
              unfold VM.halted
              rw [hD]
              simp only [decide_eq_true_eq]
              omega
            split at h
            · rename_i vm3 ho
              have hlog : vm3.iterLog = vm.iterLog ∧ vm3.halted = true := by
                split at ho
                · rename_i o _
                  obtain ⟨z1, z2, z3⟩ := execHandler_zero o _ vm3 ho
                  refine ⟨?_, hhalt vm3 z2 z1⟩
                  by_cases hf : o = .OP_FORLOOP
                  · subst hf
                    have hp := execHandler_forloop_past _ vm3 y b c (by exact h0) (by exact h1)
                      (by exact h2) hc hgt ho
                    exact hp
                  · exact z3 hf
                · cases ho
                  exact ⟨rfl, hhalt _ rfl (le_refl _)⟩
                · cases ho
                  exact ⟨rfl, hhalt _ rfl (le_refl _)⟩
              rw [vmRun_halted H vm3 hlog.2 n, Option.some.injEq] at h
              rw [← h]
              exact hlog.1
            · cases h
          · simp only [Option.some.injEq] at h
            rw [← h]

theorem map_range_shift (a c : Int) (j : Nat) :
    (List.range j).map (fun i : Nat => Value.num (a - c + ((i : Int) + 1) * c))
      = (List.range j).map (fun i : Nat => Value.num (a + (i : Int) * c)) := by
  apply List.map_congr_left
  intro i _
  congr 1
  ring

/-- The chunk compiled for `for i = start, limit, step do end`, run by the
generated script on the decoded data, turn by turn: after the code of the
three expressions and the FORPREP, each further turn up to `forCount` is a
FORLOOP that branches back to the (empty) body and stores the next value
start, start + step, ... into the loop variable; the turn after these ends
the loop, and no later turn adds an entry. -/
theorem for_chunk_turns (st : CompilerState) (es el ep : ArithExpr) (a b c : Int)
    (m fakeDraws : List Nat) (G : Value → Value) (hm : m.Perm (List.range 256))
    (ha : es.value = some a) (hb : el.value = some b) (hcv : ep.value = some c) (hc : 0 < c)
    (hregs : es.regs ≤ 252 ∧ el.regs ≤ 252 ∧ ep.regs ≤ 252)
    (hlits : (es.literals ++ el.literals ++ ep.literals).dedup.length ≤ 32) :
    (forChunk st es el ep).overrun = false
      ∧ (∀ j, j ≤ forCount a b c → ∃ vmj,
          vmRun (handlerAssignments m fakeDraws) (es.size + el.size + ep.size + 1 + j)
              (vmInit (padTo4 (serializeBuffer (forChunk st es el ep) m)) G) = some vmj
          ∧ vmj.iterLog = (List.range j).map (fun i : Nat => Value.num (a + (i : Int) * c)))
      ∧ (∃ vmE,
          vmRun (handlerAssignments m fakeDraws)
              (es.size + el.size + ep.size + 1 + forCount a b c + 1)
              (vmInit (padTo4 (serializeBuffer (forChunk st es el ep) m)) G) = some vmE)
      ∧ (∀ N vmN, es.size + el.size + ep.size + 1 + forCount a b c + 1 ≤ N →
          vmRun (handlerAssignments m fakeDraws) N
              (vmInit (padTo4 (serializeBuffer (forChunk st es el ep) m)) G) = some vmN →
          vmN.iterLog
            = (List.range (forCount a b c)).map (fun i : Nat => Value.num (a + (i : Int) * c)))
      := by
  have hH := handlerAssignments_ok m hm fakeDraws
  have hnd : (forExprs st es el ep).current.chunk.Constants.Nodup := by
    apply cArith_constants_nodup
    apply cArith_constants_nodup
    apply cArith_constants_nodup
    rw [forLocals_eq]
    exact List.nodup_nil
  have hpool : (forChunk st es el ep).Constants.length ≤ 32 :=
    (pool_length_le _ _ hnd (forExprs_constants_mem st es el ep)).trans hlits
  have hlen : ∀ s ∈ (forChunk st es el ep).Constants, s.length < 65536 := by
    intro s hs
    obtain ⟨n, hn, rfl⟩ := forExprs_constants_mem st es el ep s hs
    have hlt : n < 2 ^ 53 := by
      rw [List.mem_append, List.mem_append] at hn
      rcases hn with (hn | hn) | hn
      · exact value_literals_lt es a ha n hn
      · exact value_literals_lt el b hb n hn
      · exact value_literals_lt ep c hcv n hn
    have := natText_length n hlt
    omega
  have hover : (forChunk st es el ep).overrun = false := by
    show (forExprs st es el ep).current.chunk.overrun = false
    have p3 := (forExprs_constants_pre st es el ep)
    have l2 := p3.2.1.length_le
    have l1 := p3.1.length_le
    apply cArith_overrun _ _ _ hpool
    apply cArith_overrun _ _ _ (by omega)
    apply cArith_overrun _ _ _ (by omega)
    rw [forLocals_eq]
    rfl
  obtain ⟨v0, _, _, hlog0⟩ := vmInit_decoded (forChunk st es el ep) m G (by omega) hlen
  obtain ⟨pI1, pI2, pI3⟩ := forExprs_instructions_pre st es el ep
  obtain ⟨pC1, pC2, pC3⟩ := forExprs_constants_pre st es el ep
  have hT0 : (forLocals st).current.stackTop = 4 := by rw [forLocals_eq]
  have hI0 : (forLocals st).current.chunk.Instructions.length = 0 := by rw [forLocals_eq]; rfl
  obtain ⟨vm1, r1, a1, s1, u1, g1, l1⟩ := cArith_turns (forChunk st es el ep) m _ hH (by omega)
    es (forLocals st) 0 a _ ha (le_refl _) (by omega) (by rw [hT0]; omega)
    (by rw [hT0]; omega) pI1 pC1 (by rw [hI0]; exact v0)
  have hT1 : (cArith (forLocals st) es 0).current.stackTop = 4 := by rw [cArith_stackTop, hT0]
  obtain ⟨vm2, r2, a2, s2, u2, g2, l2⟩ := cArith_turns (forChunk st es el ep) m _ hH (by omega)
    el (cArith (forLocals st) es 0) 1 b vm1 hb (by omega) (by omega) (by rw [hT1]; omega)
    (by rw [hT1]; omega) pI2 pC2 a1
  have hT2 : (cArith (cArith (forLocals st) es 0) el 1).current.stackTop = 4 := by
    rw [cArith_stackTop, hT1]
  obtain ⟨vm3, r3, a3, s3, u3, g3, l3⟩ := cArith_turns (forChunk st es el ep) m _ hH (by omega)
    ep (cArith (cArith (forLocals st) es 0) el 1) 2 c vm2 hcv (by omega) (by omega)
    (by rw [hT2]; omega) (by rw [hT2]; omega) pI3 pC3 a2
  have hS0 : vm3.S 0 = .num a := by
    rw [u3 0 (by omega) (Or.inl (by rw [hT2]; omega)),
      u2 0 (by omega) (Or.inl (by rw [hT1]; omega)), s1]
  have hS1 : vm3.S 1 = .num b := by
    rw [u3 1 (by omega) (Or.inl (by rw [hT2]; omega)), s2]
  have hp : (forChunk st es el ep).Instructions[(forExprs st es el ep).current.chunk.Instructions.length]?
      = some ⟨.OP_FORPREP, 0, 0, 0⟩ := by
    show ((forExprs st es el ep).current.chunk.Instructions ++ _)[_]? = _
    rw [List.getElem?_append_right (le_refl _)]
    simp
  have hq : (forChunk st es el ep).Instructions[
      (forExprs st es el ep).current.chunk.Instructions.length + 1]?
      = some ⟨.OP_FORLOOP, 0, 1, 0⟩ := by
    show ((forExprs st es el ep).current.chunk.Instructions ++ _)[_]? = _
    rw [List.getElem?_append_right (by omega)]
    simp
  have hr : (forChunk st es el ep).Instructions[
      (forExprs st es el ep).current.chunk.Instructions.length + 1 + 1]?
      = some ⟨.OP_RETURN, 0, 1, 0⟩ := by
    show ((forExprs st es el ep).current.chunk.Instructions ++ _)[_]? = _
    rw [List.getElem?_append_right (by omega)]
    have : (forExprs st es el ep).current.chunk.Instructions.length + 1 + 1
        - (forExprs st es el ep).current.chunk.Instructions.length = 2 := by omega
    rw [this]
    rfl
  obtain ⟨vm4, r4, a4, s4, g4, l4⟩ := turn_registers _ m _ hH _ vm3 a3 _ hp
    (fits_mk _ _ _ _ (by omega) (by omega) (by omega)) _ (execHandler_forprep vm3 a c hS0 s3)
  have T4 := turns_append (turns_append (turns_append r1 r2) r3) r4
  have hl4 : vm4.iterLog = [] := by rw [l4, l3, l2, l1, hlog0]
  obtain ⟨hle, hgt⟩ := forCount_spec a b c hc
  have hj : ∀ j, j ≤ forCount a b c → ∃ vm5,
      Turns (handlerAssignments m fakeDraws) (es.size + el.size + ep.size + 1 + j)
        (vmInit (padTo4 (serializeBuffer (forChunk st es el ep) m)) G) vm5
      ∧ DecodedAt (forChunk st es el ep) m
          ((forExprs st es el ep).current.chunk.Instructions.length + 1) vm5
      ∧ vm5.S 0 = .num (a - c + (j : Int) * c) ∧ vm5.S 1 = .num b ∧ vm5.S 2 = .num c
      ∧ vm5.iterLog = (List.range j).map (fun i : Nat => Value.num (a + (i : Int) * c)) := by
    intro j hjc
    obtain ⟨vm5, r5, a5, t0, t1, t2, l5, _⟩ := forloop_back_turns _ m _ hH _ hq b c hc j
      (a - c) vm4 a4 (by rw [s4]; simp [setReg]) (by rw [s4]; simp [setReg, hS1])
      (by rw [s4]; simp [setReg, s3])
      (by
        intro i hi
        have := hle i (by omega)
        linarith)
    refine ⟨vm5, turns_append T4 r5, a5, t0, t1, t2, ?_⟩
    rw [l5, hl4, List.nil_append, map_range_shift]
  have hlast : (forExprs st es el ep).current.chunk.Instructions.length + 1 + 1 + 1
      = (forChunk st es el ep).Instructions.length := by
    show _ = ((forExprs st es el ep).current.chunk.Instructions ++ _).length
    rw [List.length_append]
    rfl
  obtain ⟨vm5, T5, a5, t0, t1, t2, l5⟩ := hj (forCount a b c) (le_refl _)
  obtain ⟨vm6, r6, a6, w0, w1, w2, l6, _⟩ := forloop_exit_turn _ m _ hH _ hq
    (a - c + (forCount a b c : Int) * c) b c hc vm5 a5 t0 t1 t2 (by linarith)
  have T6 := turns_append T5 r6
  have htail := tail_keeps_log _ m _ hH _ hr hlast
    (a - c + (forCount a b c : Int) * c + c) b c hc (by linarith) vm6 a6 w0 w1 w2
  refine ⟨hover, ?_, ⟨vm6, turns_run T6⟩, ?_⟩
  · intro j hjc
    obtain ⟨vmj, Tj, _, _, _, _, lj⟩ := hj j hjc
    exact ⟨vmj, turns_run Tj, lj⟩
  · intro N vmN hN hrun
    obtain ⟨n, rfl⟩ := Nat.exists_eq_add_of_le hN
    rw [T6 n] at hrun
    rw [htail n vmN hrun, l6, l5]
theorem intLit_value (z : Int) (h : -(2 ^ 53) < z ∧ z < 2 ^ 53) : (intLit z).value = some z := by
  unfold intLit
  split
  · rename_i h0
    have e : ((z.toNat : Nat) : Int) = z := Int.toNat_of_nonneg h0
    have hlt : z.toNat < 2 ^ 53 := by
      have : ((z.toNat : Nat) : Int) < 2 ^ 53 := by rw [e]; exact h.2
      exact_mod_cast this
    simp only [ArithExpr.value, if_pos hlt, e]
  · rename_i h0
    have e : (((-z).toNat : Nat) : Int) = -z := Int.toNat_of_nonneg (by omega)
    have hlt : (-z).toNat < 2 ^ 53 := by
      have : (((-z).toNat : Nat) : Int) < 2 ^ 53 := by rw [e]; omega
      exact_mod_cast this
    simp only [ArithExpr.value, if_pos hlt, e, neg_neg]

theorem intLit_regs (z : Int) : (intLit z).regs = 0 := by
  unfold intLit
  split <;> rfl

theorem intLit_literals (z : Int) : (intLit z).literals.length = 1 := by
  unfold intLit
  split <;> rfl

theorem intLit_fuel (z : Int) : (intLit z).fuel ≤ 3 := by
  unfold intLit
  split <;> simp [ArithExpr.fuel]

theorem dispatcherTurns_range (v r N : Nat) (h : dispatcherTurns v r = some N) :
    10000 ≤ N ∧ N ≤ 100000 := by
  unfold dispatcherTurns at h
  split at h
  · cases h
  · simp only [Option.some.injEq] at h
    subst h
    unfold RandomInt
    omega
  · simp only [Option.some.injEq] at h
    subst h
    unfold RandomInt
    omega

/-- The program `for i = a, b, c do end` with integer constants, compiled and
run on the decoded data, turn by turn. -/
theorem for_constants_run (st : CompilerState) (a b c : Int) (m fakeDraws : List Nat)
    (G : Value → Value) (hst : st.hadError = false) (hm : m.Perm (List.range 256))
    (ha : -(2 ^ 53) < a - c ∧ a < 2 ^ 53) (hb : -(2 ^ 53) < b ∧ b + c < 2 ^ 53)
    (hc : 0 < c ∧ c < 2 ^ 53) :
    ∃ chunk code,
      (∀ fuel, 7 ≤ fuel → ∃ st1,
        compileParsed fuel st (forProgram (intLit a) (intLit b) (intLit c))
          = some (some chunk, st1))
      ∧ chunk.overrun = false
      ∧ chunk.Instructions
          = code ++ [⟨.OP_FORPREP, 0, 0, 0⟩, ⟨.OP_FORLOOP, 0, 1, 0⟩, ⟨.OP_RETURN, 0, 1, 0⟩]
      ∧ (∀ j, j ≤ forCount a b c → ∃ vmj,
          vmRun (handlerAssignments m fakeDraws) (code.length + 1 + j)
              (vmInit (padTo4 (serializeBuffer chunk m)) G) = some vmj
          ∧ vmj.iterLog = (List.range j).map (fun i : Nat => Value.num (a + (i : Int) * c)))
      ∧ (∃ vmE,
          vmRun (handlerAssignments m fakeDraws) (code.length + 1 + forCount a b c + 1)
              (vmInit (padTo4 (serializeBuffer chunk m)) G) = some vmE)
      ∧ (∀ N vmN, code.length + 1 + forCount a b c + 1 ≤ N →
          vmRun (handlerAssignments m fakeDraws) N
              (vmInit (padTo4 (serializeBuffer chunk m)) G) = some vmN →
          vmN.iterLog
            = (List.range (forCount a b c)).map (fun i : Nat => Value.num (a + (i : Int) * c)))
      := by
  have va := intLit_value a ⟨by omega, ha.2⟩
  have vb := intLit_value b ⟨hb.1, by omega⟩
  have vc := intLit_value c ⟨by omega, hc.2⟩
  have hlits : ((intLit a).literals ++ (intLit b).literals ++ (intLit c).literals).dedup.length
      ≤ 32 := by
    have h1 := (List.dedup_sublist
      ((intLit a).literals ++ (intLit b).literals ++ (intLit c).literals)).length_le
    rw [List.length_append, List.length_append, intLit_literals, intLit_literals,
      intLit_literals] at h1
    omega
  obtain ⟨hover, h1, h2, h3⟩ := for_chunk_turns st (intLit a) (intLit b) (intLit c) a b c m
    fakeDraws G hm va vb vc hc.1
    ⟨by rw [intLit_regs]; omega, by rw [intLit_regs]; omega, by rw [intLit_regs]; omega⟩ hlits
  have hlen : (forExprs st (intLit a) (intLit b) (intLit c)).current.chunk.Instructions.length
      = (intLit a).size + (intLit b).size + (intLit c).size := by
    unfold forExprs
    rw [cArith_length, cArith_length, cArith_length, forLocals_eq]
    show 0 + _ + _ + _ = _
    omega
  refine ⟨forChunk st (intLit a) (intLit b) (intLit c),
    (forExprs st (intLit a) (intLit b) (intLit c)).current.chunk.Instructions,
    fun fuel hf => compile_for st hst _ _ _ fuel (by
      have := intLit_fuel a
      have := intLit_fuel b
      have := intLit_fuel c
      omega), hover, rfl, ?_, ?_, ?_⟩
  · rw [hlen]; exact h1
  · rw [hlen]; exact h2
  · rw [hlen]; exact h3

/-- C9 (as amended): the program `for i = a, b, c do end` with integer
constants a, b and c > 0, where c, a, b and the values a - c and b + c that
the handlers compute are below 2^53 in magnitude, is compiled (given enough
fuel) to the code of the three constants followed by FORPREP 0 0 0, FORLOOP
0 1 0 and RETURN 0 1 0. Let n be the length of that code and k =
max(0, floor((b - a) / c) + 1). Run by the generated script on the decoded
data under any opcode map that is a permutation of 0 .. 255: for every
j ≤ k, after n + 1 + j turns of the dispatch loop the FORLOOP handler has
branched back to the body j times, storing a, a + c, ... in that order into
the loop variable; the turn after n + 1 + k turns ends the loop without an
error, and whatever the loop runs afterwards (the RETURN, a turn on the zero
padding), every state it reaches has exactly these k entries. So a
dispatcher that allows at least n + 2 + k turns enters the body exactly k
times, and one that stops after n + 1 + j turns with j < k has entered it
only j times. The dispatcher variants with a bound allow between 10000 and
100000 turns. For `for i=1,5 do end` the values are 1, 2, 3, 4, 5, reached
after 9 turns; after 8 turns they are 1, 2, 3, 4. -/
theorem for_loop_iterations :
    (∀ (st : CompilerState) (a b c : Int) (m fakeDraws : List Nat) (G : Value → Value),
      st.hadError = false → m.Perm (List.range 256) →
      -(2 ^ 53) < a - c ∧ a < 2 ^ 53 → -(2 ^ 53) < b ∧ b + c < 2 ^ 53 → 0 < c ∧ c < 2 ^ 53 →
      ∃ chunk code,
        (∀ fuel, 7 ≤ fuel → ∃ st1,
          compileParsed fuel st (forProgram (intLit a) (intLit b) (intLit c))
            = some (some chunk, st1))
        ∧ chunk.overrun = false
        ∧ chunk.Instructions
            = code ++ [⟨.OP_FORPREP, 0, 0, 0⟩, ⟨.OP_FORLOOP, 0, 1, 0⟩, ⟨.OP_RETURN, 0, 1, 0⟩]
        ∧ (∀ j, j ≤ forCount a b c → ∃ vmj,
            vmRun (handlerAssignments m fakeDraws) (code.length + 1 + j)
                (vmInit (padTo4 (serializeBuffer chunk m)) G) = some vmj
            ∧ vmj.iterLog = (List.range j).map (fun i : Nat => Value.num (a + (i : Int) * c)))
        ∧ (∃ vmE,
            vmRun (handlerAssignments m fakeDraws) (code.length + 1 + forCount a b c + 1)
                (vmInit (padTo4 (serializeBuffer chunk m)) G) = some vmE)
        ∧ (∀ N vmN, code.length + 1 + forCount a b c + 1 ≤ N →
            vmRun (handlerAssignments m fakeDraws) N
                (vmInit (padTo4 (serializeBuffer chunk m)) G) = some vmN →
            vmN.iterLog
              = (List.range (forCount a b c)).map
                  (fun i : Nat => Value.num (a + (i : Int) * c))))
    ∧ (∀ v r N : Nat, dispatcherTurns v r = some N → 10000 ≤ N ∧ N ≤ 100000)
    ∧ (Parse 100 (CreateParser "for i=1,5 do end")).map (fun p => (p.1, p.2.hadError))
        = some (forProgram (intLit 1) (intLit 5) (intLit 1), false)
    ∧ (compileSource 100 "for i=1,5 do end").map (fun ch => (ch.Instructions, ch.Constants))
        = some ([⟨.OP_LOADK, 0, 0, 0⟩, ⟨.OP_LOADK, 1, 1, 0⟩, ⟨.OP_LOADK, 2, 0, 0⟩,
            ⟨.OP_FORPREP, 0, 0, 0⟩, ⟨.OP_FORLOOP, 0, 1, 0⟩, ⟨.OP_RETURN, 0, 1, 0⟩], ["1", "5"])
    ∧ forCount 1 5 1 = 5
    ∧ (List.range (forCount 1 5 1)).map (fun i : Nat => Value.num (1 + (i : Int) * 1))
        = [.num 1, .num 2, .num 3, .num 4, .num 5]
    ∧ (compileSource 100 "for i=1,5 do end").bind (fun ch =>
          (vmRun (handlerAssignments (List.range 256) []) 9
            (vmInit (padTo4 (serializeBuffer ch (List.range 256))) (fun _ => Value.nil))).map
            (fun vm => vm.iterLog))
        = some [.num 1, .num 2, .num 3, .num 4, .num 5]
    ∧ (compileSource 100 "for i=1,5 do end").bind (fun ch =>
          (vmRun (handlerAssignments (List.range 256) []) 8
            (vmInit (padTo4 (serializeBuffer ch (List.range 256))) (fun _ => Value.nil))).map
            (fun vm => vm.iterLog))
        = some [.num 1, .num 2, .num 3, .num 4] := by
  refine ⟨for_constants_run, dispatcherTurns_range, rfl, ?_, ?_, ?_, ?_, ?_⟩
  · decide!
  · decide
  · decide
  · decide!
  · decide!

/-- The general statement at `for i=1,5 do end` under the opcode map that
`CreateBuildContext` builds from the random numbers 261, 260, ... -/
theorem for_loop_iterations_witness :
    ∃ chunk code,
      (∀ fuel, 7 ≤ fuel → ∃ st1,
        compileParsed fuel (CreateCompilerState "for i=1,5 do end")
          (forProgram (intLit 1) (intLit 5) (intLit 1)) = some (some chunk, st1))
      ∧ chunk.overrun = false
      ∧ chunk.Instructions
          = code ++ [⟨.OP_FORPREP, 0, 0, 0⟩, ⟨.OP_FORLOOP, 0, 1, 0⟩, ⟨.OP_RETURN, 0, 1, 0⟩]
      ∧ (∀ j, j ≤ forCount 1 5 1 → ∃ vmj,
          vmRun (handlerAssignments (CreateBuildContext (fun k => 261 - k)).opcodeMap [])
              (code.length + 1 + j)
              (vmInit (padTo4 (serializeBuffer chunk
                (CreateBuildContext (fun k => 261 - k)).opcodeMap)) (fun _ => Value.nil))
            = some vmj
          ∧ vmj.iterLog = (List.range j).map (fun i : Nat => Value.num (1 + (i : Int) * 1)))
      ∧ (∃ vmE,
          vmRun (handlerAssignments (CreateBuildContext (fun k => 261 - k)).opcodeMap [])
              (code.length + 1 + forCount 1 5 1 + 1)
              (vmInit (padTo4 (serializeBuffer chunk
                (CreateBuildContext (fun k => 261 - k)).opcodeMap)) (fun _ => Value.nil))
            = some vmE)
      ∧ (∀ N vmN, code.length + 1 + forCount 1 5 1 + 1 ≤ N →
          vmRun (handlerAssignments (CreateBuildContext (fun k => 261 - k)).opcodeMap []) N
              (vmInit (padTo4 (serializeBuffer chunk
                (CreateBuildContext (fun k => 261 - k)).opcodeMap)) (fun _ => Value.nil))
            = some vmN →
          vmN.iterLog
            = (List.range (forCount 1 5 1)).map (fun i : Nat => Value.num (1 + (i : Int) * 1))) :=
  for_loop_iterations.1 (CreateCompilerState "for i=1,5 do end") 1 5 1
    (CreateBuildContext (fun k => 261 - k)).opcodeMap [] (fun _ => Value.nil) rfl
    (opcodeMap_perm _) (by decide) (by decide) (by decide)

/-- C9, counterexample: `for i=1,100000 do end` under the dispatcher variant
`for _i=1,N do ... end` with the bound N = 50000 that `RandomInt(50000,
100000)` gives for the random number 0. The formula gives 100000 entries of
the body; the loop of the script is left after 50000 turns, of which the
first four are the three LOADK and the FORPREP, so the body has been entered
49996 times. -/
theorem for_loop_cut_short :
    dispatcherTurns 1 0 = some 50000
    ∧ forCount 1 100000 1 = 100000
    ∧ ∃ chunk, compileSource 100 "for i=1,100000 do end" = some chunk
        ∧ ∃ vmN,
            vmRun (handlerAssignments (List.range 256) []) 50000
                (vmInit (padTo4 (serializeBuffer chunk (List.range 256))) (fun _ => Value.nil))
              = some vmN
            ∧ vmN.iterLog.length = 49996 := by
  refine ⟨by decide, by decide,
    forChunk (CreateCompilerState "") (.lit 1) (.lit 100000) (.lit 1), by decide!, ?_⟩
  obtain ⟨_, h1, _, _⟩ := for_chunk_turns (CreateCompilerState "") (.lit 1) (.lit 100000)
    (.lit 1) 1 100000 1 (List.range 256) [] (fun _ => Value.nil) (List.Perm.refl _)
    (by decide) (by decide) (by decide) (by decide) (by decide) (by decide)
  obtain ⟨vmN, hrun, hlog⟩ := h1 49996 (by decide)
  refine ⟨vmN, hrun, ?_⟩
  rw [hlog, List.length_map, List.length_range]

/-! ## C3: the comparison `a > b` -/

theorem compile_gt (l r : ArithExpr) (st : CompilerState) (reg : Int) (fuel : Nat)
    (h : max l.fuel r.fuel + 2 ≤ fuel) :
    compileExpressionToReg fuel st (gtAST l r) reg = some (cGt st l r reg) := by
  obtain ⟨f, rfl⟩ : ∃ f, fuel = f + 2 := ⟨fuel - 2, by omega⟩
  have hl : l.fuel ≤ f := by omega
  have hr : r.fuel ≤ f := by omega
  show compileBinop (f + 1) st ">" l.toAST r.toAST reg = _
  unfold compileBinop
  rw [if_neg (by decide)]
  simp only [compile_arith l _ _ f hl, compile_arith r _ _ f hr]
  rfl

theorem execHandler_lt_stay (vm : VM) (B C : Int) (x y : Int) (hB : vm.S B = .num x)
    (hC : vm.S C = .num y) (h : ¬ x < y) :
    execHandler .OP_LT 0 B C { vm with pos := vm.pos + 6 }
      = some { vm with pos := vm.pos + 6, S := vm.S } := by
  unfold execHandler
  simp only [hB, hC, luaLt, decide_eq_false h]
  rfl

theorem execHandler_jmp_one (vm : VM) :
    execHandler .OP_JMP 0 1 0 { vm with pos := vm.pos + 6 }
      = some { vm with pos := vm.pos + 6 + 6 } := by
  unfold execHandler
  simp

theorem execHandler_loadbool_true (vm : VM) (reg : Int) :
    execHandler .OP_LOADBOOL reg 1 0 { vm with pos := vm.pos + 6 }
      = some { vm with pos := vm.pos + 6, S := setReg vm.S reg (.bool true) } := by
  unfold execHandler
  simp

/-- When `b < a` is false, the code compiled for `a > b` leaves `true` in the
destination register: LT does not skip, JMP jumps over the LOADBOOL that
would store `false`, and the last LOADBOOL stores `true`. -/
theorem gt_run_true (l r : ArithExpr) (a b reg : Int) (m fakeDraws : List Nat)
    (G : Value → Value) (hm : m.Perm (List.range 256)) (ha : l.value = some a)
    (hb : r.value = some b) (hab : a ≤ b) (hreg : 0 ≤ reg ∧ reg < 256)
    (hregs : l.regs ≤ 254 ∧ r.regs ≤ 254)
    (hlits : (l.literals ++ r.literals).dedup.length ≤ 32) :
    ∃ k vm1,
      (∀ n, k ≤ n →
        vmRun (handlerAssignments m fakeDraws) n
          (vmInit (serializeBuffer (cGt startState l r reg).current.chunk m) G) = some vm1)
      ∧ vm1.halted = true ∧ vm1.S reg = Value.bool true := by
  have hH := handlerAssignments_ok m hm fakeDraws
  have hI : (cGt startState l r reg).current.chunk.Instructions
      = (cArith (cArith (allocReg (allocReg startState)) l 0) r 1).current.chunk.Instructions
        ++ [⟨.OP_LT, 0, 1, 0⟩, ⟨.OP_JMP, 0, 1, 0⟩, ⟨.OP_LOADBOOL, reg, 0, 1⟩,
          ⟨.OP_LOADBOOL, reg, 1, 0⟩] := by
    show ((((cArith (cArith (allocReg (allocReg startState)) l 0) r 1).current.chunk.Instructions
      ++ _) ++ _) ++ _) ++ _ = _
    simp only [List.append_assoc, List.cons_append, List.nil_append]
    rfl
  have hC : (cGt startState l r reg).current.chunk.Constants
      = (cArith (cArith (allocReg (allocReg startState)) l 0) r 1).current.chunk.Constants := rfl
  have hmem : ∀ s ∈ (cGt startState l r reg).current.chunk.Constants,
      ∃ n ∈ l.literals ++ r.literals, s = natText n := by
    intro s hs
    rw [hC] at hs
    rcases cArith_constants_mem r _ 1 s hs with h | ⟨n, hn, hs⟩
    · rcases cArith_constants_mem l _ 0 s h with h | ⟨n, hn, hs⟩
      · exact absurd h (List.not_mem_nil s)
      · exact ⟨n, List.mem_append_left _ hn, hs⟩
    · exact ⟨n, List.mem_append_right _ hn, hs⟩
  have hnd : (cGt startState l r reg).current.chunk.Constants.Nodup := by
    rw [hC]
    exact cArith_constants_nodup r _ _ (cArith_constants_nodup l _ _ List.nodup_nil)
  have hpool := (pool_length_le _ _ hnd hmem).trans hlits
  have hlen : ∀ s ∈ (cGt startState l r reg).current.chunk.Constants, s.length < 65536 := by
    intro s hs
    obtain ⟨n, hn, rfl⟩ := hmem s hs
    have hlt : n < 2 ^ 53 := by
      rw [List.mem_append] at hn
      rcases hn with hn | hn
      · exact value_literals_lt l a ha n hn
      · exact value_literals_lt r b hb n hn
    have := natText_length n hlt
    omega
  obtain ⟨v0, _, _, _⟩ := vmInit_at (cGt startState l r reg).current.chunk m G (by omega) hlen
  have p2 : (cArith (cArith (allocReg (allocReg startState)) l 0) r 1).current.chunk.Instructions
      <+: (cGt startState l r reg).current.chunk.Instructions := by
    rw [hI]; exact List.prefix_append _ _
  have p1 := (cArith_instructions_pre r (cArith (allocReg (allocReg startState)) l 0) 1).trans p2
  have c2 : (cArith (cArith (allocReg (allocReg startState)) l 0) r 1).current.chunk.Constants
      <+: (cGt startState l r reg).current.chunk.Constants := by
    rw [hC]
  have c1 := (cArith_constants_pre r (cArith (allocReg (allocReg startState)) l 0) 1).trans c2
  have hT0 : (allocReg (allocReg startState)).current.stackTop = 2 := rfl
  obtain ⟨vm1, r1, a1, s1, u1, g1, l1⟩ := cArith_run _ m _ hH (by omega) l
    (allocReg (allocReg startState)) 0 a _ ha (le_refl _) (by omega) (by rw [hT0]; omega)
    (by rw [hT0]; omega) p1 c1 v0
  have hT1 : (cArith (allocReg (allocReg startState)) l 0).current.stackTop = 2 := by
    rw [cArith_stackTop, hT0]
  obtain ⟨vm2, r2, a2, s2, u2, g2, l2⟩ := cArith_run _ m _ hH (by omega) r
    (cArith (allocReg (allocReg startState)) l 0) 1 b vm1 hb (by omega) (by omega)
    (by rw [hT1]; omega) (by rw [hT1]; omega) p2 c2 a1
  have hS0 : vm2.S 0 = .num a := by
    rw [u2 0 (by omega) (Or.inl (by rw [hT1]; omega)), s1]
  generalize hN : (cArith (cArith (allocReg (allocReg startState)) l 0) r
    1).current.chunk.Instructions = code at hI a2
  have i0 : (cGt startState l r reg).current.chunk.Instructions[code.length]?
      = some ⟨.OP_LT, 0, 1, 0⟩ := by
    rw [hI, List.getElem?_append_right (le_refl _)]
    simp
  have i1 : (cGt startState l r reg).current.chunk.Instructions[code.length + 1]?
      = some ⟨.OP_JMP, 0, 1, 0⟩ := by
    rw [hI, List.getElem?_append_right (by omega)]
    simp
  have i3 : (cGt startState l r reg).current.chunk.Instructions[code.length + 3]?
      = some ⟨.OP_LOADBOOL, reg, 1, 0⟩ := by
    rw [hI, List.getElem?_append_right (by omega)]
    simp
  have hlen4 : (cGt startState l r reg).current.chunk.Instructions.length = code.length + 4 := by
    rw [hI, List.length_append]
    rfl
  obtain ⟨vm3, r3, a3, s3, g3, l3⟩ := step_registers _ m _ hH _ vm2 a2 _ i0
    (fits_mk _ _ _ _ (by omega) (by omega) (by omega)) vm2.S
    (execHandler_lt_stay vm2 1 0 b a s2 hS0 (by omega))
  have r4 : Reaches (handlerAssignments m fakeDraws) vm3 { vm3 with pos := vm3.pos + 6 + 6 } :=
    Reaches.oneStep _ m _ hH _ vm3 _ a3 _ i1
      (fits_mk _ _ _ _ (by omega) (by omega) (by omega)) (execHandler_jmp_one vm3)
  have a4 : VMAt (cGt startState l r reg).current.chunk m (code.length + 3)
      { vm3 with pos := vm3.pos + 6 + 6 } := ⟨a3.hD, by
        show vm3.pos + 6 + 6 = _
        rw [a3.hpos]
        push_cast
        omega, a3.hK⟩
  obtain ⟨vm5, r5, a5, s5, g5, l5⟩ := step_registers _ m _ hH _ _ a4 _ i3
    (fits_mk _ _ _ _ hreg (by omega) (by omega)) (setReg vm3.S reg (.bool true))
    (execHandler_loadbool_true { vm3 with pos := vm3.pos + 6 + 6 } reg)
  rw [show code.length + 3 + 1 = code.length + 4 from rfl, ← hlen4] at a5
  have hh := VMAt_halted _ m vm5 a5
  obtain ⟨k, hk⟩ := ((((r1.andThen r2).andThen r3).andThen r4).andThen r5).toRun hh
  refine ⟨k, vm5, hk, hh, ?_⟩
  rw [s5]
  simp [setReg]

/-- C3 (the code departs from the claim): the value that the code compiled
for `a > b` leaves is not the truth value of `b < a`. Whenever `b < a` is
false, for operands that are arithmetic expressions with values a ≤ b, the
script halts with `true` in the destination register. For `2 > 1`, where
`b < a` is true, the LT handler skips the JMP, the first LOADBOOL stores
`false` and, its `C` being 1, moves the cursor by 4 bytes into the middle of
the next instruction: after four turns the register holds `false` and the
cursor is at byte 4 of an instruction, and the run ends with `false`. -/
theorem gt_compiled_negated :
    (∀ (l r : ArithExpr) (a b reg : Int) (m fakeDraws : List Nat) (G : Value → Value),
      m.Perm (List.range 256) → l.value = some a → r.value = some b → a ≤ b →
      0 ≤ reg ∧ reg < 256 → l.regs ≤ 254 ∧ r.regs ≤ 254 →
      (l.literals ++ r.literals).dedup.length ≤ 32 →
      ∃ fuel0 st1,
        (∀ fuel, fuel0 ≤ fuel →
          compileExpressionToReg fuel startState (gtAST l r) reg = some st1)
        ∧ ∃ k vm1,
            (∀ n, k ≤ n →
              vmRun (handlerAssignments m fakeDraws) n
                (vmInit (serializeBuffer st1.current.chunk m) G) = some vm1)
            ∧ vm1.halted = true ∧ vm1.S reg = Value.bool true ∧ decide (b < a) = false)
    ∧ (parseExpression 100 (CreateParser "2 > 1")).map (fun p => p.1)
        = some (gtAST (.lit 2) (.lit 1))
    ∧ (compileExpressionToReg 10 startState (gtAST (.lit 2) (.lit 1)) 0).map
          (fun st => (st.current.chunk.Instructions, st.current.chunk.Constants))
        = some ([⟨.OP_LOADK, 0, 0, 0⟩, ⟨.OP_LOADK, 1, 1, 0⟩, ⟨.OP_LT, 0, 1, 0⟩,
            ⟨.OP_JMP, 0, 1, 0⟩, ⟨.OP_LOADBOOL, 0, 0, 1⟩, ⟨.OP_LOADBOOL, 0, 1, 0⟩], ["2", "1"])
    ∧ ((compileExpressionToReg 10 startState (gtAST (.lit 2) (.lit 1)) 0).bind
          (fun st => vmRun (handlerAssignments (List.range 256) []) 4
            (vmInit (serializeBuffer st.current.chunk (List.range 256)) (fun _ => Value.nil)))).map
          (fun vm => (vm.S 0, (vm.pos - codeBase ["2", "1"]) % 6))
        = some (Value.bool false, 4)
    ∧ ((compileExpressionToReg 10 startState (gtAST (.lit 2) (.lit 1)) 0).bind
          (fun st => vmRun (handlerAssignments (List.range 256) []) 10
            (vmInit (serializeBuffer st.current.chunk (List.range 256)) (fun _ => Value.nil)))).map
          (fun vm => (vm.halted, vm.S 0))
        = some (true, Value.bool false) := by
  refine ⟨?_, rfl, ?_, ?_, ?_⟩
  · intro l r a b reg m fakeDraws G hm ha hb hab hreg hregs hlits
    obtain ⟨k, vm1, hk, hh, hs⟩ := gt_run_true l r a b reg m fakeDraws G hm ha hb hab hreg hregs
      hlits
    exact ⟨max l.fuel r.fuel + 2, cGt startState l r reg,
      fun fuel hf => compile_gt l r startState reg fuel hf, k, vm1, hk, hh, hs,
      decide_eq_false (by omega)⟩
  · decide!
  · decide!
  · decide!

/-- The general statement at `1 > 2`: the code leaves `true`, where `2 < 1`
is false. -/
theorem gt_compiled_negated_witness :
    ∃ fuel0 st1,
      (∀ fuel, fuel0 ≤ fuel →
        compileExpressionToReg fuel startState (gtAST (.lit 1) (.lit 2)) 0 = some st1)
      ∧ ∃ k vm1,
          (∀ n, k ≤ n →
            vmRun (handlerAssignments (List.range 256) []) n
              (vmInit (serializeBuffer st1.current.chunk (List.range 256)) (fun _ => Value.nil))
              = some vm1)
          ∧ vm1.halted = true ∧ vm1.S 0 = Value.bool true ∧ decide ((2 : Int) < 1) = false :=
  gt_compiled_negated.1 (.lit 1) (.lit 2) 1 2 0 (List.range 256) [] (fun _ => Value.nil)
    (List.Perm.refl _) (by decide) (by decide) (by decide) (by decide) (by decide) (by decide)
/-! ## C11: one opcode map for the serializer and the handler table -/

/-- C11: in a build, whatever the random numbers, the byte that the
serializer writes for an instruction with canonical opcode `op` is
`opcodeMap[op]` (a value below 256, so the cast to a byte changes nothing);
the handler written for `op` is assigned to `H` under that key; none of the
decoy handlers, which are keyed by `opcodeMap[j]` with j from 50 to 200, has
that key; and the table `H`, after all assignments, holds the handler of `op`
under it. -/
theorem serializer_and_handlers_share_map (rs : Nat → Nat) (fakeDraws : List Nat)
    (op : OpCode) (A B C : Int) :
    (serializeInstruction (CreateBuildContext rs).opcodeMap ⟨op, A, B, C⟩).head?
        = some ((CreateBuildContext rs).opcodeMap.getD op.toNat 0)
      ∧ ((CreateBuildContext rs).opcodeMap.getD op.toNat 0, Handler.real op)
          ∈ handlerAssignments (CreateBuildContext rs).opcodeMap fakeDraws
      ∧ (∀ r ∈ fakeDraws,
          50 ≤ RandomInt 50 200 r ∧ RandomInt 50 200 r ≤ 200
            ∧ (CreateBuildContext rs).opcodeMap.getD (RandomInt 50 200 r) 0
              ≠ (CreateBuildContext rs).opcodeMap.getD op.toNat 0)
      ∧ lookupHandler (handlerAssignments (CreateBuildContext rs).opcodeMap fakeDraws)
          ((CreateBuildContext rs).opcodeMap.getD op.toNat 0) = some (Handler.real op) := by
  have hm := opcodeMap_perm rs
  have hop := OpCode.toNat_lt op
  have hlt := perm_range_getD_lt _ hm op.toNat (by omega)
  refine ⟨?_, ?_, ?_, ?_⟩
  · show some ((CreateBuildContext rs).opcodeMap.getD op.toNat 0 % 256) = _
    rw [Nat.mod_eq_of_lt hlt]
  · unfold handlerAssignments
    rw [List.mem_append]
    left
    rw [List.mem_map]
    exact ⟨op, mem_canonicalOps op, rfl⟩
  · intro r _
    have hr := RandomInt_50_200 r
    refine ⟨hr.1, hr.2, fun h => ?_⟩
    have := perm_range_getD_inj _ hm _ _ (by omega) (by omega) h
    omega
  · have := handlerAssignments_ok _ hm fakeDraws op
    rw [Nat.mod_eq_of_lt hlt] at this
    exact this

/-- The statement for ADD in the build from the random numbers 261, 260, ...
with eight decoy draws. -/
theorem serializer_and_handlers_share_map_witness :
    lookupHandler
        (handlerAssignments (CreateBuildContext (fun k => 261 - k)).opcodeMap
          [0, 1, 2, 3, 4, 5, 6, 7])
        ((CreateBuildContext (fun k => 261 - k)).opcodeMap.getD OpCode.OP_ADD.toNat 0)
      = some (Handler.real .OP_ADD) :=
  (serializer_and_handlers_share_map (fun k => 261 - k) [0, 1, 2, 3, 4, 5, 6, 7] .OP_ADD
    0 0 0).2.2.2
/-! ## C12: long comments -/

theorem advanceWhile_until (p : Char → Bool) (xs : List Char) (y : Char) (ys : List Char)
    (line column : Nat) (hx : ∀ c ∈ xs, p c = true ∧ c ≠ chNL) (hy : p y = false) :
    advanceWhile p (xs ++ y :: ys) line column
      = (xs, { rest := y :: ys, line := line, column := column + xs.length }) := by
  induction xs generalizing column with
  | nil =>
      simp only [List.nil_append, advanceWhile, hy, List.length_nil, Nat.add_zero]
      rfl
  | cons x xs ih =>
      have h1 := hx x (List.mem_cons_self x xs)
      simp only [List.cons_append, advanceWhile, h1.1, if_true, Lexer.advance, if_neg h1.2]
      simp only [List.append_eq]
      rw [ih (column + 1) (fun c hc => hx c (List.mem_cons_of_mem x hc))]
      simp only [List.length_cons]
      congr 2
      omega

theorem peek_cons (c : Char) (cs : List Char) (line column : Nat) :
    (Lexer.mk (c :: cs) line column).peek = c := rfl

theorem peekNext_cons (c d : Char) (cs : List Char) (line column : Nat) :
    (Lexer.mk (c :: d :: cs) line column).peekNext = d := rfl

/-- For every level n ≥ 1, the lexer takes `--[=..=[` for a line comment: on
the text `--[=[ a`, newline, `b ]=] c` (with n equal signs) the comment ends
at the end of the first line and the next token is the name `b` of the second
line, which lies inside the long comment. -/
theorem long_comment_level_line (n : Nat) (hn : 1 ≤ n) :
    NextToken (Lexer.mk (longComment n [' ', 'a', chNL, 'b', ' '] ++ [' ', 'c']) 1 1)
      = (Token.mk .TOK_NAME "b" 2 2,
          Lexer.mk ([' ', ']'] ++ List.replicate n '=' ++ [']', ' ', 'c']) 2 2) := by
  obtain ⟨k, rfl⟩ : ∃ k, n = k + 1 := ⟨n - 1, by omega⟩
  have hrest : longComment (k + 1) [' ', 'a', chNL, 'b', ' '] ++ [' ', 'c']
      = '-' :: '-' :: (('[' :: '=' :: (List.replicate k '=' ++ ['[', ' ', 'a']))
          ++ chNL :: ('b' :: ' ' :: ']' :: (List.replicate (k + 1) '=' ++ [']', ' ', 'c']))) := by
    simp [longComment, List.replicate_succ]
  have hskip : skipWhitespace (Lexer.mk (longComment (k + 1) [' ', 'a', chNL, 'b', ' ']
        ++ [' ', 'c']) 1 1)
      = Lexer.mk ('b' :: ' ' :: ']' :: (List.replicate (k + 1) '=' ++ [']', ' ', 'c'])) 2 1 := by
    unfold skipWhitespace
    rw [hrest]
    generalize hL : '-' :: '-' :: (('[' :: '=' :: (List.replicate k '=' ++ ['[', ' ', 'a']))
          ++ chNL :: ('b' :: ' ' :: ']' :: (List.replicate (k + 1) '=' ++ [']', ' ', 'c']))) = L
    obtain ⟨f, hf⟩ : ∃ f, L.length + 1 = f + 3 :=
      ⟨L.length - 2, by
        have : 2 ≤ L.length := by rw [← hL]; simp
        omega⟩
    rw [hf, ← hL]
    have hline := advanceWhile_until (fun c => decide (c ≠ chNL))
      ('[' :: '=' :: (List.replicate k '=' ++ ['[', ' ', 'a'])) chNL
      ('b' :: ' ' :: ']' :: (List.replicate (k + 1) '=' ++ [']', ' ', 'c'])) 1 (1 + 1 + 1)
      (by
        intro c hc
        have : c = '[' ∨ c = '=' ∨ c = ' ' ∨ c = 'a' := by
          simp only [List.mem_cons, List.mem_append, List.mem_replicate, List.mem_singleton,
            List.not_mem_nil, or_false] at hc
          tauto
        rcases this with h | h | h | h <;> subst h <;> decide)
      (by decide)
    simp only [List.cons_append] at hline ⊢
    rw [skipWhitespaceLoop]
    simp only [peek_cons, peekNext_cons]
    rw [if_neg (by decide), if_pos (by decide)]
    simp only [Lexer.advance, show ¬ ('-' : Char) = chNL by decide, if_false, peek_cons,
      peekNext_cons]
    rw [if_neg (by decide)]
    rw [hline]
    rw [skipWhitespaceLoop]
    simp only [peek_cons]
    rw [if_pos (by decide)]
    simp only [Lexer.advance, if_true]
    rw [skipWhitespaceLoop]
    simp only [peek_cons, peekNext_cons]
    rw [if_neg (by decide), if_neg (by decide)]
  unfold NextToken
  rw [hskip]
  simp only [Lexer.advance, show ('b' : Char) ≠ chNL by decide, if_false]
  rw [if_pos (by decide)]
  unfold readName
  simp only [advanceWhile, show (isalnum ' ' || decide (' ' = '_')) = false by decide,
    Bool.false_eq_true, if_false]
  rfl

/-- C12 (the code departs from the claim): a comment opened with `--[`,
n equal signs and `[` is skipped up to its closing bracket only for n = 0.
For every n ≥ 1 it is lexed as a line comment: on `--[=[ a`, newline,
`b ]=] c` the next token is the name `b` inside the comment, and on one line
the rest of the line, `c` included, is lost. The long strings of the same
lexer do match the level (`readLongString`). -/
theorem long_comment_levels_ignored :
    (∀ n, 1 ≤ n →
      NextToken (Lexer.mk (longComment n [' ', 'a', chNL, 'b', ' '] ++ [' ', 'c']) 1 1)
        = (Token.mk .TOK_NAME "b" 2 2,
            Lexer.mk ([' ', ']'] ++ List.replicate n '=' ++ [']', ' ', 'c']) 2 2))
    ∧ (NextToken (CreateLexer "--[[ a\nb ]] c")).1 = Token.mk .TOK_NAME "c" 2 7
    ∧ (NextToken (CreateLexer "--[=[ a\nb ]=] c")).1 = Token.mk .TOK_NAME "b" 2 2
    ∧ (NextToken (CreateLexer "--[==[ a b ]==] c")).1 = Token.mk .TOK_EOF "" 1 18
    ∧ (NextToken (CreateLexer "[==[ a b ]==] c")).1 = Token.mk .TOK_STRING " a b " 1 14 :=
  ⟨long_comment_level_line, by decide, by decide, by decide, by decide⟩

/-- The statement at level 1. -/
theorem long_comment_levels_ignored_witness :
    NextToken (Lexer.mk (longComment 1 [' ', 'a', chNL, 'b', ' '] ++ [' ', 'c']) 1 1)
      = (Token.mk .TOK_NAME "b" 2 2,
          Lexer.mk ([' ', ']'] ++ List.replicate 1 '=' ++ [']', ' ', 'c']) 2 2) :=
  long_comment_levels_ignored.1 1 (by decide)

/-! ## C13: binary operators and the precedence table -/

theorem advance_previous (p : Parser) : p.advance.previous = p.current := by
  unfold Parser.advance
  simp only []
  split <;> rfl

/-- An operand followed by a token that does not continue it is parsed by
`parseUnaryExpr` as a leaf, with one `advance`. -/
theorem parseUnaryExpr_operand (p : Parser) (a next : Token) (fuel : Nat)
    (ha : a.isOperand) (hn : ¬ startsSuffix next.type)
    (hc : p.current = a) (hc1 : p.advance.current = next) :
    parseUnaryExpr (fuel + 4) p = some (operandNode a, p.advance) := by
  unfold parseUnaryExpr
  rcases ha with ha | ha
  · have hn1 : ¬ startsSuffix p.advance.current.type := by rw [hc1]; exact hn
    simp only [startsSuffix, not_or] at hn1
    simp [Parser.matchUnaryOp, Parser.matchTok, Parser.check, hc, ha, parseSimpleExpr,
      parseSuffixedExpr, parsePrimaryExpr, parseSuffixes, parseName, advance_previous,
      operandNode, hn1]
  · simp [Parser.matchUnaryOp, Parser.matchTok, Parser.check, hc, ha, parseSimpleExpr,
      parseNumber, advance_previous, operandNode]

theorem not_startsSuffix_of_prec (t : TokenType) (h : 1 ≤ getBinopPrecedence t) :
    ¬ startsSuffix t := by
  cases t <;> simp [startsSuffix, getBinopPrecedence] at h ⊢

theorem rightAssoc_iff (t : TokenType) :
    rightAssoc t ↔ (getBinopPrecedence t = 4 ∨ getBinopPrecedence t = 8) := by
  cases t <;> simp [rightAssoc, getBinopPrecedence]

theorem nextPrecOf_eq (op : Token) :
    nextPrecOf op = if getBinopPrecedence op.type = 4 ∨ getBinopPrecedence op.type = 8
      then getBinopPrecedence op.type else getBinopPrecedence op.type + 1 := by
  unfold nextPrecOf
  have h := rightAssoc_iff op.type
  unfold rightAssoc at h
  by_cases hc : op.type = .TOK_CARET ∨ op.type = .TOK_DOTDOT
  · rw [if_pos hc, if_pos (h.1 hc.symm)]
  · rw [if_neg hc, if_neg (fun hh => hc (h.2 hh).symm)]

theorem flatItems_append (a b : List (Token × ASTNode)) :
    flatItems (a ++ b) = flatItems a ++ flatItems b := by
  induction a with
  | nil => rfl
  | cons x xs ih => simp [flatItems, ih]

theorem ReadsPairs_headTok (F : Nat) (stop : Token) (pairs : List (Token × ASTNode))
    (p pEnd : Parser) (h : ReadsPairs F stop p pairs pEnd) : p.current = headTok pairs stop := by
  cases pairs with
  | nil => exact h.2
  | cons x xs => exact h.1

/-- Precedence climbing: `parseBinopExpr` and its loop on an operand followed
by operator-operand pairs. -/
theorem binop_climb (F : Nat) (stop : Token) (hs : getBinopPrecedence stop.type = 0) : ∀ fuel,
    (∀ (pairs : List (Token × ASTNode)) (p p1 pEnd : Parser) (minPrec : Nat) (e0 : ASTNode),
      F + 2 * pairs.length + 2 ≤ fuel → 1 ≤ minPrec → ReadsOperand F p e0 p1 →
      OpsOK pairs → ReadsPairs F stop p1 pairs pEnd →
      ∃ (t : OpTree) (pre post : List (Token × ASTNode)) (pMid : Parser), pairs = pre ++ post
        ∧ parseBinopExpr fuel p minPrec = some (t.toAST, pMid)
        ∧ ReadsPairs F stop pMid post pEnd
        ∧ t.items = Sum.inl e0 :: flatItems pre ∧ t.Grouped ∧ t.rootAtLeast minPrec
        ∧ getBinopPrecedence (headTok post stop).type < minPrec)
    ∧ (∀ (pairs : List (Token × ASTNode)) (p pEnd : Parser) (minPrec : Nat) (left : OpTree),
      F + 2 * pairs.length + 1 ≤ fuel → 1 ≤ minPrec →
      OpsOK pairs → ReadsPairs F stop p pairs pEnd →
      left.Grouped → left.rootAtLeast minPrec →
      left.stopsBefore (headTok pairs stop) →
      ∃ (t : OpTree) (pre post : List (Token × ASTNode)) (pMid : Parser), pairs = pre ++ post
        ∧ parseBinopLoop fuel p minPrec left.toAST = some (t.toAST, pMid)
        ∧ ReadsPairs F stop pMid post pEnd
        ∧ t.items = left.items ++ flatItems pre ∧ t.Grouped
        ∧ t.rootAtLeast minPrec
        ∧ getBinopPrecedence (headTok post stop).type < minPrec) := by
  intro fuel
  induction fuel with
  | zero =>
      constructor
      · intro pairs p p1 pEnd minPrec e0 hf; omega
      · intro pairs p pEnd minPrec left hf; omega
  | succ fuel ih =>
      obtain ⟨ihP, ihQ⟩ := ih
      constructor
      · intro pairs p p1 pEnd minPrec e0 hf hm ha hp hF
        unfold parseBinopExpr
        rw [ha fuel (by omega)]
        simp only []
        obtain ⟨t, pre, post, pMid, e, hr, hrest, ht, hG, hR, hstop⟩ :=
          ihQ pairs p1 pEnd minPrec (.leaf e0) (by omega) hm hp hF trivial trivial trivial
        exact ⟨t, pre, post, pMid, e, hr, hrest, ht, hG, hR, hstop⟩
      · intro pairs p pEnd minPrec left hf hm hp hF hG hR hS
        unfold parseBinopLoop
        simp only []
        cases pairs with
        | nil =>
            have hc : p.current = stop := hF.2
            rw [hc, if_pos (by rw [hs]; omega)]
            exact ⟨left, [], [], p, rfl, rfl, hF, by simp [flatItems], hG, hR, by
              show getBinopPrecedence stop.type < minPrec
              rw [hs]; omega⟩
        | cons x ps =>
            obtain ⟨hc, p1, hop, hrd⟩ := hF
            rw [hc]
            by_cases hlt : getBinopPrecedence x.1.type < minPrec
            · rw [if_pos hlt]
              exact ⟨left, [], x :: ps, p, rfl, rfl, ⟨hc, p1, hop, hrd⟩, by simp [flatItems],
                hG, hR, hlt⟩
            · rw [if_neg hlt]
              have hx := hp x (List.mem_cons_self _ _)
              have hps : OpsOK ps := fun y hy => hp y (List.mem_cons_of_mem _ hy)
              simp only [List.length_cons] at hf
              obtain ⟨r, pre1, post1, pMid1, e1, hr1, hrest1, ht1, hG1, hR1, hstop1⟩ :=
                ihP ps p.advance p1 pEnd (nextPrecOf x.1) x.2 (by omega)
                  (by rw [nextPrecOf_eq]; split <;> omega) hop hps hrd
              have hnp : (if x.1.type = .TOK_CARET ∨ x.1.type = .TOK_DOTDOT
                  then getBinopPrecedence x.1.type else getBinopPrecedence x.1.type + 1)
                  = nextPrecOf x.1 := rfl
              rw [hnp, hr1]
              simp only []
              have hpost : OpsOK post1 := fun y hy =>
                hps y (by rw [e1]; exact List.mem_append_right _ hy)
              have hlen : post1.length ≤ ps.length := by
                rw [e1, List.length_append]; omega
              have hbl : left.bindsLeft x.1 := by
                cases left with
                | leaf t => trivial
                | node o l r =>
                    have h1 : getBinopPrecedence x.1.type < nextPrecOf o := hS
                    rw [nextPrecOf_eq] at h1
                    have h2 := rightAssoc_iff x.1.type
                    show getBinopPrecedence x.1.type < getBinopPrecedence o.type
                      ∨ (getBinopPrecedence o.type = getBinopPrecedence x.1.type
                        ∧ ¬ rightAssoc x.1.type)
                    rw [h2]
                    split at h1 <;> omega
              have hbr : r.bindsRight x.1 := by
                cases r with
                | leaf t => trivial
                | node o l r =>
                    have h1 : nextPrecOf x.1 ≤ getBinopPrecedence o.type := hR1
                    rw [nextPrecOf_eq] at h1
                    have h2 := rightAssoc_iff x.1.type
                    show getBinopPrecedence x.1.type < getBinopPrecedence o.type
                      ∨ (getBinopPrecedence o.type = getBinopPrecedence x.1.type
                        ∧ rightAssoc x.1.type)
                    rw [h2]
                    split at h1 <;> omega
              obtain ⟨t, pre2, post2, pMid2, e2, hr2, hrest2, ht2, hG2, hR2, hstop2⟩ :=
                ihQ post1 pMid1 pEnd minPrec (.node x.1 left r) (by omega) hm hpost hrest1
                  ⟨hG, hG1, hbl, hbr⟩ (by show minPrec ≤ _; omega)
                  (by rw [← ReadsPairs_headTok F stop post1 pMid1 pEnd hrest1] at hstop1 ⊢
                      exact hstop1)
              refine ⟨t, x :: pre1 ++ pre2, post2, pMid2, ?_, ?_, hrest2, ?_, hG2, hR2, hstop2⟩
              · rw [e1, e2]; simp
              · exact hr2
              · rw [ht2]
                show left.items ++ Sum.inr x.1 :: r.items ++ flatItems pre2 = _
                rw [ht1]
                simp [flatItems, flatItems_append]

theorem OpTree.items_ne_nil (t : OpTree) : t.items ≠ [] := by
  cases t <;> simp [OpTree.items]

/-- In a grouped tree no operator has a lower level than the root. -/
theorem OpTree.levels_above (t : OpTree) : ∀ q, t.Grouped → t.rootAtLeast q →
    ∀ x, Sum.inr x ∈ t.items → q ≤ getBinopPrecedence x.type := by
  induction t with
  | leaf a =>
      intro q _ _ x hx
      simp [OpTree.items] at hx
  | node o l r ihl ihr =>
      intro q hG hR x hx
      have hq : q ≤ getBinopPrecedence o.type := hR
      simp only [OpTree.items, List.mem_append, List.mem_cons, Sum.inr.injEq] at hx
      rcases hx with hx | hx | hx
      · have hl : l.rootAtLeast q := by
          have hb := hG.2.2.1
          cases l with
          | leaf a => trivial
          | node o1 l1 r1 =>
              have hb1 : getBinopPrecedence o.type < getBinopPrecedence o1.type
                ∨ (getBinopPrecedence o1.type = getBinopPrecedence o.type
                  ∧ ¬ rightAssoc o.type) := hb
              show q ≤ getBinopPrecedence o1.type
              omega
        exact ihl q hG.1 hl x hx
      · rw [hx]; exact hq
      · have hr : r.rootAtLeast q := by
          have hb := hG.2.2.2
          cases r with
          | leaf a => trivial
          | node o1 l1 r1 =>
              have hb1 : getBinopPrecedence o.type < getBinopPrecedence o1.type
                ∨ (getBinopPrecedence o1.type = getBinopPrecedence o.type
                  ∧ rightAssoc o.type) := hb
              show q ≤ getBinopPrecedence o1.type
              omega
        exact ihr q hG.2.1 hr x hx

/-- An operator inside the left operand of `o`. -/
theorem OpTree.left_level (o : Token) (l r : OpTree)
    (hG : (OpTree.node o l r).Grouped) (x : Token) (hx : Sum.inr x ∈ l.items) :
    getBinopPrecedence o.type < getBinopPrecedence x.type
      ∨ (getBinopPrecedence x.type = getBinopPrecedence o.type
        ∧ getBinopPrecedence o.type ≠ 4 ∧ getBinopPrecedence o.type ≠ 8) := by
  have hb := hG.2.2.1
  have h2 := rightAssoc_iff o.type
  cases l with
  | leaf a => simp [OpTree.items] at hx
  | node o1 l1 r1 =>
      have hb1 : getBinopPrecedence o.type < getBinopPrecedence o1.type
        ∨ (getBinopPrecedence o1.type = getBinopPrecedence o.type ∧ ¬ rightAssoc o.type) := hb
      rw [h2] at hb1
      have := OpTree.levels_above (.node o1 l1 r1) (getBinopPrecedence o1.type) hG.1
        (le_refl _) x hx
      omega

/-- An operator inside the right operand of `o`. -/
theorem OpTree.right_level (o : Token) (l r : OpTree)
    (hG : (OpTree.node o l r).Grouped) (x : Token) (hx : Sum.inr x ∈ r.items) :
    getBinopPrecedence o.type < getBinopPrecedence x.type
      ∨ (getBinopPrecedence x.type = getBinopPrecedence o.type
        ∧ (getBinopPrecedence o.type = 4 ∨ getBinopPrecedence o.type = 8)) := by
  have hb := hG.2.2.2
  have h2 := rightAssoc_iff o.type
  cases r with
  | leaf a => simp [OpTree.items] at hx
  | node o1 l1 r1 =>
      have hb1 : getBinopPrecedence o.type < getBinopPrecedence o1.type
        ∨ (getBinopPrecedence o1.type = getBinopPrecedence o.type ∧ rightAssoc o.type) := hb
      rw [h2] at hb1
      have := OpTree.levels_above (.node o1 l1 r1) (getBinopPrecedence o1.type) hG.2.1
        (le_refl _) x hx
      omega

/-- The root of a grouped tree is determined by its items. -/
theorem OpTree.split_unique (o o1 : Token) (l r l1 r1 : OpTree)
    (hG : (OpTree.node o l r).Grouped) (hG1 : (OpTree.node o1 l1 r1).Grouped)
    (a : List (ASTNode ⊕ Token)) (h1 : l1.items = l.items ++ Sum.inr o :: a)
    (h2 : r.items = a ++ Sum.inr o1 :: r1.items) : False := by
  have hA := OpTree.left_level o1 l1 r1 hG1 o (by rw [h1]; simp)
  have hB := OpTree.right_level o l r hG o1 (by rw [h2]; simp)
  omega

/-- A list of operands and operators has at most one grouped tree. -/
theorem OpTree.grouped_unique (t : OpTree) : ∀ t1 : OpTree,
    t.Grouped → t1.Grouped → t.items = t1.items → t = t1 := by
  induction t with
  | leaf a =>
      intro t1 _ _ h
      cases t1 with
      | leaf b =>
          simp only [OpTree.items, List.cons.injEq, Sum.inl.injEq, and_true] at h
          rw [h]
      | node o1 l1 r1 =>
          exfalso
          have := congrArg List.length h
          have := List.length_pos.2 (OpTree.items_ne_nil l1)
          simp [OpTree.items] at *
          omega
  | node o l r ihl ihr =>
      intro t1 hG hG1 h
      cases t1 with
      | leaf b =>
          exfalso
          have := congrArg List.length h
          have := List.length_pos.2 (OpTree.items_ne_nil l)
          simp [OpTree.items] at *
          omega
      | node o1 l1 r1 =>
          have h0 : l.items ++ Sum.inr o :: r.items = l1.items ++ Sum.inr o1 :: r1.items := h
          rcases List.append_eq_append_iff.1 h0 with ⟨a, e1, e2⟩ | ⟨c, e1, e2⟩
          · cases a with
            | nil =>
                simp only [List.append_nil, List.nil_append, List.cons.injEq,
                  Sum.inr.injEq] at e1 e2
                rw [ihl l1 hG.1 hG1.1 e1.symm, ihr r1 hG.2.1 hG1.2.1 e2.2, e2.1]
            | cons x a =>
                simp only [List.cons_append, List.cons.injEq] at e2
                exfalso
                exact OpTree.split_unique o o1 l r l1 r1 hG hG1 a (by rw [e1, e2.1]) e2.2
          · cases c with
            | nil =>
                simp only [List.append_nil, List.nil_append, List.cons.injEq,
                  Sum.inr.injEq] at e1 e2
                rw [ihl l1 hG.1 hG1.1 e1, ihr r1 hG.2.1 hG1.2.1 e2.2.symm, e2.1]
            | cons x c =>
                simp only [List.cons_append, List.cons.injEq] at e2
                exfalso
                exact OpTree.split_unique o1 o l1 r1 l r hG1 hG c (by rw [e1, e2.1]) e2.2

/-- A name or number is read as an operand whenever the token after it does
not continue it. -/
theorem readsOperand_atom (p : Parser) (a next : Token) (ha : a.isOperand)
    (hn : ¬ startsSuffix next.type) (hc : p.current = a) (hc1 : p.advance.current = next) :
    ReadsOperand 4 p (operandNode a) p.advance := by
  intro fuel hf
  obtain ⟨f, rfl⟩ : ∃ f, fuel = f + 4 := ⟨fuel - 4, by omega⟩
  exact parseUnaryExpr_operand p a next f ha hn hc hc1

/-- C13: let the operand parser return the trees e0, e1, ..., en for the
operands of `e0 op1 e1 ... opn en`, where every `opi` is a binary operator
and the token after `en` is none. Then `parseExpression` (given fuel for the
operands and the length) returns a tree over exactly these operands and
operators in order that is grouped as the precedence table dictates: at every
node the root of the left operand binds tighter or has the same level with
the level grouping left to right, the root of the right operand binds tighter
or has the same level with the level (`..` or `^`) grouping right to left.
That tree is the only one grouped so, and the parser stops before the token
after `en`. A name or a number is such an operand whenever the token after
it does not continue it. The four examples of the claim parse as stated. -/
theorem binop_tree_follows_table :
    (∀ (F : Nat) (p p1 pEnd : Parser) (e0 : ASTNode) (pairs : List (Token × ASTNode))
        (stop : Token) (fuel : Nat),
      ReadsOperand F p e0 p1 → OpsOK pairs → getBinopPrecedence stop.type = 0 →
      ReadsPairs F stop p1 pairs pEnd → F + 2 * pairs.length + 3 ≤ fuel →
      ∃ t : OpTree,
        parseExpression fuel p = some (t.toAST, pEnd)
        ∧ t.items = Sum.inl e0 :: flatItems pairs ∧ t.Grouped
        ∧ ∀ t1 : OpTree, t1.items = Sum.inl e0 :: flatItems pairs → t1.Grouped → t1 = t)
    ∧ (∀ (p : Parser) (a next : Token), a.isOperand → ¬ startsSuffix next.type →
        p.current = a → p.advance.current = next →
        ReadsOperand 4 p (operandNode a) p.advance)
    ∧ (parseExpression 100 (CreateParser "1+2*3")).map (fun r => r.1)
        = some (.NODE_BINOP "+" (.NODE_NUMBER (.int 1))
            (.NODE_BINOP "*" (.NODE_NUMBER (.int 2)) (.NODE_NUMBER (.int 3))))
    ∧ (parseExpression 100 (CreateParser "1-2-3")).map (fun r => r.1)
        = some (.NODE_BINOP "-"
            (.NODE_BINOP "-" (.NODE_NUMBER (.int 1)) (.NODE_NUMBER (.int 2)))
            (.NODE_NUMBER (.int 3)))
    ∧ (parseExpression 100 (CreateParser "a..b..c")).map (fun r => r.1)
        = some (.NODE_BINOP ".." (.NODE_NAME "a")
            (.NODE_BINOP ".." (.NODE_NAME "b") (.NODE_NAME "c")))
    ∧ (parseExpression 100 (CreateParser "2^3^2")).map (fun r => r.1)
        = some (.NODE_BINOP "^" (.NODE_NUMBER (.int 2))
            (.NODE_BINOP "^" (.NODE_NUMBER (.int 3)) (.NODE_NUMBER (.int 2)))) := by
  refine ⟨?_, readsOperand_atom, rfl, rfl, rfl, rfl⟩
  intro F p p1 pEnd e0 pairs stop fuel ha hp hs hF hfuel
  obtain ⟨f, rfl⟩ : ∃ f, fuel = f + 1 := ⟨fuel - 1, by omega⟩
  obtain ⟨t, pre, post, pMid, e, hr, hrest, ht, hG, _, hstop⟩ :=
    (binop_climb F stop hs f).1 pairs p p1 pEnd 1 e0 (by omega) (le_refl _) ha hp hF
  have hpost : post = [] := by
    cases post with
    | nil => rfl
    | cons x xs =>
        have := hp x (by rw [e]; simp)
        have h1 : getBinopPrecedence x.1.type < 1 := hstop
        omega
  rw [hpost, List.append_nil] at e
  rw [hpost] at hrest
  have hend : pEnd = pMid := hrest.1
  rw [← e] at ht
  rw [← hend] at hr
  refine ⟨t, hr, ht, hG, ?_⟩
  intro t1 h1 hG1
  exact OpTree.grouped_unique t1 t hG1 hG (h1.trans ht.symm)

/-- The general statement at `1+2*3`, whose operands are the numbers 1, 2
and 3. -/
theorem binop_tree_follows_table_witness :
    ∃ t : OpTree,
      parseExpression 11 (CreateParser "1+2*3")
        = some (t.toAST, (CreateParser "1+2*3").advance.advance.advance.advance.advance)
      ∧ t.items = Sum.inl (operandNode (Token.mk .TOK_NUMBER "1" 1 2))
          :: flatItems [(Token.mk .TOK_PLUS "+" 1 3, operandNode (Token.mk .TOK_NUMBER "2" 1 4)),
              (Token.mk .TOK_STAR "*" 1 5, operandNode (Token.mk .TOK_NUMBER "3" 1 6))]
      ∧ t.Grouped
      ∧ ∀ t1 : OpTree, t1.items = Sum.inl (operandNode (Token.mk .TOK_NUMBER "1" 1 2))
          :: flatItems [(Token.mk .TOK_PLUS "+" 1 3, operandNode (Token.mk .TOK_NUMBER "2" 1 4)),
              (Token.mk .TOK_STAR "*" 1 5, operandNode (Token.mk .TOK_NUMBER "3" 1 6))] →
          t1.Grouped → t1 = t :=
  binop_tree_follows_table.1 4 (CreateParser "1+2*3") (CreateParser "1+2*3").advance
    (CreateParser "1+2*3").advance.advance.advance.advance.advance
    (operandNode (Token.mk .TOK_NUMBER "1" 1 2))
    [(Token.mk .TOK_PLUS "+" 1 3, operandNode (Token.mk .TOK_NUMBER "2" 1 4)),
      (Token.mk .TOK_STAR "*" 1 5, operandNode (Token.mk .TOK_NUMBER "3" 1 6))]
    (Token.mk .TOK_EOF "" 1 6) 11
    (readsOperand_atom (CreateParser "1+2*3") (Token.mk .TOK_NUMBER "1" 1 2)
      (Token.mk .TOK_PLUS "+" 1 3) (Or.inr rfl) (by simp [startsSuffix]) (by decide) (by decide))
    (by
      intro x hx
      simp only [List.mem_cons, List.mem_singleton, List.not_mem_nil, or_false] at hx
      rcases hx with rfl | rfl <;> decide)
    rfl
    ⟨by decide, (CreateParser "1+2*3").advance.advance.advance,
      readsOperand_atom (CreateParser "1+2*3").advance.advance (Token.mk .TOK_NUMBER "2" 1 4)
        (Token.mk .TOK_STAR "*" 1 5) (Or.inr rfl) (by simp [startsSuffix]) (by decide)
        (by decide),
      by decide, (CreateParser "1+2*3").advance.advance.advance.advance.advance,
      readsOperand_atom (CreateParser "1+2*3").advance.advance.advance.advance
        (Token.mk .TOK_NUMBER "3" 1 6) (Token.mk .TOK_EOF "" 1 6) (Or.inr rfl)
        (by simp [startsSuffix]) (by decide) (by decide),
      rfl, by decide⟩
    (by decide)
/-! ## C2: arithmetic expressions -/

/-! ### Reading the text of an arithmetic expression -/

theorem ArithOp.prec_tokType (op : ArithOp) :
    getBinopPrecedence op.tokType = (if op.level = 3 then 8 else op.level + 4) := by
  cases op <;> rfl

theorem ArithOp.rightAssoc_tokType (op : ArithOp) : rightAssoc op.tokType ↔ op = .pow := by
  cases op <;> simp [rightAssoc, ArithOp.tokType]

theorem ArithOp.level_le (op : ArithOp) : 1 ≤ op.level ∧ op.level ≤ 3 := by
  cases op <;> simp [ArithOp.level]

theorem ArithText.items_opTree (t : ArithText) : ∀ p : Parser,
    (t.opTree p).items = Sum.inl t.first :: flatItems (t.pairs p) := by
  induction t with
  | lit n => intro p; rfl
  | paren t _ => intro p; rfl
  | bin op l r ihl ihr =>
      intro p
      show (l.opTree p).items ++ Sum.inr (l.endOf p).current :: (r.opTree (l.endOf p).advance).items
        = Sum.inl l.first
          :: flatItems (l.pairs p ++ ((l.endOf p).current, r.first) :: r.pairs (l.endOf p).advance)
      rw [ihl, ihr, flatItems_append]
      simp [flatItems]

theorem ArithText.toAST_opTree (t : ArithText) : ∀ p : Parser, t.SpelledAt p →
    (t.opTree p).toAST = t.expr.toAST := by
  induction t with
  | lit n => intro p _; rfl
  | paren t _ => intro p _; rfl
  | bin op l r ihl ihr =>
      intro p h
      obtain ⟨hl, _, hv, hr⟩ := h
      show ASTNode.NODE_BINOP (l.endOf p).current.value (l.opTree p).toAST
        (r.opTree (l.endOf p).advance).toAST = ASTNode.NODE_BINOP op.text l.expr.toAST r.expr.toAST
      rw [hv, ihl p hl, ihr _ hr]

theorem ArithText.grouped_opTree (t : ArithText) : ∀ p : Parser, t.SpelledAt p → t.Grouped →
    (t.opTree p).Grouped := by
  induction t with
  | lit n => intro p _ _; trivial
  | paren t _ => intro p _ _; trivial
  | bin op l r ihl ihr =>
      intro p h hg
      obtain ⟨hl, ht, _, hr⟩ := h
      obtain ⟨gl, gr, bl, br⟩ := hg
      refine ⟨ihl p hl gl, ihr _ hr gr, ?_, ?_⟩
      · cases l with
        | lit n => trivial
        | paren t => trivial
        | bin o l1 r1 =>
            obtain ⟨_, ht1, _, _⟩ := hl
            show getBinopPrecedence ((ArithText.bin o l1 r1).endOf p).current.type
                < getBinopPrecedence (l1.endOf p).current.type
              ∨ (getBinopPrecedence (l1.endOf p).current.type
                  = getBinopPrecedence ((ArithText.bin o l1 r1).endOf p).current.type
                ∧ ¬ rightAssoc ((ArithText.bin o l1 r1).endOf p).current.type)
            rw [ht, ht1, ArithOp.rightAssoc_tokType, ArithOp.prec_tokType, ArithOp.prec_tokType]
            have h1 := ArithOp.level_le op
            have h2 := ArithOp.level_le o
            rcases bl with bl | ⟨bl, bn⟩
            · left; split <;> split <;> omega
            · right; exact ⟨by rw [bl], bn⟩
      · cases r with
        | lit n => trivial
        | paren t => trivial
        | bin o l1 r1 =>
            obtain ⟨_, ht1, _, _⟩ := hr
            show getBinopPrecedence (l.endOf p).current.type
                < getBinopPrecedence (l1.endOf (l.endOf p).advance).current.type
              ∨ (getBinopPrecedence (l1.endOf (l.endOf p).advance).current.type
                  = getBinopPrecedence (l.endOf p).current.type
                ∧ rightAssoc (l.endOf p).current.type)
            rw [ht, ht1, ArithOp.rightAssoc_tokType, ArithOp.prec_tokType, ArithOp.prec_tokType]
            have h1 := ArithOp.level_le op
            have h2 := ArithOp.level_le o
            rcases br with br | ⟨br, bn⟩
            · left; split <;> split <;> omega
            · right; exact ⟨by rw [br], bn⟩

theorem ArithText.opsOK_pairs (t : ArithText) : ∀ p : Parser, t.SpelledAt p →
    OpsOK (t.pairs p) := by
  induction t with
  | lit n => intro p _ x hx; simp [ArithText.pairs] at hx
  | paren t _ => intro p _ x hx; simp [ArithText.pairs] at hx
  | bin op l r ihl ihr =>
      intro p h x hx
      obtain ⟨hl, ht, _, hr⟩ := h
      simp only [ArithText.pairs, List.mem_append, List.mem_cons] at hx
      rcases hx with hx | rfl | hx
      · exact ihl p hl x hx
      · show 1 ≤ getBinopPrecedence (l.endOf p).current.type
        rw [ht, ArithOp.prec_tokType]
        split <;> omega
      · exact ihr _ hr x hx

theorem ArithText.length_pairs (t : ArithText) : ∀ p : Parser, (t.pairs p).length = t.ops := by
  induction t with
  | lit n => intro p; rfl
  | paren t _ => intro p; rfl
  | bin op l r ihl ihr =>
      intro p
      simp only [ArithText.pairs, ArithText.ops, List.length_append, List.length_cons, ihl, ihr]
      omega

theorem readsOperand_mono (F F1 : Nat) (h : F ≤ F1) (p : Parser) (e : ASTNode) (p1 : Parser)
    (hr : ReadsOperand F p e p1) : ReadsOperand F1 p e p1 :=
  fun fuel hf => hr fuel (by omega)

/-- The precedence climbing of `parseExpression` returns the tree of the
split that is grouped by the table, when the operands are read as the split
says. -/
theorem parse_grouped (F : Nat) (t : ArithText) (p p1 : Parser) (stop : Token) (fuel : Nat)
    (hs : t.SpelledAt p) (hg : t.Grouped) (hstop : getBinopPrecedence stop.type = 0)
    (h1 : ReadsOperand F p t.first p1) (h2 : ReadsPairs F stop p1 (t.pairs p) (t.endOf p))
    (hf : F + 2 * t.ops + 3 ≤ fuel) :
    parseExpression fuel p = some (t.expr.toAST, t.endOf p) := by
  obtain ⟨f, rfl⟩ : ∃ f, fuel = f + 1 := ⟨fuel - 1, by omega⟩
  obtain ⟨T, pre, post, pMid, e, hr, hrest, ht, hG, _, hlast⟩ :=
    (binop_climb F stop hstop f).1 (t.pairs p) p p1 (t.endOf p) 1 t.first
      (by rw [ArithText.length_pairs]; omega) (le_refl _) h1 (t.opsOK_pairs p hs) h2
  have hpost : post = [] := by
    cases post with
    | nil => rfl
    | cons x xs =>
        have := t.opsOK_pairs p hs x (by rw [e]; simp)
        have h3 : getBinopPrecedence x.1.type < 1 := hlast
        omega
  rw [hpost, List.append_nil] at e
  rw [hpost] at hrest
  have hend : t.endOf p = pMid := hrest.1
  rw [← e] at ht
  have hT : T = t.opTree p :=
    OpTree.grouped_unique T (t.opTree p) hG (t.grouped_opTree p hs hg)
      (ht.trans (t.items_opTree p).symm)
  show parseBinopExpr f p 1 = _
  rw [hr, hT, t.toAST_opTree p hs, hend]

theorem next_not_suffix (F : Nat) (stop : Token) (rest : List (Token × ASTNode))
    (p pEnd : Parser) (hrest : OpsOK rest) (hstop : ¬ startsSuffix stop.type)
    (h : ReadsPairs F stop p rest pEnd) : ¬ startsSuffix p.current.type := by
  rw [ReadsPairs_headTok F stop rest p pEnd h]
  cases rest with
  | nil => exact hstop
  | cons x xs => exact not_startsSuffix_of_prec _ (hrest x (List.mem_cons_self _ _))

/-- A text in parentheses is read by `parseUnaryExpr` as the tree of the text
inside, when `parseExpression` reads that text and the token after `)` does
not continue the operand. -/
theorem readsOperand_paren (t : ArithText) (p : Parser) (F : Nat)
    (hc : p.current.type = .TOK_LPAREN)
    (hin : ∀ fuel, F ≤ fuel →
      parseExpression fuel p.advance = some (t.expr.toAST, t.endOf p.advance))
    (hr : (t.endOf p.advance).current.type = .TOK_RPAREN)
    (hn : ¬ startsSuffix (t.endOf p.advance).advance.current.type) :
    ReadsOperand (F + 4) p t.expr.toAST (t.endOf p.advance).advance := by
  intro fuel hf
  obtain ⟨f, rfl⟩ : ∃ f, fuel = f + 4 := ⟨fuel - 4, by omega⟩
  unfold parseUnaryExpr
  simp only [startsSuffix, not_or] at hn
  simp [Parser.matchUnaryOp, Parser.matchTok, Parser.check, hc, parseSimpleExpr,
    parseSuffixedExpr, parsePrimaryExpr, hin f (by omega), Parser.expect, hr, parseSuffixes, hn]

/-- The operands and operators of a text outside parentheses are read by the
parser as the split says. -/
theorem ArithText.reads (t : ArithText) :
    ∀ (p pEnd : Parser) (F : Nat) (stop : Token) (rest : List (Token × ASTNode)),
      t.SpelledAt p → t.Grouped → t.opFuel ≤ F → OpsOK rest → ¬ startsSuffix stop.type →
      ReadsPairs F stop (t.endOf p) rest pEnd →
      ∃ p1, ReadsOperand F p t.first p1 ∧ ReadsPairs F stop p1 (t.pairs p ++ rest) pEnd := by
  induction t with
  | lit n =>
      intro p pEnd F stop rest hs _ hF hrest hstop hR
      obtain ⟨hty, hval⟩ := hs
      have hn := next_not_suffix F stop rest _ pEnd hrest hstop hR
      have h1 := readsOperand_atom p p.current p.advance.current (Or.inr hty) hn rfl rfl
      have e : operandNode p.current = ASTNode.NODE_NUMBER (.int (n : Int)) := by
        unfold operandNode
        rw [if_pos hty, hval]
      rw [e] at h1
      exact ⟨p.advance, readsOperand_mono 4 F hF _ _ _ h1, hR⟩
  | paren t ih =>
      intro p pEnd F stop rest hs hg hF hrest hstop hR
      obtain ⟨hty, hin, hrp⟩ := hs
      have hn := next_not_suffix F stop rest _ pEnd hrest hstop hR
      have hclose : ¬ startsSuffix (t.endOf p.advance).current.type := by
        rw [hrp]
        simp [startsSuffix]
      obtain ⟨q, hq1, hq2⟩ := ih p.advance (t.endOf p.advance) t.opFuel
        (t.endOf p.advance).current [] hin hg (le_refl _)
        (fun x hx => absurd hx (List.not_mem_nil x)) hclose ⟨rfl, rfl⟩
      rw [List.append_nil] at hq2
      have hparse : ∀ fuel, t.opFuel + 2 * t.ops + 3 ≤ fuel →
          parseExpression fuel p.advance = some (t.expr.toAST, t.endOf p.advance) :=
        fun fuel hf => parse_grouped t.opFuel t p.advance q (t.endOf p.advance).current fuel hin
          hg (by rw [hrp]; rfl) hq1 hq2 hf
      have h1 := readsOperand_paren t p _ hty hparse hrp hn
      exact ⟨(t.endOf p.advance).advance, readsOperand_mono _ F hF _ _ _ h1, hR⟩
  | bin op l r ihl ihr =>
      intro p pEnd F stop rest hs hg hF hrest hstop hR
      obtain ⟨hl, hty, _, hr⟩ := hs
      obtain ⟨gl, gr, _, _⟩ := hg
      have hFl : l.opFuel ≤ F := le_trans (le_max_left _ _) hF
      have hFr : r.opFuel ≤ F := le_trans (le_max_right _ _) hF
      obtain ⟨q, hq1, hq2⟩ := ihr (l.endOf p).advance pEnd F stop rest hr gr hFr hrest hstop hR
      have hrest1 : OpsOK (((l.endOf p).current, r.first)
          :: (r.pairs (l.endOf p).advance ++ rest)) := by
        intro x hx
        simp only [List.mem_cons, List.mem_append] at hx
        rcases hx with rfl | hx | hx
        · show 1 ≤ getBinopPrecedence (l.endOf p).current.type
          rw [hty, ArithOp.prec_tokType]
          split <;> omega
        · exact r.opsOK_pairs _ hr x hx
        · exact hrest x hx
      obtain ⟨q1, hq3, hq4⟩ := ihl p pEnd F stop _ hl gl hFl hrest1 hstop ⟨rfl, q, hq1, hq2⟩
      refine ⟨q1, hq3, ?_⟩
      show ReadsPairs F stop q1 ((l.pairs p ++ ((l.endOf p).current, r.first)
        :: r.pairs (l.endOf p).advance) ++ rest) pEnd
      rw [List.append_assoc]
      exact hq4

/-- The parser on the text of an arithmetic expression: when the tokens read
from `p` on are those of the text and the token after the text is no binary
operator and does not continue an operand, `parseExpression` returns the
tree of the split that Lua's precedence dictates, and stops behind the
text. -/
theorem parse_arith_text (t : ArithText) (p : Parser) (fuel : Nat) (hs : t.SpelledAt p)
    (hg : t.Grouped) (hstop : getBinopPrecedence (t.endOf p).current.type = 0)
    (hn : ¬ startsSuffix (t.endOf p).current.type) (hf : t.fuel ≤ fuel) :
    parseExpression fuel p = some (t.expr.toAST, t.endOf p) := by
  obtain ⟨q, hq1, hq2⟩ := t.reads p (t.endOf p) t.opFuel (t.endOf p).current [] hs hg
    (le_refl _) (fun x hx => absurd hx (List.not_mem_nil x)) hn ⟨rfl, rfl⟩
  rw [List.append_nil] at hq2
  exact parse_grouped t.opFuel t p q (t.endOf p).current fuel hs hg hstop hq1 hq2 hf

/-! ### Compiling and running -/

/-- The code of an arithmetic expression compiled in any state and run on the
decoded data of any chunk that contains it. -/
theorem arith_compile_run (e : ArithExpr) (st : CompilerState) (r v : Int)
    (hr : 0 ≤ r ∧ r < 256) (hT : 0 ≤ st.current.stackTop)
    (hregs : st.current.stackTop + (e.regs : Int) ≤ 256) (hv : e.value = some v) :
    ∃ st1,
      (∀ fuel, e.fuel ≤ fuel → compileExpressionToReg fuel st e.toAST r = some st1)
      ∧ st1.hadError = st.hadError
      ∧ (st.current.chunk.overrun = false → st1.current.chunk.Constants.length ≤ 32 →
          st1.current.chunk.overrun = false)
      ∧ st.current.chunk.Instructions <+: st1.current.chunk.Instructions
      ∧ st1.current.chunk.Instructions.length = st.current.chunk.Instructions.length + e.size
      ∧ ∀ (chunk : BytecodeChunk) (m fakeDraws : List Nat) (vm : VM),
          m.Perm (List.range 256) →
          st1.current.chunk.Instructions <+: chunk.Instructions →
          st1.current.chunk.Constants <+: chunk.Constants →
          chunk.Constants.length ≤ 32 →
          DecodedAt chunk m st.current.chunk.Instructions.length vm →
          ∃ vm1, Turns (handlerAssignments m fakeDraws) e.size vm vm1
            ∧ DecodedAt chunk m (st.current.chunk.Instructions.length + e.size) vm1
            ∧ vm1.S r = Value.num v
            ∧ (∀ j, j ≠ r →
                (j < st.current.stackTop ∨ st.current.stackTop + (e.regs : Int) ≤ j) →
                vm1.S j = vm.S j)
            ∧ vm1.G = vm.G := by
  refine ⟨cArith st e r, fun fuel hf => compile_arith e st r fuel hf, cArith_hadError e st r,
    fun h0 hlen => cArith_overrun e st r hlen h0, cArith_instructions_pre e st r,
    cArith_length e st r, ?_⟩
  intro chunk m fakeDraws vm hm hI hC hcount hvm
  obtain ⟨vm1, r1, a1, s1, u1, g1, _⟩ := cArith_turns chunk m (handlerAssignments m fakeDraws)
    (handlerAssignments_ok m hm fakeDraws) (by omega) e st r v vm hv hr.1 hr.2 hT hregs hI hC hvm
  rw [cArith_length] at a1
  exact ⟨vm1, r1, a1, s1, u1, g1⟩

/-- C2 (as amended). Parsing: when the tokens the parser reads are those of
the text of an arithmetic expression (integer literals, the binary operators
`+ - * / % ^`, parentheses) and the token after the text is no binary
operator and does not continue an operand, `parseExpression` returns the
tree that Lua's precedence and associativity give the text. Compiling and
running: for every arithmetic expression tree (also with unary minus) whose
literals and intermediate results are integers below 2^53 in magnitude,
every compiler state with stack top `s ≥ 0` such that `s` plus the registers
the tree needs (two per level of binary operators) is at most 256, and every
destination register `r` from 0 to 255, `compileExpressionToReg` returns
with enough fuel, keeps the error flag, stays inside the constant block when
the pool stays within 32 constants, and appends as many instructions as the
tree has literals and operators; and in every chunk that continues this code
and has at most 32 constants, under every opcode map that is a permutation of
0 .. 255, the dispatch loop running on the decoded data (the serialized bytes
with their zero padding) from the first of these instructions is behind the
last of them after exactly that many turns, with the value of the expression
in register `r`, the registers below `s` and above the operands other than
`r` unchanged. The turns that follow are not part of the statement. For
`1+2*3`, `(2+3)*4` and `2^10`, parsed, compiled into register 0 from the
start state and run on the decoded data, register 0 holds 7, 20 and 1024
after 5, 5 and 3 turns. -/
theorem arith_expression_value :
    (∀ (t : ArithText) (p : Parser) (fuel : Nat),
      t.SpelledAt p → t.Grouped → getBinopPrecedence (t.endOf p).current.type = 0 →
      ¬ startsSuffix (t.endOf p).current.type → t.fuel ≤ fuel →
      parseExpression fuel p = some (t.expr.toAST, t.endOf p))
    ∧ (∀ (e : ArithExpr) (st : CompilerState) (r v : Int),
      0 ≤ r ∧ r < 256 → 0 ≤ st.current.stackTop →
      st.current.stackTop + (e.regs : Int) ≤ 256 → e.value = some v →
      ∃ st1,
        (∀ fuel, e.fuel ≤ fuel → compileExpressionToReg fuel st e.toAST r = some st1)
        ∧ st1.hadError = st.hadError
        ∧ (st.current.chunk.overrun = false → st1.current.chunk.Constants.length ≤ 32 →
            st1.current.chunk.overrun = false)
        ∧ st.current.chunk.Instructions <+: st1.current.chunk.Instructions
        ∧ st1.current.chunk.Instructions.length = st.current.chunk.Instructions.length + e.size
        ∧ ∀ (chunk : BytecodeChunk) (m fakeDraws : List Nat) (vm : VM),
            m.Perm (List.range 256) →
            st1.current.chunk.Instructions <+: chunk.Instructions →
            st1.current.chunk.Constants <+: chunk.Constants →
            chunk.Constants.length ≤ 32 →
            DecodedAt chunk m st.current.chunk.Instructions.length vm →
            ∃ vm1, Turns (handlerAssignments m fakeDraws) e.size vm vm1
              ∧ DecodedAt chunk m (st.current.chunk.Instructions.length + e.size) vm1
              ∧ vm1.S r = Value.num v
              ∧ (∀ j, j ≠ r →
                  (j < st.current.stackTop ∨ st.current.stackTop + (e.regs : Int) ≤ j) →
                  vm1.S j = vm.S j)
              ∧ vm1.G = vm.G)
    ∧ (((parseExpression 100 (CreateParser "1+2*3")).bind
          (fun pr => compileExpressionToReg 100 startState pr.1 0)).bind
          (fun st => vmRun (handlerAssignments (List.range 256) []) 5
            (vmInit (padTo4 (serializeBuffer st.current.chunk (List.range 256)))
              (fun _ => Value.nil)))).map (fun vm => vm.S 0) = some (Value.num 7)
    ∧ (((parseExpression 100 (CreateParser "(2+3)*4")).bind
          (fun pr => compileExpressionToReg 100 startState pr.1 0)).bind
          (fun st => vmRun (handlerAssignments (List.range 256) []) 5
            (vmInit (padTo4 (serializeBuffer st.current.chunk (List.range 256)))
              (fun _ => Value.nil)))).map (fun vm => vm.S 0) = some (Value.num 20)
    ∧ (((parseExpression 100 (CreateParser "2^10")).bind
          (fun pr => compileExpressionToReg 100 startState pr.1 0)).bind
          (fun st => vmRun (handlerAssignments (List.range 256) []) 3
            (vmInit (padTo4 (serializeBuffer st.current.chunk (List.range 256)))
              (fun _ => Value.nil)))).map (fun vm => vm.S 0) = some (Value.num 1024) := by
  refine ⟨parse_arith_text, arith_compile_run, ?_, ?_, ?_⟩
  · decide!
  · decide!
  · decide!

/-- The general statements at `1+2*3`: the parser started on this text
returns the tree of `1+(2*3)` and stops after its five tokens; compiled from
the start state into register 0 and run on the decoded data under the opcode
map that `CreateBuildContext` builds from the random numbers 261, 260, ...,
the five instructions leave 7 in register 0 after five turns. -/
theorem arith_expression_value_witness :
    parseExpression 11 (CreateParser "1+2*3")
        = some ((ArithExpr.bin .add (.lit 1) (.bin .mul (.lit 2) (.lit 3))).toAST,
            (CreateParser "1+2*3").advance.advance.advance.advance.advance)
    ∧ ∃ st1,
        compileExpressionToReg 5 startState
            (ArithExpr.bin .add (.lit 1) (.bin .mul (.lit 2) (.lit 3))).toAST 0 = some st1
        ∧ ∃ vm1,
            vmRun (handlerAssignments (CreateBuildContext (fun k => 261 - k)).opcodeMap []) 5
                (vmInit (padTo4 (serializeBuffer st1.current.chunk
                  (CreateBuildContext (fun k => 261 - k)).opcodeMap)) (fun _ => Value.nil))
              = some vm1
            ∧ vm1.S 0 = Value.num 7 := by
  refine ⟨arith_expression_value.1 (.bin .add (.lit 1) (.bin .mul (.lit 2) (.lit 3)))
    (CreateParser "1+2*3") 11
    (by simp only [ArithText.SpelledAt, ArithText.endOf]; decide)
    ⟨trivial, ⟨trivial, trivial, trivial, trivial⟩, trivial, Or.inl (by decide)⟩
    (by decide) (by simp only [ArithText.endOf, startsSuffix]; decide) (by decide), ?_⟩
  obtain ⟨st1, hc, _, _, _, _, hrun⟩ := arith_expression_value.2.1
    (.bin .add (.lit 1) (.bin .mul (.lit 2) (.lit 3))) startState 0 7
    (by decide) (by decide) (by decide) (by decide)
  have e1 : st1 = cArith startState (.bin .add (.lit 1) (.bin .mul (.lit 2) (.lit 3))) 0 := by
    have h := hc 5 (by decide)
    rw [compile_arith _ _ _ _ (by decide)] at h
    exact (Option.some.inj h).symm
  subst e1
  refine ⟨_, hc 5 (by decide), ?_⟩
  obtain ⟨vm1, ht, _, hs, _, _⟩ := hrun _ (CreateBuildContext (fun k => 261 - k)).opcodeMap []
    _ (opcodeMap_perm _) (List.prefix_refl _) (List.prefix_refl _) (by decide)
    (vmInit_decoded _ (CreateBuildContext (fun k => 261 - k)).opcodeMap (fun _ => Value.nil)
      (by decide) (by decide)).1
  exact ⟨vm1, turns_run ht, hs⟩

/-- C2, counterexample: `1+2` compiled into destination register 256. The ADD
instruction is written with `A` as one byte, so after the three turns of the
code the sum is in register 0 and register 256 is nil. And with the stack
top at 255 (as deep inside a nested expression) the operand registers are
255 and 256: the second LOADK goes to byte 0, ADD reads register 256, which
is nil, and the script stops with a Lua error. Both runs are on the decoded
data. -/
theorem arith_register_wraps :
    (compileExpressionToReg 10 startState (ArithExpr.bin .add (.lit 1) (.lit 2)).toAST 256).map
        (fun st => st.current.chunk.Instructions)
      = some [⟨.OP_LOADK, 0, 0, 0⟩, ⟨.OP_LOADK, 1, 1, 0⟩, ⟨.OP_ADD, 256, 0, 1⟩]
    ∧ ((compileExpressionToReg 10 startState (ArithExpr.bin .add (.lit 1) (.lit 2)).toAST 256).bind
        (fun st => vmRun (handlerAssignments (List.range 256) []) 3
          (vmInit (padTo4 (serializeBuffer st.current.chunk (List.range 256)))
            (fun _ => Value.nil)))).map
        (fun vm => (vm.S 256, vm.S 0))
      = some (Value.nil, Value.num 3)
    ∧ ((compileExpressionToReg 10
          { startState with current := { startState.current with stackTop := 255 } }
          (ArithExpr.bin .add (.lit 1) (.lit 2)).toAST 0).bind
        (fun st => vmRun (handlerAssignments (List.range 256) []) 3
          (vmInit (padTo4 (serializeBuffer st.current.chunk (List.range 256)))
            (fun _ => Value.nil)))).map
        (fun vm => vm.S 0)
      = none := by
  refine ⟨?_, ?_, ?_⟩
  · decide!
  · decide!
  · decide!

/-! ## C14: unary operators and power -/

theorem matchUnaryOp_yes (p : Parser) (u : Token) (hc : p.current = u)
    (hu : u.type = .TOK_NOT ∨ u.type = .TOK_MINUS ∨ u.type = .TOK_HASH) :
    p.matchUnaryOp = (true, p.advance) := by
  rcases hu with h | h | h <;>
    simp [Parser.matchUnaryOp, Parser.matchTok, Parser.check, hc, h]

theorem parseBinopLoop_stop (p : Parser) (minPrec fuel : Nat) (left : ASTNode)
    (h : getBinopPrecedence p.current.type < minPrec) :
    parseBinopLoop (fuel + 1) p minPrec left = some (left, p) := by
  unfold parseBinopLoop
  simp only []
  rw [if_pos h]

theorem parseBinopLoop_step (p p2 : Parser) (minPrec fuel : Nat) (left right : ASTNode)
    (h : ¬ getBinopPrecedence p.current.type < minPrec)
    (hr : parseBinopExpr fuel p.advance (nextPrecOf p.current) = some (right, p2)) :
    parseBinopLoop (fuel + 1) p minPrec left
      = parseBinopLoop fuel p2 minPrec (.NODE_BINOP p.current.value left right) := by
  rw [parseBinopLoop]
  simp only []
  rw [if_neg h]
  have hnp : (if p.current.type = .TOK_CARET ∨ p.current.type = .TOK_DOTDOT
      then getBinopPrecedence p.current.type else getBinopPrecedence p.current.type + 1)
      = nextPrecOf p.current := rfl
  rw [hnp, hr]

/-- The unary operator takes the operand alone, and `^` then takes the
result as its left operand. -/
theorem parse_unary_power (p : Parser) (u a c b stop : Token) (fuel : Nat)
    (hu : u.type = .TOK_NOT ∨ u.type = .TOK_MINUS ∨ u.type = .TOK_HASH)
    (ha : a.isOperand) (hc : c.type = .TOK_CARET) (hb : b.isOperand) (hs : stop.isStop)
    (hF : Feeds p [u, a, c, b, stop]) :
    parseExpression (fuel + 9) p
      = some (.NODE_BINOP c.value (.NODE_UNOP u.value (operandNode a)) (operandNode b),
          Parser.advanceN 4 p) := by
  obtain ⟨h0, h1, h2, h3, h4, _⟩ := hF
  have hcs : ¬ startsSuffix c.type := by rw [hc]; simp [startsSuffix]
  have e1 : parseUnaryExpr (fuel + 7) p
      = some (.NODE_UNOP u.value (operandNode a), p.advance.advance) := by
    rw [parseUnaryExpr, matchUnaryOp_yes p u h0 hu]
    simp only [if_true]
    rw [parseUnaryExpr_operand p.advance a c (fuel + 2) ha hcs h1 h2, advance_previous, h0]
  have e2 : parseUnaryExpr (fuel + 5) p.advance.advance.advance
      = some (operandNode b, p.advance.advance.advance.advance) :=
    parseUnaryExpr_operand _ b stop (fuel + 1) hb hs.2 h3 h4
  have hst : ∀ q, 1 ≤ q →
      getBinopPrecedence p.advance.advance.advance.advance.current.type < q := by
    intro q hq
    rw [h4, hs.1]
    omega
  have hn8 : nextPrecOf p.advance.advance.current = 8 := by
    rw [h2]
    unfold nextPrecOf
    rw [hc]
    rfl
  have e3 : parseBinopExpr (fuel + 6) p.advance.advance.advance
      (nextPrecOf p.advance.advance.current)
      = some (operandNode b, p.advance.advance.advance.advance) := by
    rw [parseBinopExpr, e2]
    simp only []
    exact parseBinopLoop_stop _ _ _ _ (hst _ (by rw [hn8]; omega))
  have hnl : ¬ getBinopPrecedence p.advance.advance.current.type < 1 := by
    rw [h2, hc]
    decide
  rw [parseExpression, parseBinopExpr, e1]
  simp only []
  rw [parseBinopLoop_step _ _ 1 (fuel + 6) _ _ hnl e3, h2]
  exact parseBinopLoop_stop _ _ _ _ (hst 1 (le_refl _))

/-- C14 (the code departs from the claim): for a unary operator u (`not`,
`-` or `#`), operands a and b (names or numbers) and any token after them
that ends the expression, `u a ^ b` parses as the power node whose left
operand is the unary node (u a): `parseUnaryExpr` parses its operand with
`parseUnaryExpr`, never reaching `^`. This is not the tree of the claim, the
unary node over (a ^ b). So `-2^2`, `-a^b`, `not a^b` and `#a^b` parse as
(-2)^2, (-a)^b, (not a)^b and (#a)^b. -/
theorem unary_binds_tighter_than_power :
    (∀ (p : Parser) (u a c b stop : Token) (fuel : Nat),
      (u.type = .TOK_NOT ∨ u.type = .TOK_MINUS ∨ u.type = .TOK_HASH) →
      a.isOperand → c.type = .TOK_CARET → b.isOperand → stop.isStop →
      Feeds p [u, a, c, b, stop] →
      parseExpression (fuel + 9) p
          = some (.NODE_BINOP c.value (.NODE_UNOP u.value (operandNode a)) (operandNode b),
              Parser.advanceN 4 p)
        ∧ ASTNode.NODE_BINOP c.value (.NODE_UNOP u.value (operandNode a)) (operandNode b)
          ≠ ASTNode.NODE_UNOP u.value (.NODE_BINOP c.value (operandNode a) (operandNode b)))
    ∧ (parseExpression 100 (CreateParser "-2^2")).map (fun r => r.1)
        = some (.NODE_BINOP "^" (.NODE_UNOP "-" (.NODE_NUMBER (.int 2))) (.NODE_NUMBER (.int 2)))
    ∧ (parseExpression 100 (CreateParser "-a^b")).map (fun r => r.1)
        = some (.NODE_BINOP "^" (.NODE_UNOP "-" (.NODE_NAME "a")) (.NODE_NAME "b"))
    ∧ (parseExpression 100 (CreateParser "not a^b")).map (fun r => r.1)
        = some (.NODE_BINOP "^" (.NODE_UNOP "not" (.NODE_NAME "a")) (.NODE_NAME "b"))
    ∧ (parseExpression 100 (CreateParser "#a^b")).map (fun r => r.1)
        = some (.NODE_BINOP "^" (.NODE_UNOP "#" (.NODE_NAME "a")) (.NODE_NAME "b")) := by
  refine ⟨?_, rfl, rfl, rfl, rfl⟩
  intro p u a c b stop fuel hu ha hc hb hs hF
  exact ⟨parse_unary_power p u a c b stop fuel hu ha hc hb hs hF, fun h => by cases h⟩

/-- The general statement at `-2^2`. -/
theorem unary_binds_tighter_than_power_witness :
    parseExpression 9 (CreateParser "-2^2")
        = some (.NODE_BINOP "^" (.NODE_UNOP "-" (operandNode (Token.mk .TOK_NUMBER "2" 1 3)))
            (operandNode (Token.mk .TOK_NUMBER "2" 1 5)),
          Parser.advanceN 4 (CreateParser "-2^2"))
      ∧ ASTNode.NODE_BINOP "^" (.NODE_UNOP "-" (operandNode (Token.mk .TOK_NUMBER "2" 1 3)))
          (operandNode (Token.mk .TOK_NUMBER "2" 1 5))
        ≠ ASTNode.NODE_UNOP "-" (.NODE_BINOP "^" (operandNode (Token.mk .TOK_NUMBER "2" 1 3))
          (operandNode (Token.mk .TOK_NUMBER "2" 1 5))) :=
  unary_binds_tighter_than_power.1 (CreateParser "-2^2") (Token.mk .TOK_MINUS "-" 1 2)
    (Token.mk .TOK_NUMBER "2" 1 3) (Token.mk .TOK_CARET "^" 1 4) (Token.mk .TOK_NUMBER "2" 1 5)
    (Token.mk .TOK_EOF "" 1 5) 0 (Or.inr (Or.inl rfl)) (Or.inr rfl) rfl (Or.inr rfl)
    ⟨rfl, by simp [startsSuffix]⟩
    ⟨by decide, by decide, by decide, by decide, by decide, trivial⟩

/-! ## C15: tokens that cannot begin a statement -/

theorem parseStatement_cannot_begin (p : Parser) (fuel : Nat)
    (h : cannotBeginStatement p.current.type) :
    parseStatement (fuel + 1) p = some (none, p) := by
  obtain ⟨h1, h2, h3, h4, h5, h6, h7, h8, h9, h10, h11, h12, h13⟩ := h
  unfold parseStatement
  simp only [Parser.check, h1, h2, h3, h4, h5, h6, h7, h8, h9, h10, h11, h12, h13,
    decide_False, Bool.false_eq_true, if_false, Bool.false_or, Bool.not_false, Bool.and_self,
    if_true, ite_self]

/-- C15, amended: at top level a token that cannot begin a statement is not an
error. `parseStatement` returns NULL on it without touching the parser, and
the loop of `Parse` steps over it with one `advance` (and an optional
semicolon) and goes on; the error flag and message change only if the token
after it is a lexical error. The "expected expression" error with line and
token name is raised where an expression is required (`parsePrimaryExpr`). -/
theorem unknown_token_skipped (p : Parser) (fuel : Nat) (stmts : List ASTNode)
    (h : cannotBeginStatement p.current.type) (he : p.hadError = false) :
    parseStatement (fuel + 1) p = some (none, p)
      ∧ parseChunkLoop (fuel + 2) p stmts
          = parseChunkLoop (fuel + 1) (p.advance.matchTok .TOK_SEMICOLON).2 stmts
      ∧ (p.advance.current.type ≠ .TOK_ERROR →
          p.advance.hadError = false ∧ p.advance.errorMsg = p.errorMsg)
      ∧ (p.current.type ≠ .TOK_END → p.current.type ≠ .TOK_ELSE →
          p.current.type ≠ .TOK_ELSEIF → p.current.type ≠ .TOK_UNTIL →
          parsePrimaryExpr (fuel + 1) p = some (.NODE_NIL, p.expectedExpression)
            ∧ p.expectedExpression.hadError = true
            ∧ p.expectedExpression.errorMsg
                = snprintf256 ("Line " ++ toString p.current.line
                    ++ ": Expected expression, got " ++ TokenTypeName p.current.type)) := by
  refine ⟨parseStatement_cannot_begin p fuel h, ?_, ?_, ?_⟩
  · rw [parseChunkLoop]
    have h1 : p.check .TOK_EOF = false := by simp [Parser.check, h.1]
    simp only [h1, he, Bool.not_false, Bool.and_self, if_true,
      parseStatement_cannot_begin p fuel h]
  · intro hne
    unfold Parser.advance at hne ⊢
    simp only [] at hne ⊢
    split
    · rename_i hc
      rw [if_pos hc] at hne
      exact absurd hc hne
    · exact ⟨he, rfl⟩
  · intro e1 e2 e3 e4
    refine ⟨?_, rfl, rfl⟩
    unfold parsePrimaryExpr
    simp [Parser.check, Parser.matchTok, Parser.atBlockEnd, h.1, h.2.2.2.2.2.2.2.2.2.2.2.1,
      h.2.2.2.2.2.2.2.2.2.2.2.2, e1, e2, e3, e4]

/-- The statement at the source `1 x = 2`. -/
theorem unknown_token_skipped_witness :
    parseStatement (98 + 1) (CreateParser "1 x = 2") = some (none, CreateParser "1 x = 2")
      ∧ parseChunkLoop (98 + 2) (CreateParser "1 x = 2") []
          = parseChunkLoop (98 + 1)
              ((CreateParser "1 x = 2").advance.matchTok .TOK_SEMICOLON).2 [] :=
  ⟨(unknown_token_skipped (CreateParser "1 x = 2") 98 [] (by decide) (by decide)).1,
    (unknown_token_skipped (CreateParser "1 x = 2") 98 [] (by decide) (by decide)).2.1⟩

/-- C15 as stated fails: on `1 x = 2`, `) x = 2` and `+ x = 2` the first token
cannot begin a statement, and `Parse` returns the chunk of `x = 2` with
`hadError` unset and an empty message. -/
theorem number_statement_accepted :
    (Parse 100 (CreateParser "1 x = 2")).map (fun r => (r.1, r.2.hadError, r.2.errorMsg))
        = some (.NODE_CHUNK [.NODE_ASSIGN [.NODE_NAME "x"] [.NODE_NUMBER (.int 2)]], false, "")
    ∧ (Parse 100 (CreateParser ") x = 2")).map (fun r => (r.1, r.2.hadError, r.2.errorMsg))
        = some (.NODE_CHUNK [.NODE_ASSIGN [.NODE_NAME "x"] [.NODE_NUMBER (.int 2)]], false, "")
    ∧ (Parse 100 (CreateParser "+ x = 2")).map (fun r => (r.1, r.2.hadError, r.2.errorMsg))
        = some (.NODE_CHUNK [.NODE_ASSIGN [.NODE_NAME "x"] [.NODE_NUMBER (.int 2)]], false, "") :=
  ⟨rfl, rfl, rfl⟩

/-! ## C16: the error message of the parser -/

theorem advance_hadError (p : Parser) (h : p.hadError = true) : p.advance.hadError = true := by
  unfold Parser.advance
  simp only []
  split
  · rfl
  · exact h

/-- C16, amended: the error flag is never cleared by `advance`, `match`,
`expect` or the error branch of `parsePrimaryExpr`, but each of them that
fails stores its own message whatever was recorded before: a failing `expect`
writes "Line l: Expected msg, got token", an `advance` onto a lexical error
writes the lexer's message, `parsePrimaryExpr` writes "Expected expression".
The message left is that of the last failure. -/
theorem later_error_replaces_message (p : Parser) (ty : TokenType) (msg : String)
    (h : p.current.type ≠ ty) :
    (p.expect ty msg).hadError = true
      ∧ (p.expect ty msg).errorMsg
          = snprintf256 ("Line " ++ toString p.current.line ++ ": Expected " ++ msg
              ++ ", got " ++ TokenTypeName p.current.type)
      ∧ p.expectedExpression.errorMsg
          = snprintf256 ("Line " ++ toString p.current.line ++ ": Expected expression, got "
              ++ TokenTypeName p.current.type)
      ∧ ((NextToken p.lexer).1.type = .TOK_ERROR →
          p.advance.errorMsg
            = snprintf256 ("Line " ++ toString (NextToken p.lexer).1.line ++ ": "
                ++ (NextToken p.lexer).1.value))
      ∧ (p.hadError = true →
          p.advance.hadError = true ∧ (p.matchTok ty).2.hadError = true
            ∧ ∀ ty1 msg1, (p.expect ty1 msg1).hadError = true) := by
  have hm : p.matchTok ty = (false, p) := by
    simp [Parser.matchTok, Parser.check, h]
  refine ⟨?_, ?_, rfl, ?_, ?_⟩
  · simp [Parser.expect, hm]
  · simp [Parser.expect, hm]
  · intro he
    unfold Parser.advance
    simp only []
    rw [if_pos he]
  · intro he
    refine ⟨advance_hadError p he, by rw [hm]; exact he, ?_⟩
    intro ty1 msg1
    unfold Parser.expect Parser.matchTok
    simp only []
    split
    · split
      · exact advance_hadError p he
      · rfl
    · rfl

/-- The statement after the first error of `if x`: the parser that has
recorded the missing `then` records the missing `end` next. -/
theorem later_error_replaces_message_witness :
    ((Parser.advanceN 2 (CreateParser "if x")).expect .TOK_THEN "then").errorMsg
        = "Line 1: Expected then, got EOF"
      ∧ (((Parser.advanceN 2 (CreateParser "if x")).expect .TOK_THEN "then").expect
            .TOK_END "end").errorMsg
          = snprintf256 ("Line " ++ toString
              ((Parser.advanceN 2 (CreateParser "if x")).expect .TOK_THEN "then").current.line
              ++ ": Expected " ++ "end" ++ ", got " ++ TokenTypeName
              ((Parser.advanceN 2 (CreateParser "if x")).expect .TOK_THEN "then").current.type) :=
  ⟨by decide, (later_error_replaces_message
    ((Parser.advanceN 2 (CreateParser "if x")).expect .TOK_THEN "then") .TOK_END "end"
    (by decide)).2.1⟩

/-- C16 as stated fails: for `if x` followed by the end of input the first
error is the missing `then` (the message after the condition is parsed), and
the message after `Parse` is that of the later missing `end`. The same holds
for `if x y = 1`. -/
theorem first_error_overwritten :
    (Parse 100 (CreateParser "if x")).map (fun r => (r.2.hadError, r.2.errorMsg))
        = some (true, "Line 1: Expected end, got EOF")
    ∧ (parseExpression 100 (CreateParser "if x").advance).map
          (fun r => ((r.2.expect .TOK_THEN "then").hadError,
            (r.2.expect .TOK_THEN "then").errorMsg))
        = some (true, "Line 1: Expected then, got EOF")
    ∧ (Parse 100 (CreateParser "if x y = 1")).map (fun r => (r.2.hadError, r.2.errorMsg))
        = some (true, "Line 1: Expected end, got EOF") := by
  refine ⟨?_, ?_, ?_⟩ <;> decide!

/-! ## C17: termination of `Parse` -/

/-- The loop of `parseBlock` makes no progress on a token that cannot begin a
statement: no amount of fuel lets it return. -/
theorem parseBlockLoop_stuck (p : Parser) (h : cannotBeginStatement p.current.type)
    (hb : p.atBlockEnd = false) : ∀ fuel stmts, parseBlockLoop fuel p stmts = none := by
  have h1 : p.check .TOK_EOF = false := by simp [Parser.check, h.1]
  have h2 : p.matchTok .TOK_SEMICOLON = (false, p) := by
    simp [Parser.matchTok, Parser.check, h.2.1]
  intro fuel
  induction fuel with
  | zero => intro stmts; rfl
  | succ fuel ih =>
      intro stmts
      rw [parseBlockLoop]
      simp only [hb, h1, Bool.not_false, Bool.and_self, if_true]
      cases fuel with
      | zero => rfl
      | succ f =>
          rw [parseStatement_cannot_begin p f h]
          simp only [h2]
          exact ih stmts

theorem parse_do_stuck (p : Parser) (hc : p.current.type = .TOK_DO) (he : p.hadError = false)
    (h : cannotBeginStatement p.advance.current.type) (hb : p.advance.atBlockEnd = false) :
    ∀ fuel, Parse fuel p = none := by
  intro fuel
  unfold Parse
  have hs : ∀ f, parseStatement f p = none := by
    intro f
    cases f with
    | zero => rfl
    | succ f =>
        have hbk : parseBlock f p.advance = none := by
          cases f with
          | zero => rfl
          | succ f => rw [parseBlock, parseBlockLoop_stuck p.advance h hb f []]
        unfold parseStatement
        simp [Parser.check, hc, hbk]
  have hl : parseChunkLoop fuel p [] = none := by
    cases fuel with
    | zero => rfl
    | succ f =>
        rw [parseChunkLoop]
        simp [Parser.check, hc, he, hs f]
  rw [hl]

/-- C17 (the code departs from the claim): inside a block, a token that cannot
begin a statement and does not end the block stops the parser for good.
`parseStatement` returns NULL without consuming it and the loop of
`parseBlock` asks again, so `parseBlock` never returns; in the model no fuel
is enough. `Parse` does not return on `do 1 end`, nor on `do @ end`, where
the token is a lexical error. -/
theorem block_loop_never_returns :
    (∀ p : Parser, cannotBeginStatement p.current.type → p.atBlockEnd = false →
      ∀ fuel stmts, parseBlockLoop fuel p stmts = none ∧ parseBlock fuel p = none)
    ∧ (∀ fuel, Parse fuel (CreateParser "do 1 end") = none)
    ∧ (∀ fuel, Parse fuel (CreateParser "do @ end") = none)
    ∧ (CreateParser "do @ end").advance.current
        = Token.mk .TOK_ERROR "Unexpected character" 1 5 := by
  refine ⟨?_, ?_, ?_, by decide⟩
  · intro p h hb fuel stmts
    refine ⟨parseBlockLoop_stuck p h hb fuel stmts, ?_⟩
    cases fuel with
    | zero => rfl
    | succ f => rw [parseBlock, parseBlockLoop_stuck p h hb f []]
  · exact parse_do_stuck _ (by decide) (by decide) (by decide) (by decide)
  · exact parse_do_stuck _ (by decide) (by decide) (by decide) (by decide)

/-- The general statement at the parser that has read `do` of `do 1 end`. -/
theorem block_loop_never_returns_witness :
    parseBlockLoop 1000 (CreateParser "do 1 end").advance [] = none
      ∧ parseBlock 1000 (CreateParser "do 1 end").advance = none :=
  block_loop_never_returns.1 (CreateParser "do 1 end").advance (by decide) (by decide) 1000 []

/-! ## The error flag through the compiler -/

@[simp] theorem emitInstruction_hadError (st : CompilerState) (op : OpCode) (a b c : Int) :
    (emitInstruction st op a b c).hadError = st.hadError := rfl

@[simp] theorem patchB_hadError (st : CompilerState) (i b : Int) :
    (patchB st i b).hadError = st.hadError := rfl

@[simp] theorem allocReg_hadError (st : CompilerState) :
    (allocReg st).hadError = st.hadError := rfl

@[simp] theorem freeReg_hadError (st : CompilerState) :
    (freeReg st).hadError = st.hadError := rfl

@[simp] theorem beginScope_hadError (st : CompilerState) :
    (beginScope st).hadError = st.hadError := rfl

@[simp] theorem endScope_hadError (st : CompilerState) :
    (endScope st).hadError = st.hadError := rfl

@[simp] theorem addConstant_hadError (st : CompilerState) (v : String) :
    (addConstant st v).2.hadError = st.hadError := by
  unfold addConstant; split <;> rfl

@[simp] theorem freeRegs_hadError (st : CompilerState) (n : Nat) :
    (freeRegs st n).hadError = st.hadError := by
  induction n generalizing st with
  | zero => rfl
  | succ n ih => rw [freeRegs, ih]; rfl

@[simp] theorem compileName_hadError (st : CompilerState) (name : String) (reg : Int) :
    (compileName st name reg).hadError = st.hadError := by
  unfold compileName
  dsimp only
  split_ifs <;> simp

@[simp] theorem emitClosure_hadError (st : CompilerState) (luaCode : String) (reg : Int)
    (n : Nat) : (emitClosure st luaCode reg n).hadError = st.hadError := by
  unfold emitClosure
  simp

theorem addLocal_keeps (st : CompilerState) (n : String) (h : st.hadError = true) :
    (addLocal st n).hadError = true := by
  unfold addLocal
  split
  · rfl
  · exact h

theorem addLocals_keeps (st : CompilerState) (ns : List ASTNode) (h : st.hadError = true) :
    (addLocals st ns).hadError = true := by
  induction ns generalizing st with
  | nil => exact h
  | cons n rest ih => rw [addLocals]; exact ih _ (addLocal_keeps st _ h)

theorem compileCall_keeps (fuel : Nat) (ih : AllKeep fuel) (st : CompilerState) (func : ASTNode)
    (args : List ASTNode) (reg : Int) : KeepsError st (compileCall (fuel + 1) st func args reg) := by
  intro st9 hr he
  unfold compileCall at hr
  split at hr
  · cases hr
  · rename_i sa ha
    have ea := ih.expr _ _ _ _ ha
    split at hr
    · cases hr
    · rename_i sb hb
      have eb := ih.exprsInto _ _ _ _ hb
      cases hr
      simp_all

theorem compileMethodCall_keeps (fuel : Nat) (ih : AllKeep fuel) (st : CompilerState)
    (object : ASTNode) (method : String) (args : List ASTNode) (reg : Int) :
    KeepsError st (compileMethodCall (fuel + 1) st object method args reg) := by
  intro st9 hr he
  unfold compileMethodCall at hr
  split at hr
  · cases hr
  · rename_i sa ha
    have ea := ih.expr _ _ _ _ ha
    dsimp only at hr
    split at hr
    · cases hr
    · rename_i sb hb
      have eb := ih.exprsInto _ _ _ _ hb
      cases hr
      simp_all

theorem compileExprsInto_keeps (fuel : Nat) (ih : AllKeep fuel) (st : CompilerState)
    (es : List ASTNode) (reg : Int) : KeepsError st (compileExprsInto (fuel + 1) st es reg) := by
  intro st9 hr he
  cases es with
  | nil =>
      unfold compileExprsInto at hr
      cases hr
      exact he
  | cons e rest =>
      unfold compileExprsInto at hr
      split at hr
      · cases hr
      · rename_i sa ha
        have ea := ih.expr _ _ _ _ ha
        have eb := ih.exprsInto _ _ _ _ hr
        simp_all

theorem compileDotIndex_keeps (fuel : Nat) (ih : AllKeep fuel) (st : CompilerState)
    (object : ASTNode) (field : String) (reg : Int) :
    KeepsError st (compileDotIndex (fuel + 1) st object field reg) := by
  intro st9 hr he
  unfold compileDotIndex at hr
  split at hr
  · cases hr
  · rename_i sa ha
    have ea := ih.expr _ _ _ _ ha
    dsimp only at hr
    cases hr
    simp_all

theorem compileIndex_keeps (fuel : Nat) (ih : AllKeep fuel) (st : CompilerState)
    (object key : ASTNode) (reg : Int) :
    KeepsError st (compileIndex (fuel + 1) st object key reg) := by
  intro st9 hr he
  unfold compileIndex at hr
  split at hr
  · cases hr
  · rename_i sa ha
    have ea := ih.expr _ _ _ _ ha
    dsimp only at hr
    split at hr
    · cases hr
    · rename_i sb hb
      have eb := ih.expr _ _ _ _ hb
      cases hr
      simp_all

theorem compileTableFields_keeps (fuel : Nat) (ih : AllKeep fuel) (st : CompilerState)
    (fields : List ASTNode) (reg arrayIdx : Int) :
    KeepsError st (compileTableFields (fuel + 1) st fields reg arrayIdx) := by
  intro st9 hr he
  cases fields with
  | nil =>
      unfold compileTableFields at hr
      cases hr
      exact he
  | cons field rest =>
      unfold compileTableFields at hr
      split at hr
      all_goals dsimp only at hr
      all_goals
        split at hr
        · cases hr
        · rename_i sa ha
          have ea := ih.expr _ _ _ _ ha
          first
            | (have eb := ih.tableFields _ _ _ _ _ hr
               simp_all)
            | (split at hr
               · cases hr
               · rename_i sb hb
                 have eb := ih.expr _ _ _ _ hb
                 have ec := ih.tableFields _ _ _ _ _ hr
                 simp_all)

theorem compileTable_keeps (fuel : Nat) (ih : AllKeep fuel) (st : CompilerState)
    (fields : List ASTNode) (reg : Int) :
    KeepsError st (compileTable (fuel + 1) st fields reg) := by
  intro st9 hr he
  unfold compileTable at hr
  dsimp only at hr
  have ea := ih.tableFields _ _ _ _ _ hr
  simp_all

theorem compileBinop_keeps (fuel : Nat) (ih : AllKeep fuel) (st : CompilerState)
    (op : String) (left right : ASTNode) (reg : Int) :
    KeepsError st (compileBinop (fuel + 1) st op left right reg) := by
  intro st9 hr he
  unfold compileBinop at hr
  split at hr
  · split at hr
    · cases hr
    · rename_i sa ha
      have ea := ih.expr _ _ _ _ ha
      dsimp only at hr
      split at hr
      · cases hr
      · rename_i sb hb
        have eb := ih.expr _ _ _ _ hb
        cases hr
        simp_all
  · dsimp only at hr
    split at hr
    · cases hr
    · rename_i sa ha
      have ea := ih.expr _ _ _ _ ha
      split at hr
      · cases hr
      · rename_i sb hb
        have eb := ih.expr _ _ _ _ hb
        split at hr
        · cases hr
          simp_all
        · split at hr
          · cases hr
            split <;> simp_all
          · cases hr
            simp_all

theorem compileUnop_keeps (fuel : Nat) (ih : AllKeep fuel) (st : CompilerState)
    (op : String) (operand : ASTNode) (reg : Int) :
    KeepsError st (compileUnop (fuel + 1) st op operand reg) := by
  intro st9 hr he
  unfold compileUnop at hr
  split at hr
  · cases hr
  · rename_i sa ha
    have ea := ih.expr _ _ _ _ ha
    split_ifs at hr <;> cases hr <;> simp_all

theorem compileExpressionToReg_keeps (fuel : Nat) (ih : AllKeep fuel) (st : CompilerState)
    (node : ASTNode) (reg : Int) :
    KeepsError st (compileExpressionToReg (fuel + 1) st node reg) := by
  intro st9 hr he
  unfold compileExpressionToReg at hr
  split at hr
  · cases hr
    simp [compileNumber, addNumberConstant, he]
  · cases hr
    simp [compileString, he]
  · cases hr
    simp [compileBool, he]
  · cases hr
    simp [compileNil, he]
  · cases hr
    simp [he]
  · exact ih.call _ _ _ _ _ hr he
  · exact ih.methodCall _ _ _ _ _ _ hr he
  · exact ih.dotIndex _ _ _ _ _ hr he
  · exact ih.index _ _ _ _ _ hr he
  · exact ih.table _ _ _ _ hr he
  · exact ih.binop _ _ _ _ _ _ hr he
  · exact ih.unop _ _ _ _ _ hr he
  · split at hr
    · cases hr
    · cases hr
      simp [he]
  · cases hr
    rfl

theorem compileLocalValues_keeps (fuel : Nat) (ih : AllKeep fuel) (st : CompilerState)
    (count : Nat) (values : List ASTNode) (slot : Int) :
    KeepsError st (compileLocalValues (fuel + 1) st count values slot) := by
  intro st9 hr he
  cases count with
  | zero =>
      unfold compileLocalValues at hr
      cases hr
      exact he
  | succ count =>
      unfold compileLocalValues at hr
      split at hr
      · split at hr
        · cases hr
        · rename_i sa ha
          have ea := ih.expr _ _ _ _ ha
          have eb := ih.localValues _ _ _ _ _ hr
          simp_all
      · have eb := ih.localValues _ _ _ _ _ hr
        simp_all

theorem compileLocal_keeps (fuel : Nat) (ih : AllKeep fuel) (st : CompilerState)
    (names values : List ASTNode) :
    KeepsError st (compileLocal (fuel + 1) st names values) := by
  intro st9 hr he
  unfold compileLocal at hr
  dsimp only at hr
  exact ih.localValues _ _ _ _ _ hr (addLocals_keeps _ _ he)

theorem compileAssignValues_keeps (fuel : Nat) (ih : AllKeep fuel) (st : CompilerState)
    (values : List ASTNode) :
    KeepsError st (compileAssignValues (fuel + 1) st values) := by
  intro st9 hr he
  cases values with
  | nil =>
      unfold compileAssignValues at hr
      cases hr
      exact he
  | cons v rest =>
      unfold compileAssignValues at hr
      dsimp only at hr
      split at hr
      · cases hr
      · rename_i sa ha
        have ea := ih.expr _ _ _ _ ha
        have eb := ih.assignValues _ _ _ hr
        simp_all

theorem compileAssignTargets_keeps (fuel : Nat) (ih : AllKeep fuel) (st : CompilerState)
    (targets : List ASTNode) (i valueCount : Nat) (baseReg : Int) :
    KeepsError st (compileAssignTargets (fuel + 1) st targets i valueCount baseReg) := by
  intro st9 hr he
  cases targets with
  | nil =>
      unfold compileAssignTargets at hr
      cases hr
      exact he
  | cons target rest =>
      unfold compileAssignTargets at hr
      dsimp only at hr
      split at hr
      · split_ifs at hr
        all_goals
          have eb := ih.assignTargets _ _ _ _ _ _ hr
          simp_all
      · split at hr
        · cases hr
        · rename_i sa ha
          have ea := ih.expr _ _ _ _ ha
          have eb := ih.assignTargets _ _ _ _ _ _ hr
          simp_all
      · split at hr
        · cases hr
        · rename_i sa ha
          have ea := ih.expr _ _ _ _ ha
          split at hr
          · cases hr
          · rename_i sb hb
            have eb := ih.expr _ _ _ _ hb
            have ec := ih.assignTargets _ _ _ _ _ _ hr
            simp_all
      · exact ih.assignTargets _ _ _ _ _ _ hr he

theorem compileAssign_keeps (fuel : Nat) (ih : AllKeep fuel) (st : CompilerState)
    (targets values : List ASTNode) :
    KeepsError st (compileAssign (fuel + 1) st targets values) := by
  intro st9 hr he
  unfold compileAssign at hr
  dsimp only at hr
  split at hr
  · cases hr
  · rename_i sa ha
    have ea := ih.assignValues _ _ _ ha
    split at hr
    · cases hr
    · rename_i sb hb
      have eb := ih.assignTargets _ _ _ _ _ _ hb
      cases hr
      simp_all

theorem compileCondition_keeps (fuel : Nat) (ih : AllKeep fuel) (st : CompilerState)
    (cond : ASTNode) (freeBeforeTest : Bool) :
    KeepsError st (compileCondition (fuel + 1) st cond freeBeforeTest) := by
  intro st9 hr he
  unfold compileCondition at hr
  simp only [] at hr
  split at hr
  · split at hr
    · split at hr
      · cases hr
      · rename_i sa ha
        have ea := ih.expr _ _ _ _ ha
        split at hr
        · cases hr
        · rename_i sb hb
          have eb := ih.expr _ _ _ _ hb
          cases hr
          split <;> simp_all
    · split at hr
      · cases hr
      · rename_i sa ha
        have ea := ih.expr _ _ _ _ ha
        split at hr <;> cases hr <;> simp_all
  · split at hr
    · cases hr
    · rename_i sa ha
      have ea := ih.expr _ _ _ _ ha
      split at hr <;> cases hr <;> simp_all

theorem compileElseifs_keeps (fuel : Nat) (ih : AllKeep fuel) (st : CompilerState)
    (elseifs : List ASTNode) (elseJump : Int) :
    KeepsError st ((compileElseifs (fuel + 1) st elseifs elseJump).map Prod.fst) := by
  intro st9 hr he
  cases elseifs with
  | nil =>
      unfold compileElseifs at hr
      cases hr
      exact he
  | cons e rest =>
      unfold compileElseifs at hr
      simp only [] at hr
      split at hr
      · split at hr
        · cases hr
        · rename_i sa ha
          have ea := ih.expr _ _ _ _ ha
          split at hr
          · cases hr
          · rename_i sb hb
            have eb := ih.node _ _ _ hb
            have ec := ih.elseifs _ _ _ _ hr
            split at ec <;> simp_all
      · exact ih.elseifs _ _ _ _ hr he

theorem compileIf_keeps (fuel : Nat) (ih : AllKeep fuel) (st : CompilerState)
    (cond thenBlock : ASTNode) (elseifs : List ASTNode) (elseBlock : Option ASTNode) :
    KeepsError st (compileIf (fuel + 1) st cond thenBlock elseifs elseBlock) := by
  intro st9 hr he
  unfold compileIf at hr
  split at hr
  · cases hr
  · rename_i sa ha
    have ea := ih.condition _ _ _ _ ha
    dsimp only at hr
    split at hr
    · cases hr
    · rename_i sb hb
      have eb := ih.node _ _ _ hb
      split at hr
      · cases hr
      · rename_i sc jc hc
        have hc1 := congrArg (Option.map Prod.fst) hc
        have ec := ih.elseifs _ _ _ sc hc1
        split at hr
        · cases hr
        · rename_i sd hd
          have ed : sc.hadError = true → sd.hadError = true := by
            intro p
            split at hd
            · split at hd
              · cases hd
              · rename_i se hse
                cases hd
                exact ih.node _ _ se hse p
            · cases hd
              exact p
          split at hr <;> cases hr <;> split at ec <;> simp_all

theorem compileWhile_keeps (fuel : Nat) (ih : AllKeep fuel) (st : CompilerState)
    (cond body : ASTNode) :
    KeepsError st (compileWhile (fuel + 1) st cond body) := by
  intro st9 hr he
  unfold compileWhile at hr
  dsimp only at hr
  split at hr
  · cases hr
  · rename_i sa ha
    have ea := ih.condition _ _ _ _ ha
    split at hr
    · cases hr
    · rename_i sb hb
      have eb := ih.node _ _ _ hb
      cases hr
      simp_all

theorem compileReturn_keeps (fuel : Nat) (ih : AllKeep fuel) (st : CompilerState)
    (values : List ASTNode) :
    KeepsError st (compileReturn (fuel + 1) st values) := by
  intro st9 hr he
  unfold compileReturn at hr
  dsimp only at hr
  split at hr
  · cases hr
  · rename_i sa ha
    have ea := ih.exprsInto _ _ _ _ ha
    cases hr
    simp_all

theorem compileForNum_keeps (fuel : Nat) (ih : AllKeep fuel) (st : CompilerState)
    (var : String) (start limit step body : ASTNode) :
    KeepsError st (compileForNum (fuel + 1) st var start limit step body) := by
  intro st9 hr he
  unfold compileForNum at hr
  dsimp only at hr
  have p0 : (addLocal (addLocal (addLocal (addLocal (beginScope st)
      "(for index)") "(for limit)") "(for step)") var).hadError = true :=
    addLocal_keeps _ _ (addLocal_keeps _ _ (addLocal_keeps _ _ (addLocal_keeps _ _ he)))
  split at hr
  · cases hr
  · rename_i sa ha
    have pa := ih.expr _ _ _ _ ha p0
    split at hr
    · cases hr
    · rename_i sb hb
      have pb := ih.expr _ _ _ _ hb pa
      split at hr
      · cases hr
      · rename_i sc hc
        have pc := ih.expr _ _ _ _ hc pb
        split at hr
        · cases hr
        · rename_i sd hd
          have rd := ih.node (emitInstruction sc .OP_FORPREP _ 0 0) _ _ hd pc
          cases hr
          exact rd

theorem compileForIn_keeps (fuel : Nat) (ih : AllKeep fuel) (st : CompilerState)
    (names iterators : List ASTNode) (body : ASTNode) :
    KeepsError st (compileForIn (fuel + 1) st names iterators body) := by
  intro st9 hr he
  unfold compileForIn at hr
  dsimp only at hr
  have p0 : (addLocals (addLocal (addLocal (addLocal (beginScope st)
      "(for generator)") "(for state)") "(for control)") names).hadError = true :=
    addLocals_keeps _ _ (addLocal_keeps _ _ (addLocal_keeps _ _ (addLocal_keeps _ _ he)))
  split at hr
  · cases hr
  · rename_i sa ha
    have pa := ih.exprsInto _ _ _ _ ha p0
    split at hr
    · cases hr
    · rename_i sd hd
      have rd := ih.node (emitInstruction (emitInstruction sa .OP_TFORLOOP _ 0 _) .OP_JMP 0 0 0)
        _ _ hd pa
      cases hr
      exact rd

theorem closure_keeps (fuel : Nat) (s1 st9 : CompilerState) (params : List ASTNode)
    (body : ASTNode) (slot : Int) (p1 : s1.hadError = true)
    (hk : (match functionLuaCode fuel s1.funcCounter params body with
        | none => none
        | some luaCode =>
            if slot ≥ 0 then
              some (emitClosure { s1 with funcCounter := s1.funcCounter + 1 } luaCode slot
                params.length)
            else some { s1 with funcCounter := s1.funcCounter + 1 }) = some st9) :
    st9.hadError = true := by
  split at hk
  · cases hk
  · rename_i code hcode
    split at hk
    · cases hk
      simp_all
    · cases hk
      exact p1

theorem compileFunction_keeps (fuel : Nat) (st : CompilerState)
    (isLocal : Bool) (funcName : Option String) (params : List ASTNode) (body : ASTNode) :
    KeepsError st (compileFunction (fuel + 1) st isLocal funcName params body) := by
  intro st9 hr he
  unfold compileFunction at hr
  cases isLocal <;> cases funcName
  · exact closure_keeps fuel st st9 params body _ he hr
  · exact closure_keeps fuel st st9 params body _ he hr
  · exact closure_keeps fuel st st9 params body _ he hr
  · exact closure_keeps fuel _ st9 params body _ (addLocal_keeps _ _ he) hr

theorem compileStatement_keeps (fuel : Nat) (ih : AllKeep fuel) (st : CompilerState)
    (node : ASTNode) :
    KeepsError st (compileStatement (fuel + 1) st node) := by
  intro st9 hr he
  unfold compileStatement at hr
  simp only [] at hr
  split at hr
  · exact ih.localStmt _ _ _ _ hr he
  · exact ih.assign _ _ _ _ hr he
  · exact ih.ifStmt _ _ _ _ _ _ hr he
  · exact ih.whileStmt _ _ _ _ hr he
  · exact ih.forNum _ _ _ _ _ _ _ hr he
  · exact ih.forIn _ _ _ _ _ hr he
  · exact ih.returnStmt _ _ _ hr he
  · cases hr
    exact he
  · exact ih.function _ _ _ _ _ _ hr he
  · exact ih.function _ _ _ _ _ _ hr he
  · split at hr
    · cases hr
    · rename_i sa ha
      have ea := ih.expr _ _ _ _ ha he
      cases hr
      exact ea
  · split at hr
    · cases hr
    · rename_i sa ha
      have ea := ih.expr _ _ _ _ ha he
      cases hr
      exact ea
  · cases hr
    exact he

theorem compileStatements_keeps (fuel : Nat) (ih : AllKeep fuel) (st : CompilerState)
    (nodes : List ASTNode) :
    KeepsError st (compileStatements (fuel + 1) st nodes) := by
  intro st9 hr he
  cases nodes with
  | nil =>
      unfold compileStatements at hr
      cases hr
      exact he
  | cons s rest =>
      unfold compileStatements at hr
      split at hr
      · cases hr
      · rename_i sa ha
        exact ih.statements _ _ _ hr (ih.statement _ _ _ ha he)

theorem compileNode_keeps (fuel : Nat) (st : CompilerState)
    (node : ASTNode) :
    KeepsError st (compileNode (fuel + 1) st node) := by
  intro st9 hr he
  unfold compileNode at hr
  rw [if_pos he] at hr
  cases hr
  exact he

/-- No compile function clears the error flag. -/
theorem allKeep (fuel : Nat) : AllKeep fuel := by
  induction fuel with
  | zero =>
      constructor <;> intros <;> intro _ hr <;> cases hr
  | succ fuel ih =>
      exact {
        exprsInto := compileExprsInto_keeps fuel ih
        call := compileCall_keeps fuel ih
        methodCall := compileMethodCall_keeps fuel ih
        dotIndex := compileDotIndex_keeps fuel ih
        index := compileIndex_keeps fuel ih
        tableFields := compileTableFields_keeps fuel ih
        table := compileTable_keeps fuel ih
        binop := compileBinop_keeps fuel ih
        unop := compileUnop_keeps fuel ih
        expr := compileExpressionToReg_keeps fuel ih
        localValues := compileLocalValues_keeps fuel ih
        localStmt := compileLocal_keeps fuel ih
        assignValues := compileAssignValues_keeps fuel ih
        assignTargets := compileAssignTargets_keeps fuel ih
        assign := compileAssign_keeps fuel ih
        condition := compileCondition_keeps fuel ih
        elseifs := compileElseifs_keeps fuel ih
        ifStmt := compileIf_keeps fuel ih
        whileStmt := compileWhile_keeps fuel ih
        forNum := compileForNum_keeps fuel ih
        forIn := compileForIn_keeps fuel ih
        returnStmt := compileReturn_keeps fuel ih
        function := compileFunction_keeps fuel
        statement := compileStatement_keeps fuel ih
        statements := compileStatements_keeps fuel ih
        node := compileNode_keeps fuel }

/-! ## Enough fuel: the compile functions return -/

theorem Returns.ne_none {α : Type} {r : Option α} (h : Returns r) : r ≠ none := by
  obtain ⟨x, hx⟩ := h
  rw [hx]
  exact Option.some_ne_none x

theorem astExprListToLua_returns (fuel : Nat) (ih : AllLua fuel) (es : List ASTNode)
    (first : Bool) (buf : String) (hf : 10 * sizeOf es + 1 ≤ fuel + 1) :
    Returns (astExprListToLua (fuel + 1) es first buf) := by
  cases es with
  | nil => exact ⟨_, rfl⟩
  | cons e rest =>
      simp only [List.cons.sizeOf_spec] at hf
      unfold astExprListToLua
      obtain ⟨b1, h1⟩ := ih.expr e (if first then buf else buf ++ ",") (by omega)
      simp only [h1]
      exact ih.exprList rest false b1 (by omega)

theorem astFieldsToLua_returns (fuel : Nat) (ih : AllLua fuel) (fs : List ASTNode)
    (first : Bool) (buf : String) (hf : 10 * sizeOf fs + 1 ≤ fuel + 1) :
    Returns (astFieldsToLua (fuel + 1) fs first buf) := by
  cases fs with
  | nil => exact ⟨_, rfl⟩
  | cons f rest =>
      simp only [List.cons.sizeOf_spec] at hf
      unfold astFieldsToLua
      simp only []
      split
      · rename_i key value
        simp only [ASTNode.NODE_TABLE_FIELD.sizeOf_spec, Option.some.sizeOf_spec] at hf
        obtain ⟨b1, h1⟩ := ih.expr key ((if first then buf else buf ++ ",") ++ "[") (by omega)
        simp only [h1]
        obtain ⟨b2, h2⟩ := ih.expr value (b1 ++ "]=") (by omega)
        simp only [h2]
        exact ih.fields rest false b2 (by omega)
      · rename_i value
        simp only [ASTNode.NODE_TABLE_FIELD.sizeOf_spec] at hf
        obtain ⟨b1, h1⟩ := ih.expr value (if first then buf else buf ++ ",") (by omega)
        simp only [h1]
        exact ih.fields rest false b1 (by omega)
      · obtain ⟨b1, h1⟩ := ih.expr f (if first then buf else buf ++ ",") (by omega)
        simp only [h1]
        exact ih.fields rest false b1 (by omega)

theorem astExprToLua_returns (fuel : Nat) (ih : AllLua fuel) (node : ASTNode)
    (buf : String) (hf : 10 * sizeOf node + 1 ≤ fuel + 1) :
    Returns (astExprToLua (fuel + 1) node buf) := by
  unfold astExprToLua
  split
  · exact ⟨_, rfl⟩
  · split
    · exact ⟨_, rfl⟩
    · exact ⟨_, rfl⟩
    · exact ⟨_, rfl⟩
    · exact ⟨_, rfl⟩
    · exact ⟨_, rfl⟩
    · rename_i op left right
      simp only [ASTNode.NODE_BINOP.sizeOf_spec] at hf
      obtain ⟨b1, h1⟩ := ih.expr left (buf ++ "(") (by omega)
      simp only [h1]
      obtain ⟨b2, h2⟩ := ih.expr right (b1 ++ op) (by omega)
      simp only [h2]
      exact ⟨_, rfl⟩
    · rename_i op operand
      simp only [ASTNode.NODE_UNOP.sizeOf_spec] at hf
      obtain ⟨b1, h1⟩ := ih.expr operand (buf ++ "(" ++ op) (by omega)
      simp only [h1]
      exact ⟨_, rfl⟩
    · rename_i func args
      simp only [ASTNode.NODE_CALL.sizeOf_spec] at hf
      obtain ⟨b1, h1⟩ := ih.expr func buf (by omega)
      simp only [h1]
      obtain ⟨b2, h2⟩ := ih.exprList args true (b1 ++ "(") (by omega)
      simp only [h2]
      exact ⟨_, rfl⟩
    · rename_i object method args
      simp only [ASTNode.NODE_METHOD_CALL.sizeOf_spec] at hf
      obtain ⟨b1, h1⟩ := ih.expr object buf (by omega)
      simp only [h1]
      obtain ⟨b2, h2⟩ := ih.exprList args true (b1 ++ ":" ++ method ++ "(") (by omega)
      simp only [h2]
      exact ⟨_, rfl⟩
    · rename_i object field
      simp only [ASTNode.NODE_DOT_INDEX.sizeOf_spec] at hf
      obtain ⟨b1, h1⟩ := ih.expr object buf (by omega)
      simp only [h1]
      exact ⟨_, rfl⟩
    · rename_i object key
      simp only [ASTNode.NODE_INDEX.sizeOf_spec] at hf
      obtain ⟨b1, h1⟩ := ih.expr object buf (by omega)
      simp only [h1]
      obtain ⟨b2, h2⟩ := ih.expr key (b1 ++ "[") (by omega)
      simp only [h2]
      exact ⟨_, rfl⟩
    · rename_i fields
      simp only [ASTNode.NODE_TABLE.sizeOf_spec] at hf
      obtain ⟨b1, h1⟩ := ih.fields fields true (buf ++ "\x7b") (by omega)
      simp only [h1]
      exact ⟨_, rfl⟩
    · rename_i name params isVararg body
      simp only [ASTNode.NODE_FUNCTION.sizeOf_spec] at hf
      obtain ⟨b1, h1⟩ := ih.stmt body (buf ++ "function(" ++ joinNames params ++ ")") (by omega)
      simp only [h1]
      exact ⟨_, rfl⟩
    · exact ⟨_, rfl⟩

theorem astStatementsToLua_returns (fuel : Nat) (ih : AllLua fuel) (sts : List ASTNode)
    (buf : String) (hf : 10 * sizeOf sts + 2 ≤ fuel + 1) :
    Returns (astStatementsToLua (fuel + 1) sts buf) := by
  cases sts with
  | nil => exact ⟨_, rfl⟩
  | cons s rest =>
      simp only [List.cons.sizeOf_spec] at hf
      unfold astStatementsToLua
      obtain ⟨b1, h1⟩ := ih.stmt s buf (by omega)
      simp only [h1]
      exact ih.statements rest b1 (by omega)

set_option maxHeartbeats 2000000 in
theorem astToLua_returns (fuel : Nat) (ih : AllLua fuel) (node : ASTNode)
    (buf : String) (hf : 10 * sizeOf node + 2 ≤ fuel + 1) :
    Returns (astToLua (fuel + 1) node buf) := by
  unfold astToLua
  split
  · exact ⟨_, rfl⟩
  · split
    · rename_i statements
      simp only [ASTNode.NODE_BLOCK.sizeOf_spec] at hf
      exact ih.statements statements buf (by omega)
    · rename_i names values
      simp only [ASTNode.NODE_LOCAL.sizeOf_spec] at hf
      split
      · exact ⟨_, rfl⟩
      · obtain ⟨b1, h1⟩ := ih.exprList values true (buf ++ "local " ++ joinNames names ++ "=")
          (by omega)
        simp only [h1]
        exact ⟨_, rfl⟩
    · rename_i targets values
      simp only [ASTNode.NODE_ASSIGN.sizeOf_spec] at hf
      obtain ⟨b1, h1⟩ := ih.exprList targets true buf (by omega)
      simp only [h1]
      obtain ⟨b2, h2⟩ := ih.exprList values true (b1 ++ "=") (by omega)
      simp only [h2]
      exact ⟨_, rfl⟩
    · rename_i condition thenBlock elseifs elseBlock
      simp only [ASTNode.NODE_IF.sizeOf_spec] at hf
      obtain ⟨b1, h1⟩ := ih.expr condition (buf ++ "if ") (by omega)
      simp only [h1]
      obtain ⟨b2, h2⟩ := ih.stmt thenBlock (b1 ++ " then ") (by omega)
      simp only [h2]
      split
      · rename_i eb
        simp only [Option.some.sizeOf_spec] at hf
        obtain ⟨b3, h3⟩ := ih.stmt eb (b2 ++ " else ") (by omega)
        simp only [h3]
        exact ⟨_, rfl⟩
      · exact ⟨_, rfl⟩
    · rename_i condition body
      simp only [ASTNode.NODE_WHILE.sizeOf_spec] at hf
      obtain ⟨b1, h1⟩ := ih.expr condition (buf ++ "while ") (by omega)
      simp only [h1]
      obtain ⟨b2, h2⟩ := ih.stmt body (b1 ++ " do ") (by omega)
      simp only [h2]
      exact ⟨_, rfl⟩
    · rename_i var start limit step body
      simp only [ASTNode.NODE_FOR_NUM.sizeOf_spec] at hf
      obtain ⟨b1, h1⟩ := ih.expr start (buf ++ "for " ++ var ++ "=") (by omega)
      simp only [h1]
      obtain ⟨b2, h2⟩ := ih.expr limit (b1 ++ ",") (by omega)
      simp only [h2]
      obtain ⟨b3, h3⟩ := ih.expr step (b2 ++ ",") (by omega)
      simp only [h3]
      obtain ⟨b4, h4⟩ := ih.stmt body (b3 ++ " do ") (by omega)
      simp only [h4]
      exact ⟨_, rfl⟩
    · rename_i names iterators body
      simp only [ASTNode.NODE_FOR_IN.sizeOf_spec] at hf
      obtain ⟨b1, h1⟩ := ih.exprList iterators true (buf ++ "for " ++ joinNames names ++ " in ")
        (by omega)
      simp only [h1]
      obtain ⟨b2, h2⟩ := ih.stmt body (b1 ++ " do ") (by omega)
      simp only [h2]
      exact ⟨_, rfl⟩
    · rename_i values
      simp only [ASTNode.NODE_RETURN.sizeOf_spec] at hf
      obtain ⟨b1, h1⟩ := ih.exprList values true (buf ++ "return ") (by omega)
      simp only [h1]
      exact ⟨_, rfl⟩
    · exact ⟨_, rfl⟩
    · rename_i func args
      obtain ⟨b1, h1⟩ := ih.expr (.NODE_CALL func args) buf (by omega)
      simp only [h1]
      exact ⟨_, rfl⟩
    · rename_i object method args
      obtain ⟨b1, h1⟩ := ih.expr (.NODE_METHOD_CALL object method args) buf (by omega)
      simp only [h1]
      exact ⟨_, rfl⟩
    · rename_i name params isVararg body
      simp only [ASTNode.NODE_LOCAL_FUNCTION.sizeOf_spec] at hf
      have hs := fun b0 => ih.stmt body b0 (by omega)
      dsimp only
      split
      · rename_i hn
        exact absurd hn (hs _).ne_none
      · exact ⟨_, rfl⟩
    · rename_i name params isVararg body
      simp only [ASTNode.NODE_FUNCTION.sizeOf_spec] at hf
      have hs := fun b0 => ih.stmt body b0 (by omega)
      dsimp only
      split
      · rename_i hn
        exact absurd hn (hs _).ne_none
      · exact ⟨_, rfl⟩
    · exact ⟨_, rfl⟩

/-- The functions that render a function body always return, given fuel for
the size of the tree. -/
theorem allLua (fuel : Nat) : AllLua fuel := by
  induction fuel with
  | zero =>
      constructor <;> intros <;> omega
  | succ fuel ih =>
      exact {
        exprList := astExprListToLua_returns fuel ih
        fields := astFieldsToLua_returns fuel ih
        expr := astExprToLua_returns fuel ih
        statements := astStatementsToLua_returns fuel ih
        stmt := astToLua_returns fuel ih }

theorem length_le_sizeOf (es : List ASTNode) : es.length ≤ sizeOf es := by
  induction es with
  | nil => simp
  | cons e es ih => simp only [List.length_cons, List.cons.sizeOf_spec]; omega

theorem sizeOf_take_le (n : Nat) (es : List ASTNode) : sizeOf (es.take n) ≤ sizeOf es := by
  induction es generalizing n with
  | nil => simp
  | cons e es ih =>
      cases n with
      | zero =>
          simp only [List.take_zero, List.nil.sizeOf_spec, List.cons.sizeOf_spec]
          omega
      | succ n =>
          simp only [List.take_succ_cons, List.cons.sizeOf_spec]
          have := ih n
          omega

theorem functionLuaCode_returns (fuel c : Nat) (params : List ASTNode) (body : ASTNode)
    (hf : 10 * sizeOf body + 2 ≤ fuel) : Returns (functionLuaCode fuel c params body) := by
  unfold functionLuaCode
  split
  · rename_i hn
    exact absurd hn ((allLua fuel).stmt body _ hf).ne_none
  · exact ⟨_, rfl⟩

theorem compileExprsInto_returns (fuel : Nat) (ih : AllReturn fuel) (st : CompilerState)
    (es : List ASTNode) (reg : Int) (hf : 10 * sizeOf es + 3 ≤ fuel + 1) :
    Returns (compileExprsInto (fuel + 1) st es reg) := by
  cases es with
  | nil => exact ⟨_, rfl⟩
  | cons e rest =>
      simp only [List.cons.sizeOf_spec] at hf
      unfold compileExprsInto
      split
      · rename_i hn
        exact absurd hn (ih.expr _ e _ (by omega)).ne_none
      · exact ih.exprsInto _ rest _ (by omega)

theorem compileCall_returns (fuel : Nat) (ih : AllReturn fuel) (st : CompilerState)
    (func : ASTNode) (args : List ASTNode) (reg : Int)
    (hf : 10 * (sizeOf func + sizeOf args) + 4 ≤ fuel + 1) :
    Returns (compileCall (fuel + 1) st func args reg) := by
  unfold compileCall
  split
  · rename_i hn
    exact absurd hn (ih.expr _ func _ (by omega)).ne_none
  · split
    · rename_i hn
      exact absurd hn (ih.exprsInto _ args _ (by omega)).ne_none
    · exact ⟨_, rfl⟩

theorem compileMethodCall_returns (fuel : Nat) (ih : AllReturn fuel) (st : CompilerState)
    (object : ASTNode) (method : String) (args : List ASTNode) (reg : Int)
    (hf : 10 * (sizeOf object + sizeOf args) + 4 ≤ fuel + 1) :
    Returns (compileMethodCall (fuel + 1) st object method args reg) := by
  unfold compileMethodCall
  split
  · rename_i hn
    exact absurd hn (ih.expr _ object _ (by omega)).ne_none
  · dsimp only
    split
    · rename_i hn
      exact absurd hn (ih.exprsInto _ args _ (by omega)).ne_none
    · exact ⟨_, rfl⟩

theorem compileDotIndex_returns (fuel : Nat) (ih : AllReturn fuel) (st : CompilerState)
    (object : ASTNode) (field : String) (reg : Int) (hf : 10 * sizeOf object + 4 ≤ fuel + 1) :
    Returns (compileDotIndex (fuel + 1) st object field reg) := by
  unfold compileDotIndex
  split
  · rename_i hn
    exact absurd hn (ih.expr _ object _ (by omega)).ne_none
  · exact ⟨_, rfl⟩

theorem compileIndex_returns (fuel : Nat) (ih : AllReturn fuel) (st : CompilerState)
    (object key : ASTNode) (reg : Int)
    (hf : 10 * (sizeOf object + sizeOf key) + 4 ≤ fuel + 1) :
    Returns (compileIndex (fuel + 1) st object key reg) := by
  unfold compileIndex
  split
  · rename_i hn
    exact absurd hn (ih.expr _ object _ (by omega)).ne_none
  · dsimp only
    split
    · rename_i hn
      exact absurd hn (ih.expr _ key _ (by omega)).ne_none
    · exact ⟨_, rfl⟩

theorem compileTableFields_returns (fuel : Nat) (ih : AllReturn fuel) (st : CompilerState)
    (fields : List ASTNode) (reg arrayIdx : Int) (hf : 10 * sizeOf fields + 3 ≤ fuel + 1) :
    Returns (compileTableFields (fuel + 1) st fields reg arrayIdx) := by
  cases fields with
  | nil => exact ⟨_, rfl⟩
  | cons field rest =>
      simp only [List.cons.sizeOf_spec] at hf
      have hrest := fun s r a => ih.tableFields s rest r a (by omega)
      unfold compileTableFields
      split
      all_goals
        try simp only [ASTNode.NODE_TABLE_FIELD.sizeOf_spec, Option.some.sizeOf_spec] at hf
      all_goals dsimp only
      · rename_i keyStr value
        split
        · rename_i hn
          exact absurd hn (ih.expr _ value _ (by omega)).ne_none
        · exact hrest _ _ _
      · rename_i keyStr value
        split
        · rename_i hn
          exact absurd hn (ih.expr _ value _ (by omega)).ne_none
        · exact hrest _ _ _
      · rename_i num value
        split
        · rename_i hn
          exact absurd hn (ih.expr _ value _ (by omega)).ne_none
        · exact hrest _ _ _
      · rename_i value
        split
        · rename_i hn
          exact absurd hn (ih.expr _ value _ (by omega)).ne_none
        · exact hrest _ _ _
      · rename_i key value _ _ _
        split
        · rename_i hn
          exact absurd hn (ih.expr _ key _ (by omega)).ne_none
        · split
          · rename_i hn
            exact absurd hn (ih.expr _ value _ (by omega)).ne_none
          · exact hrest _ _ _
      · split
        · rename_i hn
          exact absurd hn (ih.expr _ field _ (by omega)).ne_none
        · exact hrest _ _ _

theorem compileTable_returns (fuel : Nat) (ih : AllReturn fuel) (st : CompilerState)
    (fields : List ASTNode) (reg : Int) (hf : 10 * sizeOf fields + 4 ≤ fuel + 1) :
    Returns (compileTable (fuel + 1) st fields reg) := by
  unfold compileTable
  exact ih.tableFields _ fields _ _ (by omega)

theorem compileBinop_returns (fuel : Nat) (ih : AllReturn fuel) (st : CompilerState)
    (op : String) (left right : ASTNode) (reg : Int)
    (hf : 10 * (sizeOf left + sizeOf right) + 4 ≤ fuel + 1) :
    Returns (compileBinop (fuel + 1) st op left right reg) := by
  have hl := fun s r => ih.expr s left r (by omega)
  have hr := fun s r => ih.expr s right r (by omega)
  unfold compileBinop
  split
  · split
    · rename_i hn
      exact absurd hn (hl _ _).ne_none
    · dsimp only
      split
      · rename_i hn
        exact absurd hn (hr _ _).ne_none
      · exact ⟨_, rfl⟩
  · dsimp only
    split
    · rename_i hn
      exact absurd hn (hl _ _).ne_none
    · split
      · rename_i hn
        exact absurd hn (hr _ _).ne_none
      · split
        · exact ⟨_, rfl⟩
        · split <;> exact ⟨_, rfl⟩

theorem compileUnop_returns (fuel : Nat) (ih : AllReturn fuel) (st : CompilerState)
    (op : String) (operand : ASTNode) (reg : Int) (hf : 10 * sizeOf operand + 4 ≤ fuel + 1) :
    Returns (compileUnop (fuel + 1) st op operand reg) := by
  unfold compileUnop
  split
  · rename_i hn
    exact absurd hn (ih.expr _ operand _ (by omega)).ne_none
  · split_ifs <;> exact ⟨_, rfl⟩

theorem compileExpressionToReg_returns (fuel : Nat) (ih : AllReturn fuel) (st : CompilerState)
    (node : ASTNode) (reg : Int) (hf : 10 * sizeOf node + 3 ≤ fuel + 1) :
    Returns (compileExpressionToReg (fuel + 1) st node reg) := by
  unfold compileExpressionToReg
  split
  · exact ⟨_, rfl⟩
  · exact ⟨_, rfl⟩
  · exact ⟨_, rfl⟩
  · exact ⟨_, rfl⟩
  · exact ⟨_, rfl⟩
  · simp only [ASTNode.NODE_CALL.sizeOf_spec] at hf
    exact ih.call _ _ _ _ (by omega)
  · simp only [ASTNode.NODE_METHOD_CALL.sizeOf_spec] at hf
    exact ih.methodCall _ _ _ _ _ (by omega)
  · simp only [ASTNode.NODE_DOT_INDEX.sizeOf_spec] at hf
    exact ih.dotIndex _ _ _ _ (by omega)
  · simp only [ASTNode.NODE_INDEX.sizeOf_spec] at hf
    exact ih.index _ _ _ _ (by omega)
  · simp only [ASTNode.NODE_TABLE.sizeOf_spec] at hf
    exact ih.table _ _ _ (by omega)
  · simp only [ASTNode.NODE_BINOP.sizeOf_spec] at hf
    exact ih.binop _ _ _ _ _ (by omega)
  · simp only [ASTNode.NODE_UNOP.sizeOf_spec] at hf
    exact ih.unop _ _ _ _ (by omega)
  · rename_i name params isVararg body
    simp only [ASTNode.NODE_FUNCTION.sizeOf_spec] at hf
    split
    · rename_i hn
      exact absurd hn (functionLuaCode_returns fuel _ params body (by omega)).ne_none
    · exact ⟨_, rfl⟩
  · exact ⟨_, rfl⟩

theorem compileLocalValues_returns (fuel : Nat) (ih : AllReturn fuel) (st : CompilerState)
    (count : Nat) (values : List ASTNode) (slot : Int)
    (hf : 10 * sizeOf values + count + 3 ≤ fuel + 1) :
    Returns (compileLocalValues (fuel + 1) st count values slot) := by
  cases count with
  | zero => exact ⟨_, rfl⟩
  | succ count =>
      unfold compileLocalValues
      split
      · rename_i v rest
        simp only [List.cons.sizeOf_spec] at hf
        split
        · rename_i hn
          exact absurd hn (ih.expr _ v _ (by omega)).ne_none
        · exact ih.localValues _ _ rest _ (by omega)
      · exact ih.localValues _ _ [] _ (by omega)

theorem compileLocal_returns (fuel : Nat) (ih : AllReturn fuel) (st : CompilerState)
    (names values : List ASTNode) (hf : 10 * (sizeOf names + sizeOf values) + 4 ≤ fuel + 1) :
    Returns (compileLocal (fuel + 1) st names values) := by
  unfold compileLocal
  have := length_le_sizeOf names
  exact ih.localValues _ _ values _ (by omega)

theorem compileAssignValues_returns (fuel : Nat) (ih : AllReturn fuel) (st : CompilerState)
    (values : List ASTNode) (hf : 10 * sizeOf values + 3 ≤ fuel + 1) :
    Returns (compileAssignValues (fuel + 1) st values) := by
  cases values with
  | nil => exact ⟨_, rfl⟩
  | cons v rest =>
      simp only [List.cons.sizeOf_spec] at hf
      unfold compileAssignValues
      dsimp only
      split
      · rename_i hn
        exact absurd hn (ih.expr _ v _ (by omega)).ne_none
      · exact ih.assignValues _ rest (by omega)

theorem compileAssignTargets_returns (fuel : Nat) (ih : AllReturn fuel) (st : CompilerState)
    (targets : List ASTNode) (i valueCount : Nat) (baseReg : Int)
    (hf : 10 * sizeOf targets + 3 ≤ fuel + 1) :
    Returns (compileAssignTargets (fuel + 1) st targets i valueCount baseReg) := by
  cases targets with
  | nil => exact ⟨_, rfl⟩
  | cons target rest =>
      simp only [List.cons.sizeOf_spec] at hf
      have hrest := fun s j => ih.assignTargets s rest j valueCount baseReg (by omega)
      unfold compileAssignTargets
      dsimp only
      split
      · split_ifs <;> exact hrest _ _
      · rename_i object field
        simp only [ASTNode.NODE_DOT_INDEX.sizeOf_spec] at hf
        split
        · rename_i hn
          exact absurd hn (ih.expr _ object _ (by omega)).ne_none
        · exact hrest _ _
      · rename_i object key
        simp only [ASTNode.NODE_INDEX.sizeOf_spec] at hf
        split
        · rename_i hn
          exact absurd hn (ih.expr _ object _ (by omega)).ne_none
        · split
          · rename_i hn
            exact absurd hn (ih.expr _ key _ (by omega)).ne_none
          · exact hrest _ _
      · exact hrest _ _

theorem compileAssign_returns (fuel : Nat) (ih : AllReturn fuel) (st : CompilerState)
    (targets values : List ASTNode)
    (hf : 10 * (sizeOf targets + sizeOf values) + 4 ≤ fuel + 1) :
    Returns (compileAssign (fuel + 1) st targets values) := by
  unfold compileAssign
  dsimp only
  split
  · rename_i hn
    exact absurd hn (ih.assignValues _ values (by omega)).ne_none
  · split
    · rename_i hn
      exact absurd hn (ih.assignTargets _ targets _ _ _ (by omega)).ne_none
    · exact ⟨_, rfl⟩

theorem compileCondition_returns (fuel : Nat) (ih : AllReturn fuel) (st : CompilerState)
    (cond : ASTNode) (freeBeforeTest : Bool) (hf : 10 * sizeOf cond + 4 ≤ fuel + 1) :
    Returns (compileCondition (fuel + 1) st cond freeBeforeTest) := by
  have hc := fun s r => ih.expr s cond r (by omega)
  unfold compileCondition
  simp only []
  split
  · rename_i op left right
    have hc1 := fun s r => ih.expr s (.NODE_BINOP op left right) r (by omega)
    simp only [ASTNode.NODE_BINOP.sizeOf_spec] at hf
    split
    · split
      · rename_i hn
        exact absurd hn (ih.expr _ left _ (by omega)).ne_none
      · split
        · rename_i hn
          exact absurd hn (ih.expr _ right _ (by omega)).ne_none
        · exact ⟨_, rfl⟩
    · split
      · rename_i hn
        exact absurd hn (hc1 _ _).ne_none
      · split <;> exact ⟨_, rfl⟩
  · split
    · rename_i hn
      exact absurd hn (hc _ _).ne_none
    · split <;> exact ⟨_, rfl⟩

theorem compileElseifs_returns (fuel : Nat) (ih : AllReturn fuel) (st : CompilerState)
    (elseifs : List ASTNode) (elseJump : Int) (hf : 10 * sizeOf elseifs + 3 ≤ fuel + 1) :
    Returns (compileElseifs (fuel + 1) st elseifs elseJump) := by
  cases elseifs with
  | nil => exact ⟨_, rfl⟩
  | cons e rest =>
      simp only [List.cons.sizeOf_spec] at hf
      have hrest := fun s j => ih.elseifs s rest j (by omega)
      unfold compileElseifs
      simp only []
      split
      · rename_i condition thenBlock x y
        simp only [ASTNode.NODE_IF.sizeOf_spec] at hf
        split
        · rename_i hn
          exact absurd hn (ih.expr _ condition _ (by omega)).ne_none
        · split
          · rename_i hn
            exact absurd hn (ih.node _ thenBlock (by omega)).ne_none
          · exact hrest _ _
      · exact hrest _ _

theorem compileIf_returns (fuel : Nat) (ih : AllReturn fuel) (st : CompilerState)
    (cond thenBlock : ASTNode) (elseifs : List ASTNode) (elseBlock : Option ASTNode)
    (hf : 10 * (sizeOf cond + sizeOf thenBlock + sizeOf elseifs + sizeOf elseBlock) + 6
      ≤ fuel + 1) :
    Returns (compileIf (fuel + 1) st cond thenBlock elseifs elseBlock) := by
  cases elseBlock with
  | none =>
      unfold compileIf
      split
      · rename_i hn
        exact absurd hn (ih.condition _ cond _ (by omega)).ne_none
      · dsimp only
        split
        · rename_i hn
          exact absurd hn (ih.node _ thenBlock (by omega)).ne_none
        · split
          · rename_i hn
            exact absurd hn (ih.elseifs _ elseifs _ (by omega)).ne_none
          · split <;> exact ⟨_, rfl⟩
  | some eb =>
      simp only [Option.some.sizeOf_spec] at hf
      unfold compileIf
      split
      · rename_i hn
        exact absurd hn (ih.condition _ cond _ (by omega)).ne_none
      · dsimp only
        split
        · rename_i hn
          exact absurd hn (ih.node _ thenBlock (by omega)).ne_none
        · split
          · rename_i hn
            exact absurd hn (ih.elseifs _ elseifs _ (by omega)).ne_none
          · split
            · rename_i hn
              exfalso
              split at hn
              · rename_i hn2
                exact absurd hn2 (ih.node _ eb (by omega)).ne_none
              · cases hn
            · split <;> exact ⟨_, rfl⟩

theorem compileWhile_returns (fuel : Nat) (ih : AllReturn fuel) (st : CompilerState)
    (cond body : ASTNode) (hf : 10 * (sizeOf cond + sizeOf body) + 6 ≤ fuel + 1) :
    Returns (compileWhile (fuel + 1) st cond body) := by
  unfold compileWhile
  dsimp only
  split
  · rename_i hn
    exact absurd hn (ih.condition _ cond _ (by omega)).ne_none
  · split
    · rename_i hn
      exact absurd hn (ih.node _ body (by omega)).ne_none
    · exact ⟨_, rfl⟩

theorem compileForNum_returns (fuel : Nat) (ih : AllReturn fuel) (st : CompilerState)
    (var : String) (start limit step body : ASTNode)
    (hf : 10 * (sizeOf start + sizeOf limit + sizeOf step + sizeOf body) + 6 ≤ fuel + 1) :
    Returns (compileForNum (fuel + 1) st var start limit step body) := by
  unfold compileForNum
  dsimp only
  split
  · rename_i hn
    exact absurd hn (ih.expr _ start _ (by omega)).ne_none
  · split
    · rename_i hn
      exact absurd hn (ih.expr _ limit _ (by omega)).ne_none
    · split
      · rename_i hn
        exact absurd hn (ih.expr _ step _ (by omega)).ne_none
      · split
        · rename_i hn
          exact absurd hn (ih.node _ body (by omega)).ne_none
        · exact ⟨_, rfl⟩

theorem compileForIn_returns (fuel : Nat) (ih : AllReturn fuel) (st : CompilerState)
    (names iterators : List ASTNode) (body : ASTNode)
    (hf : 10 * (sizeOf iterators + sizeOf body) + 6 ≤ fuel + 1) :
    Returns (compileForIn (fuel + 1) st names iterators body) := by
  have ht := sizeOf_take_le 3 iterators
  unfold compileForIn
  dsimp only
  split
  · rename_i hn
    exact absurd hn (ih.exprsInto _ (iterators.take 3) _ (by omega)).ne_none
  · split
    · rename_i hn
      exact absurd hn (ih.node _ body (by omega)).ne_none
    · exact ⟨_, rfl⟩

theorem compileReturn_returns (fuel : Nat) (ih : AllReturn fuel) (st : CompilerState)
    (values : List ASTNode) (hf : 10 * sizeOf values + 4 ≤ fuel + 1) :
    Returns (compileReturn (fuel + 1) st values) := by
  unfold compileReturn
  dsimp only
  split
  · rename_i hn
    exact absurd hn (ih.exprsInto _ values _ (by omega)).ne_none
  · exact ⟨_, rfl⟩

theorem compileFunction_returns (fuel : Nat) (st : CompilerState) (isLocal : Bool)
    (funcName : Option String) (params : List ASTNode) (body : ASTNode)
    (hf : 10 * sizeOf body + 3 ≤ fuel + 1) :
    Returns (compileFunction (fuel + 1) st isLocal funcName params body) := by
  have hl := fun c => functionLuaCode_returns fuel c params body (by omega)
  unfold compileFunction
  dsimp only
  split
  · rename_i hn
    exact absurd hn (hl _).ne_none
  · split <;> exact ⟨_, rfl⟩

theorem compileStatement_returns (fuel : Nat) (ih : AllReturn fuel) (st : CompilerState)
    (node : ASTNode) (hf : 10 * sizeOf node + 4 ≤ fuel + 1) :
    Returns (compileStatement (fuel + 1) st node) := by
  have hsame := fun s r => ih.expr s node r (by omega)
  unfold compileStatement
  simp only []
  split
  · simp only [ASTNode.NODE_LOCAL.sizeOf_spec] at hf
    exact ih.localStmt _ _ _ (by omega)
  · simp only [ASTNode.NODE_ASSIGN.sizeOf_spec] at hf
    exact ih.assign _ _ _ (by omega)
  · simp only [ASTNode.NODE_IF.sizeOf_spec] at hf
    exact ih.ifStmt _ _ _ _ _ (by omega)
  · simp only [ASTNode.NODE_WHILE.sizeOf_spec] at hf
    exact ih.whileStmt _ _ _ (by omega)
  · simp only [ASTNode.NODE_FOR_NUM.sizeOf_spec] at hf
    exact ih.forNum _ _ _ _ _ _ (by omega)
  · simp only [ASTNode.NODE_FOR_IN.sizeOf_spec] at hf
    exact ih.forIn _ _ _ _ (by omega)
  · simp only [ASTNode.NODE_RETURN.sizeOf_spec] at hf
    exact ih.returnStmt _ _ (by omega)
  · exact ⟨_, rfl⟩
  · simp only [ASTNode.NODE_FUNCTION.sizeOf_spec] at hf
    exact ih.function _ _ _ _ _ (by omega)
  · simp only [ASTNode.NODE_LOCAL_FUNCTION.sizeOf_spec] at hf
    exact ih.function _ _ _ _ _ (by omega)
  · split
    · rename_i hn
      exact absurd hn (hsame _ _).ne_none
    · exact ⟨_, rfl⟩
  · split
    · rename_i hn
      exact absurd hn (hsame _ _).ne_none
    · exact ⟨_, rfl⟩
  · exact ⟨_, rfl⟩

theorem compileStatements_returns (fuel : Nat) (ih : AllReturn fuel) (st : CompilerState)
    (nodes : List ASTNode) (hf : 10 * sizeOf nodes + 4 ≤ fuel + 1) :
    Returns (compileStatements (fuel + 1) st nodes) := by
  cases nodes with
  | nil => exact ⟨_, rfl⟩
  | cons s rest =>
      simp only [List.cons.sizeOf_spec] at hf
      unfold compileStatements
      split
      · rename_i hn
        exact absurd hn (ih.statement _ s (by omega)).ne_none
      · exact ih.statements _ rest (by omega)

theorem compileNode_returns (fuel : Nat) (ih : AllReturn fuel) (st : CompilerState)
    (node : ASTNode) (hf : 10 * sizeOf node + 5 ≤ fuel + 1) :
    Returns (compileNode (fuel + 1) st node) := by
  have hsame := fun s => ih.statement s node (by omega)
  unfold compileNode
  split
  · exact ⟨_, rfl⟩
  · split
    · simp only [ASTNode.NODE_CHUNK.sizeOf_spec] at hf
      exact ih.statements _ _ (by omega)
    · simp only [ASTNode.NODE_BLOCK.sizeOf_spec] at hf
      exact ih.statements _ _ (by omega)
    · exact hsame _

/-- Every compile function returns, given fuel for the size of the tree. -/
theorem allReturn (fuel : Nat) : AllReturn fuel := by
  induction fuel with
  | zero =>
      constructor <;> intros <;> omega
  | succ fuel ih =>
      exact {
        exprsInto := compileExprsInto_returns fuel ih
        call := compileCall_returns fuel ih
        methodCall := compileMethodCall_returns fuel ih
        dotIndex := compileDotIndex_returns fuel ih
        index := compileIndex_returns fuel ih
        tableFields := compileTableFields_returns fuel ih
        table := compileTable_returns fuel ih
        binop := compileBinop_returns fuel ih
        unop := compileUnop_returns fuel ih
        expr := compileExpressionToReg_returns fuel ih
        localValues := compileLocalValues_returns fuel ih
        localStmt := compileLocal_returns fuel ih
        assignValues := compileAssignValues_returns fuel ih
        assignTargets := compileAssignTargets_returns fuel ih
        assign := compileAssign_returns fuel ih
        condition := compileCondition_returns fuel ih
        elseifs := compileElseifs_returns fuel ih
        ifStmt := compileIf_returns fuel ih
        whileStmt := compileWhile_returns fuel ih
        forNum := compileForNum_returns fuel ih
        forIn := compileForIn_returns fuel ih
        returnStmt := compileReturn_returns fuel ih
        function := compileFunction_returns fuel
        statement := compileStatement_returns fuel ih
        statements := compileStatements_returns fuel ih
        node := compileNode_returns fuel ih }

/-! ## C18: what `Compile` returns -/

theorem Compile_cases (fuel : Nat) (st : CompilerState) (r : Option BytecodeChunk)
    (st1 : CompilerState) (h : Compile fuel st = some (r, st1)) :
    ∃ ast p1, Parse fuel st.parser = some (ast, p1)
      ∧ (p1.hadError = true →
          r = none ∧ st1.hadError = true ∧ st1.errorMsg = p1.errorMsg
            ∧ st1.current = st.current)
      ∧ (p1.hadError = false →
          ∃ stc, compileNode fuel (initCompiler { st with parser := p1 }) ast = some stc
            ∧ st1 = emitInstruction stc .OP_RETURN 0 1 0
            ∧ (stc.hadError = true → r = none)
            ∧ (stc.hadError = false → r = some st1.current.chunk)) := by
  unfold Compile at h
  split at h
  · cases h
  · rename_i ast p1 hp
    refine ⟨ast, p1, hp, ?_, ?_⟩
    · intro he
      rw [if_pos he] at h
      cases h
      exact ⟨rfl, rfl, rfl, rfl⟩
    · intro he
      rw [if_neg (by rw [he]; exact Bool.false_ne_true)] at h
      unfold compileParsed at h
      split at h
      · cases h
      · rename_i stc hc
        refine ⟨stc, hc, ?_, ?_, ?_⟩
        · dsimp only at h
          split at h <;> cases h <;> rfl
        · intro hs
          dsimp only at h
          rw [if_pos (by exact hs)] at h
          cases h
          rfl
        · intro hs
          dsimp only at h
          rw [if_neg (by rw [emitInstruction_hadError, hs]; exact Bool.false_ne_true)] at h
          cases h
          rfl

/-- Once the parser has returned a tree, `Compile` returns, given fuel for
the size of the tree. -/
theorem Compile_returns (fuel : Nat) (st : CompilerState) (ast : ASTNode) (p1 : Parser)
    (hp : Parse fuel st.parser = some (ast, p1)) (hf : 10 * sizeOf ast + 5 ≤ fuel) :
    ∃ r st1, Compile fuel st = some (r, st1) := by
  unfold Compile
  rw [hp]
  dsimp only
  split
  · exact ⟨_, _, rfl⟩
  · unfold compileParsed
    obtain ⟨stc, hc⟩ := (allReturn fuel).node (initCompiler { st with parser := p1 }) ast hf
    rw [hc]
    dsimp only
    split <;> exact ⟨_, _, rfl⟩

/-- C18: whenever `Compile` returns, the parse it began with returned a tree
and a parser state, and: if the parser has `hadError`, `Compile` returns NULL
with its own `hadError` set and the parser's message; the value is NULL
exactly when `hadError` is set afterwards; a chunk is returned only when
neither the parser nor the compiler has `hadError`, and its last instruction
is RETURN 0 1 0. `Compile` does return whenever the parser returned a tree
and the fuel exceeds ten times the size of the tree: every compile function
returns on every tree. No compile function clears `hadError` once it is set:
`addLocal` beyond 200 locals and an unsupported expression node set it, and
it is still set when `Compile` tests it. The sources `x = (1`, `x = ...`,
`local a, ..., a` with 201 names and `x = 1` show the four outcomes. -/
theorem compile_chunk_iff_no_error :
    (∀ (fuel : Nat) (st : CompilerState) (r : Option BytecodeChunk) (st1 : CompilerState),
      Compile fuel st = some (r, st1) →
      ∃ ast p1, Parse fuel st.parser = some (ast, p1)
        ∧ (p1.hadError = true →
            r = none ∧ st1.hadError = true ∧ st1.errorMsg = p1.errorMsg)
        ∧ (r = none ↔ st1.hadError = true)
        ∧ (∀ chunk, r = some chunk →
            p1.hadError = false ∧ st1.hadError = false ∧ chunk = st1.current.chunk
              ∧ chunk.Instructions.getLast? = some ⟨.OP_RETURN, 0, 1, 0⟩)
        ∧ (p1.hadError = false →
            ∃ stc, compileNode fuel (initCompiler { st with parser := p1 }) ast = some stc
              ∧ st1 = emitInstruction stc .OP_RETURN 0 1 0
              ∧ (stc.hadError = true → r = none ∧ st1.hadError = true
                  ∧ st1.errorMsg = stc.errorMsg)))
    ∧ (∀ (fuel : Nat) (st : CompilerState) (ast : ASTNode) (p1 : Parser),
        Parse fuel st.parser = some (ast, p1) → 10 * sizeOf ast + 5 ≤ fuel →
        ∃ r st1, Compile fuel st = some (r, st1))
    ∧ (∀ fuel st node st1, compileStatement fuel st node = some st1 →
        st.hadError = true → st1.hadError = true)
    ∧ (∀ fuel st nodes st1, compileStatements fuel st nodes = some st1 →
        st.hadError = true → st1.hadError = true)
    ∧ (∀ fuel st node reg st1, compileExpressionToReg fuel st node reg = some st1 →
        st.hadError = true → st1.hadError = true)
    ∧ (∀ st n, MAX_LOCALS ≤ st.current.locals.length →
        (addLocal st n).hadError = true ∧ (addLocal st n).errorMsg = "Too many local variables")
    ∧ (∀ fuel st reg, ∃ s, compileExpressionToReg (fuel + 1) st .NODE_VARARG reg = some s
        ∧ s.hadError = true ∧ s.errorMsg = "Cannot compile expression type 26")
    ∧ (Compile 100 (CreateCompilerState "x = (1")).map
          (fun r => (r.1.map (fun c => c.Instructions), r.2.hadError, r.2.errorMsg,
            r.2.parser.errorMsg))
        = some (none, true, "Line 1: Expected ), got EOF", "Line 1: Expected ), got EOF")
    ∧ (Compile 100 (CreateCompilerState "x = ...")).map
          (fun r => (r.1.map (fun c => c.Instructions), r.2.hadError, r.2.errorMsg,
            r.2.parser.hadError))
        = some (none, true, "Cannot compile expression type 26", false)
    ∧ (Compile 1000 (CreateCompilerState
          ("local " ++ String.intercalate "," (List.replicate 201 "a")))).map
          (fun r => (r.1.map (fun c => c.Instructions), r.2.hadError, r.2.errorMsg,
            r.2.parser.hadError))
        = some (none, true, "Too many local variables", false)
    ∧ (Compile 100 (CreateCompilerState "x = 1")).map
          (fun r => (r.1.map (fun c => c.Instructions), r.2.hadError, r.2.errorMsg))
        = some (some [⟨.OP_LOADK, 0, 0, 0⟩, ⟨.OP_SETGLOBAL, 0, 1, 0⟩, ⟨.OP_RETURN, 0, 1, 0⟩],
            false, "") := by
  refine ⟨?_, Compile_returns, ?_, ?_, ?_, ?_, ?_, ?_, ?_, ?_, ?_⟩
  · intro fuel st r st1 h
    obtain ⟨ast, p1, hp, herr, hok⟩ := Compile_cases fuel st r st1 h
    refine ⟨ast, p1, hp, fun he => ⟨(herr he).1, (herr he).2.1, (herr he).2.2.1⟩, ?_, ?_,
      ?_⟩
    · cases hpe : p1.hadError with
      | true =>
          have := herr hpe
          exact ⟨fun _ => this.2.1, fun _ => this.1⟩
      | false =>
          obtain ⟨stc, _, hst1, hn, hs⟩ := hok hpe
          cases hce : stc.hadError with
          | true =>
              refine ⟨fun _ => ?_, fun _ => hn hce⟩
              rw [hst1, emitInstruction_hadError, hce]
          | false =>
              have h1 : st1.hadError = false := by rw [hst1, emitInstruction_hadError, hce]
              rw [hs hce, h1]
              simp
    · intro chunk hc
      cases hpe : p1.hadError with
      | true =>
          have := (herr hpe).1
          rw [hc] at this
          cases this
      | false =>
          obtain ⟨stc, _, hst1, hn, hs⟩ := hok hpe
          cases hce : stc.hadError with
          | true =>
              have := hn hce
              rw [hc] at this
              cases this
          | false =>
              have h2 := hs hce
              rw [hc] at h2
              cases h2
              refine ⟨rfl, by rw [hst1, emitInstruction_hadError, hce], rfl, ?_⟩
              rw [hst1]
              show (stc.current.chunk.Instructions ++ [_]).getLast? = _
              simp
    · intro hpe
      obtain ⟨stc, hc, hst1, hn, hs⟩ := hok hpe
      refine ⟨stc, hc, hst1, fun hce => ⟨hn hce, ?_, ?_⟩⟩
      · rw [hst1, emitInstruction_hadError, hce]
      · rw [hst1]; rfl
  · intro fuel st node st1 h he
    exact (allKeep fuel).statement st node st1 h he
  · intro fuel st nodes st1 h he
    exact (allKeep fuel).statements st nodes st1 h he
  · intro fuel st node reg st1 h he
    exact (allKeep fuel).expr st node reg st1 h he
  · intro st n h
    unfold addLocal
    rw [if_pos h]
    exact ⟨rfl, rfl⟩
  · intro fuel st reg
    exact ⟨_, rfl, rfl, by
      show snprintf256 ("Cannot compile expression type " ++ natText 26) = _
      decide⟩
  · decide!
  · decide!
  · decide!
  · decide!

/-- The statement at the source `x = (1`, where the parser reports the
missing parenthesis. -/
theorem compile_chunk_iff_no_error_witness :
    ∃ r st1, Compile 100 (CreateCompilerState "x = (1") = some (r, st1)
      ∧ ∃ ast p1, Parse 100 (CreateCompilerState "x = (1").parser = some (ast, p1)
        ∧ (p1.hadError = true →
            r = none ∧ st1.hadError = true ∧ st1.errorMsg = p1.errorMsg)
        ∧ (r = none ↔ st1.hadError = true)
        ∧ (∀ chunk, r = some chunk →
            p1.hadError = false ∧ st1.hadError = false ∧ chunk = st1.current.chunk
              ∧ chunk.Instructions.getLast? = some ⟨.OP_RETURN, 0, 1, 0⟩)
        ∧ (p1.hadError = false →
            ∃ stc, compileNode 100
                (initCompiler { CreateCompilerState "x = (1" with parser := p1 }) ast = some stc
              ∧ st1 = emitInstruction stc .OP_RETURN 0 1 0
              ∧ (stc.hadError = true → r = none ∧ st1.hadError = true
                  ∧ st1.errorMsg = stc.errorMsg)) :=
  have hs : (Compile 100 (CreateCompilerState "x = (1")).isSome = true := by decide!
  ⟨_, _, (Option.some_get hs).symm,
    compile_chunk_iff_no_error.1 100 (CreateCompilerState "x = (1") _ _
      (Option.some_get hs).symm⟩

/-! ## C19: the test of an `if` condition -/

theorem execHandler_test (vm : VM) (A : Int) :
    execHandler .OP_TEST A 0 0 { vm with pos := vm.pos + 6 }
      = some { vm with pos := if (vm.S A).truthy then vm.pos + 6 else vm.pos + 6 + 6 } := by
  unfold execHandler
  cases h : (vm.S A).truthy <;> simp [h]

theorem execHandler_jmp (vm : VM) (B : Int) :
    execHandler .OP_JMP 0 B 0 { vm with pos := vm.pos + 6 }
      = some { vm with pos := vm.pos + 6 + B * 6 } := by
  unfold execHandler
  simp

/-- TEST A 0 0 followed by JMP 0 b 0 at instruction i: the instruction after
the jump, where the then-block starts, is reached when the register is falsy,
and the target of the jump when it is truthy. -/
theorem test_jmp_run (chunk : BytecodeChunk) (m : List Nat) (H : List (Nat × Handler))
    (hH : HandlersOK m H) (i b : Nat) (A : Int) (vm : VM) (hvm : VMAt chunk m i vm)
    (h0 : chunk.Instructions[i]? = some ⟨.OP_TEST, A, 0, 0⟩)
    (h1 : chunk.Instructions[i + 1]? = some ⟨.OP_JMP, 0, (b : Int), 0⟩)
    (hA : 0 ≤ A ∧ A < 256) (hb : b < 32768) :
    ∃ vm1, Reaches H vm vm1 ∧ vm1.S = vm.S ∧ vm1.G = vm.G
      ∧ VMAt chunk m (if (vm.S A).truthy then i + 2 + b else i + 2) vm1 := by
  cases ht : (vm.S A).truthy with
  | false =>
      have he := execHandler_test vm A
      rw [ht] at he
      refine ⟨{ vm with pos := vm.pos + 6 + 6 },
        Reaches.oneStep chunk m H hH i vm _ hvm _ h0
          (fits_mk _ _ _ _ hA (by omega) (by omega)) (by simpa using he), rfl, rfl, ?_⟩
      refine ⟨hvm.hD, ?_, hvm.hK⟩
      show vm.pos + 6 + 6 = _
      rw [hvm.hpos]
      simp only [Bool.false_eq_true, if_false]
      push_cast
      omega
  | true =>
      have he := execHandler_test vm A
      rw [ht] at he
      have r1 : Reaches H vm { vm with pos := vm.pos + 6 } :=
        Reaches.oneStep chunk m H hH i vm _ hvm _ h0
          (fits_mk _ _ _ _ hA (by omega) (by omega)) (by simpa using he)
      have a1 : VMAt chunk m (i + 1) { vm with pos := vm.pos + 6 } := by
        refine ⟨hvm.hD, ?_, hvm.hK⟩
        show vm.pos + 6 = _
        rw [hvm.hpos]
        push_cast
        omega
      have r2 : Reaches H { vm with pos := vm.pos + 6 }
          { vm with pos := vm.pos + 6 + 6 + (b : Int) * 6 } :=
        Reaches.oneStep chunk m H hH (i + 1) _ _ a1 _ h1
          (fits_mk _ _ _ _ (by omega) (by omega) (by omega))
          (execHandler_jmp { vm with pos := vm.pos + 6 } b)
      refine ⟨_, r1.andThen r2, rfl, rfl, ?_⟩
      refine ⟨hvm.hD, ?_, hvm.hK⟩
      show vm.pos + 6 + 6 + (b : Int) * 6 = _
      rw [hvm.hpos]
      simp only [if_true]
      push_cast
      omega

/-- C19 (the code departs from the claim): for a condition that is not a
direct comparison `compileCondition` emits the code of the condition followed
by TEST r 0 0 and JMP. Run by the generated handlers under any opcode map
that is a permutation of 0 .. 255, TEST with C = 0 skips the JMP when the
register is falsy: the then-block is entered exactly when the condition value
is nil or false, and jumped over when it is truthy. So `if true then x = 1
end` leaves the global x unset, and `if false then x = 1 end` and `if nil
then x = 1 end` set it to 1; a comparison (`if 1 < 2`) is tested the right
way round. -/
theorem if_test_inverted :
    (∀ (chunk : BytecodeChunk) (m fakeDraws : List Nat) (i b : Nat) (A : Int) (vm : VM),
      m.Perm (List.range 256) → VMAt chunk m i vm →
      chunk.Instructions[i]? = some ⟨.OP_TEST, A, 0, 0⟩ →
      chunk.Instructions[i + 1]? = some ⟨.OP_JMP, 0, (b : Int), 0⟩ →
      0 ≤ A ∧ A < 256 → b < 32768 →
      ∃ vm1, Reaches (handlerAssignments m fakeDraws) vm vm1 ∧ vm1.S = vm.S ∧ vm1.G = vm.G
        ∧ VMAt chunk m (if (vm.S A).truthy then i + 2 + b else i + 2) vm1)
    ∧ (∀ (fuel : Nat) (st : CompilerState) (cond : ASTNode),
        (∀ op l r, cond = .NODE_BINOP op l r → isComparisonOp op = false) →
        compileCondition (fuel + 1) st cond true
          = (compileExpressionToReg fuel (allocReg st) cond st.current.stackTop).map
              (fun st1 => emitInstruction
                (emitInstruction (freeReg st1) .OP_TEST st.current.stackTop 0 0) .OP_JMP 0 0 0))
    ∧ (compileSource 100 "if true then x = 1 end").map (fun c => (c.Instructions, c.Constants))
        = some ([⟨.OP_LOADBOOL, 0, 1, 0⟩, ⟨.OP_TEST, 0, 0, 0⟩, ⟨.OP_JMP, 0, 2, 0⟩,
            ⟨.OP_LOADK, 0, 0, 0⟩, ⟨.OP_SETGLOBAL, 0, 1, 0⟩, ⟨.OP_RETURN, 0, 1, 0⟩], ["1", "x"])
    ∧ ((compileSource 100 "if true then x = 1 end").bind
          (fun ch => vmRun (handlerAssignments (List.range 256) []) 20
            (vmInit (serializeBuffer ch (List.range 256)) (fun _ => Value.nil)))).map
          (fun vm => (vm.halted, vm.G (Value.str "x")))
        = some (true, Value.nil)
    ∧ ((compileSource 100 "if false then x = 1 end").bind
          (fun ch => vmRun (handlerAssignments (List.range 256) []) 20
            (vmInit (serializeBuffer ch (List.range 256)) (fun _ => Value.nil)))).map
          (fun vm => (vm.halted, vm.G (Value.str "x")))
        = some (true, Value.num 1)
    ∧ ((compileSource 100 "if nil then x = 1 end").bind
          (fun ch => vmRun (handlerAssignments (List.range 256) []) 20
            (vmInit (serializeBuffer ch (List.range 256)) (fun _ => Value.nil)))).map
          (fun vm => (vm.halted, vm.G (Value.str "x")))
        = some (true, Value.num 1)
    ∧ ((compileSource 100 "local a = true if a then x = 1 end").bind
          (fun ch => vmRun (handlerAssignments (List.range 256) []) 20
            (vmInit (serializeBuffer ch (List.range 256)) (fun _ => Value.nil)))).map
          (fun vm => (vm.halted, vm.G (Value.str "x")))
        = some (true, Value.nil)
    ∧ ((compileSource 100 "if 1 < 2 then x = 1 end").bind
          (fun ch => vmRun (handlerAssignments (List.range 256) []) 20
            (vmInit (serializeBuffer ch (List.range 256)) (fun _ => Value.nil)))).map
          (fun vm => (vm.halted, vm.G (Value.str "x")))
        = some (true, Value.num 1) := by
  refine ⟨?_, ?_, ?_, ?_, ?_, ?_, ?_, ?_⟩
  · intro chunk m fakeDraws i b A vm hm hvm h0 h1 hA hb
    exact test_jmp_run chunk m _ (handlerAssignments_ok m hm fakeDraws) i b A vm hvm h0 h1 hA hb
  · intro fuel st cond hc
    unfold compileCondition
    simp only []
    split
    · rename_i op l r
      rw [if_neg (by rw [hc op l r rfl]; exact Bool.false_ne_true)]
      cases compileExpressionToReg fuel (allocReg st) (.NODE_BINOP op l r) st.current.stackTop
        <;> rfl
    · cases compileExpressionToReg fuel (allocReg st) cond st.current.stackTop <;> rfl
  · decide!
  · decide!
  · decide!
  · decide!
  · decide!
  · decide!

/-- The general statement at the chunk TEST 0 0 0, JMP 0 1 0, RETURN, RETURN
under the identity opcode map, from the start, where register 0 is nil. -/
theorem if_test_inverted_witness :
    ∃ vm1, Reaches (handlerAssignments (List.range 256) [])
        (vmInit (serializeBuffer (BytecodeChunk.mk [⟨.OP_TEST, 0, 0, 0⟩, ⟨.OP_JMP, 0, 1, 0⟩,
          ⟨.OP_RETURN, 0, 1, 0⟩, ⟨.OP_RETURN, 0, 1, 0⟩] [] false) (List.range 256))
          (fun _ => Value.nil)) vm1
      ∧ vm1.S = (vmInit (serializeBuffer (BytecodeChunk.mk [⟨.OP_TEST, 0, 0, 0⟩,
          ⟨.OP_JMP, 0, 1, 0⟩, ⟨.OP_RETURN, 0, 1, 0⟩, ⟨.OP_RETURN, 0, 1, 0⟩] [] false)
          (List.range 256)) (fun _ => Value.nil)).S
      ∧ vm1.G = (vmInit (serializeBuffer (BytecodeChunk.mk [⟨.OP_TEST, 0, 0, 0⟩,
          ⟨.OP_JMP, 0, 1, 0⟩, ⟨.OP_RETURN, 0, 1, 0⟩, ⟨.OP_RETURN, 0, 1, 0⟩] [] false)
          (List.range 256)) (fun _ => Value.nil)).G
      ∧ VMAt (BytecodeChunk.mk [⟨.OP_TEST, 0, 0, 0⟩, ⟨.OP_JMP, 0, 1, 0⟩,
          ⟨.OP_RETURN, 0, 1, 0⟩, ⟨.OP_RETURN, 0, 1, 0⟩] [] false) (List.range 256)
          (if ((vmInit (serializeBuffer (BytecodeChunk.mk [⟨.OP_TEST, 0, 0, 0⟩,
            ⟨.OP_JMP, 0, 1, 0⟩, ⟨.OP_RETURN, 0, 1, 0⟩, ⟨.OP_RETURN, 0, 1, 0⟩] [] false)
            (List.range 256)) (fun _ => Value.nil)).S 0).truthy then 0 + 2 + 1 else 0 + 2) vm1 :=
  if_test_inverted.1 (BytecodeChunk.mk [⟨.OP_TEST, 0, 0, 0⟩, ⟨.OP_JMP, 0, 1, 0⟩,
      ⟨.OP_RETURN, 0, 1, 0⟩, ⟨.OP_RETURN, 0, 1, 0⟩] [] false) (List.range 256) [] 0 1 0 _
    (List.Perm.refl _)
    (vmInit_at _ _ _ (by decide) (fun c hc => absurd hc (List.not_mem_nil c))).1
    rfl rfl (by decide) (by decide)

/-! ## C20: the jumps at the end of the branches of an `if` -/

/-- C20 (the code departs from the claim): in
`if 1 < 2 then x=1 elseif b then y=2 else z=3 end` the jump that ends the
then-branch is instruction 6 and the first instruction after the construct is
instruction 15 (of 16, the last being the final RETURN), but the jump has
B = 6: it leads to instruction 13, the first of the else-body. Run by the generated script, the then-branch stores x = 1
and the else-body then stores z = 3. With two `elseif` and no `else` the jump
of the then-branch (instruction 5, B = 6) leads to the condition of the second
`elseif` (12) instead of the end (18). The jump is right when nothing follows
the first `elseif`, and in a plain if-else; the jump that ends the last
`elseif` is right. -/
theorem elseif_jump_misses_end :
    (compileSource 100 "if 1 < 2 then x=1 elseif b then y=2 else z=3 end").map
        (fun c => (c.Instructions, c.Constants))
      = some ([⟨.OP_LOADK, 0, 0, 0⟩, ⟨.OP_LOADK, 1, 1, 0⟩, ⟨.OP_LT, 0, 0, 1⟩, ⟨.OP_JMP, 0, 3, 0⟩,
          ⟨.OP_LOADK, 0, 0, 0⟩, ⟨.OP_SETGLOBAL, 0, 2, 0⟩, ⟨.OP_JMP, 0, 6, 0⟩,
          ⟨.OP_GETGLOBAL, 0, 3, 0⟩, ⟨.OP_TEST, 0, 0, 0⟩, ⟨.OP_JMP, 0, 3, 0⟩,
          ⟨.OP_LOADK, 0, 1, 0⟩, ⟨.OP_SETGLOBAL, 0, 4, 0⟩, ⟨.OP_JMP, 0, 2, 0⟩,
          ⟨.OP_LOADK, 0, 5, 0⟩, ⟨.OP_SETGLOBAL, 0, 6, 0⟩, ⟨.OP_RETURN, 0, 1, 0⟩],
          ["1", "2", "x", "b", "y", "3", "z"])
    ∧ (compileSource 100 "if 1 < 2 then x=1 elseif b then y=2 else z=3 end").map
        (fun c => (c.Instructions.length,
          [6, 12].map (fun j : Nat =>
            c.Instructions[j]?.map (fun ins => (ins.Op, (j : Int) + 1 + ins.B)))))
      = some (16, [some (.OP_JMP, 13), some (.OP_JMP, 15)])
    ∧ ((compileSource 100 "if 1 < 2 then x=1 elseif b then y=2 else z=3 end").bind
          (fun ch => vmRun (handlerAssignments (List.range 256) []) 30
            (vmInit (serializeBuffer ch (List.range 256)) (fun _ => Value.nil)))).map
          (fun vm => (vm.halted, vm.G (Value.str "x"), vm.G (Value.str "y"),
            vm.G (Value.str "z")))
        = some (true, Value.num 1, Value.nil, Value.num 3)
    ∧ (compileSource 100 "if a then x=1 elseif b then y=2 elseif c then z=3 end").map
        (fun c => (c.Instructions.length,
          [5, 11, 17].map (fun j : Nat =>
            c.Instructions[j]?.map (fun ins => (ins.Op, (j : Int) + 1 + ins.B)))))
      = some (19, [some (.OP_JMP, 12), some (.OP_JMP, 18), some (.OP_JMP, 18)])
    ∧ (compileSource 100 "if a then x=1 elseif b then y=2 end").map
        (fun c => (c.Instructions.length,
          [5, 11].map (fun j : Nat =>
            c.Instructions[j]?.map (fun ins => (ins.Op, (j : Int) + 1 + ins.B)))))
      = some (13, [some (.OP_JMP, 12), some (.OP_JMP, 12)])
    ∧ (compileSource 100 "if a then x=1 else z=3 end").map
        (fun c => (c.Instructions.length,
          [5].map (fun j : Nat =>
            c.Instructions[j]?.map (fun ins => (ins.Op, (j : Int) + 1 + ins.B)))))
      = some (9, [some (.OP_JMP, 8)]) := by
  refine ⟨?_, ?_, ?_, ?_, ?_, ?_⟩ <;> decide!
/-! ## Growth of the instruction list through the compiler -/

theorem Grows.refl (st : CompilerState) : Grows st st := List.prefix_refl _

theorem Grows.trans {a b c : CompilerState} (h1 : Grows a b) (h2 : Grows b c) : Grows a c :=
  List.IsPrefix.trans h1 h2

theorem Grows.count_le {a b : CompilerState} (h : Grows a b) : a.count ≤ b.count := by
  unfold CompilerState.count
  exact_mod_cast h.length_le

theorem count_emit (st : CompilerState) (op : OpCode) (a b c : Int) :
    (emitInstruction st op a b c).count = st.count + 1 := by
  simp [CompilerState.count, emitInstruction, AddInstruction]

theorem count_patch (st : CompilerState) (idx v : Int) : (patchB st idx v).count = st.count := by
  simp [CompilerState.count, patchB]

theorem code_emit (st : CompilerState) (op : OpCode) (a b c : Int) :
    (emitInstruction st op a b c).current.chunk.Instructions
      = st.current.chunk.Instructions ++ [⟨op, a, b, c⟩] := rfl

theorem code_addConstant (st : CompilerState) (v : String) :
    (addConstant st v).2.current.chunk.Instructions = st.current.chunk.Instructions := by
  unfold addConstant
  split <;> rfl

theorem code_addLocal (st : CompilerState) (n : String) :
    (addLocal st n).current.chunk.Instructions = st.current.chunk.Instructions := by
  unfold addLocal
  split <;> rfl

theorem code_addLocals (st : CompilerState) (ns : List ASTNode) :
    (addLocals st ns).current.chunk.Instructions = st.current.chunk.Instructions := by
  induction ns generalizing st with
  | nil => rfl
  | cons n rest ih => rw [addLocals, ih, code_addLocal]

theorem code_freeRegs (st : CompilerState) (n : Nat) :
    (freeRegs st n).current.chunk.Instructions = st.current.chunk.Instructions := by
  induction n generalizing st with
  | zero => rfl
  | succ n ih => rw [freeRegs, ih]; rfl

theorem Grows.emit {a b : CompilerState} (h : Grows a b) (op : OpCode) (x y z : Int) :
    Grows a (emitInstruction b op x y z) :=
  List.IsPrefix.trans h (List.prefix_append _ _)

theorem prefix_modify {α : Type} (f : α → α) (l m : List α) (n : Nat) (h : l <+: m)
    (hn : l.length ≤ n) : l <+: m.modify f n := by
  rw [List.modify_eq_take_drop]
  exact List.IsPrefix.trans (List.prefix_take_iff.2 ⟨h, hn⟩) (List.prefix_append _ _)

theorem Grows.patch {a b : CompilerState} (h : Grows a b) (idx v : Int) (hi : a.count ≤ idx) :
    Grows a (patchB b idx v) := by
  unfold Grows patchB
  apply prefix_modify _ _ _ _ h
  unfold CompilerState.count at hi
  omega

theorem Grows.addConst {a b : CompilerState} (h : Grows a b) (v : String) :
    Grows a (addConstant b v).2 := by
  unfold Grows
  rw [code_addConstant]
  exact h

theorem Grows.alloc {a b : CompilerState} (h : Grows a b) : Grows a (allocReg b) := h

theorem Grows.free {a b : CompilerState} (h : Grows a b) : Grows a (freeReg b) := h

theorem Grows.beginS {a b : CompilerState} (h : Grows a b) : Grows a (beginScope b) := h

theorem Grows.endS {a b : CompilerState} (h : Grows a b) : Grows a (endScope b) := h

theorem Grows.local {a b : CompilerState} (h : Grows a b) (n : String) :
    Grows a (addLocal b n) := by
  unfold Grows
  rw [code_addLocal]
  exact h

theorem Grows.locals {a b : CompilerState} (h : Grows a b) (ns : List ASTNode) :
    Grows a (addLocals b ns) := by
  unfold Grows
  rw [code_addLocals]
  exact h

theorem Grows.freeN {a b : CompilerState} (h : Grows a b) (n : Nat) :
    Grows a (freeRegs b n) := by
  unfold Grows
  rw [code_freeRegs]
  exact h

theorem Grows.name {a b : CompilerState} (h : Grows a b) (name : String) (reg : Int) :
    Grows a (compileName b name reg) := by
  unfold compileName
  dsimp only
  split_ifs
  · exact h.emit _ _ _ _
  · exact h
  · exact (h.addConst _).emit _ _ _ _

theorem Grows.closure {a b : CompilerState} (h : Grows a b) (luaCode : String) (reg : Int)
    (n : Nat) : Grows a (emitClosure b luaCode reg n) := by
  unfold emitClosure
  dsimp only
  have h1 : Grows a { b with luaOverrun := b.luaOverrun || decide (4096 ≤ luaCode.length) } := h
  exact (h1.addConst _).emit _ _ _ _

theorem Grows.toFrom {a b : CompilerState} (h : Grows a b) (k : Nat) : GrowsFrom k a b :=
  List.IsPrefix.trans (List.take_prefix _ _) h

theorem GrowsFrom.chain {a b c : CompilerState} {k : Nat} (h1 : GrowsFrom k a b)
    (h2 : GrowsFrom k b c) : GrowsFrom k a c := by
  unfold GrowsFrom at *
  refine List.IsPrefix.trans (List.prefix_take_iff.2 ⟨h1, ?_⟩) h2
  rw [List.length_take]
  omega

theorem GrowsFrom.patchFrom {a b : CompilerState} {k : Nat} (h : GrowsFrom k a b) (idx v : Int)
    (hi : (k : Int) ≤ idx) : GrowsFrom k a (patchB b idx v) := by
  unfold GrowsFrom patchB
  apply prefix_modify _ _ _ _ h
  rw [List.length_take]
  omega

theorem GrowsFrom.toGrows {a b : CompilerState} (h : GrowsFrom a.current.chunk.Instructions.length a b) :
    Grows a b := by
  unfold GrowsFrom at h
  rw [List.take_length] at h
  exact h
theorem compileExprsInto_grows (fuel : Nat) (ih : AllGrow fuel) (st : CompilerState)
    (es : List ASTNode) (reg : Int) : GrowsTo st (compileExprsInto (fuel + 1) st es reg) := by
  intro st9 hr
  cases es with
  | nil =>
      unfold compileExprsInto at hr
      cases hr
      exact Grows.refl _
  | cons e rest =>
      unfold compileExprsInto at hr
      split at hr
      · cases hr
      · rename_i sa ha
        exact (ih.expr _ _ _ _ ha).trans (ih.exprsInto _ _ _ _ hr)

theorem compileCall_grows (fuel : Nat) (ih : AllGrow fuel) (st : CompilerState) (func : ASTNode)
    (args : List ASTNode) (reg : Int) : GrowsTo st (compileCall (fuel + 1) st func args reg) := by
  intro st9 hr
  unfold compileCall at hr
  split at hr
  · cases hr
  · rename_i sa ha
    have ea := ih.expr _ _ _ _ ha
    split at hr
    · cases hr
    · rename_i sb hb
      have eb := ih.exprsInto _ _ _ _ hb
      cases hr
      exact (ea.trans eb).emit _ _ _ _

theorem compileMethodCall_grows (fuel : Nat) (ih : AllGrow fuel) (st : CompilerState)
    (object : ASTNode) (method : String) (args : List ASTNode) (reg : Int) :
    GrowsTo st (compileMethodCall (fuel + 1) st object method args reg) := by
  intro st9 hr
  unfold compileMethodCall at hr
  split at hr
  · cases hr
  · rename_i sa ha
    have ea := ih.expr _ _ _ _ ha
    dsimp only at hr
    split at hr
    · cases hr
    · rename_i sb hb
      have eb := ih.exprsInto _ _ _ _ hb
      cases hr
      exact ((((ea.addConst _).emit _ _ _ _).trans eb)).emit _ _ _ _

theorem compileDotIndex_grows (fuel : Nat) (ih : AllGrow fuel) (st : CompilerState)
    (object : ASTNode) (field : String) (reg : Int) :
    GrowsTo st (compileDotIndex (fuel + 1) st object field reg) := by
  intro st9 hr
  unfold compileDotIndex at hr
  split at hr
  · cases hr
  · rename_i sa ha
    have ea := ih.expr _ _ _ _ ha
    dsimp only at hr
    cases hr
    exact (ea.addConst _).emit _ _ _ _

theorem compileIndex_grows (fuel : Nat) (ih : AllGrow fuel) (st : CompilerState)
    (object key : ASTNode) (reg : Int) :
    GrowsTo st (compileIndex (fuel + 1) st object key reg) := by
  intro st9 hr
  unfold compileIndex at hr
  split at hr
  · cases hr
  · rename_i sa ha
    have ea := ih.expr _ _ _ _ ha
    dsimp only at hr
    split at hr
    · cases hr
    · rename_i sb hb
      have eb : Grows sa sb := (ih.expr _ _ _ _ hb :)
      cases hr
      exact ((ea.trans eb).emit _ _ _ _).free

theorem compileTableFields_grows (fuel : Nat) (ih : AllGrow fuel) (st : CompilerState)
    (fields : List ASTNode) (reg arrayIdx : Int) :
    GrowsTo st (compileTableFields (fuel + 1) st fields reg arrayIdx) := by
  intro st9 hr
  cases fields with
  | nil =>
      unfold compileTableFields at hr
      cases hr
      exact Grows.refl _
  | cons field rest =>
      unfold compileTableFields at hr
      split at hr
      all_goals dsimp only at hr
      all_goals
        split at hr
        · cases hr
        · rename_i sa ha
          have ea := ih.expr _ _ _ _ ha
          first
            | (have eb := ih.tableFields _ _ _ _ _ hr
               first
                 | exact (((Grows.refl st).alloc.addConst _).trans ea).trans
                     (Grows.trans ((Grows.refl sa).emit _ _ _ _).free eb)
                 | exact (Grows.trans (show Grows st sa from ea)
                     (Grows.trans ((Grows.refl sa).emit _ _ _ _).free eb)))
            | (split at hr
               · cases hr
               · rename_i sb hb
                 have eb := ih.expr _ _ _ _ hb
                 have ec := ih.tableFields _ _ _ _ _ hr
                 exact (Grows.trans (show Grows st sa from ea) eb).trans
                   (Grows.trans ((Grows.refl sb).emit _ _ _ _).free.free ec))

theorem compileTable_grows (fuel : Nat) (ih : AllGrow fuel) (st : CompilerState)
    (fields : List ASTNode) (reg : Int) :
    GrowsTo st (compileTable (fuel + 1) st fields reg) := by
  intro st9 hr
  unfold compileTable at hr
  dsimp only at hr
  have ea := ih.tableFields _ _ _ _ _ hr
  exact Grows.trans ((Grows.refl st).emit _ _ _ _) ea

theorem compileBinop_grows (fuel : Nat) (ih : AllGrow fuel) (st : CompilerState)
    (op : String) (left right : ASTNode) (reg : Int) :
    GrowsTo st (compileBinop (fuel + 1) st op left right reg) := by
  intro st9 hr
  unfold compileBinop at hr
  split at hr
  · split at hr
    · cases hr
    · rename_i sa ha
      have ea := ih.expr _ _ _ _ ha
      dsimp only at hr
      split at hr
      · cases hr
      · rename_i sb hb
        have eb := ih.expr _ _ _ _ hb
        cases hr
        have e1 : Grows st sb := Grows.trans ((ea.emit _ _ _ _).emit _ _ _ _) eb
        apply e1.patch
        have := ea.count_le
        rw [count_emit]
        omega
  · dsimp only at hr
    split at hr
    · cases hr
    · rename_i sa ha
      have ea : Grows st sa := (ih.expr _ _ _ _ ha :)
      split at hr
      · cases hr
      · rename_i sb hb
        have eb := ih.expr _ _ _ _ hb
        have e1 := ea.trans eb
        split at hr
        · cases hr
          exact e1
        · split at hr
          · cases hr
            split
            · exact ((((e1.emit _ _ _ _).emit _ _ _ _).emit _ _ _ _).emit _ _ _ _)
            · exact ((((e1.emit _ _ _ _).emit _ _ _ _).emit _ _ _ _).emit _ _ _ _)
          · cases hr
            exact e1.emit _ _ _ _

theorem compileUnop_grows (fuel : Nat) (ih : AllGrow fuel) (st : CompilerState)
    (op : String) (operand : ASTNode) (reg : Int) :
    GrowsTo st (compileUnop (fuel + 1) st op operand reg) := by
  intro st9 hr
  unfold compileUnop at hr
  split at hr
  · cases hr
  · rename_i sa ha
    have ea := ih.expr _ _ _ _ ha
    split_ifs at hr <;> cases hr
    · exact ea.emit _ _ _ _
    · exact ea.emit _ _ _ _
    · exact ea.emit _ _ _ _
    · exact ea

theorem compileExpressionToReg_grows (fuel : Nat) (ih : AllGrow fuel) (st : CompilerState)
    (node : ASTNode) (reg : Int) :
    GrowsTo st (compileExpressionToReg (fuel + 1) st node reg) := by
  intro st9 hr
  unfold compileExpressionToReg at hr
  split at hr
  · cases hr
    exact ((Grows.refl st).addConst _).emit _ _ _ _
  · cases hr
    exact ((Grows.refl st).addConst _).emit _ _ _ _
  · cases hr
    exact (Grows.refl st).emit _ _ _ _
  · cases hr
    exact (Grows.refl st).emit _ _ _ _
  · cases hr
    exact (Grows.refl st).name _ _
  · exact ih.call _ _ _ _ _ hr
  · exact ih.methodCall _ _ _ _ _ _ hr
  · exact ih.dotIndex _ _ _ _ _ hr
  · exact ih.index _ _ _ _ _ hr
  · exact ih.table _ _ _ _ hr
  · exact ih.binop _ _ _ _ _ _ hr
  · exact ih.unop _ _ _ _ _ hr
  · split at hr
    · cases hr
    · cases hr
      exact Grows.closure (show Grows st { st with funcCounter := st.funcCounter + 1 } from
        Grows.refl st) _ _ _
  · cases hr
    exact Grows.refl st

theorem compileLocalValues_grows (fuel : Nat) (ih : AllGrow fuel) (st : CompilerState)
    (count : Nat) (values : List ASTNode) (slot : Int) :
    GrowsTo st (compileLocalValues (fuel + 1) st count values slot) := by
  intro st9 hr
  cases count with
  | zero =>
      unfold compileLocalValues at hr
      cases hr
      exact Grows.refl _
  | succ count =>
      unfold compileLocalValues at hr
      split at hr
      · split at hr
        · cases hr
        · rename_i sa ha
          exact (ih.expr _ _ _ _ ha).trans (ih.localValues _ _ _ _ _ hr)
      · exact Grows.trans ((Grows.refl st).emit _ _ _ _) (ih.localValues _ _ _ _ _ hr)

theorem compileLocal_grows (fuel : Nat) (ih : AllGrow fuel) (st : CompilerState)
    (names values : List ASTNode) :
    GrowsTo st (compileLocal (fuel + 1) st names values) := by
  intro st9 hr
  unfold compileLocal at hr
  dsimp only at hr
  exact Grows.trans ((Grows.refl st).locals _) (ih.localValues _ _ _ _ _ hr)

theorem compileAssignValues_grows (fuel : Nat) (ih : AllGrow fuel) (st : CompilerState)
    (values : List ASTNode) :
    GrowsTo st (compileAssignValues (fuel + 1) st values) := by
  intro st9 hr
  cases values with
  | nil =>
      unfold compileAssignValues at hr
      cases hr
      exact Grows.refl _
  | cons v rest =>
      unfold compileAssignValues at hr
      dsimp only at hr
      split at hr
      · cases hr
      · rename_i sa ha
        have ea : Grows st sa := (ih.expr _ _ _ _ ha :)
        exact ea.trans (ih.assignValues _ _ _ hr)

theorem compileAssignTargets_grows (fuel : Nat) (ih : AllGrow fuel) (st : CompilerState)
    (targets : List ASTNode) (i valueCount : Nat) (baseReg : Int) :
    GrowsTo st (compileAssignTargets (fuel + 1) st targets i valueCount baseReg) := by
  intro st9 hr
  cases targets with
  | nil =>
      unfold compileAssignTargets at hr
      cases hr
      exact Grows.refl _
  | cons target rest =>
      unfold compileAssignTargets at hr
      dsimp only at hr
      split at hr
      · split_ifs at hr
        all_goals
          first
            | exact Grows.trans ((Grows.refl st).emit _ _ _ _) (ih.assignTargets _ _ _ _ _ _ hr)
            | exact Grows.trans (((Grows.refl st).addConst _).emit _ _ _ _)
                (ih.assignTargets _ _ _ _ _ _ hr)
            | exact Grows.trans
                (((((Grows.refl st).addConst _).alloc.emit _ _ _ _).emit _ _ _ _).free)
                (ih.assignTargets _ _ _ _ _ _ hr)
      · split at hr
        · cases hr
        · rename_i sa ha
          have ea : Grows st sa := (ih.expr _ _ _ _ ha :)
          exact Grows.trans (((ea.addConst _).emit _ _ _ _).free)
            (ih.assignTargets _ _ _ _ _ _ hr)
      · split at hr
        · cases hr
        · rename_i sa ha
          have ea : Grows st sa := (ih.expr _ _ _ _ ha :)
          split at hr
          · cases hr
          · rename_i sb hb
            have eb := ih.expr _ _ _ _ hb
            exact Grows.trans (((ea.trans eb).emit _ _ _ _).free.free)
              (ih.assignTargets _ _ _ _ _ _ hr)
      · exact ih.assignTargets _ _ _ _ _ _ hr

theorem compileAssign_grows (fuel : Nat) (ih : AllGrow fuel) (st : CompilerState)
    (targets values : List ASTNode) :
    GrowsTo st (compileAssign (fuel + 1) st targets values) := by
  intro st9 hr
  unfold compileAssign at hr
  dsimp only at hr
  split at hr
  · cases hr
  · rename_i sa ha
    have ea := ih.assignValues _ _ _ ha
    split at hr
    · cases hr
    · rename_i sb hb
      have eb := ih.assignTargets _ _ _ _ _ _ hb
      cases hr
      exact (ea.trans eb).freeN _

theorem compileCondition_grows (fuel : Nat) (ih : AllGrow fuel) (st : CompilerState)
    (cond : ASTNode) (freeBeforeTest : Bool) :
    ConditionGrows st (compileCondition (fuel + 1) st cond freeBeforeTest) := by
  intro st9 hr
  unfold compileCondition at hr
  simp only [] at hr
  split at hr
  · split at hr
    · split at hr
      · cases hr
      · rename_i sa ha
        have ea : Grows st sa := (ih.expr _ _ _ _ ha :)
        split at hr
        · cases hr
        · rename_i sb hb
          have eb := ih.expr _ _ _ _ hb
          cases hr
          split
          · exact ⟨_, (ea.trans eb).emit _ _ _ _, rfl⟩
          · exact ⟨_, (ea.trans eb).emit _ _ _ _, rfl⟩
    · split at hr
      · cases hr
      · rename_i sa ha
        have ea : Grows st sa := (ih.expr _ _ _ _ ha :)
        split at hr <;> cases hr
        · exact ⟨_, ea.emit _ _ _ _, rfl⟩
        · exact ⟨_, ea.emit _ _ _ _, rfl⟩
  · split at hr
    · cases hr
    · rename_i sa ha
      have ea : Grows st sa := (ih.expr _ _ _ _ ha :)
      split at hr <;> cases hr
      · exact ⟨_, ea.emit _ _ _ _, rfl⟩
      · exact ⟨_, ea.emit _ _ _ _, rfl⟩
theorem GrowsFrom.ofMin {a b : CompilerState} {k : Nat}
    (h : GrowsFrom (min k a.current.chunk.Instructions.length) a b) : GrowsFrom k a b := by
  unfold GrowsFrom at *
  rw [List.take_eq_take.2 (by simp : min k a.current.chunk.Instructions.length
    = min (min k a.current.chunk.Instructions.length) a.current.chunk.Instructions.length)]
  exact h

theorem compileElseifs_grows (fuel : Nat) (ih : AllGrow fuel) (st : CompilerState)
    (elseifs : List ASTNode) (elseJump : Int) :
    ElseifsGrow st elseJump (compileElseifs (fuel + 1) st elseifs elseJump) := by
  intro st9 j hr
  cases elseifs with
  | nil =>
      unfold compileElseifs at hr
      cases hr
      exact ⟨le_refl _, Or.inl rfl, fun k _ => (Grows.refl _).toFrom k⟩
  | cons e rest =>
      unfold compileElseifs at hr
      simp only [] at hr
      split at hr
      · split at hr
        · cases hr
        · rename_i sa ha
          have ea : Grows st sa := (ih.expr _ _ _ _ ha :)
          split at hr
          · cases hr
          · rename_i sb hb
            have eb := ih.node _ _ _ hb
            have e1 : Grows st sb :=
              Grows.trans (((ea.free.emit _ _ _ _).emit _ _ _ _).beginS) eb
            have c1 := ea.count_le
            have c2 := eb.count_le
            have c3 := e1.count_le
            obtain ⟨r1, r2, r3⟩ := ih.elseifs _ _ _ _ _ hr
            have hidx : ∀ r : Int,
                st.count ≤ (emitInstruction (freeReg sa) .OP_TEST r 0 0).count := by
              intro r
              rw [count_emit]
              show st.count ≤ sa.count + 1
              omega
            have e2 := fun (r v : Int) =>
              Grows.patch (e1.endS.emit .OP_JMP 0 0 0) _ v (hidx r)
            have hcnt : (endScope sb).count = sb.count := rfl
            refine ⟨?_, ?_, ?_⟩
            · refine le_trans ?_ r1
              split
              · rw [count_patch, count_patch, count_emit, hcnt]
                omega
              · rw [count_patch, count_emit, hcnt]
                omega
            · right
              rcases r2 with r2 | r2
              · rw [r2, hcnt]
                omega
              · refine le_trans ?_ r2
                split
                · rw [count_patch, count_patch, count_emit, hcnt]
                  omega
                · rw [count_patch, count_emit, hcnt]
                  omega
            · intro k hk
              apply GrowsFrom.ofMin
              have hm : ((min k st.current.chunk.Instructions.length : Nat) : Int) ≤ st.count := by
                unfold CompilerState.count
                exact_mod_cast Nat.min_le_right _ _
              have hm2 : ((min k st.current.chunk.Instructions.length : Nat) : Int) ≤ (k : Int) := by
                exact_mod_cast Nat.min_le_left _ _
              refine GrowsFrom.chain ?_ (r3 _ (Or.inr (by rw [hcnt]; omega)))
              split
              · rename_i hge
                apply GrowsFrom.patchFrom ((e2 _ _).toFrom _)
                omega
              · exact (e2 _ _).toFrom _
      · exact ih.elseifs _ _ _ _ _ hr
theorem code_length_count (st : CompilerState) :
    ((st.current.chunk.Instructions.length : Nat) : Int) = st.count := rfl

theorem ConditionGrows.count {st st1 mid : CompilerState} (h : Grows st mid)
    (e : st1.current.chunk.Instructions
      = mid.current.chunk.Instructions ++ [⟨OpCode.OP_JMP, 0, 0, 0⟩]) :
    st.count ≤ st1.count - 1 ∧ Grows st st1 := by
  have c := h.count_le
  refine ⟨?_, ?_⟩
  · unfold CompilerState.count at *
    rw [e, List.length_append]
    simp only [List.length_cons, List.length_nil]
    push_cast
    omega
  · unfold Grows
    rw [e]
    exact List.IsPrefix.trans h (List.prefix_append _ _)

theorem compileIf_grows (fuel : Nat) (ih : AllGrow fuel) (st : CompilerState)
    (cond thenBlock : ASTNode) (elseifs : List ASTNode) (elseBlock : Option ASTNode) :
    GrowsTo st (compileIf (fuel + 1) st cond thenBlock elseifs elseBlock) := by
  intro st9 hr
  unfold compileIf at hr
  split at hr
  · cases hr
  · rename_i sa ha
    obtain ⟨mid, hmid, hcode⟩ := ih.condition _ _ _ _ ha
    obtain ⟨ca, ea⟩ := ConditionGrows.count hmid hcode
    dsimp only at hr
    split at hr
    · cases hr
    · rename_i sb hb
      have eb : Grows sa sb := (ih.node _ _ _ hb :)
      have cb := eb.count_le
      have e4 : Grows st (if (elseBlock.isSome || decide (elseifs.length > 0)) = true
          then emitInstruction (endScope sb) .OP_JMP 0 0 0 else endScope sb) := by
        split
        · exact (ea.trans eb).endS.emit _ _ _ _
        · exact (ea.trans eb).endS
      have e5 := fun v : Int => e4.patch (sa.count - 1) v ca
      split at hr
      · cases hr
      · rename_i sc jc hc
        obtain ⟨r1, r2, r3⟩ := ih.elseifs _ _ _ _ _ hc
        have hj0 : (if (elseBlock.isSome || decide (elseifs.length > 0)) = true
            then (endScope sb).count else -1) < 0
            ∨ st.count ≤ (if (elseBlock.isSome || decide (elseifs.length > 0)) = true
              then (endScope sb).count else -1) := by
          split
          · right
            show st.count ≤ sb.count
            omega
          · left
            omega
        have e6 : Grows st sc := by
          apply GrowsFrom.toGrows
          refine GrowsFrom.chain ((e5 _).toFrom _) (r3 _ ?_)
          rw [code_length_count]
          exact hj0
        have c5 := (e5 ((if (elseBlock.isSome || decide (elseifs.length > 0)) = true
            then emitInstruction (endScope sb) .OP_JMP 0 0 0 else endScope sb).count
              - (sa.count - 1) - 1)).count_le
        split at hr
        · cases hr
        · rename_i sd hd
          have ed : Grows sc sd := by
            split at hd
            · split at hd
              · cases hd
              · rename_i se hse
                cases hd
                exact (show Grows sc se from (ih.node _ _ _ hse :)).endS
            · cases hd
              exact Grows.refl _
          split at hr
          · rename_i hge
            cases hr
            apply (e6.trans ed).patch
            rcases r2 with r2 | r2
            · rw [r2]
              rcases hj0 with h0 | h0
              · rw [r2] at hge
                omega
              · exact h0
            · omega
          · cases hr
            exact e6.trans ed

theorem compileWhile_grows (fuel : Nat) (ih : AllGrow fuel) (st : CompilerState)
    (cond body : ASTNode) :
    GrowsTo st (compileWhile (fuel + 1) st cond body) := by
  intro st9 hr
  unfold compileWhile at hr
  dsimp only at hr
  split at hr
  · cases hr
  · rename_i sa ha
    obtain ⟨mid, hmid, hcode⟩ := ih.condition _ _ _ _ ha
    obtain ⟨ca, ea⟩ := ConditionGrows.count hmid hcode
    split at hr
    · cases hr
    · rename_i sb hb
      have eb : Grows sa sb := (ih.node _ _ _ hb :)
      have cb := eb.count_le
      cases hr
      apply Grows.patch _ _ _ ca
      apply Grows.patch ((ea.trans eb).endS.emit _ _ _ _)
      show st.count ≤ sb.count
      omega

theorem compileReturn_grows (fuel : Nat) (ih : AllGrow fuel) (st : CompilerState)
    (values : List ASTNode) :
    GrowsTo st (compileReturn (fuel + 1) st values) := by
  intro st9 hr
  unfold compileReturn at hr
  dsimp only at hr
  split at hr
  · cases hr
  · rename_i sa ha
    have ea := ih.exprsInto _ _ _ _ ha
    cases hr
    exact ea.emit _ _ _ _

theorem compileForNum_grows (fuel : Nat) (ih : AllGrow fuel) (st : CompilerState)
    (var : String) (start limit step body : ASTNode) :
    GrowsTo st (compileForNum (fuel + 1) st var start limit step body) := by
  intro st9 hr
  unfold compileForNum at hr
  dsimp only at hr
  have p0 : Grows st (addLocal (addLocal (addLocal (addLocal (beginScope st)
      "(for index)") "(for limit)") "(for step)") var) :=
    ((((Grows.refl st).beginS.local _).local _).local _).local _
  split at hr
  · cases hr
  · rename_i sa ha
    have pa := p0.trans (ih.expr _ _ _ _ ha)
    split at hr
    · cases hr
    · rename_i sb hb
      have pb := pa.trans (ih.expr _ _ _ _ hb)
      split at hr
      · cases hr
      · rename_i sc hc
        have pc := pb.trans (ih.expr _ _ _ _ hc)
        split at hr
        · cases hr
        · rename_i sd hd
          have ed : Grows (emitInstruction sc .OP_FORPREP _ 0 0) sd := ih.node _ _ _ hd
          have cc := pc.count_le
          have cd := ed.count_le
          rw [count_emit] at cd
          cases hr
          apply Grows.endS
          apply Grows.patch
          · apply Grows.patch (((pc.emit _ _ _ _).trans ed).emit _ _ _ _)
            exact cc
          · omega

theorem compileForIn_grows (fuel : Nat) (ih : AllGrow fuel) (st : CompilerState)
    (names iterators : List ASTNode) (body : ASTNode) :
    GrowsTo st (compileForIn (fuel + 1) st names iterators body) := by
  intro st9 hr
  unfold compileForIn at hr
  dsimp only at hr
  have p0 : Grows st (addLocals (addLocal (addLocal (addLocal (beginScope st)
      "(for generator)") "(for state)") "(for control)") names) :=
    ((((Grows.refl st).beginS.local _).local _).local _).locals _
  split at hr
  · cases hr
  · rename_i sa ha
    have pa := p0.trans (ih.exprsInto _ _ _ _ ha)
    split at hr
    · cases hr
    · rename_i sd hd
      have ed : Grows (emitInstruction (emitInstruction sa .OP_TFORLOOP _ 0 _) .OP_JMP 0 0 0) sd :=
        ih.node _ _ _ hd
      have ca := pa.count_le
      have cd := ed.count_le
      rw [count_emit, count_emit] at cd
      cases hr
      apply Grows.endS
      apply Grows.patch
      · apply Grows.patch ((((pa.emit _ _ _ _).emit _ _ _ _).trans ed).emit _ _ _ _)
        omega
      · rw [count_emit]
        omega

theorem closure_grows (fuel : Nat) (st s1 st9 : CompilerState) (params : List ASTNode)
    (body : ASTNode) (slot : Int) (p1 : Grows st s1)
    (hk : (match functionLuaCode fuel s1.funcCounter params body with
        | none => none
        | some luaCode =>
            if slot ≥ 0 then
              some (emitClosure { s1 with funcCounter := s1.funcCounter + 1 } luaCode slot
                params.length)
            else some { s1 with funcCounter := s1.funcCounter + 1 }) = some st9) :
    Grows st st9 := by
  split at hk
  · cases hk
  · rename_i code hcode
    split at hk
    · cases hk
      exact Grows.closure (show Grows st { s1 with funcCounter := s1.funcCounter + 1 } from p1)
        _ _ _
    · cases hk
      exact p1

theorem compileFunction_grows (fuel : Nat) (st : CompilerState)
    (isLocal : Bool) (funcName : Option String) (params : List ASTNode) (body : ASTNode) :
    GrowsTo st (compileFunction (fuel + 1) st isLocal funcName params body) := by
  intro st9 hr
  unfold compileFunction at hr
  cases isLocal <;> cases funcName
  · exact closure_grows fuel st st st9 params body _ (Grows.refl _) hr
  · exact closure_grows fuel st st st9 params body _ (Grows.refl _) hr
  · exact closure_grows fuel st st st9 params body _ (Grows.refl _) hr
  · exact closure_grows fuel st _ st9 params body _ ((Grows.refl _).local _) hr

theorem compileStatement_grows (fuel : Nat) (ih : AllGrow fuel) (st : CompilerState)
    (node : ASTNode) :
    GrowsTo st (compileStatement (fuel + 1) st node) := by
  intro st9 hr
  unfold compileStatement at hr
  simp only [] at hr
  split at hr
  · exact ih.localStmt _ _ _ _ hr
  · exact ih.assign _ _ _ _ hr
  · exact ih.ifStmt _ _ _ _ _ _ hr
  · exact ih.whileStmt _ _ _ _ hr
  · exact ih.forNum _ _ _ _ _ _ _ hr
  · exact ih.forIn _ _ _ _ _ hr
  · exact ih.returnStmt _ _ _ hr
  · cases hr
    exact (Grows.refl st).emit _ _ _ _
  · exact ih.function _ _ _ _ _ _ hr
  · exact ih.function _ _ _ _ _ _ hr
  · split at hr
    · cases hr
    · rename_i sa ha
      have ea : Grows st sa := (ih.expr _ _ _ _ ha :)
      cases hr
      exact ea
  · split at hr
    · cases hr
    · rename_i sa ha
      have ea : Grows st sa := (ih.expr _ _ _ _ ha :)
      cases hr
      exact ea
  · cases hr
    exact Grows.refl _

theorem compileStatements_grows (fuel : Nat) (ih : AllGrow fuel) (st : CompilerState)
    (nodes : List ASTNode) :
    GrowsTo st (compileStatements (fuel + 1) st nodes) := by
  intro st9 hr
  cases nodes with
  | nil =>
      unfold compileStatements at hr
      cases hr
      exact Grows.refl _
  | cons s rest =>
      unfold compileStatements at hr
      split at hr
      · cases hr
      · rename_i sa ha
        exact (ih.statement _ _ _ ha).trans (ih.statements _ _ _ hr)

theorem compileNode_grows (fuel : Nat) (ih : AllGrow fuel) (st : CompilerState)
    (node : ASTNode) :
    GrowsTo st (compileNode (fuel + 1) st node) := by
  intro st9 hr
  unfold compileNode at hr
  split at hr
  · cases hr
    exact Grows.refl _
  · split at hr
    · exact ih.statements _ _ _ hr
    · exact ih.statements _ _ _ hr
    · exact ih.statement _ _ _ hr

/-- No compile function removes or changes an instruction that was there
before it was called. -/
theorem allGrow (fuel : Nat) : AllGrow fuel := by
  induction fuel with
  | zero =>
      constructor <;> intros <;> intro _ <;> intros <;> rename_i hr <;> cases hr
  | succ fuel ih =>
      exact {
        exprsInto := compileExprsInto_grows fuel ih
        call := compileCall_grows fuel ih
        methodCall := compileMethodCall_grows fuel ih
        dotIndex := compileDotIndex_grows fuel ih
        index := compileIndex_grows fuel ih
        tableFields := compileTableFields_grows fuel ih
        table := compileTable_grows fuel ih
        binop := compileBinop_grows fuel ih
        unop := compileUnop_grows fuel ih
        expr := compileExpressionToReg_grows fuel ih
        localValues := compileLocalValues_grows fuel ih
        localStmt := compileLocal_grows fuel ih
        assignValues := compileAssignValues_grows fuel ih
        assignTargets := compileAssignTargets_grows fuel ih
        assign := compileAssign_grows fuel ih
        condition := compileCondition_grows fuel ih
        elseifs := compileElseifs_grows fuel ih
        ifStmt := compileIf_grows fuel ih
        whileStmt := compileWhile_grows fuel ih
        forNum := compileForNum_grows fuel ih
        forIn := compileForIn_grows fuel ih
        returnStmt := compileReturn_grows fuel ih
        function := compileFunction_grows fuel
        statement := compileStatement_grows fuel ih
        statements := compileStatements_grows fuel ih
        node := compileNode_grows fuel ih }
/-! ## C21: the jumps of a while loop -/

theorem getElem?_patchB_same (st : CompilerState) (i : Nat) (v : Int) (ins : Instruction)
    (h : st.current.chunk.Instructions[i]? = some ins) :
    (patchB st (i : Int) v).current.chunk.Instructions[i]? = some { ins with B := v } := by
  unfold patchB
  simp only [Int.toNat_ofNat, List.getElem?_modify, h]
  simp

theorem getElem?_patchB_other (st : CompilerState) (i k : Nat) (v : Int) (hne : i ≠ k) :
    (patchB st (i : Int) v).current.chunk.Instructions[k]?
      = st.current.chunk.Instructions[k]? := by
  unfold patchB
  simp only [Int.toNat_ofNat, List.getElem?_modify]
  cases st.current.chunk.Instructions[k]? with
  | none => rfl
  | some x => simp [hne]

/-- The instructions `compileWhile` leaves: the exit jump emitted by the
condition and the back jump emitted after the body, with their patched
displacements. -/
theorem compileWhile_jumps (fuel : Nat) (st st1 : CompilerState) (cond body : ASTNode)
    (h : compileWhile (fuel + 1) st cond body = some st1) :
    ∃ (stc stb : CompilerState) (e j : Nat),
      compileCondition fuel st cond false = some stc
        ∧ compileNode fuel (beginScope stc) body = some stb
        ∧ (e : Int) = stc.count - 1 ∧ (j : Int) = stb.count ∧ st1.count = (j : Int) + 1
        ∧ st.count ≤ (e : Int) ∧ e < j
        ∧ st1.current.chunk.Instructions[j]? = some ⟨.OP_JMP, 0, st.count - (j : Int) - 1, 0⟩
        ∧ st1.current.chunk.Instructions[e]? = some ⟨.OP_JMP, 0, st1.count - (e : Int) - 1, 0⟩ := by
  unfold compileWhile at h
  dsimp only at h
  split at h
  · cases h
  · rename_i sa ha
    obtain ⟨mid, hmid, hcode⟩ := (allGrow fuel).condition _ _ _ _ ha
    obtain ⟨ca, ea⟩ := ConditionGrows.count hmid hcode
    split at h
    · cases h
    · rename_i sb hb
      have eb : Grows sa sb := ((allGrow fuel).node _ _ _ hb :)
      have cb := eb.count_le
      have hsa : sa.count = (mid.current.chunk.Instructions.length : Int) + 1 := by
        unfold CompilerState.count
        rw [hcode]
        simp
      have hsb : ((sb.current.chunk.Instructions.length : Nat) : Int) = sb.count := rfl
      have he0 : sb.current.chunk.Instructions[mid.current.chunk.Instructions.length]?
          = some ⟨.OP_JMP, 0, 0, 0⟩ := by
        apply prefix_getElem? eb
        rw [hcode]
        simp
      have e1 : sa.count - 1 = ((mid.current.chunk.Instructions.length : Nat) : Int) := by
        omega
      have e2 : (endScope sb).count = ((sb.current.chunk.Instructions.length : Nat) : Int) := rfl
      have hlt : mid.current.chunk.Instructions.length < sb.current.chunk.Instructions.length := by
        omega
      have g4j : (emitInstruction (endScope sb) .OP_JMP 0 0 0).current.chunk.Instructions[
          sb.current.chunk.Instructions.length]? = some ⟨.OP_JMP, 0, 0, 0⟩ := by
        rw [code_emit]
        simp [endScope]
      have g4e : (emitInstruction (endScope sb) .OP_JMP 0 0 0).current.chunk.Instructions[
          mid.current.chunk.Instructions.length]? = some ⟨.OP_JMP, 0, 0, 0⟩ := by
        rw [code_emit, List.getElem?_append_left (by exact hlt)]
        exact he0
      refine ⟨sa, sb, mid.current.chunk.Instructions.length,
        sb.current.chunk.Instructions.length, ha, hb, by omega, rfl, ?_, by omega, by omega,
        ?_, ?_⟩
      · cases h
        rw [count_patch, count_patch, count_emit]
        rfl
      · cases h
        rw [e1, getElem?_patchB_other _ _ _ _ (by omega), e2]
        exact getElem?_patchB_same _ _ _ _ g4j
      · cases h
        rw [e1, e2]
        rw [getElem?_patchB_same _ _ _ ⟨.OP_JMP, 0, 0, 0⟩ (by
          rw [getElem?_patchB_other _ _ _ _ (by omega)]
          exact g4e)]
        simp only [count_patch]

/-- One turn of the dispatch loop at a JMP whose displacement fits 16 signed
bits moves the cursor to the instruction the displacement names and changes
nothing else. -/
theorem jmp_turn (chunk : BytecodeChunk) (m : List Nat) (H : List (Nat × Handler))
    (hH : HandlersOK m H) (j t : Nat) (B : Int) (vm : VM) (hvm : VMAt chunk m j vm)
    (hj : chunk.Instructions[j]? = some ⟨.OP_JMP, 0, B, 0⟩)
    (hB : -32768 ≤ B ∧ B ≤ 32767) (ht : (t : Int) = (j : Int) + 1 + B) :
    ∃ vm1, vmStep H vm = some vm1 ∧ VMAt chunk m t vm1 ∧ vm1.S = vm.S ∧ vm1.G = vm.G := by
  refine ⟨{ vm with pos := vm.pos + 6 + B * 6 }, ?_, ⟨hvm.hD, ?_, hvm.hK⟩, rfl, rfl⟩
  · rw [vmStep_at chunk m H hH j vm hvm _ hj (fits_mk _ _ _ _ (by omega) (by omega) (by omega))]
    exact execHandler_jmp vm B
  · show vm.pos + 6 + B * 6 = _
    rw [hvm.hpos, ht]
    omega

/-- C21 (confirmed): when `compileWhile` returns, which it does for enough
fuel, the exit jump emitted after the condition sits at an index e and the
back jump emitted after the body at the last index j, with s <= e < j for the
loop entry s (the instruction count on entry); the back jump is JMP 0 (s - j
- 1) 0 and the exit jump is JMP 0 (n - e - 1) 0 for the count n afterwards.
For every instruction whose B lies in -32768 .. 32767 the two bytes written
by the serializer, read back with the dispatcher's sign adjustment, give B.
Under any opcode map that is a permutation of 0 .. 255, one turn of the
dispatch loop at such a JMP at index j leaves the cursor at instruction j + 1
+ B; so the back jump leads to instruction s and the exit jump to instruction
n. The code of `while x do y = 1 end` is evaluated as an example. -/
theorem while_jumps_reach_targets :
    (∀ (fuel : Nat) (st st1 : CompilerState) (cond body : ASTNode),
      compileWhile (fuel + 1) st cond body = some st1 →
      ∃ (stc stb : CompilerState) (e j : Nat),
        compileCondition fuel st cond false = some stc
          ∧ compileNode fuel (beginScope stc) body = some stb
          ∧ (e : Int) = stc.count - 1 ∧ (j : Int) = stb.count ∧ st1.count = (j : Int) + 1
          ∧ st.count ≤ (e : Int) ∧ e < j
          ∧ st1.current.chunk.Instructions[j]?
              = some ⟨.OP_JMP, 0, st.count - (j : Int) - 1, 0⟩
          ∧ st1.current.chunk.Instructions[e]?
              = some ⟨.OP_JMP, 0, st1.count - (e : Int) - 1, 0⟩
          ∧ ∀ (m fakeDraws : List Nat) (vm : VM), m.Perm (List.range 256) →
              ((-32768 ≤ st.count - (j : Int) - 1 → VMAt st1.current.chunk m j vm →
                ∃ vm1, vmStep (handlerAssignments m fakeDraws) vm = some vm1
                  ∧ VMAt st1.current.chunk m st.current.chunk.Instructions.length vm1
                  ∧ vm1.S = vm.S ∧ vm1.G = vm.G)
              ∧ (st1.count - (e : Int) - 1 ≤ 32767 → VMAt st1.current.chunk m e vm →
                ∃ vm1, vmStep (handlerAssignments m fakeDraws) vm = some vm1
                  ∧ VMAt st1.current.chunk m st1.current.chunk.Instructions.length vm1
                  ∧ vm1.S = vm.S ∧ vm1.G = vm.G)))
    ∧ (∀ (st : CompilerState) (cond body : ASTNode) (fuel : Nat),
        10 * (sizeOf cond + sizeOf body) + 6 ≤ fuel →
        ∃ st1, compileWhile fuel st cond body = some st1)
    ∧ (∀ (m : List Nat) (ins : Instruction), -32768 ≤ ins.B → ins.B ≤ 32767 →
        (if 32768 ≤ (serializeInstruction m ins).getD 2 0
              + (serializeInstruction m ins).getD 3 0 * 256
          then (((serializeInstruction m ins).getD 2 0
              + (serializeInstruction m ins).getD 3 0 * 256 : Nat) : Int) - 65536
          else (((serializeInstruction m ins).getD 2 0
              + (serializeInstruction m ins).getD 3 0 * 256 : Nat) : Int)) = ins.B)
    ∧ (∀ (chunk : BytecodeChunk) (m fakeDraws : List Nat) (j t : Nat) (B : Int) (vm : VM),
        m.Perm (List.range 256) → VMAt chunk m j vm →
        chunk.Instructions[j]? = some ⟨.OP_JMP, 0, B, 0⟩ →
        -32768 ≤ B ∧ B ≤ 32767 → (t : Int) = (j : Int) + 1 + B →
        ∃ vm1, vmStep (handlerAssignments m fakeDraws) vm = some vm1 ∧ VMAt chunk m t vm1
          ∧ vm1.S = vm.S ∧ vm1.G = vm.G)
    ∧ (compileSource 100 "while x do y = 1 end").map (fun c => c.Instructions)
        = some [⟨.OP_GETGLOBAL, 0, 0, 0⟩, ⟨.OP_TEST, 0, 0, 0⟩, ⟨.OP_JMP, 0, 3, 0⟩,
            ⟨.OP_LOADK, 0, 1, 0⟩, ⟨.OP_SETGLOBAL, 0, 2, 0⟩, ⟨.OP_JMP, 0, -6, 0⟩,
            ⟨.OP_RETURN, 0, 1, 0⟩] := by
  refine ⟨?_, ?_, ?_, ?_, ?_⟩
  · intro fuel st st1 cond body h
    obtain ⟨stc, stb, e, j, h1, h2, h3, h4, h5, h6, h7, h8, h9⟩ :=
      compileWhile_jumps fuel st st1 cond body h
    refine ⟨stc, stb, e, j, h1, h2, h3, h4, h5, h6, h7, h8, h9, ?_⟩
    intro m fakeDraws vm hm
    have hH := handlerAssignments_ok m hm fakeDraws
    have hs : 0 ≤ st.count := by
      unfold CompilerState.count
      omega
    constructor
    · intro hlo hvm
      exact jmp_turn _ m _ hH j _ _ vm hvm h8 ⟨hlo, by omega⟩ (by
        unfold CompilerState.count
        omega)
    · intro hhi hvm
      exact jmp_turn _ m _ hH e _ _ vm hvm h9 ⟨by omega, hhi⟩ (by
        unfold CompilerState.count at *
        omega)
  · intro st cond body fuel hf
    exact (allReturn fuel).whileStmt st cond body hf
  · intro m ins hlo hhi
    exact decode_B ins.B ⟨hlo, by omega⟩
  · intro chunk m fakeDraws j t B vm hm hvm hj hB ht
    exact jmp_turn chunk m _ (handlerAssignments_ok m hm fakeDraws) j t B vm hvm hj hB ht
  · decide!

/-- The first part at the loop `while x do y = 1 end`, compiled from the
start state. -/
theorem while_jumps_reach_targets_witness :
    ∃ st1 : CompilerState,
      compileWhile (20 + 1) startState (.NODE_NAME "x")
          (.NODE_BLOCK [.NODE_ASSIGN [.NODE_NAME "y"] [.NODE_NUMBER (.int 1)]]) = some st1
      ∧ ∃ (stc stb : CompilerState) (e j : Nat),
        compileCondition 20 startState (.NODE_NAME "x") false = some stc
          ∧ compileNode 20 (beginScope stc)
              (.NODE_BLOCK [.NODE_ASSIGN [.NODE_NAME "y"] [.NODE_NUMBER (.int 1)]]) = some stb
          ∧ (e : Int) = stc.count - 1 ∧ (j : Int) = stb.count ∧ st1.count = (j : Int) + 1
          ∧ startState.count ≤ (e : Int) ∧ e < j
          ∧ st1.current.chunk.Instructions[j]?
              = some ⟨.OP_JMP, 0, startState.count - (j : Int) - 1, 0⟩
          ∧ st1.current.chunk.Instructions[e]?
              = some ⟨.OP_JMP, 0, st1.count - (e : Int) - 1, 0⟩
          ∧ ∀ (m fakeDraws : List Nat) (vm : VM), m.Perm (List.range 256) →
              ((-32768 ≤ startState.count - (j : Int) - 1 → VMAt st1.current.chunk m j vm →
                ∃ vm1, vmStep (handlerAssignments m fakeDraws) vm = some vm1
                  ∧ VMAt st1.current.chunk m startState.current.chunk.Instructions.length vm1
                  ∧ vm1.S = vm.S ∧ vm1.G = vm.G)
              ∧ (st1.count - (e : Int) - 1 ≤ 32767 → VMAt st1.current.chunk m e vm →
                ∃ vm1, vmStep (handlerAssignments m fakeDraws) vm = some vm1
                  ∧ VMAt st1.current.chunk m st1.current.chunk.Instructions.length vm1
                  ∧ vm1.S = vm.S ∧ vm1.G = vm.G)) :=
  have hs : (compileWhile (20 + 1) startState (.NODE_NAME "x")
      (.NODE_BLOCK [.NODE_ASSIGN [.NODE_NAME "y"] [.NODE_NUMBER (.int 1)]])).isSome = true := by
    decide!
  ⟨_, (Option.some_get hs).symm,
    while_jumps_reach_targets.1 20 startState _ (.NODE_NAME "x")
      (.NODE_BLOCK [.NODE_ASSIGN [.NODE_NAME "y"] [.NODE_NUMBER (.int 1)]])
      (Option.some_get hs).symm⟩
/-! ## C22: the generic for loop -/

theorem execHandler_tforloop (vm : VM) (A C : Int) (f : Nat) (r : List Value)
    (hf : vm.S A = .func f) (hc : vm.call f [vm.S (A + 1), vm.S (A + 2)] = some r) :
    execHandler .OP_TFORLOOP A 0 C { vm with pos := vm.pos + 6 }
      = some (if r.headD Value.nil ≠ Value.nil then
          { vm with
            pos := vm.pos + 6
            S := setReg (tforStore vm.S A C r) (A + 2) (r.headD Value.nil) }
        else { vm with pos := vm.pos + 6 + 6, S := tforStore vm.S A C r }) := by
  unfold execHandler
  simp only [hf, hc]
  split <;> rfl

/-- TFORLOOP A 0 C at instruction i followed by JMP 0 b 0: when the first
value the iterator returns is not nil the jump is executed, and when it is
nil the jump is skipped. -/
theorem tforloop_jmp_run (chunk : BytecodeChunk) (m : List Nat) (H : List (Nat × Handler))
    (hH : HandlersOK m H) (i b : Nat) (A C : Int) (vm : VM) (f : Nat) (r : List Value)
    (hvm : VMAt chunk m i vm)
    (h0 : chunk.Instructions[i]? = some ⟨.OP_TFORLOOP, A, 0, C⟩)
    (h1 : chunk.Instructions[i + 1]? = some ⟨.OP_JMP, 0, (b : Int), 0⟩)
    (hA : 0 ≤ A ∧ A < 256) (hC : 0 ≤ C ∧ C < 65536) (hb : b < 32768)
    (hf : vm.S A = .func f) (hc : vm.call f [vm.S (A + 1), vm.S (A + 2)] = some r) :
    ∃ vm1, Reaches H vm vm1 ∧ vm1.G = vm.G
      ∧ vm1.S = (if r.headD Value.nil ≠ Value.nil then
          setReg (tforStore vm.S A C r) (A + 2) (r.headD Value.nil)
        else tforStore vm.S A C r)
      ∧ VMAt chunk m (if r.headD Value.nil ≠ Value.nil then i + 2 + b else i + 2) vm1 := by
  have he := execHandler_tforloop vm A C f r hf hc
  by_cases hn : r.headD Value.nil ≠ Value.nil
  · rw [if_pos hn] at he
    simp only [if_pos hn]
    have r1 := Reaches.oneStep chunk m H hH i vm _ hvm _ h0
      (fits_mk _ _ _ _ hA (by omega) hC) he
    have a1 : VMAt chunk m (i + 1) { vm with
        pos := vm.pos + 6
        S := setReg (tforStore vm.S A C r) (A + 2) (r.headD Value.nil) } := by
      refine ⟨hvm.hD, ?_, hvm.hK⟩
      show vm.pos + 6 = _
      rw [hvm.hpos]
      push_cast
      omega
    have r2 := Reaches.oneStep chunk m H hH (i + 1) _ _ a1 _ h1
      (fits_mk _ _ _ _ (by omega) (by omega) (by omega))
      (execHandler_jmp { vm with
        pos := vm.pos + 6
        S := setReg (tforStore vm.S A C r) (A + 2) (r.headD Value.nil) } b)
    refine ⟨_, r1.andThen r2, rfl, rfl, ⟨hvm.hD, ?_, hvm.hK⟩⟩
    show vm.pos + 6 + 6 + (b : Int) * 6 = _
    rw [hvm.hpos]
    push_cast
    omega
  · rw [if_neg hn] at he
    simp only [if_neg hn]
    have r1 := Reaches.oneStep chunk m H hH i vm _ hvm _ h0
      (fits_mk _ _ _ _ hA (by omega) hC) he
    refine ⟨_, r1, rfl, rfl, ⟨hvm.hD, ?_, hvm.hK⟩⟩
    show vm.pos + 6 + 6 = _
    rw [hvm.hpos]
    push_cast
    omega

theorem getElem?_snoc2_first {α : Type} (l : List α) (x y : α) :
    (l ++ [x] ++ [y])[l.length]? = some x := by
  induction l with
  | nil => rfl
  | cons a l ih => simpa using ih

theorem getElem?_snoc2_second {α : Type} (l : List α) (x y : α) :
    (l ++ [x] ++ [y])[l.length + 1]? = some y := by
  induction l with
  | nil => rfl
  | cons a l ih => simpa using ih

theorem code_endScope (st : CompilerState) :
    (endScope st).current.chunk.Instructions = st.current.chunk.Instructions := rfl

theorem count_endScope (st : CompilerState) : (endScope st).count = st.count := rfl

/-- The instructions `compileForIn` leaves: TFORLOOP at the loop start, the
exit jump right after it, and the back jump after the body, with their
patched displacements. -/
theorem compileForIn_jumps (fuel : Nat) (st st1 : CompilerState) (names iterators : List ASTNode)
    (body : ASTNode) (h : compileForIn (fuel + 1) st names iterators body = some st1) :
    ∃ (sti stb : CompilerState) (L j : Nat),
      compileExprsInto fuel
          (addLocals (addLocal (addLocal (addLocal (beginScope st) "(for generator)")
            "(for state)") "(for control)") names)
          (iterators.take 3) (st.current.locals.length : Int) = some sti
        ∧ compileNode fuel (emitInstruction (emitInstruction sti .OP_TFORLOOP
            (st.current.locals.length : Int) 0 (names.length : Int)) .OP_JMP 0 0 0) body
            = some stb
        ∧ (L : Int) = sti.count ∧ (j : Int) = stb.count ∧ st1.count = (j : Int) + 1
        ∧ st.count ≤ (L : Int) ∧ L + 2 ≤ j
        ∧ st1.current.chunk.Instructions[L]?
            = some ⟨.OP_TFORLOOP, (st.current.locals.length : Int), 0, (names.length : Int)⟩
        ∧ st1.current.chunk.Instructions[L + 1]?
            = some ⟨.OP_JMP, 0, st1.count - ((L : Int) + 1) - 1, 0⟩
        ∧ st1.current.chunk.Instructions[j]?
            = some ⟨.OP_JMP, 0, (L : Int) - (j : Int) - 1, 0⟩ := by
  unfold compileForIn at h
  dsimp only at h
  simp only [show (beginScope st).current.locals.length = st.current.locals.length from rfl] at h
  split at h
  · cases h
  · rename_i sa ha
    have p0 : Grows st (addLocals (addLocal (addLocal (addLocal (beginScope st)
        "(for generator)") "(for state)") "(for control)") names) :=
      ((((Grows.refl st).beginS.local _).local _).local _).locals _
    have pa := p0.trans ((allGrow fuel).exprsInto _ _ _ _ ha)
    have ca := pa.count_le
    split at h
    · cases h
    · rename_i sb hb
      have eb := (allGrow fuel).node _ _ _ hb
      have cb := eb.count_le
      rw [count_emit, count_emit] at cb
      have hsa : ((sa.current.chunk.Instructions.length : Nat) : Int) = sa.count := rfl
      have hsb : ((sb.current.chunk.Instructions.length : Nat) : Int) = sb.count := rfl
      have hlt : sa.current.chunk.Instructions.length + 2 ≤ sb.current.chunk.Instructions.length := by
        omega
      have hL0 : sb.current.chunk.Instructions[sa.current.chunk.Instructions.length]?
          = some ⟨.OP_TFORLOOP, (st.current.locals.length : Int), 0, (names.length : Int)⟩ := by
        apply prefix_getElem? eb
        rw [code_emit, code_emit]
        exact getElem?_snoc2_first _ _ _
      have hL1 : sb.current.chunk.Instructions[sa.current.chunk.Instructions.length + 1]?
          = some ⟨.OP_JMP, 0, 0, 0⟩ := by
        apply prefix_getElem? eb
        rw [code_emit, code_emit]
        exact getElem?_snoc2_second _ _ _
      have e1 : (emitInstruction sa .OP_TFORLOOP (st.current.locals.length : Int) 0
          (names.length : Int)).count
            = ((sa.current.chunk.Instructions.length + 1 : Nat) : Int) := by
        rw [count_emit]
        push_cast
        rfl
      have e2 : sb.count = ((sb.current.chunk.Instructions.length : Nat) : Int) := rfl
      have g6j : (emitInstruction sb .OP_JMP 0 0 0).current.chunk.Instructions[
          sb.current.chunk.Instructions.length]? = some ⟨.OP_JMP, 0, 0, 0⟩ := by
        rw [code_emit]
        simp
      have g6L : (emitInstruction sb .OP_JMP 0 0 0).current.chunk.Instructions[
          sa.current.chunk.Instructions.length]?
            = some ⟨.OP_TFORLOOP, (st.current.locals.length : Int), 0, (names.length : Int)⟩ := by
        rw [code_emit, List.getElem?_append_left (by omega)]
        exact hL0
      have g6e : (emitInstruction sb .OP_JMP 0 0 0).current.chunk.Instructions[
          sa.current.chunk.Instructions.length + 1]? = some ⟨.OP_JMP, 0, 0, 0⟩ := by
        rw [code_emit, List.getElem?_append_left (by omega)]
        exact hL1
      refine ⟨sa, sb, sa.current.chunk.Instructions.length,
        sb.current.chunk.Instructions.length, ha, hb, rfl, rfl, ?_, ca, hlt, ?_, ?_, ?_⟩
      · cases h
        rw [count_endScope, count_patch, count_patch, count_emit]
        rfl
      · cases h
        rw [code_endScope, e1, getElem?_patchB_other _ _ _ _ (by omega), e2,
          getElem?_patchB_other _ _ _ _ (by omega)]
        exact g6L
      · cases h
        rw [code_endScope, count_endScope, e1,
          getElem?_patchB_same _ _ _ ⟨.OP_JMP, 0, 0, 0⟩ (by
            rw [e2, getElem?_patchB_other _ _ _ _ (by omega)]
            exact g6e)]
        simp only [count_patch]
        push_cast
        rfl
      · cases h
        rw [code_endScope, e1, getElem?_patchB_other _ _ _ _ (by omega), e2]
        exact getElem?_patchB_same _ _ _ _ g6j

/-- C22 (the code departs from the claim): `compileForIn` emits TFORLOOP at the
loop start L, the exit jump at L + 1, the body from L + 2, and the back jump
at the last index j; the exit jump leads to j + 1, the first instruction
after the loop. The generated TFORLOOP handler skips the next instruction
when the first value the iterator returns is nil, and goes on to it when the
value is not nil. So under any opcode map that is a permutation of 0 .. 255,
from TFORLOOP the loop reaches j + 1 (it is left, the body is not run) when
the first value is not nil, and L + 2 (the body) when it is nil. On `for k in
f do x = 1 end` with an iterator over the single element 7 the run ends with
the global x unset; with an iterator over no element the body runs (x is 1)
and the loop is not left within 60 turns. -/
theorem generic_for_sense_inverted :
    (∀ (fuel : Nat) (st st1 : CompilerState) (names iterators : List ASTNode) (body : ASTNode),
      compileForIn (fuel + 1) st names iterators body = some st1 →
      ∃ (L j : Nat),
        st.count ≤ (L : Int) ∧ L + 2 ≤ j ∧ st1.count = (j : Int) + 1
          ∧ st1.current.chunk.Instructions[L]?
              = some ⟨.OP_TFORLOOP, (st.current.locals.length : Int), 0, (names.length : Int)⟩
          ∧ st1.current.chunk.Instructions[L + 1]?
              = some ⟨.OP_JMP, 0, st1.count - ((L : Int) + 1) - 1, 0⟩
          ∧ st1.current.chunk.Instructions[j]?
              = some ⟨.OP_JMP, 0, (L : Int) - (j : Int) - 1, 0⟩
          ∧ ∀ (m fakeDraws : List Nat) (vm : VM) (f : Nat) (r : List Value),
              m.Perm (List.range 256) → st.current.locals.length < 256 →
              names.length < 65536 → j < L + 32769 →
              VMAt st1.current.chunk m L vm →
              vm.S (st.current.locals.length : Int) = .func f →
              vm.call f [vm.S ((st.current.locals.length : Int) + 1),
                vm.S ((st.current.locals.length : Int) + 2)] = some r →
              ∃ vm1, Reaches (handlerAssignments m fakeDraws) vm vm1 ∧ vm1.G = vm.G
                ∧ VMAt st1.current.chunk m
                    (if r.headD Value.nil ≠ Value.nil then j + 1 else L + 2) vm1)
    ∧ (∀ (chunk : BytecodeChunk) (m fakeDraws : List Nat) (i b : Nat) (A C : Int) (vm : VM)
        (f : Nat) (r : List Value),
        m.Perm (List.range 256) → VMAt chunk m i vm →
        chunk.Instructions[i]? = some ⟨.OP_TFORLOOP, A, 0, C⟩ →
        chunk.Instructions[i + 1]? = some ⟨.OP_JMP, 0, (b : Int), 0⟩ →
        0 ≤ A ∧ A < 256 → 0 ≤ C ∧ C < 65536 → b < 32768 →
        vm.S A = .func f → vm.call f [vm.S (A + 1), vm.S (A + 2)] = some r →
        ∃ vm1, Reaches (handlerAssignments m fakeDraws) vm vm1 ∧ vm1.G = vm.G
          ∧ vm1.S = (if r.headD Value.nil ≠ Value.nil then
              setReg (tforStore vm.S A C r) (A + 2) (r.headD Value.nil)
            else tforStore vm.S A C r)
          ∧ VMAt chunk m (if r.headD Value.nil ≠ Value.nil then i + 2 + b else i + 2) vm1)
    ∧ (compileSource 100 "for k in f do x = 1 end").map (fun c => (c.Instructions, c.Constants))
        = some ([⟨.OP_GETGLOBAL, 0, 0, 0⟩, ⟨.OP_TFORLOOP, 0, 0, 1⟩, ⟨.OP_JMP, 0, 3, 0⟩,
            ⟨.OP_LOADK, 4, 1, 0⟩, ⟨.OP_SETGLOBAL, 4, 2, 0⟩, ⟨.OP_JMP, 0, -5, 0⟩,
            ⟨.OP_RETURN, 0, 1, 0⟩], ["f", "1", "x"])
    ∧ ((compileSource 100 "for k in f do x = 1 end").bind
          (fun ch => vmRun (handlerAssignments (List.range 256) []) 60
            { vmInit (serializeBuffer ch (List.range 256)) envF with call := iterOnce })).map
          (fun vm => (vm.halted, vm.G (Value.str "x"), vm.S 2, vm.S 3))
        = some (true, Value.nil, Value.num 7, Value.num 7)
    ∧ ((compileSource 100 "for k in f do x = 1 end").bind
          (fun ch => vmRun (handlerAssignments (List.range 256) []) 60
            { vmInit (serializeBuffer ch (List.range 256)) envF with call := iterNone })).map
          (fun vm => (vm.halted, vm.G (Value.str "x"), vm.S 2, vm.S 3))
        = some (false, Value.num 1, Value.nil, Value.nil) := by
  refine ⟨?_, ?_, ?_, ?_, ?_⟩
  · intro fuel st st1 names iterators body h
    obtain ⟨sti, stb, L, j, h1, h2, h3, h4, h5, h6, h7, h8, h9, h10⟩ :=
      compileForIn_jumps fuel st st1 names iterators body h
    refine ⟨L, j, h6, h7, h5, h8, h9, h10, ?_⟩
    intro m fakeDraws vm f r hm hbase hnames hj hvm hf hc
    have hb : st1.count - ((L : Int) + 1) - 1 = ((j - L - 1 : Nat) : Int) := by
      rw [h5]
      omega
    rw [hb] at h9
    obtain ⟨vm1, r1, g1, -, a1⟩ := tforloop_jmp_run st1.current.chunk m _
      (handlerAssignments_ok m hm fakeDraws) L (j - L - 1) _ _ vm f r hvm h8 h9
      ⟨by omega, by omega⟩ ⟨by omega, by omega⟩ (by omega) hf hc
    refine ⟨vm1, r1, g1, ?_⟩
    have e : L + 2 + (j - L - 1) = j + 1 := by omega
    rw [e] at a1
    exact a1
  · intro chunk m fakeDraws i b A C vm f r hm hvm h0 h1 hA hC hb hf hc
    exact tforloop_jmp_run chunk m _ (handlerAssignments_ok m hm fakeDraws) i b A C vm f r hvm
      h0 h1 hA hC hb hf hc
  · decide!
  · decide!
  · decide!

/-- The first part at the loop `for k in f do x = 1 end`, compiled from the
start state. -/
theorem generic_for_sense_inverted_witness :
    ∃ st1 : CompilerState,
      compileForIn (20 + 1) startState [.NODE_NAME "k"] [.NODE_NAME "f"]
          (.NODE_BLOCK [.NODE_ASSIGN [.NODE_NAME "x"] [.NODE_NUMBER (.int 1)]]) = some st1
      ∧ ∃ (L j : Nat),
        startState.count ≤ (L : Int) ∧ L + 2 ≤ j ∧ st1.count = (j : Int) + 1
          ∧ st1.current.chunk.Instructions[L]?
              = some ⟨.OP_TFORLOOP, (startState.current.locals.length : Int), 0,
                  (([.NODE_NAME "k"] : List ASTNode).length : Int)⟩
          ∧ st1.current.chunk.Instructions[L + 1]?
              = some ⟨.OP_JMP, 0, st1.count - ((L : Int) + 1) - 1, 0⟩
          ∧ st1.current.chunk.Instructions[j]?
              = some ⟨.OP_JMP, 0, (L : Int) - (j : Int) - 1, 0⟩
          ∧ ∀ (m fakeDraws : List Nat) (vm : VM) (f : Nat) (r : List Value),
              m.Perm (List.range 256) → startState.current.locals.length < 256 →
              ([.NODE_NAME "k"] : List ASTNode).length < 65536 → j < L + 32769 →
              VMAt st1.current.chunk m L vm →
              vm.S (startState.current.locals.length : Int) = .func f →
              vm.call f [vm.S ((startState.current.locals.length : Int) + 1),
                vm.S ((startState.current.locals.length : Int) + 2)] = some r →
              ∃ vm1, Reaches (handlerAssignments m fakeDraws) vm vm1 ∧ vm1.G = vm.G
                ∧ VMAt st1.current.chunk m
                    (if r.headD Value.nil ≠ Value.nil then j + 1 else L + 2) vm1 :=
  have hs : (compileForIn (20 + 1) startState [.NODE_NAME "k"] [.NODE_NAME "f"]
      (.NODE_BLOCK [.NODE_ASSIGN [.NODE_NAME "x"] [.NODE_NUMBER (.int 1)]])).isSome = true := by
    decide!
  ⟨_, (Option.some_get hs).symm,
    generic_for_sense_inverted.1 20 startState _ [.NODE_NAME "k"] [.NODE_NAME "f"]
      (.NODE_BLOCK [.NODE_ASSIGN [.NODE_NAME "x"] [.NODE_NUMBER (.int 1)]])
      (Option.some_get hs).symm⟩
/-! ## C23: the cursor and the instruction boundaries -/

theorem execHandler_pos (op : OpCode) (A B C : Int) (vm vm1 : VM)
    (h : execHandler op A B C vm = some vm1) (hl : op = .OP_LOADBOOL → C ≠ 1) :
    ∃ k : Int, vm1.pos = vm.pos + 6 * k := by
  cases op
  case OP_LOADBOOL =>
    unfold execHandler at h
    simp only [if_neg (hl rfl), Option.some.injEq] at h
    subst h
    exact ⟨0, by simp⟩
  all_goals unfold execHandler at h
  all_goals simp only [Option.map_eq_some'] at h
  all_goals
    first
      | (cases h; done)
      | (cases h; refine ⟨0, ?_⟩; simp; done)
      | (cases h; refine ⟨B, ?_⟩; show vm.pos + B * 6 = _; ring)
      | (obtain ⟨v, -, rfl⟩ := h; refine ⟨0, ?_⟩; simp; done)
      | (obtain ⟨v, -, rfl⟩ := h; split
         · refine ⟨1, ?_⟩; simp
         · refine ⟨0, ?_⟩; simp)
      | (split at h <;> first
          | (cases h; done)
          | (cases h; refine ⟨0, ?_⟩; simp; done)
          | (cases h; refine ⟨1, ?_⟩; simp; done)
          | (cases h; refine ⟨B, ?_⟩; show vm.pos + B * 6 = _; ring)
          | (split at h <;> first
              | (cases h; done)
              | (cases h; refine ⟨0, ?_⟩; simp; done)
              | (cases h; refine ⟨1, ?_⟩; simp; done)
              | (cases h; refine ⟨-B, ?_⟩; show vm.pos - B * 6 = _; ring)
              | (split at h <;> first
                  | (cases h; done)
                  | (cases h; refine ⟨0, ?_⟩; simp; done)
                  | (cases h; refine ⟨1, ?_⟩; simp))))

theorem execHandler_loadbool_skip (vm : VM) (A B : Int) :
    execHandler .OP_LOADBOOL A B 1 vm
      = some { vm with S := setReg vm.S A (.bool (decide (B = 1))), pos := vm.pos + 4 } := by
  unfold execHandler
  simp

/-- C23 (the code departs from the claim): every handler except LOADBOOL with
C = 1 leaves the cursor where the dispatcher put it or moves it by a multiple
of 6 bytes. The LOADBOOL handler with C = 1 adds 4: one turn of the dispatch
loop at an instruction LOADBOOL A B 1 at index i, under any opcode map that
is a permutation of 0 .. 255, leaves the cursor 4 bytes behind the start of
instruction i + 1. The compiler emits LOADBOOL r 0 1 for every comparison
used as a value. In the run of `x = 1 < 2` the cursor is 34 bytes behind
the first instruction after four turns, the following turns read from
offsets 34, 40 and 46, across the instruction boundaries, and the run ends
without the SETGLOBAL having been dispatched: the global x is unset. -/
theorem loadbool_skip_leaves_boundary :
    (∀ (op : OpCode) (A B C : Int) (vm vm1 : VM),
      execHandler op A B C vm = some vm1 → (op = .OP_LOADBOOL → C ≠ 1) →
      ∃ k : Int, vm1.pos = vm.pos + 6 * k)
    ∧ (∀ (vm : VM) (A B : Int),
        execHandler .OP_LOADBOOL A B 1 vm
          = some { vm with S := setReg vm.S A (.bool (decide (B = 1))), pos := vm.pos + 4 })
    ∧ (∀ (chunk : BytecodeChunk) (m fakeDraws : List Nat) (i : Nat) (A B : Int) (vm : VM),
        m.Perm (List.range 256) → VMAt chunk m i vm →
        chunk.Instructions[i]? = some ⟨.OP_LOADBOOL, A, B, 1⟩ →
        0 ≤ A ∧ A < 256 → -32768 ≤ B ∧ B < 32768 →
        ∃ vm1, vmStep (handlerAssignments m fakeDraws) vm = some vm1
          ∧ vm1.pos = codeBase chunk.Constants + 6 * ((i : Int) + 1) + 4
          ∧ (vm1.pos - codeBase chunk.Constants) % 6 = 4)
    ∧ (compileSource 100 "x = 1 < 2").map (fun c => (c.Instructions, c.Constants))
        = some ([⟨.OP_LOADK, 1, 0, 0⟩, ⟨.OP_LOADK, 2, 1, 0⟩, ⟨.OP_LT, 0, 1, 2⟩,
            ⟨.OP_JMP, 0, 1, 0⟩, ⟨.OP_LOADBOOL, 0, 0, 1⟩, ⟨.OP_LOADBOOL, 0, 1, 0⟩,
            ⟨.OP_SETGLOBAL, 0, 2, 0⟩, ⟨.OP_RETURN, 0, 1, 0⟩], ["1", "2", "x"])
    ∧ (compileSource 100 "x = 1 < 2").map (fun ch =>
          [3, 4, 5, 6, 7].map (fun n =>
            (vmRun (handlerAssignments (List.range 256) []) n
              (vmInit (serializeBuffer ch (List.range 256)) (fun _ => Value.nil))).map
              (fun vm => (vm.pos - codeBase ch.Constants,
                (vm.pos - codeBase ch.Constants) % 6, vm.halted, vm.G (Value.str "x")))))
        = some [some (24, 0, false, Value.nil), some (34, 4, false, Value.nil),
            some (40, 4, false, Value.nil), some (46, 4, false, Value.nil),
            some (52, 4, true, Value.nil)] := by
  refine ⟨execHandler_pos, execHandler_loadbool_skip, ?_, ?_, ?_⟩
  · intro chunk m fakeDraws i A B vm hm hvm hi hA hB
    refine ⟨{ vm with
      S := setReg vm.S A (.bool (decide (B = 1)))
      pos := vm.pos + 6 + 4 }, ?_, ?_, ?_⟩
    · rw [vmStep_at chunk m _ (handlerAssignments_ok m hm fakeDraws) i vm hvm _ hi
        (fits_mk _ _ _ _ hA hB (by omega))]
      exact execHandler_loadbool_skip _ A B
    · show vm.pos + 6 + 4 = _
      rw [hvm.hpos]
      ring
    · show (vm.pos + 6 + 4 - _) % 6 = 4
      rw [hvm.hpos]
      omega
  · decide!
  · decide!

/-- The third part at the chunk LOADBOOL 0 0 1, RETURN under the identity
opcode map, from the start. -/
theorem loadbool_skip_leaves_boundary_witness :
    ∃ vm1, vmStep (handlerAssignments (List.range 256) [])
        (vmInit (serializeBuffer (BytecodeChunk.mk [⟨.OP_LOADBOOL, 0, 0, 1⟩,
          ⟨.OP_RETURN, 0, 1, 0⟩] [] false) (List.range 256)) (fun _ => Value.nil)) = some vm1
      ∧ vm1.pos = codeBase (BytecodeChunk.mk [⟨.OP_LOADBOOL, 0, 0, 1⟩,
          ⟨.OP_RETURN, 0, 1, 0⟩] [] false).Constants + 6 * (((0 : Nat) : Int) + 1) + 4
      ∧ (vm1.pos - codeBase (BytecodeChunk.mk [⟨.OP_LOADBOOL, 0, 0, 1⟩,
          ⟨.OP_RETURN, 0, 1, 0⟩] [] false).Constants) % 6 = 4 :=
  loadbool_skip_leaves_boundary.2.2.1
    (BytecodeChunk.mk [⟨.OP_LOADBOOL, 0, 0, 1⟩, ⟨.OP_RETURN, 0, 1, 0⟩] [] false)
    (List.range 256) [] 0 0 0 _ (List.Perm.refl _)
    (vmInit_at _ _ _ (by decide) (by simp)).1 rfl (by decide) (by decide)
/-! ## C24: operands that are overwritten -/

/-- The code of two consecutive values `e1, l op r` compiled into registers R
and R + 1 while the stack top is R (the arguments of a call statement, the
values of a return): when it has run, register R holds the value of `l`, the
left operand of the second value, and register R + 1 the value of `l op r`. -/
theorem pair_run (chunk : BytecodeChunk) (m : List Nat) (H : List (Nat × Handler))
    (hH : HandlersOK m H) (hcount : chunk.Constants.length < 256)
    (st : CompilerState) (e1 l r : ArithExpr) (op : ArithOp) (v1 a b w : Int) (vm : VM)
    (h1 : e1.value = some v1) (hl : l.value = some a) (hr : r.value = some b)
    (hw : op.apply a b = some w)
    (hT : 0 ≤ st.current.stackTop)
    (hR1 : st.current.stackTop + (e1.regs : Int) ≤ 256)
    (hR2 : st.current.stackTop + 2 + (l.regs : Int) ≤ 256)
    (hR3 : st.current.stackTop + 2 + (r.regs : Int) ≤ 256)
    (hI : (cArith (cArith st e1 st.current.stackTop) (.bin op l r)
      (st.current.stackTop + 1)).current.chunk.Instructions <+: chunk.Instructions)
    (hC : (cArith (cArith st e1 st.current.stackTop) (.bin op l r)
      (st.current.stackTop + 1)).current.chunk.Constants <+: chunk.Constants)
    (hvm : VMAt chunk m st.current.chunk.Instructions.length vm) :
    ∃ vm1, Reaches H vm vm1
      ∧ VMAt chunk m (cArith (cArith st e1 st.current.stackTop) (.bin op l r)
          (st.current.stackTop + 1)).current.chunk.Instructions.length vm1
      ∧ vm1.S st.current.stackTop = .num a
      ∧ vm1.S (st.current.stackTop + 1) = .num w
      ∧ vm1.G = vm.G := by
  have hT0 : (cArith st e1 st.current.stackTop).current.stackTop = st.current.stackTop :=
    cArith_stackTop _ _ _
  have hcI : (cArith (cArith st e1 st.current.stackTop) (.bin op l r)
      (st.current.stackTop + 1)).current.chunk.Instructions
      = (cArith (cArith (allocReg (allocReg (cArith st e1 st.current.stackTop))) l
          (cArith st e1 st.current.stackTop).current.stackTop) r
          ((cArith st e1 st.current.stackTop).current.stackTop + 1)).current.chunk.Instructions
        ++ [⟨op.opcode, st.current.stackTop + 1,
            (cArith st e1 st.current.stackTop).current.stackTop,
            (cArith st e1 st.current.stackTop).current.stackTop + 1⟩] := rfl
  have hcC : (cArith (cArith st e1 st.current.stackTop) (.bin op l r)
      (st.current.stackTop + 1)).current.chunk.Constants
      = (cArith (cArith (allocReg (allocReg (cArith st e1 st.current.stackTop))) l
          (cArith st e1 st.current.stackTop).current.stackTop) r
          ((cArith st e1 st.current.stackTop).current.stackTop + 1)).current.chunk.Constants := rfl
  rw [hcI] at hI
  rw [hcC] at hC
  have hI3 := (List.prefix_append _ _).trans hI
  have hI2 := (cArith_instructions_pre r _ _).trans hI3
  have hI1 : (cArith st e1 st.current.stackTop).current.chunk.Instructions <+: chunk.Instructions :=
    (cArith_instructions_pre l (allocReg (allocReg (cArith st e1 st.current.stackTop))) _).trans hI2
  have hC2 := (cArith_constants_pre r _ _).trans hC
  have hC1 : (cArith st e1 st.current.stackTop).current.chunk.Constants <+: chunk.Constants :=
    (cArith_constants_pre l (allocReg (allocReg (cArith st e1 st.current.stackTop))) _).trans hC2
  obtain ⟨vm1, r1, a1, -, -, g1, -⟩ := cArith_run chunk m H hH hcount e1 st st.current.stackTop
    v1 vm h1 hT (by omega) hT hR1 hI1 hC1 hvm
  have hT2 : (allocReg (allocReg (cArith st e1 st.current.stackTop))).current.stackTop
      = st.current.stackTop + 1 + 1 := by
    show (cArith st e1 st.current.stackTop).current.stackTop + 1 + 1 = _
    rw [hT0]
  obtain ⟨vm2, r2, a2, s2, -, g2, -⟩ := cArith_run chunk m H hH hcount l
    (allocReg (allocReg (cArith st e1 st.current.stackTop)))
    (cArith st e1 st.current.stackTop).current.stackTop a vm1 hl (by omega) (by omega)
    (by rw [hT2]; omega) (by rw [hT2]; omega) hI2 hC2 a1
  have hT3 : (cArith (allocReg (allocReg (cArith st e1 st.current.stackTop))) l
      (cArith st e1 st.current.stackTop).current.stackTop).current.stackTop
      = st.current.stackTop + 1 + 1 := by rw [cArith_stackTop, hT2]
  obtain ⟨vm3, r3, a3, s3, u3, g3, -⟩ := cArith_run chunk m H hH hcount r
    (cArith (allocReg (allocReg (cArith st e1 st.current.stackTop))) l
      (cArith st e1 st.current.stackTop).current.stackTop)
    ((cArith st e1 st.current.stackTop).current.stackTop + 1) b vm2 hr (by omega) (by omega)
    (by rw [hT3]; omega) (by rw [hT3]; omega) hI3 hC a2
  have hl3 : vm3.S (cArith st e1 st.current.stackTop).current.stackTop = .num a := by
    rw [u3 _ (by omega) (Or.inl (by rw [hT3]; omega)), s2]
  have hi := getElem?_of_prefix_snoc _ _ _ hI
  obtain ⟨vm4, r4, a4, s4, g4, -⟩ := step_registers chunk m H hH _ vm3 a3 _ hi
    (fits_mk _ _ _ _ ⟨by omega, by omega⟩ ⟨by omega, by omega⟩ ⟨by omega, by omega⟩)
    (setReg vm3.S (st.current.stackTop + 1) (.num w)) (by
      show execHandler op.opcode (st.current.stackTop + 1)
        (cArith st e1 st.current.stackTop).current.stackTop
        ((cArith st e1 st.current.stackTop).current.stackTop + 1) _ = _
      rw [execHandler_arith]
      show (arith op.opcode (vm3.S (cArith st e1 st.current.stackTop).current.stackTop)
        (vm3.S ((cArith st e1 st.current.stackTop).current.stackTop + 1))).map _ = _
      rw [hl3, s3, arith_apply op a b w hw]
      rfl)
  refine ⟨vm4, ((r1.andThen r2).andThen r3).andThen r4, ?_, ?_, ?_,
    ((g4.trans g3).trans g2).trans g1⟩
  · rw [hcI, List.length_append]
    exact a4
  · rw [s4]
    simp only [setReg]
    rw [if_neg (by omega), ← hT0]
    exact hl3
  · rw [s4]
    simp [setReg]

theorem ArithExpr.fuel_pos (e : ArithExpr) : 1 ≤ e.fuel := by
  cases e <;> simp [ArithExpr.fuel]

/-- The code `compileExprsInto` emits for two arithmetic values. -/
theorem compileExprsInto_pair (n : Nat) (st : CompilerState) (e1 e2 : ArithExpr) (reg : Int)
    (h1 : e1.fuel ≤ n) (h2 : e2.fuel ≤ n) :
    compileExprsInto (n + 2) st [e1.toAST, e2.toAST] reg
      = some (cArith (cArith st e1 reg) e2 (reg + 1)) := by
  obtain ⟨k, rfl⟩ : ∃ k, n = k + 1 := ⟨n - 1, by have := e1.fuel_pos; omega⟩
  unfold compileExprsInto
  rw [compile_arith e1 st reg _ (by omega)]
  simp only []
  unfold compileExprsInto
  rw [compile_arith e2 _ (reg + 1) _ h2]
  simp only []
  unfold compileExprsInto
  rfl

/-- The code of `return e1, l op r`. -/
theorem compileReturn_pair (n : Nat) (st : CompilerState) (e1 l r : ArithExpr) (op : ArithOp)
    (h1 : e1.fuel ≤ n) (h2 : (ArithExpr.bin op l r).fuel ≤ n) :
    compileReturn (n + 3) st [e1.toAST, (ArithExpr.bin op l r).toAST]
      = some (emitInstruction
          (cArith (cArith st e1 st.current.stackTop) (.bin op l r) (st.current.stackTop + 1))
          .OP_RETURN st.current.stackTop 3 0) := by
  unfold compileReturn
  simp only []
  rw [compileExprsInto_pair n st e1 (.bin op l r) _ h1 h2]
  rfl

/-- The code of the statement `f(e1, l op r)` for a global `f`. -/
theorem compileCall_pair (n : Nat) (st : CompilerState) (f : String) (e1 l r : ArithExpr)
    (op : ArithOp) (h1 : e1.fuel ≤ n) (h2 : (ArithExpr.bin op l r).fuel ≤ n) :
    compileStatement (n + 5) st
        (.NODE_CALL (.NODE_NAME f) [e1.toAST, (ArithExpr.bin op l r).toAST])
      = some (freeReg (emitInstruction
          (cArith (cArith (compileName (allocReg st) f st.current.stackTop) e1
            (st.current.stackTop + 1)) (.bin op l r) (st.current.stackTop + 1 + 1))
          .OP_CALL st.current.stackTop 3 2)) := by
  unfold compileStatement
  simp only []
  unfold compileExpressionToReg
  simp only []
  unfold compileCall
  unfold compileExpressionToReg
  simp only []
  rw [compileExprsInto_pair n _ e1 (.bin op l r) _ h1 h2]
  rfl

/-- C24 (the code departs from the claim): `compileReturn` compiles the values
of `return e1, l op r` into the registers T and T + 1, where T is the stack
top, without reserving them, and `compileBinop` takes the registers of its
operands from the stack top: the left operand `l` of the second value is
compiled into register T, which holds e1. The same happens to the arguments
of a call statement `f(e1, l op r)`, compiled into T + 1 and T + 2 while the
stack top is T + 1. Run by the generated handlers under any opcode map that
is a permutation of 0 .. 255, the code of the two values ends with the value
of `l` in the register of e1. For `print(1, 2 + 3)` the CALL is reached with
2 and 5 in registers 1 and 2, and for `return 1, 2 + 3` the RETURN with 2 and
5 in registers 0 and 1. -/
theorem later_operand_overwrites_earlier :
    (∀ (chunk : BytecodeChunk) (m fakeDraws : List Nat) (st : CompilerState)
        (e1 l r : ArithExpr) (op : ArithOp) (v1 a b w : Int) (vm : VM),
      m.Perm (List.range 256) → chunk.Constants.length < 256 →
      e1.value = some v1 → l.value = some a → r.value = some b → op.apply a b = some w →
      0 ≤ st.current.stackTop →
      st.current.stackTop + (e1.regs : Int) ≤ 256 →
      st.current.stackTop + 2 + (l.regs : Int) ≤ 256 →
      st.current.stackTop + 2 + (r.regs : Int) ≤ 256 →
      (cArith (cArith st e1 st.current.stackTop) (.bin op l r)
        (st.current.stackTop + 1)).current.chunk.Instructions <+: chunk.Instructions →
      (cArith (cArith st e1 st.current.stackTop) (.bin op l r)
        (st.current.stackTop + 1)).current.chunk.Constants <+: chunk.Constants →
      VMAt chunk m st.current.chunk.Instructions.length vm →
      ∃ vm1, Reaches (handlerAssignments m fakeDraws) vm vm1
        ∧ VMAt chunk m (cArith (cArith st e1 st.current.stackTop) (.bin op l r)
            (st.current.stackTop + 1)).current.chunk.Instructions.length vm1
        ∧ vm1.S st.current.stackTop = .num a
        ∧ vm1.S (st.current.stackTop + 1) = .num w
        ∧ vm1.G = vm.G)
    ∧ (∀ (n : Nat) (st : CompilerState) (e1 l r : ArithExpr) (op : ArithOp),
        e1.fuel ≤ n → (ArithExpr.bin op l r).fuel ≤ n →
        compileReturn (n + 3) st [e1.toAST, (ArithExpr.bin op l r).toAST]
          = some (emitInstruction
              (cArith (cArith st e1 st.current.stackTop) (.bin op l r)
                (st.current.stackTop + 1))
              .OP_RETURN st.current.stackTop 3 0))
    ∧ (∀ (n : Nat) (st : CompilerState) (f : String) (e1 l r : ArithExpr) (op : ArithOp),
        e1.fuel ≤ n → (ArithExpr.bin op l r).fuel ≤ n →
        compileStatement (n + 5) st
            (.NODE_CALL (.NODE_NAME f) [e1.toAST, (ArithExpr.bin op l r).toAST])
          = some (freeReg (emitInstruction
              (cArith (cArith (compileName (allocReg st) f st.current.stackTop) e1
                (st.current.stackTop + 1)) (.bin op l r) (st.current.stackTop + 1 + 1))
              .OP_CALL st.current.stackTop 3 2))
          ∧ (compileName (allocReg st) f st.current.stackTop).current.stackTop
              = st.current.stackTop + 1)
    ∧ (compileSource 100 "print(1, 2 + 3)").map (fun c => (c.Instructions, c.Constants))
        = some ([⟨.OP_GETGLOBAL, 0, 0, 0⟩, ⟨.OP_LOADK, 1, 1, 0⟩, ⟨.OP_LOADK, 1, 2, 0⟩,
            ⟨.OP_LOADK, 2, 3, 0⟩, ⟨.OP_ADD, 2, 1, 2⟩, ⟨.OP_CALL, 0, 3, 2⟩,
            ⟨.OP_RETURN, 0, 1, 0⟩], ["print", "1", "2", "3"])
    ∧ (compileSource 100 "print(1, 2 + 3)").map (fun ch =>
          (vmRun (handlerAssignments (List.range 256) []) 5
            (vmInit (serializeBuffer ch (List.range 256)) (fun _ => Value.nil))).map
            (fun vm => (vm.pos - codeBase ch.Constants, vm.S 1, vm.S 2)))
        = some (some (30, Value.num 2, Value.num 5))
    ∧ (compileSource 100 "return 1, 2 + 3").map (fun c => (c.Instructions, c.Constants))
        = some ([⟨.OP_LOADK, 0, 0, 0⟩, ⟨.OP_LOADK, 0, 1, 0⟩, ⟨.OP_LOADK, 1, 2, 0⟩,
            ⟨.OP_ADD, 1, 0, 1⟩, ⟨.OP_RETURN, 0, 3, 0⟩, ⟨.OP_RETURN, 0, 1, 0⟩],
            ["1", "2", "3"])
    ∧ (compileSource 100 "return 1, 2 + 3").map (fun ch =>
          (vmRun (handlerAssignments (List.range 256) []) 4
            (vmInit (serializeBuffer ch (List.range 256)) (fun _ => Value.nil))).map
            (fun vm => (vm.pos - codeBase ch.Constants, vm.S 0, vm.S 1)))
        = some (some (24, Value.num 2, Value.num 5)) := by
  refine ⟨?_, ?_, ?_, ?_, ?_, ?_, ?_⟩
  · intro chunk m fakeDraws st e1 l r op v1 a b w vm hm hcount h1 hl hr hw hT hR1 hR2 hR3 hI
      hC hvm
    exact pair_run chunk m _ (handlerAssignments_ok m hm fakeDraws) hcount st e1 l r op v1 a b w
      vm h1 hl hr hw hT hR1 hR2 hR3 hI hC hvm
  · intro n st e1 l r op h1 h2
    exact compileReturn_pair n st e1 l r op h1 h2
  · intro n st f e1 l r op h1 h2
    refine ⟨compileCall_pair n st f e1 l r op h1 h2, ?_⟩
    unfold compileName
    dsimp only
    split_ifs
    · rfl
    · rfl
    · rw [emitInstruction_stackTop, addConstant_stackTop]
      rfl
  · decide!
  · decide!
  · decide!
  · decide!

/-- The first part at the values of `return 1, 2 + 3`, compiled from the start
state and run from the start under the identity opcode map: register 0, where
the value 1 was put, holds 2. -/
theorem later_operand_overwrites_earlier_witness :
    ∃ vm1, Reaches (handlerAssignments (List.range 256) [])
        (vmInit (serializeBuffer (cArith (cArith startState (.lit 1) startState.current.stackTop)
          (.bin .add (.lit 2) (.lit 3)) (startState.current.stackTop + 1)).current.chunk
          (List.range 256)) (fun _ => Value.nil)) vm1
      ∧ VMAt (cArith (cArith startState (.lit 1) startState.current.stackTop)
          (.bin .add (.lit 2) (.lit 3)) (startState.current.stackTop + 1)).current.chunk
          (List.range 256)
          (cArith (cArith startState (.lit 1) startState.current.stackTop)
            (.bin .add (.lit 2) (.lit 3))
            (startState.current.stackTop + 1)).current.chunk.Instructions.length vm1
      ∧ vm1.S startState.current.stackTop = .num 2
      ∧ vm1.S (startState.current.stackTop + 1) = .num 5
      ∧ vm1.G = (vmInit (serializeBuffer (cArith (cArith startState (.lit 1)
          startState.current.stackTop) (.bin .add (.lit 2) (.lit 3))
          (startState.current.stackTop + 1)).current.chunk (List.range 256))
          (fun _ => Value.nil)).G :=
  later_operand_overwrites_earlier.1
    (cArith (cArith startState (.lit 1) startState.current.stackTop)
      (.bin .add (.lit 2) (.lit 3)) (startState.current.stackTop + 1)).current.chunk
    (List.range 256) [] startState (.lit 1) (.lit 2) (.lit 3) .add 1 2 3 5 _
    (List.Perm.refl _) (by decide) (by decide) (by decide) (by decide) (by decide)
    (by decide) (by decide) (by decide) (by decide) (List.prefix_refl _) (List.prefix_refl _)
    (vmInit_at _ _ _ (by decide) (by decide)).1
/-! ## C25: positional fields of a table constructor -/

theorem execHandler_newtable (vm : VM) (A B C : Int) :
    execHandler .OP_NEWTABLE A B C vm
      = some { vm with
          S := setReg vm.S A (.table vm.tables)
          heap := fun id => if id = vm.tables then (fun _ => Value.nil) else vm.heap id
          tables := vm.tables + 1 } := rfl

/-- The SETLIST handler with B = 1: the value of register A + 1 is stored in
the table of register A under the key (C - 1) * 50 + 1. -/
theorem execHandler_setlist_one (vm : VM) (A C : Int) (t : Nat) (h : vm.S A = .table t) :
    execHandler .OP_SETLIST A 1 C vm
      = some { vm with
          heap := heapStore vm.heap t (Value.num ((C - 1) * 50 + 1)) (vm.S (A + 1)) } := by
  unfold execHandler
  simp only [h]
  rw [if_neg (by omega)]
  have e : (1 : Int).toNat = 0 + 1 := rfl
  simp only [e, setListLoop]
  congr 2
  funext id k
  unfold heapStore
  by_cases h1 : id = t
  · subst h1
    by_cases h2 : k = Value.num ((C - 1) * 50 + 1)
    · simp [h2]
    · simp [h2]
  · simp [h1]

/-- One positional field of a constructor: the code of the value, then
SETLIST with the running index as its C operand. -/
theorem compileTableFields_positional (fuel : Nat) (st : CompilerState) (key : LuaNumber)
    (value : ASTNode) (rest : List ASTNode) (reg arrayIdx : Int) :
    compileTableFields (fuel + 1) st
        (.NODE_TABLE_FIELD (some (.NODE_NUMBER key)) value :: rest) reg arrayIdx
      = (compileExpressionToReg fuel (allocReg st) value st.current.stackTop).bind
          (fun st1 => compileTableFields fuel
            (freeReg (emitInstruction st1 .OP_SETLIST reg 1 arrayIdx)) rest reg
            (arrayIdx + 1)) := by
  rw [compileTableFields]
  cases compileExpressionToReg fuel (allocReg st) value st.current.stackTop <;> rfl

theorem compile_literalFields (ns : List Nat) :
    ∀ (fuel : Nat) (st : CompilerState) (reg arrayIdx : Int) (k : Nat),
      ns.length + 2 ≤ fuel →
      compileTableFields fuel st (literalFields ns k) reg arrayIdx
        = some (cLiteralFields st ns reg arrayIdx) := by
  induction ns with
  | nil =>
      intro fuel st reg arrayIdx k hf
      obtain ⟨f, rfl⟩ : ∃ f, fuel = f + 1 := ⟨fuel - 1, by omega⟩
      simp only [literalFields, cLiteralFields]
      rw [compileTableFields]
  | cons n rest ih =>
      intro fuel st reg arrayIdx k hf
      obtain ⟨f, rfl⟩ : ∃ f, fuel = f + 2 := ⟨fuel - 2, by simp at hf; omega⟩
      simp only [literalFields, cLiteralFields]
      rw [compileTableFields_positional]
      have e : compileExpressionToReg (f + 1) (allocReg st) (.NODE_NUMBER (.int (n : Int)))
          st.current.stackTop
          = some (compileNumber (allocReg st) (.int (n : Int)) st.current.stackTop) := rfl
      rw [e]
      exact ih (f + 1) _ reg (arrayIdx + 1) (k + 1) (by simp at hf; omega)

theorem cLiteralFields_instructions_pre (ns : List Nat) :
    ∀ (st : CompilerState) (reg k : Int),
      st.current.chunk.Instructions <+: (cLiteralFields st ns reg k).current.chunk.Instructions := by
  induction ns with
  | nil => intro st reg k; exact List.prefix_refl _
  | cons n rest ih =>
      intro st reg k
      refine List.IsPrefix.trans ?_ (ih _ reg (k + 1))
      simp only [compileNumber, addNumberConstant, freeReg_instructions,
        emitInstruction_instructions, addConstant_instructions, allocReg_instructions,
        List.append_assoc]
      exact List.prefix_append _ _

theorem cLiteralFields_constants_pre (ns : List Nat) :
    ∀ (st : CompilerState) (reg k : Int),
      st.current.chunk.Constants <+: (cLiteralFields st ns reg k).current.chunk.Constants := by
  induction ns with
  | nil => intro st reg k; exact List.prefix_refl _
  | cons n rest ih =>
      intro st reg k
      refine List.IsPrefix.trans ?_ (ih _ reg (k + 1))
      simp only [compileNumber, addNumberConstant, freeReg_constants, emitInstruction_constants]
      exact addConstant_constants_pre (allocReg st) _

/-- Running the code of the positional literal fields of a constructor whose
table is in register `reg`, with the stack top at `reg + 1`: the i-th value
(from 0) is stored under the key (k + i - 1) * 50 + 1. -/
theorem literalFields_run (chunk : BytecodeChunk) (m : List Nat) (H : List (Nat × Handler))
    (hH : HandlersOK m H) (hcount : chunk.Constants.length < 256) (ns : List Nat) :
    ∀ (st : CompilerState) (reg k : Int) (t : Nat) (vm : VM),
      0 ≤ reg → st.current.stackTop = reg + 1 → reg + 1 < 256 → 1 ≤ k →
      k + (ns.length : Int) ≤ 65536 →
      (cLiteralFields st ns reg k).current.chunk.Instructions <+: chunk.Instructions →
      (cLiteralFields st ns reg k).current.chunk.Constants <+: chunk.Constants →
      VMAt chunk m st.current.chunk.Instructions.length vm →
      vm.S reg = .table t →
      ∃ vm1, Reaches H vm vm1
        ∧ VMAt chunk m (cLiteralFields st ns reg k).current.chunk.Instructions.length vm1
        ∧ vm1.S reg = .table t
        ∧ vm1.heap t = storedAt (vm.heap t) ns k
        ∧ vm1.G = vm.G := by
  induction ns with
  | nil =>
      intro st reg k t vm _ _ _ _ _ _ _ hvm hS
      exact ⟨vm, Reaches.here H vm, hvm, hS, rfl, rfl⟩
  | cons n rest ih =>
      intro st reg k t vm h0 hT h256 hk hkn hI hC hvm hS
      simp only [List.length_cons] at hkn
      push_cast at hkn
      have hI2 := (cLiteralFields_instructions_pre rest _ reg (k + 1)).trans hI
      have hC2 := (cLiteralFields_constants_pre rest _ reg (k + 1)).trans hC
      have hcode : (freeReg (emitInstruction (compileNumber (allocReg st) (.int (n : Int))
          st.current.stackTop) .OP_SETLIST reg 1 k)).current.chunk.Instructions
          = st.current.chunk.Instructions
            ++ [⟨.OP_LOADK, st.current.stackTop,
                ((addConstant (allocReg st) (natText n)).1 : Int), 0⟩]
            ++ [⟨.OP_SETLIST, reg, 1, k⟩] := by
        simp only [compileNumber, addNumberConstant, freeReg_instructions,
          emitInstruction_instructions, addConstant_instructions, allocReg_instructions]
        rfl
      have hconst : (freeReg (emitInstruction (compileNumber (allocReg st) (.int (n : Int))
          st.current.stackTop) .OP_SETLIST reg 1 k)).current.chunk.Constants
          = (addConstant (allocReg st) (natText n)).2.current.chunk.Constants := rfl
      rw [hcode] at hI2
      rw [hconst] at hC2
      have hi1 := prefix_getElem? hI2 _ _ (getElem?_snoc2_first _ _ _)
      have hi2 := prefix_getElem? hI2 _ _ (getElem?_snoc2_second _ _ _)
      have hk0 := prefix_getElem? hC2 _ _ (addConstant_getElem (allocReg st) (natText n))
      have hidx : (addConstant (allocReg st) (natText n)).1 < chunk.Constants.length := by
        rw [List.getElem?_eq_some_iff] at hk0
        exact hk0.1
      -- the LOADK of the value
      obtain ⟨vmA, hdef⟩ : ∃ x : VM, x = { vm with
          pos := vm.pos + 6
          S := setReg vm.S st.current.stackTop
            (constAt vm.K ((addConstant (allocReg st) (natText n)).1 : Int)) } := ⟨_, rfl⟩
      have rA : Reaches H vm vmA := by
        rw [hdef]
        exact Reaches.oneStep chunk m H hH _ vm _ hvm _ hi1
          (fits_mk _ _ _ _ ⟨by omega, by omega⟩ ⟨by omega, by omega⟩ ⟨by omega, by omega⟩) rfl
      have aA : VMAt chunk m (st.current.chunk.Instructions.length + 1) vmA := by
        rw [hdef]
        refine ⟨hvm.hD, ?_, hvm.hK⟩
        show vm.pos + 6 = _
        rw [hvm.hpos]
        push_cast
        omega
      have sA : vmA.S = setReg vm.S st.current.stackTop
          (constAt vm.K ((addConstant (allocReg st) (natText n)).1 : Int)) := by rw [hdef]
      have gA : vmA.G = vm.G := by rw [hdef]
      have heapA : vmA.heap = vm.heap := by rw [hdef]
      have hvA : vmA.S st.current.stackTop = .num (n : Int) := by
        rw [sA, constAt_loaded chunk m _ vm hvm _ _ hk0, constValue_natText]
        simp [setReg]
      have hSA : vmA.S reg = .table t := by
        rw [sA]
        simp only [setReg]
        rw [if_neg (by omega)]
        exact hS
      -- the SETLIST
      have heB : execHandler .OP_SETLIST reg 1 k { vmA with pos := vmA.pos + 6 }
          = some { vmA with
              pos := vmA.pos + 6
              heap := heapStore vmA.heap t (Value.num ((k - 1) * 50 + 1)) (vmA.S (reg + 1)) } :=
        execHandler_setlist_one { vmA with pos := vmA.pos + 6 } reg k t hSA
      have rB := Reaches.oneStep chunk m H hH _ vmA _ aA _ hi2
        (fits_mk _ _ _ _ ⟨by omega, by omega⟩ ⟨by omega, by omega⟩ ⟨by omega, by omega⟩) heB
      have aB : VMAt chunk m (freeReg (emitInstruction (compileNumber (allocReg st)
          (.int (n : Int)) st.current.stackTop) .OP_SETLIST reg 1 k)).current.chunk.Instructions.length
          { vmA with
            pos := vmA.pos + 6
            heap := heapStore vmA.heap t (Value.num ((k - 1) * 50 + 1)) (vmA.S (reg + 1)) } := by
        refine ⟨aA.hD, ?_, aA.hK⟩
        show vmA.pos + 6 = _
        rw [aA.hpos, hcode]
        simp only [List.length_append, List.length_cons, List.length_nil]
        push_cast
        omega
      have hT2 : (freeReg (emitInstruction (compileNumber (allocReg st) (.int (n : Int))
          st.current.stackTop) .OP_SETLIST reg 1 k)).current.stackTop = reg + 1 := by
        show (compileNumber (allocReg st) (.int (n : Int)) st.current.stackTop).current.stackTop
          - 1 = _
        simp only [compileNumber, addNumberConstant, emitInstruction_stackTop,
          addConstant_stackTop]
        show st.current.stackTop + 1 - 1 = _
        omega
      obtain ⟨vm1, r1, a1, s1, h1, g1⟩ := ih _ reg (k + 1) t _ h0 hT2 h256 (by omega)
        (by omega) hI hC aB hSA
      refine ⟨vm1, (rA.andThen rB).andThen r1, a1, s1, ?_, g1.trans gA⟩
      rw [h1]
      show storedAt (heapStore vmA.heap t (Value.num ((k - 1) * 50 + 1)) (vmA.S (reg + 1)) t)
        rest (k + 1) = storedAt (vm.heap t) (n :: rest) k
      rw [storedAt]
      funext key
      unfold heapStore
      have e : reg + 1 = st.current.stackTop := hT.symm
      rw [e, hvA]
      have hh : vmA.heap = vm.heap := heapA
      rw [hh]
      by_cases hk1 : key = Value.num ((k - 1) * 50 + 1)
      · simp [hk1]
      · simp [hk1]

theorem storedAt_other (ns : List Nat) :
    ∀ (h : Value → Value) (k : Int) (key : Value),
      (∀ i : Nat, i < ns.length → key ≠ Value.num ((k + (i : Int) - 1) * 50 + 1)) →
      storedAt h ns k key = h key := by
  induction ns with
  | nil => intro h k key _; rfl
  | cons n rest ih =>
      intro h k key hne
      rw [storedAt, ih]
      · have h0 := hne 0 (by simp)
        simp only [Nat.cast_zero, add_zero] at h0
        rw [if_neg h0]
      · intro i hi
        have := hne (i + 1) (by simpa using hi)
        push_cast at this
        have e : (k + 1 + (i : Int) - 1) = (k + ((i : Int) + 1) - 1) := by ring
        rw [e]
        exact this

theorem storedAt_get (ns : List Nat) :
    ∀ (h : Value → Value) (k : Int) (i : Nat) (n : Nat), ns[i]? = some n →
      storedAt h ns k (Value.num ((k + (i : Int) - 1) * 50 + 1)) = Value.num (n : Int) := by
  induction ns with
  | nil => intro h k i n hi; simp at hi
  | cons a rest ih =>
      intro h k i n hi
      cases i with
      | zero =>
          simp only [List.getElem?_cons_zero, Option.some.injEq] at hi
          subst hi
          rw [storedAt, storedAt_other]
          · simp
          · intro j _ hc
            simp only [Value.num.injEq] at hc
            push_cast at hc
            omega
      | succ i =>
          simp only [List.getElem?_cons_succ] at hi
          rw [storedAt]
          have := ih (fun key => if key = Value.num ((k - 1) * 50 + 1) then Value.num (a : Int)
            else h key) (k + 1) i n hi
          have e : (k + 1 + (i : Int) - 1) = (k + ((i + 1 : Nat) : Int) - 1) := by
            push_cast
            ring
          rw [e] at this
          exact this

/-- C25 (the code departs from the claim): for a positional field the field
loop of `compileTable` emits the code of the value followed by SETLIST reg 1
k, where k is the running array index. The generated SETLIST handler stores
the value of register A + 1 under the key (C - 1) * 50 + 1. So the code of
the positional number literals n1, ..., nj, run under any opcode map that is
a permutation of 0 .. 255 with the table in register reg and the stack top at
reg + 1, stores the i-th value under the key (i - 1) * 50 + 1: the first at
1, the second at 51, the third at 101, and nothing at the keys in between.
For `local t = {10, 20, 30}` the table ends with 10 at key 1, 20 at key 51,
30 at key 101, and nil at keys 2 and 3. -/
theorem positional_fields_fifty_apart :
    (∀ (chunk : BytecodeChunk) (m fakeDraws : List Nat) (ns : List Nat) (st : CompilerState)
        (reg k : Int) (t : Nat) (vm : VM),
      m.Perm (List.range 256) → chunk.Constants.length < 256 →
      0 ≤ reg → st.current.stackTop = reg + 1 → reg + 1 < 256 → 1 ≤ k →
      k + (ns.length : Int) ≤ 65536 →
      (cLiteralFields st ns reg k).current.chunk.Instructions <+: chunk.Instructions →
      (cLiteralFields st ns reg k).current.chunk.Constants <+: chunk.Constants →
      VMAt chunk m st.current.chunk.Instructions.length vm →
      vm.S reg = .table t →
      ∃ vm1, Reaches (handlerAssignments m fakeDraws) vm vm1
        ∧ VMAt chunk m (cLiteralFields st ns reg k).current.chunk.Instructions.length vm1
        ∧ vm1.S reg = .table t
        ∧ vm1.heap t = storedAt (vm.heap t) ns k
        ∧ vm1.G = vm.G)
    ∧ (∀ (ns : List Nat) (h : Value → Value) (k : Int) (i n : Nat), ns[i]? = some n →
        storedAt h ns k (Value.num ((k + (i : Int) - 1) * 50 + 1)) = Value.num (n : Int))
    ∧ (∀ (ns : List Nat) (h : Value → Value) (k : Int) (key : Value),
        (∀ i : Nat, i < ns.length → key ≠ Value.num ((k + (i : Int) - 1) * 50 + 1)) →
        storedAt h ns k key = h key)
    ∧ (∀ (ns : List Nat) (fuel : Nat) (st : CompilerState) (reg : Int) (k : Nat),
        ns.length + 2 ≤ fuel →
        compileTable (fuel + 1) st (literalFields ns k) reg
          = some (cLiteralFields
              (emitInstruction st .OP_NEWTABLE reg (tableSizes (literalFields ns k)).1
                (tableSizes (literalFields ns k)).2) ns reg 1))
    ∧ (∀ (vm : VM) (A C : Int) (t : Nat), vm.S A = .table t →
        execHandler .OP_SETLIST A 1 C vm
          = some { vm with
              heap := heapStore vm.heap t (Value.num ((C - 1) * 50 + 1)) (vm.S (A + 1)) })
    ∧ (parseExpression 100 (CreateParser "{10, 20, 30}")).map (fun p => p.1)
        = some (.NODE_TABLE (literalFields [10, 20, 30] 1))
    ∧ (compileSource 100 "local t = {10, 20, 30}").map (fun c => (c.Instructions, c.Constants))
        = some ([⟨.OP_NEWTABLE, 0, 3, 0⟩, ⟨.OP_LOADK, 1, 0, 0⟩, ⟨.OP_SETLIST, 0, 1, 1⟩,
            ⟨.OP_LOADK, 1, 1, 0⟩, ⟨.OP_SETLIST, 0, 1, 2⟩, ⟨.OP_LOADK, 1, 2, 0⟩,
            ⟨.OP_SETLIST, 0, 1, 3⟩, ⟨.OP_RETURN, 0, 1, 0⟩], ["10", "20", "30"])
    ∧ (compileSource 100 "local t = {10, 20, 30}").map (fun ch =>
          (vmRun (handlerAssignments (List.range 256) []) 20
            (vmInit (serializeBuffer ch (List.range 256)) (fun _ => Value.nil))).map
            (fun vm => (vm.halted, vm.S 0,
              [1, 2, 3, 51, 101].map (fun k : Int => vm.heap 0 (Value.num k)))))
        = some (some (true, Value.table 0,
            [Value.num 10, Value.nil, Value.nil, Value.num 20, Value.num 30])) := by
  refine ⟨?_, storedAt_get, storedAt_other, ?_, execHandler_setlist_one, ?_, ?_, ?_⟩
  · intro chunk m fakeDraws ns st reg k t vm hm hcount h0 hT h256 hk hkn hI hC hvm hS
    exact literalFields_run chunk m _ (handlerAssignments_ok m hm fakeDraws) hcount ns st reg k t
      vm h0 hT h256 hk hkn hI hC hvm hS
  · intro ns fuel st reg k hf
    rw [compileTable]
    exact compile_literalFields ns fuel _ reg 1 k hf
  · rfl
  · decide!
  · decide!

/-- The first part at the fields of `{10, 20}`, compiled with the table in
register 0 and the stack top at 1, and run from the start under the identity
opcode map with a table in register 0. -/
theorem positional_fields_fifty_apart_witness :
    ∃ vm1, Reaches (handlerAssignments (List.range 256) [])
        { vmInit (serializeBuffer (cLiteralFields startStateOneReg [10, 20] 0 1).current.chunk
            (List.range 256)) (fun _ => Value.nil) with S := fun _ => Value.table 0 } vm1
      ∧ VMAt (cLiteralFields startStateOneReg [10, 20] 0 1).current.chunk (List.range 256)
          (cLiteralFields startStateOneReg [10, 20] 0 1).current.chunk.Instructions.length vm1
      ∧ vm1.S 0 = .table 0
      ∧ vm1.heap 0 = storedAt
          ({ vmInit (serializeBuffer (cLiteralFields startStateOneReg [10, 20] 0 1).current.chunk
            (List.range 256)) (fun _ => Value.nil) with S := fun _ => Value.table 0 }.heap 0)
          [10, 20] 1
      ∧ vm1.G = { vmInit (serializeBuffer
          (cLiteralFields startStateOneReg [10, 20] 0 1).current.chunk
          (List.range 256)) (fun _ => Value.nil) with S := fun _ => Value.table 0 }.G :=
  positional_fields_fifty_apart.1
    (cLiteralFields startStateOneReg [10, 20] 0 1).current.chunk (List.range 256) [] [10, 20]
    startStateOneReg 0 1 0 _ (List.Perm.refl _) (by decide) (by decide) rfl (by decide)
    (by decide) (by decide) (List.prefix_refl _) (List.prefix_refl _)
    ⟨(vmInit_at (cLiteralFields startStateOneReg [10, 20] 0 1).current.chunk (List.range 256)
        (fun _ => Value.nil) (by decide) (by decide)).1.hD,
      (vmInit_at (cLiteralFields startStateOneReg [10, 20] 0 1).current.chunk (List.range 256)
        (fun _ => Value.nil) (by decide) (by decide)).1.hpos,
      (vmInit_at (cLiteralFields startStateOneReg [10, 20] 0 1).current.chunk (List.range 256)
        (fun _ => Value.nil) (by decide) (by decide)).1.hK⟩
    rfl
/-! ## C26: the output block of the base-85 encoder -/

theorem encodeText_length (data : List Nat) :
    (encodeText data).length + 1
      = 11 + 5 * ((data.length + 3) / 4) + 3 * ((data.length + 59) / 60 - 1) := by
  have h := encodeGroups_length 0 data (by decide)
  have hl : (encodeText data).length = 10 + (encodeGroups 0 data).length := by
    simp only [encodeText, prefixMarker, List.length_append, List.length_cons, List.length_nil]
  rw [hl]
  simp only [Nat.zero_add] at h
  omega

/-- C26 (the code departs from the claim): `EncodeBase85Custom` writes the 10
characters of the prefix, 5 glyphs for each group of 4 bytes, 3 characters
before each group whose offset is a positive multiple of 60, and the final
NUL, into a block of ((len + 3) / 4) * 5 + 100 bytes, without a bound check.
The markers are (len + 59) / 60 - 1 in number, so what is written fits the
block exactly when len is at most 1800; for every longer input the writes go
past the end of the block. A chunk whose serialized form is longer than 1800
bytes, such as one of 300 instructions, is such an input. For len = 1801 the
block has 2355 bytes and 2356 are written. -/
theorem encoder_writes_past_block :
    (∀ data : List Nat,
      (encodeText data).length + 1
        = 11 + 5 * ((data.length + 3) / 4) + 3 * ((data.length + 59) / 60 - 1))
    ∧ (∀ data : List Nat, 1800 < data.length →
        ((data.length + 3) / 4) * 5 + 100 < (encodeText data).length + 1
          ∧ EncodeBase85Custom data = none)
    ∧ (∀ data : List Nat, data.length ≤ 1800 →
        (encodeText data).length + 1 ≤ ((data.length + 3) / 4) * 5 + 100
          ∧ EncodeBase85Custom data = some (encodeText data))
    ∧ (∀ (chunk : BytecodeChunk) (ctx : BuildContext),
        1800 < 2 + (chunk.Constants.map (fun s => 2 + s.length)).sum
          + 6 * chunk.Instructions.length →
        SerializeBytecodeWithMapping chunk ctx = none)
    ∧ ((encodeText (List.replicate 1801 0)).length + 1 = 2356
        ∧ ((List.replicate 1801 0).length + 3) / 4 * 5 + 100 = 2355) := by
  refine ⟨encodeText_length, ?_, ?_, ?_, ?_⟩
  · intro data h
    have e := encodeText_length data
    refine ⟨by omega, ?_⟩
    rw [EncodeBase85Custom_fits, if_neg (by omega)]
  · intro data h
    have e := encodeText_length data
    refine ⟨by omega, ?_⟩
    rw [EncodeBase85Custom_fits, if_pos h]
  · intro chunk ctx h
    unfold SerializeBytecodeWithMapping
    rw [EncodeBase85Custom_fits, if_neg]
    rw [serializeBuffer_length]
    omega
  · have e := encodeText_length (List.replicate 1801 0)
    rw [List.length_replicate] at e ⊢
    exact ⟨e, rfl⟩

/-- The second part at 1801 zero bytes. -/
theorem encoder_writes_past_block_witness :
    ((List.replicate 1801 0).length + 3) / 4 * 5 + 100
        < (encodeText (List.replicate 1801 0)).length + 1
      ∧ EncodeBase85Custom (List.replicate 1801 0) = none :=
  encoder_writes_past_block.2.1 (List.replicate 1801 0) (by
    rw [List.length_replicate]
    omega)
/-! ## C27: the constant block of a chunk -/

theorem addConstant_overruns (st : CompilerState) (v : String)
    (hv : v ∉ st.current.chunk.Constants) (hlen : 32 ≤ st.current.chunk.Constants.length) :
    (addConstant st v).2.current.chunk.overrun = true
      ∧ (addConstant st v).1 = st.current.chunk.Constants.length
      ∧ (addConstant st v).2.hadError = st.hadError := by
  unfold addConstant
  rw [if_neg hv]
  refine ⟨?_, rfl, rfl⟩
  show (st.current.chunk.overrun || decide (32 ≤ st.current.chunk.Constants.length)) = true
  simp [hlen]

/-- C27 (the code departs from the claim): `CreateChunk` allocates a block of
32 constant pointers and `AddConstant` stores at index ConstantCount without
a check and without growing the block, while `AddInstruction` doubles its
array when it is full. Every call of `addConstant` with a new text when the
pool already holds 32 or more entries therefore stores past the end of the
block, and it raises no error. The program `return 1,2,...,33` has 33
distinct constants: it is compiled without error and its 33rd constant is
stored at index 32. With at most 31 entries in the pool the store is inside
the block. -/
theorem constant_block_overrun :
    (∀ (st : CompilerState) (v : String), v ∉ st.current.chunk.Constants →
      32 ≤ st.current.chunk.Constants.length →
      (addConstant st v).2.current.chunk.overrun = true
        ∧ (addConstant st v).1 = st.current.chunk.Constants.length
        ∧ (addConstant st v).2.hadError = st.hadError)
    ∧ (∀ (st : CompilerState) (v : String), st.current.chunk.Constants.length < 32 →
        st.current.chunk.overrun = false →
        (addConstant st v).2.current.chunk.overrun = false)
    ∧ (∀ (chunk : BytecodeChunk) (op : OpCode) (a b c : Int),
        (AddInstruction chunk op a b c).overrun = chunk.overrun)
    ∧ (compileSource 100 "return 1,2,3,4,5,6,7,8,9,10,11,12,13,14,15,16,17,18,19,20,21,22,23,24,25,26,27,28,29,30,31,32,33").map
          (fun c => (c.Constants, c.overrun))
        = some (["1", "2", "3", "4", "5", "6", "7", "8", "9", "10", "11", "12", "13", "14", "15", "16", "17", "18", "19", "20", "21", "22", "23", "24", "25", "26", "27", "28", "29", "30", "31", "32", "33"], true) := by
  refine ⟨addConstant_overruns, ?_, ?_, ?_⟩
  · intro st v hlen h
    apply addConstant_overrun st v _ h
    unfold addConstant
    split
    · show st.current.chunk.Constants.length ≤ 32
      omega
    · show (st.current.chunk.Constants ++ [v]).length ≤ 32
      rw [List.length_append]
      simp only [List.length_cons, List.length_nil]
      omega
  · intro chunk op a b c
    rfl
  · decide!

/-- The first part at a pool that holds the texts of 0 to 31 and the new
constant "x". -/
theorem constant_block_overrun_witness :
    (addConstant { startState with current := { startState.current with
        chunk := { startState.current.chunk with
          Constants := (List.range 32).map natText } } } "x").2.current.chunk.overrun = true
      ∧ (addConstant { startState with current := { startState.current with
          chunk := { startState.current.chunk with
            Constants := (List.range 32).map natText } } } "x").1
        = ({ startState with current := { startState.current with
            chunk := { startState.current.chunk with
              Constants := (List.range 32).map natText } } } :
            CompilerState).current.chunk.Constants.length
      ∧ (addConstant { startState with current := { startState.current with
          chunk := { startState.current.chunk with
            Constants := (List.range 32).map natText } } } "x").2.hadError
        = ({ startState with current := { startState.current with
            chunk := { startState.current.chunk with
              Constants := (List.range 32).map natText } } } : CompilerState).hadError :=
  constant_block_overrun.1 _ "x" (by decide) (by decide)
/-! ## C28: the function side table -/

theorem extractFunctions_keeps (cs : List String) :
    ∀ (acc : List String) (x : String), x ∈ acc → x ∈ (extractFunctions cs acc).1 := by
  induction cs with
  | nil => intro acc x hx; exact hx
  | cons c rest ih =>
      intro acc x hx
      unfold extractFunctions
      split
      · exact ih _ x (List.mem_append_left _ hx)
      · exact ih _ x hx

theorem extractFunctions_marked (cs : List String) :
    ∀ (acc : List String) (c : String), c ∈ cs → hasLuaMarker c = true →
      c.drop 7 ∈ (extractFunctions cs acc).1 := by
  induction cs with
  | nil => intro acc c hc; cases hc
  | cons d rest ih =>
      intro acc c hc hm
      unfold extractFunctions
      rcases List.mem_cons.1 hc with h | h
      · subst h
        rw [if_pos hm]
        exact extractFunctions_keeps rest _ _ (List.mem_append_right _ (List.mem_singleton.2 rfl))
      · split
        · exact ih _ c h hm
        · exact ih _ c h hm

theorem extractFunctions_serialized (cs : List String) :
    ∀ (acc : List String) (i : Nat) (c : String), cs[i]? = some c →
      (hasLuaMarker c = false → (extractFunctions cs acc).2[i]? = some c)
        ∧ (hasLuaMarker c = true → ∃ n : Nat, (extractFunctions cs acc).2[i]? = some (natText n)) := by
  induction cs with
  | nil => intro acc i c hi; simp at hi
  | cons d rest ih =>
      intro acc i c hi
      cases i with
      | zero =>
          simp only [List.getElem?_cons_zero, Option.some.injEq] at hi
          subst hi
          unfold extractFunctions
          constructor
          · intro hm
            rw [if_neg (by rw [hm]; exact Bool.false_ne_true)]
            simp
          · intro hm
            rw [if_pos hm]
            exact ⟨acc.length, by simp⟩
      | succ i =>
          simp only [List.getElem?_cons_succ] at hi
          unfold extractFunctions
          split
          · simpa using ih (acc ++ [d.drop 7]) i c hi
          · simpa using ih acc i c hi

/-- C28 (the code departs from the claim): `GenerateObfuscatedScript` takes
every constant that is longer than 7 characters and starts with `__lua__` for
the text of a function, whatever put it into the pool. `compileString` puts
the text of a string literal into the same pool unchanged. So a string
literal with that start is extracted: its text without the first 7 characters
is written into the table constructor of `_F` as code, and in the serialized
chunk the constant is replaced by the decimal text of an index. For `x =
"__lua__print(1)"` the script contains `local _F={print(1)};` and the run
assigns the number 0 to x. A constant that fails the test is serialized
unchanged. -/
theorem marked_string_taken_for_function :
    (∀ (cs acc : List String) (c : String), c ∈ cs → hasLuaMarker c = true →
      c.drop 7 ∈ (extractFunctions cs acc).1)
    ∧ (∀ (cs acc : List String) (i : Nat) (c : String), cs[i]? = some c →
        (hasLuaMarker c = false → (extractFunctions cs acc).2[i]? = some c)
          ∧ (hasLuaMarker c = true →
              ∃ n : Nat, (extractFunctions cs acc).2[i]? = some (natText n)))
    ∧ (∀ (st : CompilerState) (s : String) (reg : Int),
        s ∈ (compileString st s reg).current.chunk.Constants)
    ∧ (compileSource 100 "x = \"__lua__print(1)\"").map (fun c =>
          (c.Instructions, c.Constants, extractFunctions c.Constants [],
            functionTable (extractFunctions c.Constants []).1))
        = some ([⟨.OP_LOADK, 0, 0, 0⟩, ⟨.OP_SETGLOBAL, 0, 1, 0⟩, ⟨.OP_RETURN, 0, 1, 0⟩],
            ["__lua__print(1)", "x"], (["print(1)"], ["0", "x"]),
            "local _F=\x7bprint(1)\x7d;")
    ∧ (compileSource 100 "x = \"__lua__print(1)\"").map (fun ch =>
          (vmRun (handlerAssignments (List.range 256) []) 20
            (vmInit (serializeBuffer (scriptChunk ch) (List.range 256))
              (fun _ => Value.nil))).map
            (fun vm => (vm.halted, vm.G (Value.str "x"))))
        = some (some (true, Value.num 0))
    ∧ (compileSource 100 "x = \"print(1)\"").map (fun ch =>
          (extractFunctions ch.Constants [],
            (vmRun (handlerAssignments (List.range 256) []) 20
              (vmInit (serializeBuffer (scriptChunk ch) (List.range 256))
                (fun _ => Value.nil))).map
              (fun vm => (vm.halted, vm.G (Value.str "x")))))
        = some (([], ["print(1)", "x"]), some (true, Value.str "print(1)")) := by
  refine ⟨?_, ?_, ?_, ?_, ?_, ?_⟩
  · intro cs acc c hc hm
    exact extractFunctions_marked cs acc c hc hm
  · intro cs acc i c hi
    exact extractFunctions_serialized cs acc i c hi
  · intro st s reg
    show s ∈ (addConstant st s).2.current.chunk.Constants
    unfold addConstant
    split
    · assumption
    · exact List.mem_append_right _ (List.mem_singleton.2 rfl)
  · decide!
  · decide!
  · decide!

/-- The first part at the pool of `x = "__lua__print(1)"`. -/
theorem marked_string_taken_for_function_witness :
    ("__lua__print(1)" : String).drop 7
      ∈ (extractFunctions ["__lua__print(1)", "x"] []).1 :=
  marked_string_taken_for_function.1 ["__lua__print(1)", "x"] [] "__lua__print(1)"
    (by decide) (by decide)
/-! ## C29: statements the compiler drops -/

/-- C29 (the code departs from the claim): `parseStatement` returns a
`NODE_BLOCK` for `do ... end` and a `NODE_FUNCTION` for `function name(...)
... end`. The switch of `compileStatement` has no case for `NODE_BLOCK`: the
state is returned unchanged, and the statements of the body are not compiled.
For a `NODE_FUNCTION` statement `compileFunction` builds the text of the
function and increments the counter, but emits no instruction and adds no
constant: only a `local function` gets a CLOSURE. So `do x = 1 end` and
`function f() end` compile to the single final RETURN, and the run of `do x =
1 end` leaves x unset; `x = 1` and `local function f() end` are compiled. -/
theorem block_and_function_statements_dropped :
    (∀ (fuel : Nat) (st : CompilerState) (statements : List ASTNode),
      compileStatement (fuel + 1) st (.NODE_BLOCK statements) = some st)
    ∧ (∀ (fuel : Nat) (st : CompilerState) (name : Option String) (params : List ASTNode)
        (isVararg : Bool) (body : ASTNode),
        compileStatement (fuel + 2) st (.NODE_FUNCTION name params isVararg body)
          = (functionLuaCode fuel st.funcCounter params body).map
              (fun _ => { st with funcCounter := st.funcCounter + 1 }))
    ∧ (parseStatement 100 (CreateParser "do x = 1 end")).map (fun r => r.1)
        = some (some (.NODE_BLOCK [.NODE_ASSIGN [.NODE_NAME "x"] [.NODE_NUMBER (.int 1)]]))
    ∧ (parseStatement 100 (CreateParser "function f() end")).map (fun r => r.1)
        = some (some (.NODE_FUNCTION (some "f") [] false (.NODE_BLOCK [])))
    ∧ (compileSource 100 "do x = 1 end").map (fun c => (c.Instructions, c.Constants))
        = some ([⟨.OP_RETURN, 0, 1, 0⟩], [])
    ∧ (compileSource 100 "function f() end").map (fun c => (c.Instructions, c.Constants))
        = some ([⟨.OP_RETURN, 0, 1, 0⟩], [])
    ∧ (compileSource 100 "x = 1").map (fun c => (c.Instructions, c.Constants))
        = some ([⟨.OP_LOADK, 0, 0, 0⟩, ⟨.OP_SETGLOBAL, 0, 1, 0⟩, ⟨.OP_RETURN, 0, 1, 0⟩],
            ["1", "x"])
    ∧ (compileSource 100 "local function f() end").map (fun c => (c.Instructions, c.Constants))
        = some ([⟨.OP_CLOSURE, 0, 0, 0⟩, ⟨.OP_RETURN, 0, 1, 0⟩],
            ["__lua__--[[0]]function() end"])
    ∧ (compileSource 100 "do x = 1 end").map (fun ch =>
          (vmRun (handlerAssignments (List.range 256) []) 20
            (vmInit (serializeBuffer ch (List.range 256)) (fun _ => Value.nil))).map
            (fun vm => (vm.halted, vm.G (Value.str "x"))))
        = some (some (true, Value.nil))
    ∧ (compileSource 100 "x = 1").map (fun ch =>
          (vmRun (handlerAssignments (List.range 256) []) 20
            (vmInit (serializeBuffer ch (List.range 256)) (fun _ => Value.nil))).map
            (fun vm => (vm.halted, vm.G (Value.str "x"))))
        = some (some (true, Value.num 1)) := by
  refine ⟨?_, ?_, ?_, ?_, ?_, ?_, ?_, ?_, ?_, ?_⟩
  · intro fuel st statements
    unfold compileStatement
    rfl
  · intro fuel st name params isVararg body
    unfold compileStatement
    simp only []
    unfold compileFunction
    cases name <;> dsimp only <;>
      cases functionLuaCode fuel st.funcCounter params body <;> rfl
  · rfl
  · rfl
  · decide!
  · decide!
  · decide!
  · decide!
  · decide!
  · decide!
/-! ## C30: the RETURN instruction -/

/-- One turn of the dispatch loop at a RETURN moves the cursor to the next
instruction and changes nothing else. -/
theorem return_turn (chunk : BytecodeChunk) (m : List Nat) (H : List (Nat × Handler))
    (hH : HandlersOK m H) (i : Nat) (A B : Int) (vm : VM) (hvm : VMAt chunk m i vm)
    (hi : chunk.Instructions[i]? = some ⟨.OP_RETURN, A, B, 0⟩)
    (hA : 0 ≤ A ∧ A < 256) (hB : -32768 ≤ B ∧ B < 32768) :
    vmStep H vm = some { vm with pos := vm.pos + 6 }
      ∧ VMAt chunk m (i + 1) { vm with pos := vm.pos + 6 } := by
  refine ⟨?_, ⟨hvm.hD, ?_, hvm.hK⟩⟩
  · rw [vmStep_at chunk m H hH i vm hvm _ hi (fits_mk _ _ _ _ hA hB (by omega))]
    rfl
  · show vm.pos + 6 = _
    rw [hvm.hpos]
    push_cast
    omega

/-- C30 (the code departs from the claim): the RETURN handler is `function()
... return unpack(rets) end`, called as `h()` by the line `if h then h()
end` of the loop: it returns from the handler, and the value is dropped. The
loops of the three dispatcher variants test only `pos<=#D` and a count of
turns. So a turn at a RETURN only moves the cursor to the next instruction,
and when an instruction follows, the loop fetches and dispatches it. In the
run of `local i = 0 while i < 1 do i = i + 1 return end x = 1` the
instructions after the RETURN are run and x is 1 at the end. On the bytes the
decoder returns for `x = 1`, which end with two zero bytes of padding, the
loop makes a fourth turn after the final RETURN. -/
theorem return_does_not_stop_loop :
    (∀ (A B C : Int) (vm : VM), execHandler .OP_RETURN A B C vm = some vm)
    ∧ (∀ (chunk : BytecodeChunk) (m fakeDraws : List Nat) (i : Nat) (A B : Int) (vm : VM),
        m.Perm (List.range 256) → VMAt chunk m i vm →
        chunk.Instructions[i]? = some ⟨.OP_RETURN, A, B, 0⟩ →
        0 ≤ A ∧ A < 256 → -32768 ≤ B ∧ B < 32768 →
        vmStep (handlerAssignments m fakeDraws) vm = some { vm with pos := vm.pos + 6 }
          ∧ VMAt chunk m (i + 1) { vm with pos := vm.pos + 6 }
          ∧ (i + 1 < chunk.Instructions.length →
              ∀ n, vmRun (handlerAssignments m fakeDraws) (n + 2) vm
                = (vmStep (handlerAssignments m fakeDraws) { vm with pos := vm.pos + 6 }).bind
                    (vmRun (handlerAssignments m fakeDraws) n)))
    ∧ (compileSource 100 "local i = 0 while i < 1 do i = i + 1 return end x = 1").map
          (fun c => (c.Instructions, c.Constants))
        = some ([⟨.OP_LOADK, 0, 0, 0⟩, ⟨.OP_MOVE, 1, 0, 0⟩, ⟨.OP_LOADK, 2, 1, 0⟩,
            ⟨.OP_LT, 0, 1, 2⟩, ⟨.OP_JMP, 0, 6, 0⟩, ⟨.OP_MOVE, 2, 0, 0⟩, ⟨.OP_LOADK, 3, 1, 0⟩,
            ⟨.OP_ADD, 1, 2, 3⟩, ⟨.OP_MOVE, 0, 1, 0⟩, ⟨.OP_RETURN, 1, 1, 0⟩,
            ⟨.OP_JMP, 0, -10, 0⟩, ⟨.OP_LOADK, 1, 1, 0⟩, ⟨.OP_SETGLOBAL, 1, 2, 0⟩,
            ⟨.OP_RETURN, 0, 1, 0⟩], ["0", "1", "x"])
    ∧ (compileSource 100 "local i = 0 while i < 1 do i = i + 1 return end x = 1").map
          (fun ch => (vmRun (handlerAssignments (List.range 256) []) 40
            (vmInit (serializeBuffer ch (List.range 256)) (fun _ => Value.nil))).map
            (fun vm => (vm.halted, vm.G (Value.str "x"))))
        = some (some (true, Value.num 1))
    ∧ ((compileSource 100 "x = 1").bind (fun ch =>
          ((EncodeBase85Custom (serializeBuffer ch (List.range 256))).bind (d85 0)).map
            (fun D => ((serializeBuffer ch (List.range 256)).length, D.length))))
        = some (26, 28)
    ∧ ((compileSource 100 "x = 1").bind (fun ch =>
          ((EncodeBase85Custom (serializeBuffer ch (List.range 256))).bind (d85 0)).bind
            (fun D => vmRun (handlerAssignments (List.range 256) []) 3
              (vmInit D (fun _ => Value.nil))))).map (fun vm => (vm.pos, vm.halted))
        = some (27, false)
    ∧ ((compileSource 100 "x = 1").bind (fun ch =>
          ((EncodeBase85Custom (serializeBuffer ch (List.range 256))).bind (d85 0)).bind
            (fun D => vmRun (handlerAssignments (List.range 256) []) 4
              (vmInit D (fun _ => Value.nil))))).map (fun vm => (vm.pos, vm.halted))
        = some (33, true) := by
  refine ⟨?_, ?_, ?_, ?_, ?_, ?_, ?_⟩
  · intro A B C vm
    rfl
  · intro chunk m fakeDraws i A B vm hm hvm hi hA hB
    have hH := handlerAssignments_ok m hm fakeDraws
    obtain ⟨h1, h2⟩ := return_turn chunk m _ hH i A B vm hvm hi hA hB
    refine ⟨h1, h2, ?_⟩
    intro hlt n
    have hlt0 : i < chunk.Instructions.length := by omega
    rw [vmRun, if_pos (VMAt_pos_le chunk m i vm hvm hlt0), h1]
    simp only []
    rw [vmRun, if_pos (VMAt_pos_le chunk m (i + 1) _ h2 hlt)]
    cases vmStep (handlerAssignments m fakeDraws) { vm with pos := vm.pos + 6 } <;> rfl
  · decide!
  · decide!
  · decide!
  · decide!
  · decide!

/-- The second part at the chunk RETURN 0 1 0, RETURN 0 1 0 under the identity
opcode map, from the start. -/
theorem return_does_not_stop_loop_witness :
    vmStep (handlerAssignments (List.range 256) [])
        (vmInit (serializeBuffer (BytecodeChunk.mk [⟨.OP_RETURN, 0, 1, 0⟩,
          ⟨.OP_RETURN, 0, 1, 0⟩] [] false) (List.range 256)) (fun _ => Value.nil))
      = some { vmInit (serializeBuffer (BytecodeChunk.mk [⟨.OP_RETURN, 0, 1, 0⟩,
          ⟨.OP_RETURN, 0, 1, 0⟩] [] false) (List.range 256)) (fun _ => Value.nil) with
          pos := (vmInit (serializeBuffer (BytecodeChunk.mk [⟨.OP_RETURN, 0, 1, 0⟩,
            ⟨.OP_RETURN, 0, 1, 0⟩] [] false) (List.range 256)) (fun _ => Value.nil)).pos + 6 }
      ∧ VMAt (BytecodeChunk.mk [⟨.OP_RETURN, 0, 1, 0⟩, ⟨.OP_RETURN, 0, 1, 0⟩] [] false)
          (List.range 256) (0 + 1)
          { vmInit (serializeBuffer (BytecodeChunk.mk [⟨.OP_RETURN, 0, 1, 0⟩,
            ⟨.OP_RETURN, 0, 1, 0⟩] [] false) (List.range 256)) (fun _ => Value.nil) with
            pos := (vmInit (serializeBuffer (BytecodeChunk.mk [⟨.OP_RETURN, 0, 1, 0⟩,
              ⟨.OP_RETURN, 0, 1, 0⟩] [] false) (List.range 256)) (fun _ => Value.nil)).pos + 6 }
      ∧ (0 + 1 < (BytecodeChunk.mk [⟨.OP_RETURN, 0, 1, 0⟩,
            ⟨.OP_RETURN, 0, 1, 0⟩] [] false).Instructions.length →
          ∀ n, vmRun (handlerAssignments (List.range 256) []) (n + 2)
              (vmInit (serializeBuffer (BytecodeChunk.mk [⟨.OP_RETURN, 0, 1, 0⟩,
                ⟨.OP_RETURN, 0, 1, 0⟩] [] false) (List.range 256)) (fun _ => Value.nil))
            = (vmStep (handlerAssignments (List.range 256) [])
                { vmInit (serializeBuffer (BytecodeChunk.mk [⟨.OP_RETURN, 0, 1, 0⟩,
                  ⟨.OP_RETURN, 0, 1, 0⟩] [] false) (List.range 256)) (fun _ => Value.nil) with
                  pos := (vmInit (serializeBuffer (BytecodeChunk.mk [⟨.OP_RETURN, 0, 1, 0⟩,
                    ⟨.OP_RETURN, 0, 1, 0⟩] [] false) (List.range 256))
                    (fun _ => Value.nil)).pos + 6 }).bind
                (vmRun (handlerAssignments (List.range 256) []) n)) :=
  return_does_not_stop_loop.2.1
    (BytecodeChunk.mk [⟨.OP_RETURN, 0, 1, 0⟩, ⟨.OP_RETURN, 0, 1, 0⟩] [] false)
    (List.range 256) [] 0 0 1 _ (List.Perm.refl _)
    (vmInit_at _ _ _ (by decide) (by simp)).1 rfl (by decide) (by decide)
end Wisper
